import Mathlib

/-!
# The ordered dictionary of `librb/src/dictionary.c`

A shallow embedding of the splay-tree dictionary: the element store is kept as one map per
member of `struct rb_dictionary_element` (addresses are natural numbers, `NULL` is `none`),
the dictionary header fields are those of `struct rb_dictionary`, and every loop of the C code
is a recursive function over a step budget that returns `none` when the budget is exhausted or
a `NULL` pointer would be dereferenced.
-/

namespace Comet

/-- Pointer to a dictionary element: `none` is `NULL`, `some a` is the element at address `a`. -/
abbrev Ptr := Option Nat

/-- Store `v` into cell `a` of a member map, leaving every other cell as it was. -/
def setField {α : Type} (f : Nat → α) (a : Nat) (v : α) : Nat → α :=
  fun x => if x = a then v else f x

/-- Address of the stack variable `n` of `rb_dictionary_retune`; `rb_malloc` never returns it. -/
def stackN : Nat := 0

/-- The dictionary header (`struct rb_dictionary`) together with the elements it owns.
`left` .. `position` are the members of `struct rb_dictionary_element`, indexed by address;
`brk` is the next address `rb_malloc` hands out. Keys have type `K`; a `void *data` is an
`Option V`, `none` being `NULL`. -/
structure rb_dictionary (K V : Type) where
  compare_cb : K → K → Int
  root : Ptr
  head : Ptr
  tail : Ptr
  count : Nat
  id : String
  dirty : Bool
  left : Nat → Ptr
  right : Nat → Ptr
  prev : Nat → Ptr
  next : Nat → Ptr
  key : Nat → K
  data : Nat → Option V
  position : Nat → Int
  brk : Nat

variable {K V : Type}

/-- `rb_dictionary_create`: a zero-filled header with the comparator and the name set. -/
def rb_dictionary_create [Inhabited K] (name : String) (compare_cb : K → K → Int) :
    rb_dictionary K V where
  compare_cb := compare_cb
  root := none
  head := none
  tail := none
  count := 0
  id := name
  dirty := false
  left := fun _ => none
  right := fun _ => none
  prev := fun _ => none
  next := fun _ => none
  key := fun _ => default
  data := fun _ => none
  position := fun _ => 0
  brk := stackN + 1

/-- Locals of `rb_dictionary_retune` when its `for (;;)` loop is left, with the child maps. -/
structure retune_state where
  left : Nat → Ptr
  right : Nat → Ptr
  lp : Nat
  rp : Nat
  node : Nat

/-- The `for (;;)` loop of `rb_dictionary_retune`. `L` and `R` are the `left` and `right`
member maps, `lp` and `rp` the local pointers `left` and `right`, `node` the loop variable. -/
def retune_loop (cmp : K → K → Int) (keyOf : Nat → K) (key : K) :
    Nat → (Nat → Ptr) → (Nat → Ptr) → Nat → Nat → Nat → Option retune_state
  | 0, _, _, _, _, _ => none
  | fuel + 1, L, R, lp, rp, node =>
    if cmp key (keyOf node) = 0 then some ⟨L, R, lp, rp, node⟩
    else if cmp key (keyOf node) < 0 then
      match L node with
      | none => some ⟨L, R, lp, rp, node⟩
      | some tn =>
        if cmp key (keyOf tn) < 0 then
          let L1 := setField L node (R tn)
          let R1 := setField R tn (some node)
          match L1 tn with
          | none => some ⟨L1, R1, lp, rp, tn⟩
          | some _ =>
            let L2 := setField L1 rp (some tn)
            match L2 tn with
            | none => none
            | some nx => retune_loop cmp keyOf key fuel L2 R1 lp tn nx
        else
          let L1 := setField L rp (some node)
          match L1 node with
          | none => none
          | some nx => retune_loop cmp keyOf key fuel L1 R lp node nx
    else
      match R node with
      | none => some ⟨L, R, lp, rp, node⟩
      | some tn =>
        if cmp key (keyOf tn) > 0 then
          let R1 := setField R node (L tn)
          let L1 := setField L tn (some node)
          match R1 tn with
          | none => some ⟨L1, R1, lp, rp, tn⟩
          | some _ =>
            let R2 := setField R1 lp (some tn)
            match R2 tn with
            | none => none
            | some nx => retune_loop cmp keyOf key fuel L1 R2 tn rp nx
        else
          let R1 := setField R lp (some node)
          match R1 node with
          | none => none
          | some nx => retune_loop cmp keyOf key fuel L R1 node rp nx

/-- `rb_dictionary_retune`: top-down splay for `key`. The loop runs at most `count` times. -/
def rb_dictionary_retune (dict : rb_dictionary K V) (key : K) : Option (rb_dictionary K V) :=
  match dict.root with
  | none => some dict
  | some root =>
    let L0 := setField dict.left stackN none
    let R0 := setField dict.right stackN none
    match retune_loop dict.compare_cb dict.key key dict.count L0 R0 stackN stackN root with
    | none => none
    | some s =>
      let R1 := setField s.right s.lp (s.left s.node)
      let L1 := setField s.left s.rp (R1 s.node)
      let L2 := setField L1 s.node (R1 stackN)
      let R2 := setField R1 s.node (L2 stackN)
      some { dict with left := L2, right := R2, root := some s.node }

/-- `rb_dictionary_find`: retune, then the root if its key compares equal, else `NULL`. -/
def rb_dictionary_find (dict : rb_dictionary K V) (key : K) :
    Option (Ptr × rb_dictionary K V) :=
  match rb_dictionary_retune dict key with
  | none => none
  | some d =>
    match d.root with
    | none => some (none, d)
    | some r => if d.compare_cb key (d.key r) = 0 then some (some r, d) else some (none, d)

/-- `rb_dictionary_link`: splice the element `delem` (whose key and data are already stored)
into tree and list; returns the element now holding the key. -/
def rb_dictionary_link (dict : rb_dictionary K V) (delem : Nat) :
    Option (Nat × rb_dictionary K V) :=
  let d0 := { dict with dirty := true, count := dict.count + 1 }
  match d0.root with
  | none =>
    some (delem, { d0 with
      left := setField d0.left delem none
      right := setField d0.right delem none
      next := setField d0.next delem none
      prev := setField d0.prev delem none
      head := some delem
      tail := some delem
      root := some delem })
  | some _ =>
    match rb_dictionary_retune d0 (d0.key delem) with
    | none => none
    | some d =>
      match d.root with
      | none => none
      | some root =>
        let ret := d.compare_cb (d.key delem) (d.key root)
        if ret < 0 then
          let L1 := setField d.left delem (d.left root)
          let R1 := setField d.right delem (some root)
          let L2 := setField L1 root none
          let N1 := match d.prev root with
            | some p => setField d.next p (some delem)
            | none => d.next
          let H1 := match d.prev root with
            | some _ => d.head
            | none => some delem
          let P1 := setField d.prev delem (d.prev root)
          let N2 := setField N1 delem (some root)
          let P2 := setField P1 root (some delem)
          some (delem, { d with left := L2, right := R1, next := N2, prev := P2, head := H1,
                                root := some delem })
        else if ret > 0 then
          let R1 := setField d.right delem (d.right root)
          let L1 := setField d.left delem (some root)
          let R2 := setField R1 root none
          let P1 := match d.next root with
            | some p => setField d.prev p (some delem)
            | none => d.prev
          let T1 := match d.next root with
            | some _ => d.tail
            | none => some delem
          let N1 := setField d.next delem (d.next root)
          let P2 := setField P1 delem (some root)
          let N2 := setField N1 root (some delem)
          some (delem, { d with left := L1, right := R2, next := N2, prev := P2, tail := T1,
                                root := some delem })
        else
          some (root, { d with key := setField d.key root (d.key delem)
                               data := setField d.data root (d.data delem)
                               count := d.count - 1 })

/-- The `while` loop of `rb_dictionary_unlink_root` that walks down the left spine from
`delem->right` until the left child is `NULL` or is `nextnode`. -/
def parentofnext_loop (L : Nat → Ptr) (nextnode : Nat) : Nat → Nat → Option Nat
  | 0, _ => none
  | fuel + 1, parentofnext =>
    match L parentofnext with
    | none => some parentofnext
    | some c => if c = nextnode then some parentofnext else parentofnext_loop L nextnode fuel c

/-- The tree half of `rb_dictionary_unlink_root`, for the root element `delem`. -/
def unlink_root_tree (d : rb_dictionary K V) (delem : Nat) : Option (rb_dictionary K V) :=
  match d.left delem with
  | none => some { d with root := d.right delem }
  | some _ =>
    match d.right delem with
    | none => some { d with root := d.left delem }
    | some dr =>
      match d.next delem with
      | none => none
      | some nextnode =>
        if nextnode = dr then
          some { d with root := some nextnode, left := setField d.left nextnode (d.left delem) }
        else
          match parentofnext_loop d.left nextnode d.count dr with
          | none => none
          | some parentofnext =>
            let L1 := setField d.left parentofnext (d.right nextnode)
            let L2 := setField L1 nextnode (L1 delem)
            let R1 := setField d.right nextnode (d.right delem)
            some { d with root := some nextnode, left := L2, right := R1 }

/-- The linked-list half of `rb_dictionary_unlink_root`, with the final `count--`. -/
def unlink_root_list (d : rb_dictionary K V) (delem : Nat) : rb_dictionary K V :=
  let N1 := match d.prev delem with
    | some p => setField d.next p (d.next delem)
    | none => d.next
  let H1 := if d.head = some delem then N1 delem else d.head
  let P1 := match N1 delem with
    | some n => setField d.prev n (d.prev delem)
    | none => d.prev
  let T1 := if d.tail = some delem then P1 delem else d.tail
  { d with next := N1, head := H1, prev := P1, tail := T1, count := d.count - 1 }

/-- `rb_dictionary_unlink_root`: remove the root element from tree and list. -/
def rb_dictionary_unlink_root (dict : rb_dictionary K V) : Option (rb_dictionary K V) :=
  let d := { dict with dirty := true }
  match d.root with
  | none => some d
  | some delem =>
    match unlink_root_tree d delem with
    | none => none
    | some d1 => some (unlink_root_list d1 delem)

/-- `rb_dictionary_add`: the soft assertion `lrb_assert(rb_dictionary_find(dict, key) == NULL)`
evaluates its argument and goes on; a fresh element gets key and data and is linked. -/
def rb_dictionary_add (dict : rb_dictionary K V) (key : K) (data : Option V) :
    Option (Nat × rb_dictionary K V) :=
  match rb_dictionary_find dict key with
  | none => none
  | some (_, d) =>
    let delem := d.brk
    rb_dictionary_link
      { d with brk := d.brk + 1
               key := setField d.key delem key
               data := setField d.data delem data } delem

/-- `rb_dictionary_delete`: find, and when found unlink the root and hand back its data. -/
def rb_dictionary_delete (dtree : rb_dictionary K V) (key : K) :
    Option (Option V × rb_dictionary K V) :=
  match rb_dictionary_find dtree key with
  | none => none
  | some (none, d) => some (none, d)
  | some (some delem, d) =>
    match rb_dictionary_unlink_root d with
    | none => none
    | some d1 => some (d.data delem, d1)

/-- `rb_dictionary_retrieve`: the data of the element found, `NULL` when there is none. -/
def rb_dictionary_retrieve (dtree : rb_dictionary K V) (key : K) :
    Option (Option V × rb_dictionary K V) :=
  match rb_dictionary_find dtree key with
  | none => none
  | some (none, d) => some (none, d)
  | some (some delem, d) => some (d.data delem, d)

/-- `rb_dictionary_size`. -/
def rb_dictionary_size (dict : rb_dictionary K V) : Nat := dict.count

/-- The `for` loop of `rb_dictionary_get_linear_index` writing `position` along the list. -/
def position_loop (next : Nat → Ptr) : Nat → (Nat → Int) → Ptr → Int → Option (Nat → Int)
  | _, pos, none, _ => some pos
  | 0, _, some _, _ => none
  | fuel + 1, pos, some delem, i => position_loop next fuel (setField pos delem i) (next delem) (i + 1)

/-- `rb_dictionary_get_linear_index`. -/
def rb_dictionary_get_linear_index (dict : rb_dictionary K V) (key : K) :
    Option (Int × rb_dictionary K V) :=
  match rb_dictionary_find dict key with
  | none => none
  | some (none, d) => some (-1, d)
  | some (some elem, d) =>
    if !d.dirty then some (d.position elem, d)
    else
      match position_loop d.next d.count d.position d.head 0 with
      | none => none
      | some pos => some (pos elem, { d with position := pos, dirty := false })

/-- The elements met when walking from `p` along `next` until `NULL`; `none` when `NULL` is not
reached within the step budget. -/
def walk_next (next : Nat → Ptr) : Nat → Ptr → Option (List Nat)
  | _, none => some []
  | 0, some _ => none
  | fuel + 1, some p => (walk_next next fuel (next p)).map (fun l => p :: l)

/-- The linked list of a dictionary from `head`, as element addresses. -/
def elements (d : rb_dictionary K V) : Option (List Nat) := walk_next d.next d.count d.head

/-- The ascending `(key, data)` sequence read off the linked list from `head`. -/
def entries (d : rb_dictionary K V) : Option (List (K × Option V)) :=
  (elements d).map (fun l => l.map (fun p => (d.key p, d.data p)))

/-- The keys read off the linked list from `head`. -/
def keys (d : rb_dictionary K V) : Option (List K) :=
  (elements d).map (fun l => l.map d.key)

/-- A call of the public interface that changes or retunes the dictionary. -/
inductive Op (K V : Type) where
  | add (key : K) (data : V)
  | delete (key : K)
  | find (key : K)
  | retrieve (key : K)
  | get_linear_index (key : K)

/-- The dictionary after one call; the value returned by the call is dropped. -/
def Op.apply : Op K V → rb_dictionary K V → Option (rb_dictionary K V)
  | .add key data, d => (rb_dictionary_add d key (some data)).map Prod.snd
  | .delete key, d => (rb_dictionary_delete d key).map Prod.snd
  | .find key, d => (rb_dictionary_find d key).map Prod.snd
  | .retrieve key, d => (rb_dictionary_retrieve d key).map Prod.snd
  | .get_linear_index key, d => (rb_dictionary_get_linear_index d key).map Prod.snd

/-- The dictionary after a sequence of calls, first call first. -/
def run : List (Op K V) → rb_dictionary K V → Option (rb_dictionary K V)
  | [], d => some d
  | op :: ops, d =>
    match op.apply d with
    | none => none
    | some d1 => run ops d1

/-- Three-way comparison of integers, a comparator for integer keys. -/
def intCmp (a b : Int) : Int := a - b

/-! ## Specification-side notions -/

/-- The three-way comparator orders the keys: swapping the arguments swaps the sign, `<` is
transitive, and keys that compare equal are interchangeable on the left of `<`. Every
comparator that is a strict total order satisfies this. -/
structure TotalOrderCmp (cmp : K → K → Int) : Prop where
  swap : ∀ a b, cmp a b < 0 ↔ 0 < cmp b a
  lt_trans : ∀ a b c, cmp a b < 0 → cmp b c < 0 → cmp a c < 0
  eq_lt : ∀ a b c, cmp a b = 0 → cmp b c < 0 → cmp a c < 0

/-- The states the public interface can produce from a freshly created dictionary. -/
def Reachable [Inhabited K] (cmp : K → K → Int) (d : rb_dictionary K V) : Prop :=
  ∃ (name : String) (ops : List (Op K V)), run ops (rb_dictionary_create name cmp) = some d

/-- Key `k` is live: some key on the linked list compares equal to it. -/
def Live (d : rb_dictionary K V) (k : K) : Prop :=
  ∃ l, keys d = some l ∧ ∃ x ∈ l, d.compare_cb k x = 0

/-- Zero-based ascending rank: how many of the keys are strictly less than `k`. -/
def rankOf (cmp : K → K → Int) (l : List K) (k : K) : Nat :=
  (l.filter (fun x => decide (cmp x k < 0))).length

/-- Shape of a binary tree whose nodes are element addresses. -/
inductive Tree where
  | leaf
  | node (l : Tree) (p : Nat) (r : Tree)

/-- In-order sequence of the addresses of a tree shape. -/
def Tree.ids : Tree → List Nat
  | .leaf => []
  | .node l p r => l.ids ++ p :: r.ids

/-- The pointer `p` is the root of a tree of shape `t` in the child maps `L` and `R`. -/
def IsTree (L R : Nat → Ptr) : Ptr → Tree → Prop
  | p, .leaf => p = none
  | p, .node l x r => p = some x ∧ IsTree L R (L x) l ∧ IsTree L R (R x) r

/-- Doubly linked list segment: starting at `start` with predecessor `pred`, the `next`
pointers run through `xs` and arrive at `stop`, the `prev` pointers mirror them, and `last` is
the final element (`pred` when `xs` is empty). -/
def IsDSeg (prev next : Nat → Ptr) : Ptr → Ptr → List Nat → Ptr → Ptr → Prop
  | pred, start, [], last, stop => start = stop ∧ last = pred
  | pred, start, x :: xs, last, stop =>
    start = some x ∧ prev x = pred ∧ IsDSeg prev next (some x) (next x) xs last stop

/-- Keys strictly ascending along a list of addresses. -/
def SortedIds (cmp : K → K → Int) (keyOf : Nat → K) (ids : List Nat) : Prop :=
  ids.Pairwise (fun a b => cmp (keyOf a) (keyOf b) < 0)

/-- Cached positions agree with the place of every element in the list. -/
def PosOK (pos : Nat → Int) (ids : List Nat) : Prop :=
  ∀ A x B, ids = A ++ x :: B → pos x = (A.length : Int)

/-- Well-formedness of a dictionary whose tree has shape `t`. -/
structure WF (d : rb_dictionary K V) (t : Tree) : Prop where
  tree : IsTree d.left d.right d.root t
  nodup : t.ids.Nodup
  alloc : ∀ p ∈ t.ids, stackN < p ∧ p < d.brk
  brk_pos : stackN < d.brk
  sorted : SortedIds d.compare_cb d.key t.ids
  list : IsDSeg d.prev d.next none d.head t.ids d.tail none
  count : d.count = t.ids.length
  data : ∀ p ∈ t.ids, d.data p ≠ none
  pos : d.dirty = false → PosOK d.position t.ids

/-- Left accumulator of the top-down splay: from `a` the `right` pointers run through the
frame nodes down to `e`, whose own `right` is the open slot; each frame carries its left
subtree. -/
def LChain (L R : Nat → Ptr) : Nat → List (Nat × Tree) → Nat → Prop
  | a, [], e => e = a
  | a, (p, l) :: fs, e => R a = some p ∧ IsTree L R (L p) l ∧ LChain L R p fs e

/-- Right accumulator, the mirror image of `LChain`. -/
def RChain (L R : Nat → Ptr) : Nat → List (Nat × Tree) → Nat → Prop
  | a, [], e => e = a
  | a, (q, r) :: fs, e => L a = some q ∧ IsTree L R (R q) r ∧ RChain L R q fs e

/-- In-order addresses of the left accumulator. -/
def lIds : List (Nat × Tree) → List Nat
  | [] => []
  | (p, l) :: fs => l.ids ++ p :: lIds fs

/-- In-order addresses of the right accumulator. -/
def rIds : List (Nat × Tree) → List Nat
  | [] => []
  | (q, r) :: fs => rIds fs ++ q :: r.ids

/-- The left accumulator with its open slot filled by `t`. -/
def plugL : List (Nat × Tree) → Tree → Tree
  | [], t => t
  | (p, l) :: fs, t => .node l p (plugL fs t)

/-- The right accumulator with its open slot filled by `t`. -/
def plugR : List (Nat × Tree) → Tree → Tree
  | [], t => t
  | (q, r) :: fs, t => .node (plugR fs t) q r

/-- Invariant of the loop of `rb_dictionary_retune` over the in-order sequence `ids`: the two
accumulators hang off the stack node, `node` roots the subtree `t` still to be searched, the
three parts together are `ids`, and the accumulators hold only keys on the proper side of
`key`. -/
structure LoopInv (cmp : K → K → Int) (keyOf : Nat → K) (key : K) (ids : List Nat)
    (L R : Nat → Ptr) (lp rp node : Nat) (fl fr : List (Nat × Tree)) (t : Tree) : Prop where
  lch : LChain L R stackN fl lp
  rch : RChain L R stackN fr rp
  cur : IsTree L R (some node) t
  ids_eq : lIds fl ++ t.ids ++ rIds fr = ids
  small : ∀ x ∈ lIds fl, cmp (keyOf x) key < 0
  big : ∀ x ∈ rIds fr, cmp key (keyOf x) < 0

/-- Calls that only look things up: find, retrieve and get_linear_index. -/
def Op.isQuery : Op K V → Bool
  | .find _ => true
  | .retrieve _ => true
  | .get_linear_index _ => true
  | _ => false

/-- A sample sequence of calls on integer keys. -/
def exampleOps : List (Op Int Nat) :=
  [.add 5 50, .add 3 30, .add 8 80, .add 1 10, .add 4 40]

/-- The dictionary built by `exampleOps`. -/
def exampleDict : rb_dictionary Int Nat :=
  (run exampleOps (rb_dictionary_create "example" intCmp)).getD
    (rb_dictionary_create "example" intCmp)

/-- The sample dictionary after one more add. -/
def exampleDictAdded : rb_dictionary Int Nat :=
  ((Op.add 7 70).apply exampleDict).getD exampleDict

/-- The sample dictionary after `get_linear_index(4)`. -/
def exampleDictIndexed : rb_dictionary Int Nat :=
  ((Op.get_linear_index 4).apply exampleDict).getD exampleDict

/-- A sample sequence of lookups. -/
def exampleQueries : List (Op Int Nat) := [.find 7, .retrieve 1, .get_linear_index 8]

/-! ## The history of calls, as the specification words it -/

/-- The value most recently added under a key comparing equal to `k` and not deleted since;
`done` lists the calls made so far, latest first. `none` means `k` is not live. -/
def lastAddedRev (cmp : K → K → Int) (k : K) : List (Op K V) → Option V
  | [] => none
  | .add k' v :: done => if cmp k k' = 0 then some v else lastAddedRev cmp k done
  | .delete k' :: done => if cmp k k' = 0 then none else lastAddedRev cmp k done
  | _ :: done => lastAddedRev cmp k done

/-- The value most recently added under `k` by the calls `ops` (first call first). -/
def lastAdded (cmp : K → K → Int) (ops : List (Op K V)) (k : K) : Option V :=
  lastAddedRev cmp k ops.reverse

/-- Every add among `ops` is of a key that is not live when it is made; `done` lists the
calls made before `ops`, latest first. -/
def addsFresh (cmp : K → K → Int) : List (Op K V) → List (Op K V) → Bool
  | _, [] => true
  | done, .add k v :: ops =>
    (lastAddedRev cmp k done).isNone && addsFresh cmp (.add k v :: done) ops
  | done, op :: ops => addsFresh cmp (op :: done) ops

/-- Every delete among `ops` is of a key that is live when it is made. -/
def deletesLive (cmp : K → K → Int) : List (Op K V) → List (Op K V) → Bool
  | _, [] => true
  | done, .delete k :: ops =>
    (lastAddedRev cmp k done).isSome && deletesLive cmp (.delete k :: done) ops
  | done, op :: ops => deletesLive cmp (op :: done) ops

/-- The calls are adds and deletes only. -/
def onlyAddDelete (ops : List (Op K V)) : Bool := ops.all (fun op => !op.isQuery)

/-- Number of adds among the calls. -/
def numAdds : List (Op K V) → Nat
  | [] => 0
  | .add _ _ :: ops => numAdds ops + 1
  | _ :: ops => numAdds ops

/-- Number of deletes among the calls. -/
def numDeletes : List (Op K V) → Nat
  | [] => 0
  | .delete _ :: ops => numDeletes ops + 1
  | _ :: ops => numDeletes ops

/-- The history `done` and the `(key, data)` sequence `es` agree on which keys are bound to
which values. -/
def Bound (cmp : K → K → Int) (done : List (Op K V)) (es : List (K × Option V)) : Prop :=
  ∀ k v, lastAddedRev cmp k done = some v ↔ ∃ e ∈ es, cmp k e.1 = 0 ∧ e.2 = some v

/-- Entries strictly ascending by key. -/
def SortedEntries (cmp : K → K → Int) (es : List (K × Option V)) : Prop :=
  es.Pairwise (fun a b => cmp a.1 b.1 < 0)

/-! ## What a caller can observe -/

/-- What `find` lets the caller see: the key and data of the element found, if any. -/
def findObs (d : rb_dictionary K V) (k : K) : Option (Option (K × Option V)) :=
  (rb_dictionary_find d k).map (fun r => r.1.map (fun e => (r.2.key e, r.2.data e)))

/-- What `retrieve` returns. -/
def retrieveObs (d : rb_dictionary K V) (k : K) : Option (Option V) :=
  (rb_dictionary_retrieve d k).map Prod.fst

/-- What `get_linear_index` returns. -/
def indexObs (d : rb_dictionary K V) (k : K) : Option Int :=
  (rb_dictionary_get_linear_index d k).map Prod.fst

/-- The entry of an ascending `(key, data)` sequence whose key compares equal to `k`. -/
def specFind (cmp : K → K → Int) (es : List (K × Option V)) (k : K) : Option (K × Option V) :=
  es.find? (fun e => decide (cmp k e.1 = 0))

/-- The data `retrieve` is to return, read off the `(key, data)` sequence. -/
def specRetrieve (cmp : K → K → Int) (es : List (K × Option V)) (k : K) : Option V :=
  (specFind cmp es k).bind Prod.snd

/-- The index `get_linear_index` is to return, read off the `(key, data)` sequence. -/
def specIndex (cmp : K → K → Int) (es : List (K × Option V)) (k : K) : Int :=
  match specFind cmp es k with
  | some _ => (rankOf cmp (es.map Prod.fst) k : Int)
  | none => -1

/-- The sample calls without the add of key 4. -/
def exampleOpsWithout4 : List (Op Int Nat) := [.add 5 50, .add 3 30, .add 8 80, .add 1 10]

/-- The dictionary built by `exampleOpsWithout4`. -/
def exampleDictWithout4 : rb_dictionary Int Nat :=
  (run exampleOpsWithout4 (rb_dictionary_create "example" intCmp)).getD
    (rb_dictionary_create "example" intCmp)

/-- Sample calls: adds of fresh keys and deletes of live keys. -/
def exampleHistory : List (Op Int Nat) :=
  [.add 5 50, .add 3 30, .delete 5, .add 8 80, .add 5 51, .delete 3]

/-! ## Traversal with callbacks -/

/-- A callback `cb(delem, privdata)`: it is handed the element, its private data and the
dictionary as it stands, and hands back its return value, the private data and the dictionary
as it leaves them; `none` when it does not return. -/
abbrev Callback (K V σ ρ : Type) :=
  Nat → σ → rb_dictionary K V → Option (ρ × σ × rb_dictionary K V)

/-- Modelled from the spec: the step `n = pos ? pos->next : NULL` of the macro
`RB_DLINK_FOREACH_SAFE`, whose header is not among the sources. The loop
`RB_DLINK_FOREACH_SAFE(pos, n, head)` starts with `pos = head`, takes this snapshot of the
next element before the body runs on `pos`, and continues with `pos = n`. -/
def dlink_next (d : rb_dictionary K V) (pos : Ptr) : Ptr :=
  match pos with
  | some p => d.next p
  | none => none

/-- The loop of `rb_dictionary_foreach`; `n` and `tn` are the two loop variables. The return
value of the callback is dropped. -/
def foreach_loop {σ : Type} (foreach_cb : Option (Callback K V σ Int)) :
    Nat → Ptr → Ptr → σ → rb_dictionary K V → Option (σ × rb_dictionary K V)
  | _, none, _, privdata, d => some (privdata, d)
  | 0, some _, _, _, _ => none
  | fuel + 1, some n, tn, privdata, d =>
    match foreach_cb with
    | none => foreach_loop foreach_cb fuel tn (dlink_next d tn) privdata d
    | some cb =>
      match cb n privdata d with
      | none => none
      | some (_, privdata1, d1) =>
        foreach_loop foreach_cb fuel tn (dlink_next d1 tn) privdata1 d1

/-- `rb_dictionary_foreach`. The loop runs at most `count` times, `count` taken on entry. -/
def rb_dictionary_foreach {σ : Type} (dtree : rb_dictionary K V)
    (foreach_cb : Option (Callback K V σ Int)) (privdata : σ) :
    Option (σ × rb_dictionary K V) :=
  foreach_loop foreach_cb dtree.count dtree.head (dlink_next dtree dtree.head) privdata dtree

/-- The loop of `rb_dictionary_search`; `ret` is the local of that name. -/
def search_loop {σ ρ : Type} (foreach_cb : Option (Callback K V σ (Option ρ))) :
    Nat → Ptr → Ptr → Option ρ → σ → rb_dictionary K V →
      Option (Option ρ × σ × rb_dictionary K V)
  | _, none, _, ret, privdata, d => some (ret, privdata, d)
  | 0, some _, _, _, _, _ => none
  | fuel + 1, some n, tn, ret, privdata, d =>
    match (match foreach_cb with
      | none => some (ret, privdata, d)
      | some cb => cb n privdata d) with
    | none => none
    | some (ret1, privdata1, d1) =>
      if ret1.isSome then some (ret1, privdata1, d1)
      else search_loop foreach_cb fuel tn (dlink_next d1 tn) ret1 privdata1 d1

/-- `rb_dictionary_search`: a `void *` result is an `Option ρ`, `none` being `NULL`. -/
def rb_dictionary_search {σ ρ : Type} (dtree : rb_dictionary K V)
    (foreach_cb : Option (Callback K V σ (Option ρ))) (privdata : σ) :
    Option (Option ρ × σ × rb_dictionary K V) :=
  search_loop foreach_cb dtree.count dtree.head (dlink_next dtree dtree.head) none privdata
    dtree

/-- What `rb_dictionary_destroy` does, in the order it does it. -/
inductive destroy_event where
  | callback (delem : Nat)
  | free_element (delem : Nat)
  | dlink_delete
  | free_id
  | free_dtree
  deriving DecidableEq

/-- The loop of `rb_dictionary_destroy`: the callback, when given, then `rb_free(n)`. -/
def destroy_loop {σ : Type} (destroy_cb : Option (Callback K V σ Unit)) :
    Nat → Ptr → Ptr → σ → rb_dictionary K V → List destroy_event →
      Option (List destroy_event × σ)
  | _, none, _, privdata, _, trace => some (trace, privdata)
  | 0, some _, _, _, _, _ => none
  | fuel + 1, some n, tn, privdata, d, trace =>
    match destroy_cb with
    | none =>
      destroy_loop destroy_cb fuel tn (dlink_next d tn) privdata d
        (trace ++ [.free_element n])
    | some cb =>
      match cb n privdata d with
      | none => none
      | some (_, privdata1, d1) =>
        destroy_loop destroy_cb fuel tn (dlink_next d1 tn) privdata1 d1
          (trace ++ [.callback n, .free_element n])

/-- `rb_dictionary_destroy`: the loop over the elements, then `rb_dlinkDelete` on the registry,
`rb_free(dtree->id)` and `rb_free(dtree)`. Returns the trace of what was done and the private
data; the dictionary is gone. -/
def rb_dictionary_destroy {σ : Type} (dtree : rb_dictionary K V)
    (destroy_cb : Option (Callback K V σ Unit)) (privdata : σ) :
    Option (List destroy_event × σ) :=
  match destroy_loop destroy_cb dtree.count dtree.head (dlink_next dtree dtree.head) privdata
      dtree [] with
  | none => none
  | some (trace, privdata1) =>
    some (trace ++ [.dlink_delete, .free_id, .free_dtree], privdata1)

/-! ## The stateful iterator -/

/-- The iterator state `rb_dictionary_iter`. -/
structure rb_dictionary_iter where
  cur : Ptr
  next : Ptr

/-- The line `rb_dictionary_foreach_next` hands to `rb_lib_log` (the address is left out). -/
def foreach_next_diagnostic : String :=
  "rb_dictionary_foreach_next(): called again after iteration finished on dtree"

/-- `rb_dictionary_foreach_next`: the new iterator state and the lines logged. -/
def rb_dictionary_foreach_next (dtree : rb_dictionary K V) (state : rb_dictionary_iter) :
    rb_dictionary_iter × List String :=
  match state.cur with
  | none => (state, [foreach_next_diagnostic])
  | some _ =>
    match state.next with
    | none => ({ state with cur := none }, [])
    | some nx => ({ cur := some nx, next := dtree.next nx }, [])

/-- `rb_dictionary_foreach_start`: the iterator state it leaves and the lines logged. -/
def rb_dictionary_foreach_start (dtree : rb_dictionary K V) :
    rb_dictionary_iter × List String :=
  match dtree.head with
  | none => ({ cur := none, next := none }, [])
  | some h => rb_dictionary_foreach_next dtree { cur := some h, next := some h }

/-- `rb_dictionary_foreach_cur`. -/
def rb_dictionary_foreach_cur (dtree : rb_dictionary K V) (state : rb_dictionary_iter) :
    Option V :=
  match state.cur with
  | some c => dtree.data c
  | none => none

/-! ## Statistics -/

/-- A value brought into the range of a 32-bit `int` (two's complement wrap-around). -/
def int32 (x : Int) : Int := (x + 2147483648) % 4294967296 - 2147483648

/-- A value brought into the range of a 32-bit `unsigned int`. -/
def uint32 (x : Int) : Int := x % 4294967296

/-- `stats_recurse`: the sum of depths below `delem` at depth `depth` and the updated
`*pmaxdepth`. -/
def stats_recurse (L R : Nat → Ptr) : Nat → Ptr → Int → Int → Option (Int × Int)
  | 0, _, _, _ => none
  | fuel + 1, delem, depth, maxdepth =>
    let maxdepth0 := if depth > maxdepth then depth else maxdepth
    let result0 := depth
    let afterLeft : Option (Int × Int) :=
      match delem with
      | none => some (result0, maxdepth0)
      | some p =>
        match L p with
        | none => some (result0, maxdepth0)
        | some l =>
          (stats_recurse L R fuel (some l) (int32 (depth + 1)) maxdepth0).map
            (fun r => (int32 (result0 + r.1), r.2))
    match afterLeft with
    | none => none
    | some (result1, maxdepth1) =>
      match delem with
      | none => some (result1, maxdepth1)
      | some p =>
        match R p with
        | none => some (result1, maxdepth1)
        | some r =>
          (stats_recurse L R fuel (some r) (int32 (depth + 1)) maxdepth1).map
            (fun x => (int32 (result1 + x.1), x.2))

/-- The conversion `%-ws` of `snprintf`: the text, padded on the right to `w` characters. -/
def fmt_left (w : Nat) (s : String) : String :=
  s ++ String.mk (List.replicate (w - s.length) ' ')

/-- What `snprintf(str, sizeof str, ...)` leaves in `char str[256]`: at most 255 characters. -/
def snprintf_256 (s : String) : String := String.mk (s.toList.take 255)

/-- The line built by either `snprintf` call of `rb_dictionary_stats` from the name and the
four numbers as printed. -/
def stats_line (id count sum avg maxdepth : String) : String :=
  snprintf_256 (fmt_left 30 id ++ " " ++ fmt_left 15 "DICT" ++ " " ++ fmt_left 10 count ++ " " ++
    fmt_left 10 sum ++ " " ++ fmt_left 10 avg ++ " " ++ fmt_left 10 maxdepth)

/-- `rb_dictionary_stats`: the callback `cb(line, privdata)` is a function on the private
data. `sum / dict->count` is an unsigned division printed with `%d`. -/
def rb_dictionary_stats {σ : Type} (dict : rb_dictionary K V) (cb : String → σ → σ)
    (privdata : σ) : Option σ :=
  if dict.count ≠ 0 then
    match stats_recurse dict.left dict.right dict.count dict.root 0 0 with
    | none => none
    | some (sum, maxdepth) =>
      some (cb (stats_line dict.id (toString dict.count) (toString sum)
        (toString (int32 (uint32 sum / (dict.count : Int)))) (toString maxdepth)) privdata)
  else
    some (cb (stats_line dict.id "0" "0" "0" "0") privdata)

/-! ## Callbacks and callers of the traversals -/

/-- The callback leaves the dictionary as it found it, and returns. -/
def NonMutating {σ ρ : Type} (f : Callback K V σ ρ) : Prop :=
  ∀ n s d, ∃ r s', f n s d = some (r, s', d)

/-- The callback `f` with a journal added to its private data: every invocation appends the
element it was invoked on and the value it returned. -/
def traced {σ ρ : Type} (f : Callback K V σ ρ) : Callback K V (List (Nat × ρ) × σ) ρ :=
  fun n ls d => (f n ls.2 d).map (fun r => (r.1, (ls.1 ++ [(n, r.1)], r.2.1), r.2.2))

/-- The callback `f` with its return value replaced by `0`. -/
def withoutResult {σ : Type} (f : Callback K V σ Int) : Callback K V σ Int :=
  fun n s d => (f n s d).map (fun r => (0, r.2))

/-- A visit callback that may delete the element it is visiting and nothing else: `g` looks at
the element, the private data and the dictionary and decides the return value, the new private
data and whether to call `rb_dictionary_delete` on the key of the element. The callback keeps a
journal of the elements it was invoked on and of its decisions. -/
def visitMayDelete {σ : Type} (g : Nat → σ → rb_dictionary K V → Int × σ × Bool) :
    Callback K V (List (Nat × Bool) × σ) Int :=
  fun n ls d =>
    match g n ls.2 d with
    | (r, s', true) =>
      (rb_dictionary_delete d (d.key n)).map (fun x => (r, (ls.1 ++ [(n, true)], s'), x.2))
    | (r, s', false) => some (r, (ls.1 ++ [(n, false)], s'), d)

/-- The iterator after `rb_dictionary_foreach_start` and `i` calls of
`rb_dictionary_foreach_next`, the dictionary staying as it is. -/
def iter_after (d : rb_dictionary K V) : Nat → rb_dictionary_iter
  | 0 => (rb_dictionary_foreach_start d).1
  | i + 1 => (rb_dictionary_foreach_next d (iter_after d i)).1

/-- A caller's traversal with the stateful iterator: as long as there is a current element,
read it with `rb_dictionary_foreach_cur`, delete its key when `del` says so for this step and
element, and call `rb_dictionary_foreach_next`. Returns the elements met with the values read,
the dictionary and the iterator at the end; `i` numbers the steps. -/
def cursor_walk (del : Nat → Nat → Bool) :
    Nat → Nat → rb_dictionary K V → rb_dictionary_iter →
      Option (List (Nat × Option V) × rb_dictionary K V × rb_dictionary_iter)
  | 0, _, d, st =>
    match st.cur with
    | none => some ([], d, st)
    | some _ => none
  | fuel + 1, i, d, st =>
    match st.cur with
    | none => some ([], d, st)
    | some c =>
      match (if del i c then (rb_dictionary_delete d (d.key c)).map Prod.snd else some d) with
      | none => none
      | some d1 =>
        (cursor_walk del fuel (i + 1) d1 (rb_dictionary_foreach_next d1 st).1).map
          (fun r => ((c, rb_dictionary_foreach_cur d st) :: r.1, r.2))

/-- A release callback: it returns, and of the dictionary it changes at most the values the
elements carry (it may release them), never the links, the keys or the header. -/
def ReleasesOnly {σ : Type} (f : Callback K V σ Unit) : Prop :=
  ∀ n s d, ∃ s' data', f n s d = some ((), s', { d with data := data' })

/-- A release callback that counts its invocations and clears the value of the element. -/
def release_value : Callback K V Nat Unit :=
  fun n s d => some ((), s + 1, { d with data := setField d.data n none })

/-- A predicate callback: the key of the element when it exceeds the bound. -/
def key_above : Callback Int V Int (Option Int) :=
  fun n s d => some (if s < d.key n then some (d.key n) else none, s, d)

/-- A dictionary holding exactly one element. -/
def exampleDictSingle : rb_dictionary Int Nat :=
  (run [.add 5 50] (rb_dictionary_create "single" intCmp)).getD
    (rb_dictionary_create "single" intCmp)

/-- A line callback that appends the line to its private data. -/
def log_line : String → List String → List String :=
  fun line log => log ++ [line]

/-- A visit that asks for the deletion of the element when its key is odd. -/
def delete_odd : Nat → Unit → rb_dictionary Int V → Int × Unit × Bool :=
  fun n s d => (0, s, d.key n % 2 == 1)

/-- A caller of the cursor who deletes the current element at every other step. -/
def delete_alternate : Nat → Nat → Bool :=
  fun i _ => i % 2 == 0

/-- The elements of `rest` that a caller deciding by `del` leaves in place, when the first of
them is visited at step `i`. -/
def kept_by (del : Nat → Nat → Bool) (i : Nat) (rest : List Nat) : List Nat :=
  ((rest.enumFrom i).filter (fun e => !del e.1 e.2)).map Prod.snd

/-- A callback that appends the key of the element to its private data. -/
def collect_keys : Callback K V (List K) Int :=
  fun n s d => some (0, s ++ [d.key n], d)

/-! ## Tree shapes: search-tree property and depths -/

/-- The binary-search-tree property of a tree shape: at every node the keys of the left
subtree are smaller than the key of the node and the keys of the right subtree greater. -/
def Tree.IsBST (cmp : K → K → Int) (keyOf : Nat → K) : Tree → Prop
  | .leaf => True
  | .node l x r =>
    Tree.IsBST cmp keyOf l ∧ Tree.IsBST cmp keyOf r ∧
      (∀ y ∈ l.ids, cmp (keyOf y) (keyOf x) < 0) ∧ (∀ y ∈ r.ids, cmp (keyOf x) (keyOf y) < 0)

/-- Sum of the depths of the nodes of a tree shape whose root lies at depth `depth`. -/
def Tree.depthSum : Tree → Nat → Nat
  | .leaf, _ => 0
  | .node l _ r, depth => depth + l.depthSum (depth + 1) + r.depthSum (depth + 1)

/-- Number of levels of a tree shape. -/
def Tree.height : Tree → Nat
  | .leaf => 0
  | .node l _ r => max l.height r.height + 1

/-- Largest depth of a node of a non-empty tree shape (root at depth 0). -/
def Tree.maxDepth (t : Tree) : Nat := t.height - 1

/-- The shape of the tree of the sample dictionary. -/
def exampleTree : Tree :=
  .node (.node (.node .leaf 4 .leaf) 2 .leaf) 5 (.node .leaf 1 (.node .leaf 3 .leaf))

/-- The tree shape that ascending insertions leave: a chain of left children from the node
`n` at the root down to the node `1`. -/
def chainTree : Nat → Tree
  | 0 => .leaf
  | n + 1 => .node (chainTree n) (n + 1) .leaf

/-- The calls `add(1, 1)`, `add(2, 2)`, .. `add(n, n)`, in this order. -/
def ascendingAdds (n : Nat) : List (Op Int Nat) :=
  (List.range n).map (fun (i : Nat) => Op.add ((i : Int) + 1) (i + 1))

/-- The dictionary is the chain that `ascendingAdds n` leaves: the elements are `1` .. `n`,
element `i` has key `i`, its left child is element `i - 1` and it has no right child, and the
root is element `n`. -/
def ChainOK (name : String) (d : rb_dictionary Int Nat) (n : Nat) : Prop :=
  d.compare_cb = intCmp ∧ d.id = name ∧ d.count = n ∧ d.brk = n + 1 ∧ d.root = some n ∧
    (∀ i, 1 ≤ i → i ≤ n → d.key i = (i : Int)) ∧
    (∀ i, 1 ≤ i → i ≤ n →
      d.left i = (if i = 1 then none else some (i - 1)) ∧ d.right i = none)

/-! ## The comparator -/

/-- `rb_dictionary_set_comparator_func`. -/
def rb_dictionary_set_comparator_func (dict : rb_dictionary K V) (compare_cb : K → K → Int) :
    rb_dictionary K V :=
  { dict with compare_cb := compare_cb }

/-- `rb_dictionary_get_comparator_func`. -/
def rb_dictionary_get_comparator_func (dict : rb_dictionary K V) : K → K → Int :=
  dict.compare_cb

/-- A call on a dictionary: one of the calls of `Op`, or `set_comparator`. -/
inductive Call (K V : Type) where
  | op (o : Op K V)
  | set_comparator (compare_cb : K → K → Int)

/-- The dictionary after one call. -/
def Call.apply : Call K V → rb_dictionary K V → Option (rb_dictionary K V)
  | .op o, d => o.apply d
  | .set_comparator compare_cb, d => some (rb_dictionary_set_comparator_func d compare_cb)

/-- The dictionary after a sequence of calls, first call first. -/
def runCalls : List (Call K V) → rb_dictionary K V → Option (rb_dictionary K V)
  | [], d => some d
  | c :: cs, d =>
    match c.apply d with
    | none => none
    | some d1 => runCalls cs d1

/-- The comparator most recently passed to `set_comparator` in a sequence of calls, and
`cmp0` when there is no such call. -/
def lastComparator (cmp0 : K → K → Int) : List (Call K V) → K → K → Int
  | [] => cmp0
  | .op _ :: cs => lastComparator cmp0 cs
  | .set_comparator compare_cb :: cs => lastComparator compare_cb cs

/-- The call is not a `set_comparator`. -/
def Call.isOp : Call K V → Bool
  | .op _ => true
  | .set_comparator _ => false

/-- The integers in descending order. -/
def revCmp (a b : Int) : Int := b - a

/-- A sample sequence of calls that swaps the comparator of a one-element dictionary. -/
def exampleCalls : List (Call Int Nat) :=
  [.op (.add 5 50), .set_comparator revCmp, .op (.find 5)]

/-- The dictionary that `exampleCalls` builds. -/
def exampleDictSwapped : rb_dictionary Int Nat :=
  (runCalls exampleCalls (rb_dictionary_create "swapped" intCmp)).getD
    (rb_dictionary_create "swapped" intCmp)

/-! ## The registry of live dictionaries -/

/-- Modelled from the spec: `rb_dlinkAdd`, whose header is not among the sources, puts the
node of a dictionary at the front of the registry list. A node is written as the address of
the dictionary it belongs to. -/
def rb_dlinkAdd (dtree : Nat) (list : List Nat) : List Nat := dtree :: list

/-- Modelled from the spec: `rb_dlinkDelete`, whose header is not among the sources, takes
the node of a dictionary out of the registry list. -/
def rb_dlinkDelete (dtree : Nat) (list : List Nat) : List Nat := list.erase dtree

/-- The process-wide state the dictionaries share: the registry `dictionary_list`, the
dictionary headers that `rb_malloc` has handed out and that are not freed yet, by address,
and the next address it hands out. -/
structure process (K V : Type) where
  dictionary_list : List Nat
  heap : Nat → Option (rb_dictionary K V)
  brk : Nat

/-- The process before any dictionary is created. -/
def process.init : process K V where
  dictionary_list := []
  heap := fun _ => none
  brk := 0

/-- `rb_dictionary_create` as the process sees it: the new header is allocated and its node
is added to `dictionary_list`; the address of the header is returned. -/
def process_create [Inhabited K] (name : String) (compare_cb : K → K → Int)
    (p : process K V) : Nat × process K V :=
  (p.brk,
    { dictionary_list := rb_dlinkAdd p.brk p.dictionary_list
      heap := setField p.heap p.brk (some (rb_dictionary_create name compare_cb))
      brk := p.brk + 1 })

/-- `rb_dictionary_destroy` as the process sees it: the elements are released, the node is
taken out of `dictionary_list` and the header is freed. `none` when `dtree` is not the
address of a live dictionary or the release does not return. -/
def process_destroy {σ : Type} (dtree : Nat) (destroy_cb : Option (Callback K V σ Unit))
    (privdata : σ) (p : process K V) : Option (σ × process K V) :=
  match p.heap dtree with
  | none => none
  | some d =>
    match rb_dictionary_destroy d destroy_cb privdata with
    | none => none
    | some (_, privdata1) =>
      some (privdata1,
        { p with
          dictionary_list := rb_dlinkDelete dtree p.dictionary_list
          heap := setField p.heap dtree none })

/-- The loop `RB_DLINK_FOREACH(ptr, dictionary_list.head)` of `rb_dictionary_stats_walk`. -/
def stats_walk_loop {σ : Type} (heap : Nat → Option (rb_dictionary K V))
    (cb : String → σ → σ) : List Nat → σ → Option σ
  | [], privdata => some privdata
  | ptr :: rest, privdata =>
    match heap ptr with
    | none => none
    | some d =>
      match rb_dictionary_stats d cb privdata with
      | none => none
      | some privdata1 => stats_walk_loop heap cb rest privdata1

/-- `rb_dictionary_stats_walk`. -/
def rb_dictionary_stats_walk {σ : Type} (cb : String → σ → σ) (privdata : σ)
    (p : process K V) : Option σ :=
  stats_walk_loop p.heap cb p.dictionary_list privdata

/-- A call that the process makes: creating a dictionary, destroying the dictionary at an
address (without release callback), or a call of `Op` on the dictionary at an address. -/
inductive registry_call (K V : Type) where
  | create (name : String) (compare_cb : K → K → Int)
  | destroy (dtree : Nat)
  | call (dtree : Nat) (o : Op K V)

/-- The process after one call; `none` when the call is made on an address that is not that
of a live dictionary, or does not return. -/
def registry_call.apply [Inhabited K] : registry_call K V → process K V → Option (process K V)
  | .create name compare_cb, p => some (process_create name compare_cb p).2
  | .destroy dtree, p =>
    (process_destroy dtree (none : Option (Callback K V Unit Unit)) () p).map Prod.snd
  | .call dtree o, p =>
    match p.heap dtree with
    | none => none
    | some d =>
      match o.apply d with
      | none => none
      | some d1 => some { p with heap := setField p.heap dtree (some d1) }

/-- The process after a sequence of calls, first call first. -/
def run_registry [Inhabited K] : List (registry_call K V) → process K V → Option (process K V)
  | [], p => some p
  | c :: cs, p =>
    match c.apply p with
    | none => none
    | some p1 => run_registry cs p1

/-- How many of the calls create a dictionary. -/
def numCreates : List (registry_call K V) → Nat
  | [] => 0
  | .create _ _ :: cs => numCreates cs + 1
  | _ :: cs => numCreates cs

/-- The addresses on which `destroy` is called. -/
def destroyedHandles : List (registry_call K V) → List Nat
  | [] => []
  | .destroy dtree :: cs => dtree :: destroyedHandles cs
  | _ :: cs => destroyedHandles cs

/-- The comparators handed to `create`. -/
def createdComparators : List (registry_call K V) → List (K → K → Int)
  | [] => []
  | .create _ compare_cb :: cs => compare_cb :: createdComparators cs
  | _ :: cs => createdComparators cs

/-- The registry is in order: no address is on `dictionary_list` twice, every address on it
has been handed out, holds a well-formed dictionary whose comparator orders the keys, and no
other address holds a dictionary. -/
def RegistryOK (p : process K V) : Prop :=
  p.dictionary_list.Nodup ∧ (∀ h ∈ p.dictionary_list, h < p.brk) ∧
    (∀ h ∈ p.dictionary_list, ∃ d t, p.heap h = some d ∧ WF d t ∧
      TotalOrderCmp d.compare_cb) ∧
    (∀ h, h ∉ p.dictionary_list → p.heap h = none)

/-- A sample history of the process: three dictionaries are created, one gets an element and
one is destroyed. -/
def exampleRegistryCalls : List (registry_call Int Nat) :=
  [.create "a" intCmp, .create "b" intCmp, .call 1 (.add 5 50), .destroy 0,
    .create "c" intCmp]

/-- The process after `exampleRegistryCalls`. -/
def exampleProcess : process Int Nat :=
  (run_registry exampleRegistryCalls process.init).getD process.init

/-! ## The leftmost node, and the list walked backwards -/

/-- The leftmost node of a tree shape: the node reached from the root by following `left`
until there is no left child. -/
def Tree.leftmost : Tree → Option Nat
  | .leaf => none
  | .node .leaf x _ => some x
  | .node (.node l y r) _ _ => Tree.leftmost (.node l y r)

/-- The tree shape without its leftmost node, whose right subtree moves up into its place. -/
def Tree.dropLeftmost : Tree → Tree
  | .leaf => .leaf
  | .node .leaf _ r => r
  | .node (.node l y r) x r' => .node (Tree.dropLeftmost (.node l y r)) x r'

/-- The sample dictionary after `find(8)` and `find(3)`: the root (key 3) has two children and
its successor (key 4) is the left child of the right child (key 5). -/
def exampleDictDeep : rb_dictionary Int Nat :=
  (run [.find 8, .find 3] exampleDict).getD exampleDict

/-- The sample dictionary after `find(3)`. -/
def exampleDictFound3 : rb_dictionary Int Nat :=
  ((Op.find 3).apply exampleDict).getD exampleDict

/-- The elements met when walking from `tail` along `prev`. -/
def elements_backwards (d : rb_dictionary K V) : Option (List Nat) :=
  walk_next d.prev d.count d.tail

/-! ## The substitution of `ircd/substitution.c`

A C string is kept as the list of its characters before the terminating NUL, so the end of a
list is where the code reads the terminator, and `strlen` is the length of the list. A pointer
into the format string is kept as the text from the pointer on. `BUFSIZE`, a constant of the
ircd headers, is a parameter throughout. -/

/-- `struct substitution_variable`: a name and the value it stands for. -/
structure substitution_variable where
  name : List Char
  value : List Char

/-- The output side of `substitution_parse`: `buf` holds the characters stored in the static
buffer at the indices below `bptr`, and `bptr` is the index the pointer `bptr` stands at. -/
structure parse_output where
  buf : List Char
  bptr : Nat

/-- Modelled from the spec: `rb_strlcpy(dst, src, siz)` stores at most `siz - 1` characters
of `src` and a terminator after them; these are the characters stored. -/
def rb_strlcpy (src : List Char) (siz : Nat) : List Char := src.take (siz - 1)

/-- Lower-case form of an ASCII letter, as a code point. -/
def lowerCode (c : Char) : Int :=
  if 65 ≤ c.toNat ∧ c.toNat ≤ 90 then (c.toNat : Int) + 32 else (c.toNat : Int)

/-- Modelled from the spec: `rb_strcasecmp`, the comparison of two strings that takes no
account of the case of ASCII letters; `0` exactly when the strings are equal up to case. -/
def rb_strcasecmp : List Char → List Char → Int
  | [], [] => 0
  | [], b :: _ => - lowerCode b
  | a :: _, [] => lowerCode a
  | a :: as, b :: bs =>
    if lowerCode a = lowerCode b then rb_strcasecmp as bs else lowerCode a - lowerCode b

/-- The inner loop of `substitution_parse` that breaks out the name of `${var}`. `prev` is the
character just before the pointer, the second argument the text from the pointer on, the third
the characters stored in `varname` so far. Returns `varname` and the text from the pointer on
when the loop is left: empty at the terminator, from the closing brace on after `break` at a
brace, and from the character before the `$` on after `ptr--; break`. -/
def varname_loop (BUFSIZE : Nat) : Char → List Char → List Char → List Char × List Char
  | _, [], varname => (varname, [])
  | prev, c :: rest, varname =>
    if c = '$' then (varname, prev :: c :: rest)
    else if c = '}' then (varname, c :: rest)
    else if varname.length < BUFSIZE - 1 then varname_loop BUFSIZE c rest (varname ++ [c])
    else varname_loop BUFSIZE c rest varname

/-- The loop over the variable list in `substitution_parse`: the value of the first variable
whose name compares equal to `varname` is copied to `bptr` by `rb_strlcpy` with the room that
is left, `bptr` moves on by the length of the value, and is set back to the last index of the
buffer when that takes it past the end. -/
def lookup_loop (BUFSIZE : Nat) (casecmp : List Char → List Char → Int)
    (varname : List Char) : List substitution_variable → parse_output → parse_output
  | [], st => st
  | val :: vals, st =>
    if casecmp varname val.name = 0 then
      { buf := st.buf ++ rb_strlcpy val.value (BUFSIZE - st.bptr)
        bptr := if st.bptr + val.value.length ≥ BUFSIZE then BUFSIZE - 1
                else st.bptr + val.value.length }
    else lookup_loop BUFSIZE casecmp varname vals st

/-- The outer loop of `substitution_parse` over the text from `ptr` on; the loop stops at the
terminator or when `bptr - buf < BUFSIZE` fails. -/
def parse_loop (BUFSIZE : Nat) (casecmp : List Char → List Char → Int)
    (varlist : List substitution_variable) : Nat → List Char → parse_output → Option parse_output
  | 0, _, _ => none
  | _ + 1, [], st => some st
  | fuel + 1, c :: rest, st =>
    if ¬ st.bptr < BUFSIZE then some st
    else if c ≠ '$' then
      parse_loop BUFSIZE casecmp varlist fuel rest { buf := st.buf ++ [c], bptr := st.bptr + 1 }
    else
      match rest with
      | [] => parse_loop BUFSIZE casecmp varlist fuel rest st
      | c1 :: rest1 =>
        if c1 = '{' then
          let r := varname_loop BUFSIZE c1 rest1 []
          let st1 := lookup_loop BUFSIZE casecmp r.1 varlist st
          match r.2 with
          | [] => some st1
          | _ :: rest2 => parse_loop BUFSIZE casecmp varlist fuel rest2 st1
        else parse_loop BUFSIZE casecmp varlist fuel rest st

/-- `substitution_parse`: the state of the buffer when the loop is left; the final
`*bptr = 0` stores the terminator at the index `bptr`. Every pass of the loop moves `ptr` on,
so the loop runs at most once per character of `fmt`. -/
def substitution_parse (BUFSIZE : Nat) (casecmp : List Char → List Char → Int)
    (fmt : List Char) (varlist : List substitution_variable) : Option parse_output :=
  parse_loop BUFSIZE casecmp varlist (fmt.length + 1) fmt { buf := [], bptr := 0 }

/-- The string `substitution_parse` returns: the characters of the buffer before the
terminator stored at `bptr`. -/
def parse_output.text (st : parse_output) : List Char := st.buf.take st.bptr

/-! ### The expansion, as the specification words it -/

/-- Where the reading of a format string stands: in plain text, just after a `$`, or inside
the name of a `${name}` of which `name` has been read so far. -/
inductive expand_mode where
  | text
  | dollar
  | name (name : List Char)

/-- The value of the first variable in the list whose name equals `name` according to
`casecmp`, and nothing when there is none. -/
def lookupValue (casecmp : List Char → List Char → Int) (name : List Char) :
    List substitution_variable → List Char
  | [] => []
  | val :: vals =>
    if casecmp name val.name = 0 then val.value else lookupValue casecmp name vals

/-- The expansion of a format string: characters other than `$` are copied, each `${name}` is
replaced by the value looked up for `cut name`, and a `$` that is not followed by an opening
brace is dropped. A name ends at its closing brace, at a `$` (which is then read as the `$` it
is) or at the end of the string. -/
def expandFrom (cut : List Char → List Char) (casecmp : List Char → List Char → Int)
    (varlist : List substitution_variable) : expand_mode → List Char → List Char
  | .text, [] => []
  | .text, c :: rest =>
    if c = '$' then expandFrom cut casecmp varlist .dollar rest
    else c :: expandFrom cut casecmp varlist .text rest
  | .dollar, [] => []
  | .dollar, c :: rest =>
    if c = '{' then expandFrom cut casecmp varlist (.name []) rest
    else if c = '$' then expandFrom cut casecmp varlist .dollar rest
    else c :: expandFrom cut casecmp varlist .text rest
  | .name name, [] => lookupValue casecmp (cut name) varlist
  | .name name, c :: rest =>
    if c = '}' then
      lookupValue casecmp (cut name) varlist ++ expandFrom cut casecmp varlist .text rest
    else if c = '$' then
      lookupValue casecmp (cut name) varlist ++ expandFrom cut casecmp varlist .dollar rest
    else expandFrom cut casecmp varlist (.name (name ++ [c])) rest

/-- The expansion with every name looked up as it is written. -/
def expansion (casecmp : List Char → List Char → Int) (varlist : List substitution_variable)
    (fmt : List Char) : List Char :=
  expandFrom id casecmp varlist .text fmt

/-- The expansion with every name looked up by its first `BUFSIZE - 1` characters. -/
def expansion_cut (BUFSIZE : Nat) (casecmp : List Char → List Char → Int)
    (varlist : List substitution_variable) (fmt : List Char) : List Char :=
  expandFrom (List.take (BUFSIZE - 1)) casecmp varlist .text fmt

/-- A format string `${aa..a}` whose name is `n` letters long. -/
def longNameFormat (n : Nat) : List Char := '$' :: '{' :: (List.replicate n 'a' ++ ['}'])

/-- A variable list with the single variable `aa..a`, `n` letters long, of value `x`. -/
def longNameVars (n : Nat) : List substitution_variable :=
  [{ name := List.replicate n 'a', value := ['x'] }]

/-- A sample format string: `Hi $$ ${Nick}, ${none}${host`. -/
def exampleFormat : List Char := "Hi $$ $\x7bNick\x7d, $\x7bnone\x7d$\x7bhost".toList

/-- A sample variable list. -/
def exampleVars : List substitution_variable :=
  [{ name := "nick".toList, value := "Bob".toList },
   { name := "HOST".toList, value := "example.org".toList },
   { name := "nick".toList, value := "Eve".toList }]

/-! ## Member maps -/

@[simp] theorem setField_same {α : Type} (f : Nat → α) (a : Nat) (v : α) :
    setField f a v a = v := by
  simp [setField]

theorem setField_ne {α : Type} (f : Nat → α) {a x : Nat} (v : α) (h : x ≠ a) :
    setField f a v x = f x := by
  simp [setField, h]

/-! ## Comparator -/

theorem TotalOrderCmp.self_eq {cmp : K → K → Int} (h : TotalOrderCmp cmp) (a : K) :
    cmp a a = 0 := by
  have := h.swap a a
  omega

theorem TotalOrderCmp.eq_symm {cmp : K → K → Int} (h : TotalOrderCmp cmp) {a b : K}
    (e : cmp a b = 0) : cmp b a = 0 := by
  have h1 := h.swap a b
  have h2 := h.swap b a
  omega

theorem TotalOrderCmp.lt_eq {cmp : K → K → Int} (h : TotalOrderCmp cmp) {a b c : K}
    (hab : cmp a b < 0) (hbc : cmp b c = 0) : cmp a c < 0 := by
  by_contra hn
  have hcb := h.eq_symm hbc
  rcases lt_or_eq_of_le (not_lt.mp hn) with h1 | h1
  · have h2 : cmp c a < 0 := (h.swap c a).2 h1
    have h3 := h.lt_trans c a b h2 hab
    omega
  · have h2 : cmp c a = 0 := h.eq_symm h1.symm
    have h3 := h.eq_lt c a b h2 hab
    omega

theorem TotalOrderCmp.eq_trans {cmp : K → K → Int} (h : TotalOrderCmp cmp) {a b c : K}
    (hab : cmp a b = 0) (hbc : cmp b c = 0) : cmp a c = 0 := by
  by_contra hn
  rcases lt_or_gt_of_ne hn with h1 | h1
  · have h2 := h.lt_eq h1 (h.eq_symm hbc)
    omega
  · have h2 : cmp c a < 0 := (h.swap c a).2 h1
    have h3 := h.lt_eq h2 hab
    have h4 := h.eq_symm hbc
    omega

theorem TotalOrderCmp.gt_of_lt {cmp : K → K → Int} (h : TotalOrderCmp cmp) {a b : K}
    (hab : cmp a b < 0) : 0 < cmp b a := (h.swap a b).1 hab

theorem TotalOrderCmp.lt_of_gt {cmp : K → K → Int} (h : TotalOrderCmp cmp) {a b : K}
    (hab : 0 < cmp a b) : cmp b a < 0 := (h.swap b a).2 hab

theorem TotalOrderCmp.not_lt_of_lt {cmp : K → K → Int} (h : TotalOrderCmp cmp) {a b : K}
    (hab : cmp a b < 0) : ¬ cmp b a < 0 := by
  have := h.gt_of_lt hab
  omega

theorem intCmp_order : TotalOrderCmp intCmp := by
  constructor <;> intros <;> simp only [intCmp] at * <;> omega

/-! ## Tree shapes in the child maps -/

@[simp] theorem Tree.ids_leaf : Tree.leaf.ids = [] := rfl

@[simp] theorem Tree.ids_node (l : Tree) (p : Nat) (r : Tree) :
    (Tree.node l p r).ids = l.ids ++ p :: r.ids := rfl

@[simp] theorem IsTree_leaf (L R : Nat → Ptr) (p : Ptr) : IsTree L R p .leaf ↔ p = none :=
  Iff.rfl

@[simp] theorem IsTree_node (L R : Nat → Ptr) (p : Ptr) (l : Tree) (x : Nat) (r : Tree) :
    IsTree L R p (.node l x r) ↔ p = some x ∧ IsTree L R (L x) l ∧ IsTree L R (R x) r :=
  Iff.rfl

theorem IsTree_none {L R : Nat → Ptr} {t : Tree} (h : IsTree L R none t) : t = .leaf := by
  cases t with
  | leaf => rfl
  | node l x r => simp at h

theorem IsTree_some {L R : Nat → Ptr} {a : Nat} {t : Tree} (h : IsTree L R (some a) t) :
    ∃ l r, t = .node l a r ∧ IsTree L R (L a) l ∧ IsTree L R (R a) r := by
  cases t with
  | leaf => simp at h
  | node l x r =>
    simp only [IsTree_node, Option.some.injEq] at h
    obtain ⟨rfl, hl, hr⟩ := h
    exact ⟨l, r, rfl, hl, hr⟩

theorem IsTree_setL {L R : Nat → Ptr} {x : Nat} (v : Ptr) :
    ∀ {t : Tree} {p : Ptr}, x ∉ t.ids → IsTree L R p t → IsTree (setField L x v) R p t
  | .leaf, _, _, h => h
  | .node l y r, p, hx, h => by
    simp only [Tree.ids_node, List.mem_append, List.mem_cons, not_or] at hx
    obtain ⟨hp, hl, hr⟩ := h
    refine ⟨hp, ?_, IsTree_setL v hx.2.2 hr⟩
    rw [setField_ne _ _ (Ne.symm hx.2.1)]
    exact IsTree_setL v hx.1 hl

theorem IsTree_setR {L R : Nat → Ptr} {x : Nat} (v : Ptr) :
    ∀ {t : Tree} {p : Ptr}, x ∉ t.ids → IsTree L R p t → IsTree L (setField R x v) p t
  | .leaf, _, _, h => h
  | .node l y r, p, hx, h => by
    simp only [Tree.ids_node, List.mem_append, List.mem_cons, not_or] at hx
    obtain ⟨hp, hl, hr⟩ := h
    refine ⟨hp, IsTree_setR v hx.1 hl, ?_⟩
    rw [setField_ne _ _ (Ne.symm hx.2.1)]
    exact IsTree_setR v hx.2.2 hr

/-! ## Accumulator chains -/

@[simp] theorem lIds_nil : lIds [] = [] := rfl
@[simp] theorem lIds_cons (p : Nat) (l : Tree) (fs : List (Nat × Tree)) :
    lIds ((p, l) :: fs) = l.ids ++ p :: lIds fs := rfl
@[simp] theorem rIds_nil : rIds [] = [] := rfl
@[simp] theorem rIds_cons (q : Nat) (r : Tree) (fs : List (Nat × Tree)) :
    rIds ((q, r) :: fs) = rIds fs ++ q :: r.ids := rfl

theorem lIds_append (fs gs : List (Nat × Tree)) : lIds (fs ++ gs) = lIds fs ++ lIds gs := by
  induction fs with
  | nil => rfl
  | cons f fs ih => obtain ⟨p, l⟩ := f; simp [ih]

theorem rIds_append (fs gs : List (Nat × Tree)) : rIds (fs ++ gs) = rIds gs ++ rIds fs := by
  induction fs with
  | nil => simp
  | cons f fs ih => obtain ⟨q, r⟩ := f; simp [ih]

@[simp] theorem plugL_ids (fs : List (Nat × Tree)) (t : Tree) :
    (plugL fs t).ids = lIds fs ++ t.ids := by
  induction fs with
  | nil => rfl
  | cons f fs ih => obtain ⟨p, l⟩ := f; simp [plugL, ih]

@[simp] theorem plugR_ids (fs : List (Nat × Tree)) (t : Tree) :
    (plugR fs t).ids = t.ids ++ rIds fs := by
  induction fs with
  | nil => simp [plugR]
  | cons f fs ih => obtain ⟨q, r⟩ := f; simp [plugR, ih]

theorem LChain_end_mem {L R : Nat → Ptr} :
    ∀ {fs : List (Nat × Tree)} {a e : Nat}, LChain L R a fs e → e = a ∨ e ∈ lIds fs
  | [], _, _, h => Or.inl h
  | (p, l) :: fs, a, e, h => by
    obtain ⟨_, _, hc⟩ := h
    rcases LChain_end_mem hc with h1 | h1
    · right; simp [h1]
    · right; simp [h1]

theorem RChain_end_mem {L R : Nat → Ptr} :
    ∀ {fs : List (Nat × Tree)} {a e : Nat}, RChain L R a fs e → e = a ∨ e ∈ rIds fs
  | [], _, _, h => Or.inl h
  | (q, r) :: fs, a, e, h => by
    obtain ⟨_, _, hc⟩ := h
    rcases RChain_end_mem hc with h1 | h1
    · right; simp [h1]
    · right; simp [h1]

/-- Writes to `left` outside the left accumulator leave it intact. -/
theorem LChain_setL {L R : Nat → Ptr} {x : Nat} (v : Ptr) :
    ∀ {fs : List (Nat × Tree)} {a e : Nat}, x ∉ lIds fs → LChain L R a fs e →
      LChain (setField L x v) R a fs e
  | [], _, _, _, h => h
  | (p, l) :: fs, a, e, hx, h => by
    simp only [lIds_cons, List.mem_append, List.mem_cons, not_or] at hx
    obtain ⟨h1, h2, h3⟩ := h
    refine ⟨h1, ?_, LChain_setL v hx.2.2 h3⟩
    rw [setField_ne _ _ (Ne.symm hx.2.1)]
    exact IsTree_setL v hx.1 h2

/-- Writes to `right` outside the left accumulator and its anchor leave it intact. -/
theorem LChain_setR {L R : Nat → Ptr} {x : Nat} (v : Ptr) :
    ∀ {fs : List (Nat × Tree)} {a e : Nat}, x ≠ a → x ∉ lIds fs → LChain L R a fs e →
      LChain L (setField R x v) a fs e
  | [], _, _, _, _, h => h
  | (p, l) :: fs, a, e, hxa, hx, h => by
    simp only [lIds_cons, List.mem_append, List.mem_cons, not_or] at hx
    obtain ⟨h1, h2, h3⟩ := h
    refine ⟨?_, IsTree_setR v hx.1 h2, LChain_setR v hx.2.1 hx.2.2 h3⟩
    rw [setField_ne _ _ (Ne.symm hxa)]
    exact h1

/-- Writing the open slot of the left accumulator leaves the chain intact. -/
theorem LChain_setR_end {L R : Nat → Ptr} (v : Ptr) :
    ∀ {fs : List (Nat × Tree)} {a e : Nat}, (a :: lIds fs).Nodup → LChain L R a fs e →
      LChain L (setField R e v) a fs e
  | [], _, _, _, h => h
  | (p, l) :: fs, a, e, hnd, h => by
    obtain ⟨h1, h2, h3⟩ := h
    simp only [lIds_cons, List.nodup_cons, List.mem_append, List.mem_cons, not_or,
      List.nodup_append, List.disjoint_left] at hnd
    obtain ⟨⟨ha1, ha2, ha3⟩, hl, ⟨hp, hfs⟩, hdis⟩ := hnd
    have hea : e ≠ a := by
      rcases LChain_end_mem h3 with h | h
      · rw [h]; exact Ne.symm ha2
      · intro heq; exact ha3 (heq ▸ h)
    have hel : e ∉ l.ids := by
      intro hmem
      have := hdis hmem
      rcases LChain_end_mem h3 with h | h
      · exact this.1 h
      · exact this.2 h
    refine ⟨?_, IsTree_setR v hel h2, LChain_setR_end v (List.nodup_cons.2 ⟨hp, hfs⟩) h3⟩
    rw [setField_ne _ _ (Ne.symm hea)]
    exact h1

theorem LChain_snoc {L R : Nat → Ptr} {p : Nat} {l : Tree} :
    ∀ {fs : List (Nat × Tree)} {a e : Nat}, LChain L R a fs e → R e = some p →
      IsTree L R (L p) l → LChain L R a (fs ++ [(p, l)]) p
  | [], a, e, h, he, hl => by
    have : e = a := h
    subst this
    exact ⟨he, hl, rfl⟩
  | (q, m) :: fs, a, e, h, he, hl => by
    obtain ⟨h1, h2, h3⟩ := h
    exact ⟨h1, h2, LChain_snoc h3 he hl⟩

theorem RChain_setR {L R : Nat → Ptr} {x : Nat} (v : Ptr) :
    ∀ {fs : List (Nat × Tree)} {a e : Nat}, x ∉ rIds fs → RChain L R a fs e →
      RChain L (setField R x v) a fs e
  | [], _, _, _, h => h
  | (q, r) :: fs, a, e, hx, h => by
    simp only [rIds_cons, List.mem_append, List.mem_cons, not_or] at hx
    obtain ⟨h1, h2, h3⟩ := h
    refine ⟨h1, ?_, RChain_setR v hx.1 h3⟩
    rw [setField_ne _ _ (Ne.symm hx.2.1)]
    exact IsTree_setR v hx.2.2 h2

theorem RChain_setL {L R : Nat → Ptr} {x : Nat} (v : Ptr) :
    ∀ {fs : List (Nat × Tree)} {a e : Nat}, x ≠ a → x ∉ rIds fs → RChain L R a fs e →
      RChain (setField L x v) R a fs e
  | [], _, _, _, _, h => h
  | (q, r) :: fs, a, e, hxa, hx, h => by
    simp only [rIds_cons, List.mem_append, List.mem_cons, not_or] at hx
    obtain ⟨h1, h2, h3⟩ := h
    refine ⟨?_, IsTree_setL v hx.2.2 h2, RChain_setL v hx.2.1 hx.1 h3⟩
    rw [setField_ne _ _ (Ne.symm hxa)]
    exact h1

theorem RChain_setL_end {L R : Nat → Ptr} (v : Ptr) :
    ∀ {fs : List (Nat × Tree)} {a e : Nat}, (a :: rIds fs).Nodup → RChain L R a fs e →
      RChain (setField L e v) R a fs e
  | [], _, _, _, h => h
  | (q, r) :: fs, a, e, hnd, h => by
    obtain ⟨h1, h2, h3⟩ := h
    simp only [rIds_cons, List.nodup_cons, List.mem_append, List.mem_cons, not_or,
      List.nodup_append, List.disjoint_left] at hnd
    obtain ⟨⟨ha1, ha2, ha3⟩, hfs, ⟨hq, hr⟩, hdis⟩ := hnd
    have hea : e ≠ a := by
      rcases RChain_end_mem h3 with h | h
      · rw [h]; exact Ne.symm ha2
      · intro heq; exact ha1 (heq ▸ h)
    have her : e ∉ r.ids := by
      intro hmem
      rcases RChain_end_mem h3 with h | h
      · exact hq (h ▸ hmem)
      · exact (hdis h).2 hmem
    have hqn : q ∉ rIds fs := fun hm => (hdis hm).1 rfl
    refine ⟨?_, IsTree_setL v her h2, RChain_setL_end v (List.nodup_cons.2 ⟨hqn, hfs⟩) h3⟩
    rw [setField_ne _ _ (Ne.symm hea)]
    exact h1

theorem RChain_snoc {L R : Nat → Ptr} {q : Nat} {r : Tree} :
    ∀ {fs : List (Nat × Tree)} {a e : Nat}, RChain L R a fs e → L e = some q →
      IsTree L R (R q) r → RChain L R a (fs ++ [(q, r)]) q
  | [], a, e, h, he, hr => by
    have : e = a := h
    subst this
    exact ⟨he, hr, rfl⟩
  | (p, m) :: fs, a, e, h, he, hr => by
    obtain ⟨h1, h2, h3⟩ := h
    exact ⟨h1, h2, RChain_snoc h3 he hr⟩

/-- Filling the open slot of the left accumulator yields the plugged tree below the anchor. -/
theorem LChain_fill {L R : Nat → Ptr} {t : Tree} :
    ∀ {fs : List (Nat × Tree)} {a e : Nat}, LChain L R a fs e → IsTree L R (R e) t →
      IsTree L R (R a) (plugL fs t)
  | [], a, e, h, ht => by
    have : e = a := h
    subst this
    exact ht
  | (p, l) :: fs, a, e, h, ht => by
    obtain ⟨h1, h2, h3⟩ := h
    exact ⟨h1, h2, LChain_fill h3 ht⟩

theorem RChain_fill {L R : Nat → Ptr} {t : Tree} :
    ∀ {fs : List (Nat × Tree)} {a e : Nat}, RChain L R a fs e → IsTree L R (L e) t →
      IsTree L R (L a) (plugR fs t)
  | [], a, e, h, ht => by
    have : e = a := h
    subst this
    exact ht
  | (q, r) :: fs, a, e, h, ht => by
    obtain ⟨h1, h2, h3⟩ := h
    exact ⟨h1, RChain_fill h3 ht, h2⟩

/-! ## The loop of `rb_dictionary_retune` -/

section Loop

variable {cmp : K → K → Int} {keyOf : Nat → K} {key : K} {ids : List Nat}
  {L R : Nat → Ptr} {lp rp node : Nat} {fl fr : List (Nat × Tree)} {t : Tree}

theorem LoopInv.rp_mem (h : LoopInv cmp keyOf key ids L R lp rp node fl fr t) :
    rp = stackN ∨ rp ∈ rIds fr := RChain_end_mem h.rch

theorem LoopInv.lp_mem (h : LoopInv cmp keyOf key ids L R lp rp node fl fr t) :
    lp = stackN ∨ lp ∈ lIds fl := LChain_end_mem h.lch

theorem LoopInv.rp_fresh (h : LoopInv cmp keyOf key ids L R lp rp node fl fr t)
    (hnd : (stackN :: ids).Nodup) : rp ∉ lIds fl ++ t.ids := by
  rw [← h.ids_eq] at hnd
  simp only [List.nodup_cons, List.nodup_append, List.mem_append, not_or,
    List.disjoint_left] at hnd
  intro hm
  rcases h.rp_mem with h1 | h1
  · rw [h1] at hm
    rcases List.mem_append.1 hm with h2 | h2
    · exact hnd.1.1.1 h2
    · exact hnd.1.1.2 h2
  · exact hnd.2.2.2 (List.mem_append.1 hm) h1

theorem LoopInv.lp_fresh (h : LoopInv cmp keyOf key ids L R lp rp node fl fr t)
    (hnd : (stackN :: ids).Nodup) : lp ∉ t.ids ++ rIds fr := by
  rw [← h.ids_eq] at hnd
  simp only [List.nodup_cons, List.nodup_append, List.mem_append, not_or,
    List.disjoint_left] at hnd
  intro hm
  rcases h.lp_mem with h1 | h1
  · rw [h1] at hm
    rcases List.mem_append.1 hm with h2 | h2
    · exact hnd.1.1.2 h2
    · exact hnd.1.2 h2
  · rcases List.mem_append.1 hm with h2 | h2
    · exact hnd.2.1.2.2 h1 h2
    · exact hnd.2.2.2 (Or.inl h1) h2

theorem LoopInv.nodup_r (h : LoopInv cmp keyOf key ids L R lp rp node fl fr t)
    (hnd : (stackN :: ids).Nodup) : (stackN :: rIds fr).Nodup := by
  rw [← h.ids_eq] at hnd
  simp only [List.nodup_cons, List.nodup_append, List.mem_append, not_or] at hnd
  exact List.nodup_cons.2 ⟨hnd.1.2, hnd.2.2.1⟩

theorem LoopInv.nodup_l (h : LoopInv cmp keyOf key ids L R lp rp node fl fr t)
    (hnd : (stackN :: ids).Nodup) : (stackN :: lIds fl).Nodup := by
  rw [← h.ids_eq] at hnd
  simp only [List.nodup_cons, List.nodup_append, List.mem_append, not_or] at hnd
  exact List.nodup_cons.2 ⟨hnd.1.1.1, hnd.2.1.1⟩

theorem nodup_mid {X Z : List Nat} {y : Nat} (h : (X ++ y :: Z).Nodup) : y ∉ X ∧ y ∉ Z := by
  simp only [List.nodup_append, List.nodup_cons, List.disjoint_left, List.mem_cons] at h
  exact ⟨fun hx => (h.2.2 hx) (Or.inl rfl), h.2.1.1⟩

theorem LoopInv.rotate_right (hnd : (stackN :: ids).Nodup) {a b c : Tree} {tn : Nat}
    (h : LoopInv cmp keyOf key ids L R lp rp node fl fr (.node (.node a tn b) node c)) :
    LoopInv cmp keyOf key ids (setField L node (R tn)) (setField R tn (some node)) lp rp tn
      fl fr (.node a tn (.node b node c)) := by
  obtain ⟨hlch, hrch, hcur, hids, hsm, hbg⟩ := h
  subst hids
  have h0 : stackN ∉ _ := (List.nodup_cons.1 hnd).1
  have hnd' := (List.nodup_cons.1 hnd).2
  have hn := nodup_mid (X := lIds fl ++ (a.ids ++ tn :: b.ids)) (y := node)
    (Z := c.ids ++ rIds fr) (by simpa using hnd')
  have ht := nodup_mid (X := lIds fl ++ a.ids) (y := tn)
    (Z := b.ids ++ node :: (c.ids ++ rIds fr)) (by simpa using hnd')
  simp only [Tree.ids_node, List.mem_append, List.mem_cons, not_or] at hn ht h0
  obtain ⟨⟨h0l, ⟨h0a, h0tn, h0b⟩, h0n, h0c⟩, h0r⟩ := h0
  obtain ⟨⟨hnl, hna, hntn, hnb⟩, hnc, hnr⟩ := hn
  obtain ⟨⟨htl, hta⟩, htb, htn, htc, htr⟩ := ht
  simp only [IsTree_node, true_and] at hcur
  obtain ⟨⟨hLn, ha, hb⟩, hc⟩ := hcur
  refine ⟨LChain_setR _ (Ne.symm h0tn) htl (LChain_setL _ hnl hlch),
    RChain_setR _ htr (RChain_setL _ (Ne.symm h0n) hnr hrch), ?_, ?_, hsm, hbg⟩
  · simp only [IsTree_node, true_and, setField_same, setField_ne _ _ htn,
      setField_ne _ _ hntn]
    exact ⟨IsTree_setR _ hta (IsTree_setL _ hna ha),
      IsTree_setR _ htb (IsTree_setL _ hnb hb),
      IsTree_setR _ htc (IsTree_setL _ hnc hc)⟩
  · simp


theorem sorted_mid {X Z : List Nat} {y : Nat} (h : SortedIds cmp keyOf (X ++ y :: Z)) :
    (∀ x ∈ X, cmp (keyOf x) (keyOf y) < 0) ∧ (∀ z ∈ Z, cmp (keyOf y) (keyOf z) < 0) := by
  simp only [SortedIds, List.pairwise_append, List.pairwise_cons, List.mem_cons] at h
  exact ⟨fun x hx => h.2.2 x hx y (Or.inl rfl), h.2.1.1⟩

theorem LoopInv.rotate_left (hnd : (stackN :: ids).Nodup) {a b c : Tree} {tn : Nat}
    (h : LoopInv cmp keyOf key ids L R lp rp node fl fr (.node a node (.node b tn c))) :
    LoopInv cmp keyOf key ids (setField L tn (some node)) (setField R node (L tn)) lp rp tn
      fl fr (.node (.node a node b) tn c) := by
  obtain ⟨hlch, hrch, hcur, hids, hsm, hbg⟩ := h
  subst hids
  have h0 : stackN ∉ _ := (List.nodup_cons.1 hnd).1
  have hnd' := (List.nodup_cons.1 hnd).2
  have hn := nodup_mid (X := lIds fl ++ a.ids) (y := node)
    (Z := b.ids ++ tn :: (c.ids ++ rIds fr)) (by simpa using hnd')
  have ht := nodup_mid (X := lIds fl ++ (a.ids ++ node :: b.ids)) (y := tn)
    (Z := c.ids ++ rIds fr) (by simpa using hnd')
  simp only [Tree.ids_node, List.mem_append, List.mem_cons, not_or] at hn ht h0
  obtain ⟨⟨h0l, h0a, h0n, h0b, h0tn, h0c⟩, h0r⟩ := h0
  obtain ⟨⟨hnl, hna⟩, hnb, hntn, hnc, hnr⟩ := hn
  obtain ⟨⟨htl, hta, htn, htb⟩, htc, htr⟩ := ht
  simp only [IsTree_node, true_and] at hcur
  obtain ⟨ha, hRn, hb, hc⟩ := hcur
  refine ⟨LChain_setR _ (Ne.symm h0n) hnl (LChain_setL _ htl hlch),
    RChain_setR _ hnr (RChain_setL _ (Ne.symm h0tn) htr hrch), ?_, ?_, hsm, hbg⟩
  · simp only [IsTree_node, true_and, setField_same, setField_ne _ _ htn,
      setField_ne _ _ hntn]
    exact ⟨⟨IsTree_setR _ hna (IsTree_setL _ hta ha),
      IsTree_setR _ hnb (IsTree_setL _ htb hb)⟩,
      IsTree_setR _ hnc (IsTree_setL _ htc hc)⟩
  · simp

theorem LoopInv.link_right (hord : TotalOrderCmp cmp) (hnd : (stackN :: ids).Nodup)
    (hs : SortedIds cmp keyOf ids) {a b c : Tree} {tn : Nat}
    (h : LoopInv cmp keyOf key ids L R lp rp node fl fr (.node (.node a tn b) node c))
    (hlt : cmp key (keyOf node) < 0) :
    LoopInv cmp keyOf key ids (setField L rp (some node)) R lp node tn
      fl (fr ++ [(node, c)]) (.node a tn b) ∧
    setField L rp (some node) node = some tn := by
  have hrp := h.rp_fresh hnd
  have hndr := h.nodup_r hnd
  obtain ⟨hlch, hrch, hcur, hids, hsm, hbg⟩ := h
  subst hids
  simp only [Tree.ids_node, List.mem_append, List.mem_cons, not_or] at hrp
  obtain ⟨hrl, ⟨hra, hrtn, hrb⟩, hrn, hrc⟩ := hrp
  simp only [IsTree_node, true_and] at hcur
  obtain ⟨⟨hLn, ha, hb⟩, hc⟩ := hcur
  have hsm2 := sorted_mid (X := lIds fl ++ (a.ids ++ tn :: b.ids)) (y := node)
    (Z := c.ids ++ rIds fr) (by simpa [SortedIds] using hs)
  refine ⟨⟨LChain_setL _ hrl hlch, ?_, ?_, ?_, hsm, ?_⟩, ?_⟩
  · exact RChain_snoc (RChain_setL_end _ hndr hrch) (setField_same _ _ _) (IsTree_setL _ hrc hc)
  · simp only [IsTree_node, true_and, setField_ne _ _ (Ne.symm hrtn)]
    exact ⟨IsTree_setL _ hra ha, IsTree_setL _ hrb hb⟩
  · simp [rIds_append]
  · intro x hx
    simp only [rIds_append, rIds_cons, rIds_nil, List.nil_append, List.mem_append,
      List.mem_cons, List.not_mem_nil, or_false] at hx
    rcases hx with (rfl | hx) | hx
    · exact hlt
    · exact hord.lt_trans _ _ _ hlt (hsm2.2 x (List.mem_append_left _ hx))
    · exact hbg x hx
  · rw [setField_ne _ _ (Ne.symm hrn)]
    exact hLn

theorem LoopInv.link_left (hord : TotalOrderCmp cmp) (hnd : (stackN :: ids).Nodup)
    (hs : SortedIds cmp keyOf ids) {a b c : Tree} {tn : Nat}
    (h : LoopInv cmp keyOf key ids L R lp rp node fl fr (.node a node (.node b tn c)))
    (hgt : 0 < cmp key (keyOf node)) :
    LoopInv cmp keyOf key ids L (setField R lp (some node)) node rp tn
      (fl ++ [(node, a)]) fr (.node b tn c) ∧
    setField R lp (some node) node = some tn := by
  have hlp := h.lp_fresh hnd
  have hndl := h.nodup_l hnd
  obtain ⟨hlch, hrch, hcur, hids, hsm, hbg⟩ := h
  subst hids
  simp only [Tree.ids_node, List.mem_append, List.mem_cons, not_or] at hlp
  obtain ⟨⟨hla, hln, hlb, hltn, hlc⟩, hlr⟩ := hlp
  simp only [IsTree_node, true_and] at hcur
  obtain ⟨ha, hRn, hb, hc⟩ := hcur
  have hsm2 := sorted_mid (X := lIds fl ++ a.ids) (y := node)
    (Z := (b.ids ++ tn :: c.ids) ++ rIds fr) (by simpa [SortedIds] using hs)
  refine ⟨⟨?_, RChain_setR _ hlr hrch, ?_, ?_, ?_, hbg⟩, ?_⟩
  · exact LChain_snoc (LChain_setR_end _ hndl hlch) (setField_same _ _ _) (IsTree_setR _ hla ha)
  · simp only [IsTree_node, true_and, setField_ne _ _ (Ne.symm hltn)]
    exact ⟨IsTree_setR _ hlb hb, IsTree_setR _ hlc hc⟩
  · simp [lIds_append]
  · intro x hx
    simp only [lIds_append, lIds_cons, lIds_nil, List.append_nil, List.mem_append,
      List.mem_cons, List.not_mem_nil, or_false] at hx
    rcases hx with hx | hx | rfl
    · exact hsm x hx
    · exact hord.lt_trans _ _ _ (hsm2.1 x (List.mem_append_right _ hx)) (hord.lt_of_gt hgt)
    · exact hord.lt_of_gt hgt
  · rw [setField_ne _ _ (Ne.symm hln)]
    exact hRn

theorem retune_loop_spec (hord : TotalOrderCmp cmp) (hnd : (stackN :: ids).Nodup)
    (hs : SortedIds cmp keyOf ids) :
    ∀ (fuel : Nat) (L R : Nat → Ptr) (lp rp node : Nat) (fl fr : List (Nat × Tree)) (t : Tree),
      LoopInv cmp keyOf key ids L R lp rp node fl fr t → t.ids.length ≤ fuel →
      ∃ s fl' fr' t', retune_loop cmp keyOf key fuel L R lp rp node = some s ∧
        LoopInv cmp keyOf key ids s.left s.right s.lp s.rp s.node fl' fr' t' ∧
        (cmp key (keyOf s.node) = 0 ∨ (cmp key (keyOf s.node) < 0 ∧ s.left s.node = none) ∨
          (0 < cmp key (keyOf s.node) ∧ s.right s.node = none)) := by
  intro fuel
  induction fuel with
  | zero =>
    intro L R lp rp node fl fr t h hf
    obtain ⟨tl, tr, rfl, -, -⟩ := IsTree_some h.cur
    simp at hf
  | succ n ih =>
    intro L R lp rp node fl fr t h hf
    obtain ⟨tl, tr, rfl, hl, hr⟩ := IsTree_some h.cur
    rw [retune_loop]
    by_cases h0 : cmp key (keyOf node) = 0
    · rw [if_pos h0]
      exact ⟨_, fl, fr, _, rfl, h, Or.inl h0⟩
    · rw [if_neg h0]
      by_cases hlt : cmp key (keyOf node) < 0
      · rw [if_pos hlt]
        cases hLn : L node with
        | none => exact ⟨_, fl, fr, _, rfl, h, Or.inr (Or.inl ⟨hlt, hLn⟩)⟩
        | some tn =>
          rw [hLn] at hl
          obtain ⟨a, b, rfl, ha, hb⟩ := IsTree_some hl
          simp only []
          by_cases hlt2 : cmp key (keyOf tn) < 0
          · have hrot := h.rotate_right hnd
            rw [if_pos hlt2]
            cases hL1 : setField L node (R tn) tn with
            | none => exact ⟨_, fl, fr, _, rfl, hrot, Or.inr (Or.inl ⟨hlt2, hL1⟩)⟩
            | some nx =>
              have hc := hrot.cur
              simp only [IsTree_node, true_and] at hc
              rw [hL1] at hc
              obtain ⟨a1, a2, rfl, -, -⟩ := IsTree_some hc.1
              obtain ⟨hinv, hnx⟩ := hrot.link_right hord hnd hs hlt2
              simp only [hnx]
              exact ih _ _ _ _ _ _ _ _ hinv (by simp at hf ⊢; omega)
          · rw [if_neg hlt2]
            obtain ⟨hinv, hnx⟩ := h.link_right hord hnd hs hlt
            simp only [hnx]
            exact ih _ _ _ _ _ _ _ _ hinv (by simp at hf ⊢; omega)
      · rw [if_neg hlt]
        have hgt : 0 < cmp key (keyOf node) := by omega
        cases hRn : R node with
        | none => exact ⟨_, fl, fr, _, rfl, h, Or.inr (Or.inr ⟨hgt, hRn⟩)⟩
        | some tn =>
          rw [hRn] at hr
          obtain ⟨b, c, rfl, hb, hc⟩ := IsTree_some hr
          simp only []
          by_cases hgt2 : cmp key (keyOf tn) > 0
          · have hrot := h.rotate_left hnd
            rw [if_pos hgt2]
            cases hR1 : setField R node (L tn) tn with
            | none => exact ⟨_, fl, fr, _, rfl, hrot, Or.inr (Or.inr ⟨hgt2, hR1⟩)⟩
            | some nx =>
              have hc := hrot.cur
              simp only [IsTree_node, true_and] at hc
              rw [hR1] at hc
              obtain ⟨c1, c2, rfl, -, -⟩ := IsTree_some hc.2
              obtain ⟨hinv, hnx⟩ := hrot.link_left hord hnd hs hgt2
              simp only [hnx]
              exact ih _ _ _ _ _ _ _ _ hinv (by simp at hf ⊢; omega)
          · rw [if_neg hgt2]
            obtain ⟨hinv, hnx⟩ := h.link_left hord hnd hs hgt
            simp only [hnx]
            exact ih _ _ _ _ _ _ _ _ hinv (by simp at hf ⊢; omega)

end Loop

/-- Reassembly after the loop: the two accumulators become the children of `node`. -/
theorem retune_assemble {cmp : K → K → Int} {keyOf : Nat → K} {key : K} {ids : List Nat}
    {s : retune_state} {fl fr : List (Nat × Tree)} {tl tr : Tree}
    (hnd : (stackN :: ids).Nodup)
    (h : LoopInv cmp keyOf key ids s.left s.right s.lp s.rp s.node fl fr (.node tl s.node tr)) :
    let R1 := setField s.right s.lp (s.left s.node)
    let L1 := setField s.left s.rp (R1 s.node)
    let L2 := setField L1 s.node (R1 stackN)
    let R2 := setField R1 s.node (L2 stackN)
    IsTree L2 R2 (some s.node) (.node (plugL fl tl) s.node (plugR fr tr)) := by
  intro R1 L1 L2 R2
  have hrp := h.rp_fresh hnd
  have hlp := h.lp_fresh hnd
  have hndr := h.nodup_r hnd
  have hndl := h.nodup_l hnd
  obtain ⟨hlch, hrch, hcur, hids, hsm, hbg⟩ := h
  subst hids
  have h0 : stackN ∉ _ := (List.nodup_cons.1 hnd).1
  have hnd' := (List.nodup_cons.1 hnd).2
  have hn := nodup_mid (X := lIds fl ++ tl.ids) (y := s.node)
    (Z := tr.ids ++ rIds fr) (by simpa using hnd')
  simp only [Tree.ids_node, List.mem_append, List.mem_cons, not_or] at hn h0 hrp hlp
  obtain ⟨⟨h0l, h0tl, h0n, h0tr⟩, h0r⟩ := h0
  obtain ⟨⟨hnl, hntl⟩, hntr, hnr⟩ := hn
  obtain ⟨hrl, hrtl, hrn, hrtr⟩ := hrp
  obtain ⟨⟨hltl, hln, hltr⟩, hlr⟩ := hlp
  simp only [IsTree_node, true_and] at hcur
  obtain ⟨htl, htr⟩ := hcur
  have e1 : R1 s.lp = s.left s.node := setField_same _ _ _
  have e2 : R1 s.node = s.right s.node := setField_ne _ _ (Ne.symm hln)
  have e3 : L1 s.rp = s.right s.node := by rw [← e2]; exact setField_same _ _ _
  have e4 : L2 s.node = R1 stackN := setField_same _ _ _
  have e5 : L2 stackN = L1 stackN := setField_ne _ _ h0n
  have e6 : R2 s.node = L1 stackN := by rw [← e5]; exact setField_same _ _ _
  -- left subtree
  have c1 : LChain s.left R1 stackN fl s.lp := LChain_setR_end _ hndl hlch
  have t1 : IsTree s.left R1 (R1 s.lp) tl := by rw [e1]; exact IsTree_setR _ hltl htl
  have f1 : IsTree s.left R1 (R1 stackN) (plugL fl tl) := LChain_fill c1 t1
  have f2 : IsTree L2 R2 (R1 stackN) (plugL fl tl) := by
    apply IsTree_setR _ (by simp [hnl, hntl])
    apply IsTree_setL _ (by simp [hnl, hntl])
    apply IsTree_setL _ (by simp [hrl, hrtl])
    exact f1
  -- right subtree
  have c2 : RChain L1 R1 stackN fr s.rp := RChain_setL_end _ hndr (RChain_setR _ hlr hrch)
  have t2 : IsTree L1 R1 (L1 s.rp) tr := by
    rw [e3]; exact IsTree_setL _ hrtr (IsTree_setR _ hltr htr)
  have g1 : IsTree L1 R1 (L1 stackN) (plugR fr tr) := RChain_fill c2 t2
  have g2 : IsTree L2 R2 (L1 stackN) (plugR fr tr) := by
    apply IsTree_setR _ (by simp [hnr, hntr])
    apply IsTree_setL _ (by simp [hnr, hntr])
    exact g1
  simp only [IsTree_node, true_and]
  rw [e4, e6]
  exact ⟨f2, g2⟩

/-- `rb_dictionary_retune` on a well-formed tree: it returns, touches only the child maps and
the root, keeps the in-order sequence, and leaves at the root a neighbour of `key`. -/
theorem rb_dictionary_retune_spec {d : rb_dictionary K V} (hord : TotalOrderCmp d.compare_cb)
    (key : K) {t : Tree} (hT : IsTree d.left d.right d.root t)
    (hnd : (stackN :: t.ids).Nodup) (hs : SortedIds d.compare_cb d.key t.ids)
    (hf : t.ids.length ≤ d.count) :
    ∃ d' t', rb_dictionary_retune d key = some d' ∧
      d' = { d with left := d'.left, right := d'.right, root := d'.root } ∧
      IsTree d'.left d'.right d'.root t' ∧ t'.ids = t.ids ∧
      (∀ l x r, t' = .node l x r →
        (d.compare_cb key (d.key x) < 0 → ∀ y ∈ l.ids, d.compare_cb (d.key y) key < 0) ∧
        (0 < d.compare_cb key (d.key x) → ∀ y ∈ r.ids, d.compare_cb key (d.key y) < 0)) := by
  unfold rb_dictionary_retune
  cases hroot : d.root with
  | none =>
    rw [hroot] at hT
    have := IsTree_none hT
    subst this
    refine ⟨d, .leaf, rfl, rfl, by rw [hroot]; rfl, rfl, ?_⟩
    intro l x r h
    cases h
  | some root =>
    rw [hroot] at hT
    have h0 : stackN ∉ t.ids := (List.nodup_cons.1 hnd).1
    have hinit : LoopInv d.compare_cb d.key key t.ids (setField d.left stackN none)
        (setField d.right stackN none) stackN stackN root [] [] t :=
      ⟨rfl, rfl, IsTree_setR _ h0 (IsTree_setL _ h0 hT), by simp, by simp, by simp⟩
    obtain ⟨s, fl, fr, t', e, hinv, hbrk⟩ :=
      retune_loop_spec hord hnd hs d.count _ _ _ _ _ _ _ _ hinit hf
    obtain ⟨tl, tr, rfl, -, -⟩ := IsTree_some hinv.cur
    have hasm := retune_assemble hnd hinv
    simp only [e]
    refine ⟨_, _, rfl, rfl, hasm, ?_, ?_⟩
    · simp only [Tree.ids_node, plugL_ids, plugR_ids]
      rw [← hinv.ids_eq]
      simp
    · intro l x r hx
      simp only [Tree.node.injEq] at hx
      obtain ⟨rfl, rfl, rfl⟩ := hx
      have hc := hinv.cur
      simp only [IsTree_node, true_and] at hc
      constructor
      · intro hlt y hy
        rcases hbrk with hb | ⟨-, hb⟩ | ⟨hb, -⟩
        · omega
        · rw [hb] at hc
          have := IsTree_none hc.1
          subst this
          simp only [plugL_ids, Tree.ids_leaf, List.append_nil] at hy
          exact hinv.small y hy
        · omega
      · intro hgt y hy
        rcases hbrk with hb | ⟨hb, -⟩ | ⟨-, hb⟩
        · omega
        · omega
        · rw [hb] at hc
          have := IsTree_none hc.2
          subst this
          simp only [plugR_ids, Tree.ids_leaf, List.nil_append] at hy
          exact hinv.big y hy

/-! ## Doubly linked list segments -/

theorem list_nil_or_snoc {α : Type} (l : List α) : l = [] ∨ ∃ A p, l = A ++ [p] := by
  rcases List.eq_nil_or_concat l with h | ⟨A, p, h⟩
  · exact Or.inl h
  · exact Or.inr ⟨A, p, by rw [h, List.concat_eq_append]⟩

@[simp] theorem IsDSeg_nil (prev next : Nat → Ptr) (pred start last stop : Ptr) :
    IsDSeg prev next pred start [] last stop ↔ start = stop ∧ last = pred := Iff.rfl

@[simp] theorem IsDSeg_cons (prev next : Nat → Ptr) (pred start last stop : Ptr) (x : Nat)
    (xs : List Nat) :
    IsDSeg prev next pred start (x :: xs) last stop ↔
      start = some x ∧ prev x = pred ∧ IsDSeg prev next (some x) (next x) xs last stop :=
  Iff.rfl

theorem IsDSeg_append {prev next : Nat → Ptr} :
    ∀ {A B : List Nat} {pred start last stop : Ptr},
      IsDSeg prev next pred start (A ++ B) last stop ↔
        ∃ m s, IsDSeg prev next pred start A m s ∧ IsDSeg prev next m s B last stop
  | [], B, pred, start, last, stop => by
    constructor
    · intro h; exact ⟨pred, start, ⟨rfl, rfl⟩, h⟩
    · rintro ⟨m, s, ⟨rfl, rfl⟩, h⟩; exact h
  | x :: A, B, pred, start, last, stop => by
    simp only [List.cons_append, IsDSeg_cons, IsDSeg_append (A := A)]
    constructor
    · rintro ⟨h1, h2, m, s, h3, h4⟩; exact ⟨m, s, ⟨h1, h2, h3⟩, h4⟩
    · rintro ⟨m, s, ⟨h1, h2, h3⟩, h4⟩; exact ⟨h1, h2, m, s, h3, h4⟩

theorem IsDSeg_setPrev {prev next : Nat → Ptr} {x : Nat} (v : Ptr) :
    ∀ {xs : List Nat} {pred start last stop : Ptr}, x ∉ xs →
      IsDSeg prev next pred start xs last stop →
      IsDSeg (setField prev x v) next pred start xs last stop
  | [], _, _, _, _, _, h => h
  | y :: ys, pred, start, last, stop, hx, h => by
    simp only [List.mem_cons, not_or] at hx
    obtain ⟨h1, h2, h3⟩ := h
    refine ⟨h1, ?_, IsDSeg_setPrev v hx.2 h3⟩
    rw [setField_ne _ _ (Ne.symm hx.1)]
    exact h2

theorem IsDSeg_setNext {prev next : Nat → Ptr} {x : Nat} (v : Ptr) :
    ∀ {xs : List Nat} {pred start last stop : Ptr}, x ∉ xs →
      IsDSeg prev next pred start xs last stop →
      IsDSeg prev (setField next x v) pred start xs last stop
  | [], _, _, _, _, _, h => h
  | y :: ys, pred, start, last, stop, hx, h => by
    simp only [List.mem_cons, not_or] at hx
    obtain ⟨h1, h2, h3⟩ := h
    refine ⟨h1, h2, ?_⟩
    rw [setField_ne _ _ (Ne.symm hx.1)]
    exact IsDSeg_setNext v hx.2 h3

/-- A segment ending in `p` hands `some p` on as predecessor. -/
theorem IsDSeg_snoc {prev next : Nat → Ptr} {A : List Nat} {p : Nat}
    {pred start last stop : Ptr} :
    IsDSeg prev next pred start (A ++ [p]) last stop ↔
      ∃ m, IsDSeg prev next pred start A m (some p) ∧ prev p = m ∧ next p = stop ∧
        last = some p := by
  rw [IsDSeg_append]
  constructor
  · rintro ⟨m, s, h1, h2, h3, h4, h5⟩
    subst h2
    exact ⟨m, h1, h3, h4, h5⟩
  · rintro ⟨m, h1, h3, h4, h5⟩
    exact ⟨m, some p, h1, rfl, h3, h4, h5⟩

/-- A segment that stops at `NULL` is what the walk from its start returns. -/
theorem IsDSeg_walk {prev next : Nat → Ptr} :
    ∀ {xs : List Nat} {pred start last : Ptr} {fuel : Nat},
      IsDSeg prev next pred start xs last none → xs.length ≤ fuel →
      walk_next next fuel start = some xs
  | [], _, _, _, fuel, h, _ => by
    obtain ⟨rfl, -⟩ := h
    cases fuel <;> rfl
  | x :: xs, pred, start, last, fuel, h, hf => by
    obtain ⟨rfl, -, h3⟩ := h
    cases fuel with
    | zero => simp at hf
    | succ n =>
      simp only [walk_next]
      rw [IsDSeg_walk h3 (by simpa using hf)]
      rfl

/-- The head pointer of a non-empty segment is its first element. -/
theorem IsDSeg_start_mem {prev next : Nat → Ptr} {xs : List Nat} {pred start last stop : Ptr}
    {y : Nat} (h : IsDSeg prev next pred start xs last stop) (hne : xs ≠ [])
    (hs : start = some y) : y ∈ xs := by
  cases xs with
  | nil => exact absurd rfl hne
  | cons x xs =>
    obtain ⟨h1, -, -⟩ := h
    rw [hs] at h1
    cases h1
    exact List.mem_cons_self _ _

/-- The tail pointer of a non-empty segment is one of its elements. -/
theorem IsDSeg_last_mem {prev next : Nat → Ptr} {xs : List Nat} {pred start last stop : Ptr}
    {y : Nat} (h : IsDSeg prev next pred start xs last stop) (hne : xs ≠ [])
    (hl : last = some y) : y ∈ xs := by
  rcases list_nil_or_snoc xs with rfl | ⟨A, p, rfl⟩
  · exact absurd rfl hne
  · obtain ⟨m, -, -, -, h5⟩ := IsDSeg_snoc.1 h
    rw [hl] at h5
    cases h5
    simp

/-- The list splice of `rb_dictionary_link` that puts `delem` just before `root`. -/
theorem IsDSeg_insert_before {prev next : Nat → Ptr} {A B : List Nat} {root delem : Nat}
    {head tail : Ptr} (h : IsDSeg prev next none head (A ++ root :: B) tail none)
    (hnd : (A ++ root :: B).Nodup) (hd : delem ∉ A ++ root :: B) :
    IsDSeg
      (setField (setField prev delem (prev root)) root (some delem))
      (setField (match prev root with
          | some p => setField next p (some delem)
          | none => next) delem (some root))
      none
      (match prev root with
        | some _ => head
        | none => some delem)
      (A ++ delem :: root :: B) tail none := by
  obtain ⟨m, s, hA, hs, hprev, hB⟩ := IsDSeg_append.1 h
  simp only [List.mem_append, List.mem_cons, not_or] at hd
  obtain ⟨hdA, hdr, hdB⟩ := hd
  have hr := nodup_mid hnd
  rcases list_nil_or_snoc A with rfl | ⟨A', p, rfl⟩
  · obtain ⟨rfl, rfl⟩ := hA
    rw [hprev]
    simp only [List.nil_append, IsDSeg_cons, setField_same, setField_ne _ _ hdr,
      setField_ne _ _ (Ne.symm hdr), hprev, true_and]
    exact IsDSeg_setPrev _ hr.2 (IsDSeg_setPrev _ hdB (IsDSeg_setNext _ hdB hB))
  · obtain ⟨m', hA', hp, hnp, rfl⟩ := IsDSeg_snoc.1 hA
    rw [hprev]
    simp only [List.mem_append, List.mem_singleton, not_or] at hr hdA
    have hpA : p ∉ A' ∧ p ≠ root ∧ p ∉ B := by
      have := nodup_mid (X := A') (y := p) (Z := root :: B) (by simpa using hnd)
      simpa [not_or] using this
    obtain ⟨hpA', hpr, hpB⟩ := hpA
    have hpd : p ≠ delem := Ne.symm hdA.2
    simp only [List.append_assoc, List.singleton_append]
    refine IsDSeg_append.2 ⟨m', some p, ?_, ?_⟩
    · exact IsDSeg_setPrev _ hr.1.1 (IsDSeg_setPrev _ hdA.1
        (IsDSeg_setNext _ hdA.1 (IsDSeg_setNext _ hpA' hA')))
    · simp only [IsDSeg_cons, setField_same, setField_ne _ _ hdr, setField_ne _ _ (Ne.symm hdr),
        setField_ne _ _ hpr, setField_ne _ _ hpd, setField_ne _ _ (Ne.symm hpr), hprev, hp,
        true_and]
      exact IsDSeg_setPrev _ hr.2 (IsDSeg_setPrev _ hdB
        (IsDSeg_setNext _ hdB (IsDSeg_setNext _ hpB hB)))

/-- The list splice of `rb_dictionary_link` that puts `delem` just after `root`. -/
theorem IsDSeg_insert_after {prev next : Nat → Ptr} {A B : List Nat} {root delem : Nat}
    {head tail : Ptr} (h : IsDSeg prev next none head (A ++ root :: B) tail none)
    (hnd : (A ++ root :: B).Nodup) (hd : delem ∉ A ++ root :: B) :
    IsDSeg
      (setField (match next root with
          | some p => setField prev p (some delem)
          | none => prev) delem (some root))
      (setField (setField next delem (next root)) root (some delem))
      none head
      (A ++ root :: delem :: B)
      (match next root with
        | some _ => tail
        | none => some delem) none := by
  obtain ⟨m, s, hA, hs, hprev, hB⟩ := IsDSeg_append.1 h
  simp only [List.mem_append, List.mem_cons, not_or] at hd
  obtain ⟨hdA, hdr, hdB⟩ := hd
  have hr := nodup_mid hnd
  cases B with
  | nil =>
    obtain ⟨hnx, rfl⟩ := hB
    rw [hnx]
    refine IsDSeg_append.2 ⟨m, s, ?_, ?_⟩
    · exact IsDSeg_setPrev _ hdA (IsDSeg_setNext _ hr.1 (IsDSeg_setNext _ hdA hA))
    · simp only [IsDSeg_cons, IsDSeg_nil, setField_same, setField_ne _ _ hdr,
        setField_ne _ _ (Ne.symm hdr), hprev, hs, hnx, true_and, and_self]
  | cons n B' =>
    obtain ⟨hnx, hpn, hB'⟩ := hB
    rw [hnx]
    simp only [List.mem_cons, not_or] at hr hdB
    have hnn : n ∉ A ∧ n ≠ root ∧ n ∉ B' := by
      have := nodup_mid (X := A ++ [root]) (y := n) (Z := B') (by simpa using hnd)
      simpa [not_or, and_assoc] using this
    obtain ⟨hnA, hnr, hnB⟩ := hnn
    refine IsDSeg_append.2 ⟨m, s, ?_, ?_⟩
    · exact IsDSeg_setPrev _ hdA (IsDSeg_setPrev _ hnA
        (IsDSeg_setNext _ hr.1 (IsDSeg_setNext _ hdA hA)))
    · simp only [IsDSeg_cons, setField_same, setField_ne _ _ hdr,
        setField_ne _ _ (Ne.symm hdr), setField_ne _ _ hnr, setField_ne _ _ (Ne.symm hnr),
        setField_ne _ _ (Ne.symm hdB.1), hprev, hs, hnx, true_and]
      exact IsDSeg_setPrev _ hdB.2 (IsDSeg_setPrev _ hnB
        (IsDSeg_setNext _ hr.2.2 (IsDSeg_setNext _ hdB.2 hB')))

/-- The list half of `rb_dictionary_unlink_root`: `delem` leaves the list, head and tail
follow. -/
theorem IsDSeg_remove {prev next : Nat → Ptr} {A B : List Nat} {delem : Nat}
    {head tail : Ptr} (h : IsDSeg prev next none head (A ++ delem :: B) tail none)
    (hnd : (A ++ delem :: B).Nodup) :
    IsDSeg
      (match (match prev delem with
          | some p => setField next p (next delem)
          | none => next) delem with
        | some n => setField prev n (prev delem)
        | none => prev)
      (match prev delem with
        | some p => setField next p (next delem)
        | none => next)
      none
      (if head = some delem then
        (match prev delem with
          | some p => setField next p (next delem)
          | none => next) delem
        else head)
      (A ++ B)
      (if tail = some delem then
        (match (match prev delem with
            | some p => setField next p (next delem)
            | none => next) delem with
          | some n => setField prev n (prev delem)
          | none => prev) delem
        else tail)
      none := by
  obtain ⟨m, s, hA, hs, hprev, hB⟩ := IsDSeg_append.1 h
  have hr := nodup_mid hnd
  subst hs
  rcases list_nil_or_snoc A with rfl | ⟨A', p, rfl⟩
  · obtain ⟨rfl, rfl⟩ := hA
    rw [hprev]
    simp only [if_true, List.nil_append]
    cases B with
    | nil =>
      obtain ⟨hnx, rfl⟩ := hB
      rw [hnx]
      simp [hprev]
    | cons n B' =>
      obtain ⟨hnx, hpn, hB'⟩ := hB
      rw [hnx]
      have htl : tail ≠ some delem := by
        intro ht
        have hseg : IsDSeg prev next (some delem) (some n) (n :: B') tail none :=
          ⟨rfl, hpn, hB'⟩
        have := IsDSeg_last_mem hseg (by simp) ht
        exact hr.2 this
      have hnB : n ∉ B' := by
        have := nodup_mid (X := [delem]) (y := n) (Z := B') (by simpa using hnd)
        exact this.2
      simp only [if_neg htl, IsDSeg_cons, setField_same, true_and]
      exact IsDSeg_setPrev _ hnB hB'
  · obtain ⟨m', hA', hp, hnp, rfl⟩ := IsDSeg_snoc.1 hA
    rw [hprev]
    simp only [List.mem_append, List.mem_singleton, not_or] at hr
    have hhd : head ≠ some delem := by
      intro hh
      have := IsDSeg_start_mem hA (by simp) hh
      simp only [List.mem_append, List.mem_singleton] at this
      rcases this with h1 | h1
      · exact hr.1.1 h1
      · exact hr.1.2 h1
    have hpA : p ∉ A' ∧ p ≠ delem ∧ p ∉ B := by
      have := nodup_mid (X := A') (y := p) (Z := delem :: B) (by simpa using hnd)
      simpa [not_or, and_assoc] using this
    obtain ⟨hpA', hpd, hpB⟩ := hpA
    simp only [if_neg hhd, setField_ne _ _ (Ne.symm hpd)]
    cases B with
    | nil =>
      obtain ⟨hnx, rfl⟩ := hB
      rw [hnx]
      simp only [if_true, List.append_nil, hprev]
      exact IsDSeg_snoc.2 ⟨m', IsDSeg_setNext _ hpA' hA', hp, setField_same _ _ _, rfl⟩
    | cons n B' =>
      obtain ⟨hnx, hpn, hB'⟩ := hB
      rw [hnx]
      have htl : tail ≠ some delem := by
        intro ht
        have hseg : IsDSeg prev next (some delem) (some n) (n :: B') tail none :=
          ⟨rfl, hpn, hB'⟩
        have := IsDSeg_last_mem hseg (by simp) ht
        exact hr.2 this
      have hnn : n ∉ A' ∧ n ≠ p ∧ n ∉ B' := by
        have := nodup_mid (X := A' ++ [p, delem]) (y := n) (Z := B') (by simpa using hnd)
        simp only [List.mem_append, List.mem_cons, List.not_mem_nil, or_false, not_or] at this
        exact ⟨this.1.1, this.1.2.1, this.2⟩
      obtain ⟨hnA, hnp', hnB⟩ := hnn
      simp only [List.mem_cons, not_or] at hpB
      simp only [if_neg htl, List.append_assoc, List.singleton_append]
      refine IsDSeg_append.2 ⟨m', some p, ?_, ?_⟩
      · exact IsDSeg_setPrev _ hnA (IsDSeg_setNext _ hpA' hA')
      · simp only [IsDSeg_cons, setField_same, setField_ne _ _ hnp', setField_ne _ _ (Ne.symm hnp'),
          hp, true_and]
        exact IsDSeg_setPrev _ hnB (IsDSeg_setNext _ hpB.2 hB')

/-! ## Well-formed dictionaries: retune and find -/

theorem WF.nodup0 {d : rb_dictionary K V} {t : Tree} (h : WF d t) :
    (stackN :: t.ids).Nodup :=
  List.nodup_cons.2 ⟨fun hm => Nat.lt_irrefl _ (h.alloc _ hm).1, h.nodup⟩

/-- A change confined to the child maps and the root keeps well-formedness when the new tree
has the same in-order sequence. -/
theorem WF.of_frame {d d' : rb_dictionary K V} {t t' : Tree} (h : WF d t)
    (hfr : d' = { d with left := d'.left, right := d'.right, root := d'.root })
    (hT : IsTree d'.left d'.right d'.root t') (hids : t'.ids = t.ids) : WF d' t' := by
  have e1 : d'.compare_cb = d.compare_cb := by rw [hfr]
  have e2 : d'.key = d.key := by rw [hfr]
  have e3 : d'.prev = d.prev := by rw [hfr]
  have e4 : d'.next = d.next := by rw [hfr]
  have e5 : d'.head = d.head := by rw [hfr]
  have e6 : d'.tail = d.tail := by rw [hfr]
  have e7 : d'.count = d.count := by rw [hfr]
  have e8 : d'.data = d.data := by rw [hfr]
  have e9 : d'.dirty = d.dirty := by rw [hfr]
  have e10 : d'.position = d.position := by rw [hfr]
  have e11 : d'.brk = d.brk := by rw [hfr]
  refine ⟨hT, hids ▸ h.nodup, ?_, e11 ▸ h.brk_pos, ?_, ?_, ?_, ?_, ?_⟩
  · rw [hids, e11]; exact h.alloc
  · rw [hids, e1, e2]; exact h.sorted
  · rw [hids, e3, e4, e5, e6]; exact h.list
  · rw [hids, e7]; exact h.count
  · rw [hids, e8]; exact h.data
  · rw [hids, e9, e10]; exact h.pos

theorem WF.retune {d : rb_dictionary K V} {t : Tree} (hord : TotalOrderCmp d.compare_cb)
    (h : WF d t) (key : K) :
    ∃ d' t', rb_dictionary_retune d key = some d' ∧
      d' = { d with left := d'.left, right := d'.right, root := d'.root } ∧
      WF d' t' ∧ t'.ids = t.ids ∧
      (∀ l x r, t' = .node l x r →
        (d.compare_cb key (d.key x) < 0 → ∀ y ∈ l.ids, d.compare_cb (d.key y) key < 0) ∧
        (0 < d.compare_cb key (d.key x) → ∀ y ∈ r.ids, d.compare_cb key (d.key y) < 0)) := by
  obtain ⟨d', t', e, hfr, hT, hids, hroot⟩ :=
    rb_dictionary_retune_spec hord key h.tree h.nodup0 h.sorted (le_of_eq h.count.symm)
  exact ⟨d', t', e, hfr, h.of_frame hfr hT hids, hids, hroot⟩

/-- When the root left by a retune does not compare equal to `key`, no element does. -/
theorem absent_of_root {cmp : K → K → Int} {keyOf : Nat → K} {key : K}
    (hord : TotalOrderCmp cmp) {l r : Tree} {x : Nat}
    (hs : SortedIds cmp keyOf (l.ids ++ x :: r.ids)) (hne : cmp key (keyOf x) ≠ 0)
    (hl : cmp key (keyOf x) < 0 → ∀ y ∈ l.ids, cmp (keyOf y) key < 0)
    (hr : 0 < cmp key (keyOf x) → ∀ y ∈ r.ids, cmp key (keyOf y) < 0) :
    ∀ y ∈ l.ids ++ x :: r.ids, cmp key (keyOf y) ≠ 0 := by
  have hm := sorted_mid hs
  intro y hy h0
  simp only [List.mem_append, List.mem_cons] at hy
  rcases lt_or_gt_of_ne hne with hlt | hgt
  · rcases hy with hy | rfl | hy
    · have := hord.gt_of_lt (hl hlt y hy)
      omega
    · exact hne h0
    · have h1 := hord.lt_trans _ _ _ hlt (hm.2 y hy)
      omega
  · rcases hy with hy | rfl | hy
    · have h1 := hord.lt_trans _ _ _ (hm.1 y hy) (hord.lt_of_gt hgt)
      have := hord.gt_of_lt h1
      omega
    · exact hne h0
    · have := hr hgt y hy
      omega

theorem WF.find {d : rb_dictionary K V} {t : Tree} (hord : TotalOrderCmp d.compare_cb)
    (h : WF d t) (key : K) :
    ∃ r d' t', rb_dictionary_find d key = some (r, d') ∧
      d' = { d with left := d'.left, right := d'.right, root := d'.root } ∧
      WF d' t' ∧ t'.ids = t.ids ∧
      (∀ x, r = some x → d'.root = some x ∧ x ∈ t.ids ∧ d.compare_cb key (d.key x) = 0) ∧
      (r = none → ∀ y ∈ t.ids, d.compare_cb key (d.key y) ≠ 0) := by
  obtain ⟨d', t', e, hfr, hwf, hids, hroot⟩ := h.retune hord key
  have e1 : d'.compare_cb = d.compare_cb := by rw [hfr]
  have e2 : d'.key = d.key := by rw [hfr]
  unfold rb_dictionary_find
  rw [e]
  simp only []
  cases hr : d'.root with
  | none =>
    simp only []
    have ht := hwf.tree
    rw [hr] at ht
    have := IsTree_none ht
    subst this
    refine ⟨none, d', .leaf, rfl, hfr, hwf, hids, by simp, ?_⟩
    intro _ y hy
    rw [← hids] at hy
    simp at hy
  | some x =>
    have ht := hwf.tree
    rw [hr] at ht
    obtain ⟨l, r, rfl, -, -⟩ := IsTree_some ht
    simp only [e1, e2]
    by_cases h0 : d.compare_cb key (d.key x) = 0
    · rw [if_pos h0]
      refine ⟨some x, d', _, rfl, hfr, hwf, hids, ?_, by simp⟩
      intro y hy
      cases hy
      exact ⟨hr, by rw [← hids]; simp, h0⟩
    · rw [if_neg h0]
      refine ⟨none, d', _, rfl, hfr, hwf, hids, by simp, ?_⟩
      intro _
      rw [← hids]
      have hs := hwf.sorted
      rw [e1, e2] at hs
      exact absent_of_root hord hs h0 (hroot l x r rfl).1 (hroot l x r rfl).2

/-! ## Linking an element -/

theorem sorted_congr {cmp : K → K → Int} {k1 k2 : Nat → K} {ids : List Nat}
    (h : ∀ x ∈ ids, k1 x = k2 x) (hs : SortedIds cmp k1 ids) : SortedIds cmp k2 ids := by
  unfold SortedIds at *
  refine List.Pairwise.imp_of_mem ?_ hs
  intro a b ha hb hab
  rw [← h a ha, ← h b hb]
  exact hab

/-- Replacing a key by one that compares equal keeps the elements in ascending order. -/
theorem sorted_replace {cmp : K → K → Int} {keyOf : Nat → K} (hord : TotalOrderCmp cmp)
    {A B : List Nat} {x : Nat} {k : K} (hs : SortedIds cmp keyOf (A ++ x :: B))
    (hnd : (A ++ x :: B).Nodup) (hk : cmp k (keyOf x) = 0) :
    SortedIds cmp (setField keyOf x k) (A ++ x :: B) := by
  have hx := nodup_mid hnd
  have hm := sorted_mid hs
  unfold SortedIds at hs ⊢
  rw [List.pairwise_append, List.pairwise_cons] at hs ⊢
  obtain ⟨hA, ⟨-, hB⟩, hAB⟩ := hs
  have neA : ∀ y ∈ A, y ≠ x := fun y hy e => hx.1 (e ▸ hy)
  have neB : ∀ y ∈ B, y ≠ x := fun y hy e => hx.2 (e ▸ hy)
  refine ⟨?_, ⟨?_, ?_⟩, ?_⟩
  · refine List.Pairwise.imp_of_mem ?_ hA
    intro a b ha hb hab
    rw [setField_ne _ _ (neA a ha), setField_ne _ _ (neA b hb)]
    exact hab
  · intro y hy
    rw [setField_same, setField_ne _ _ (neB y hy)]
    exact hord.eq_lt _ _ _ hk (hm.2 y hy)
  · refine List.Pairwise.imp_of_mem ?_ hB
    intro a b ha hb hab
    rw [setField_ne _ _ (neB a ha), setField_ne _ _ (neB b hb)]
    exact hab
  · intro a ha b hb
    simp only [List.mem_cons] at hb
    rw [setField_ne _ _ (neA a ha)]
    rcases hb with rfl | hb
    · rw [setField_same]
      exact hord.lt_eq (hm.1 a ha) (hord.eq_symm hk)
    · rw [setField_ne _ _ (neB b hb)]
      exact hAB a ha b (List.mem_cons_of_mem _ hb)

/-- `rb_dictionary_link` on a well-formed dictionary and a fresh element. -/
theorem WF.link {d : rb_dictionary K V} {t : Tree} (hord : TotalOrderCmp d.compare_cb)
    (h : WF d t) {delem : Nat} (hd : delem ∉ t.ids) (h0 : stackN < delem)
    (hb : delem < d.brk) (hdata : d.data delem ≠ none) :
    ∃ r d' t', rb_dictionary_link d delem = some (r, d') ∧ WF d' t' ∧ d'.dirty = true ∧
      d'.compare_cb = d.compare_cb ∧ d'.brk = d.brk ∧ d'.id = d.id ∧ d'.root = some r ∧
      ((r = delem ∧ d'.key = d.key ∧ d'.data = d.data ∧
          ∃ A B, t.ids = A ++ B ∧ t'.ids = A ++ delem :: B) ∨
        (r ∈ t.ids ∧ d.compare_cb (d.key delem) (d.key r) = 0 ∧ t'.ids = t.ids ∧
          d'.key = setField d.key r (d.key delem) ∧
          d'.data = setField d.data r (d.data delem))) := by
  unfold rb_dictionary_link
  simp only []
  cases hroot : d.root with
  | none =>
    simp only []
    have ht := h.tree
    rw [hroot] at ht
    have := IsTree_none ht
    subst this
    refine ⟨delem, _, .node .leaf delem .leaf, rfl, ?_, rfl, rfl, rfl, rfl, rfl,
      Or.inl ⟨rfl, rfl, rfl, [], [], rfl, rfl⟩⟩
    have hc := h.count
    simp only [Tree.ids_leaf, List.length_nil] at hc
    refine ⟨by simp, by simp, ?_, h.brk_pos, by simp [SortedIds], by simp, by simp [hc], ?_,
      by simp⟩
    · intro p hp
      simp only [Tree.ids_node, Tree.ids_leaf, List.nil_append, List.mem_singleton] at hp
      subst hp
      exact ⟨h0, hb⟩
    · intro p hp
      simp only [Tree.ids_node, Tree.ids_leaf, List.nil_append, List.mem_singleton] at hp
      subst hp
      exact hdata
  | some r0 =>
    simp only []
    have hT0 := h.tree
    have hne : t.ids ≠ [] := by
      rw [hroot] at hT0
      obtain ⟨l, r, rfl, -, -⟩ := IsTree_some hT0
      simp
    obtain ⟨d1, t1, e, hfr, hT1, hids1, hrp⟩ :=
      rb_dictionary_retune_spec (d := { d with dirty := true, count := d.count + 1 }) hord
        (d.key delem) h.tree h.nodup0 h.sorted (by simp [h.count])
    rw [← hroot, e]
    simp only []
    have e1 : d1.compare_cb = d.compare_cb := by rw [hfr]
    have e2 : d1.key = d.key := by rw [hfr]
    have e3 : d1.prev = d.prev := by rw [hfr]
    have e4 : d1.next = d.next := by rw [hfr]
    have e5 : d1.head = d.head := by rw [hfr]
    have e6 : d1.tail = d.tail := by rw [hfr]
    have e7 : d1.count = d.count + 1 := by rw [hfr]
    have e8 : d1.data = d.data := by rw [hfr]
    have e9 : d1.dirty = true := by rw [hfr]
    have e11 : d1.brk = d.brk := by rw [hfr]
    have e12 : d1.id = d.id := by rw [hfr]
    have hnd1 : t1.ids.Nodup := hids1 ▸ h.nodup
    have hd1 : delem ∉ t1.ids := hids1 ▸ hd
    have hs1 : SortedIds d.compare_cb d.key t1.ids := hids1 ▸ h.sorted
    have hl1 : IsDSeg d1.prev d1.next none d1.head t1.ids d1.tail none := by
      rw [e3, e4, e5, e6, hids1]; exact h.list
    have ha1 : ∀ p ∈ t1.ids, stackN < p ∧ p < d.brk := hids1 ▸ h.alloc
    have hda1 : ∀ p ∈ t1.ids, d.data p ≠ none := hids1 ▸ h.data
    have hlen : t1.ids.length = t.ids.length := by rw [hids1]
    cases hr1 : d1.root with
    | none =>
      rw [hr1] at hT1
      have := IsTree_none hT1
      subst this
      exact absurd hids1.symm hne
    | some root =>
      rw [hr1] at hT1
      obtain ⟨a, b, rfl, hTa, hTb⟩ := IsTree_some hT1
      have hrp' := hrp a root b rfl
      simp only [Tree.ids_node] at hnd1 hd1 hs1 hl1 ha1 hda1 hlen
      have hrn := nodup_mid hnd1
      have hsm := sorted_mid hs1
      simp only [List.mem_append, List.mem_cons, not_or] at hd1
      obtain ⟨hda, hdr, hdb⟩ := hd1
      simp only [e1, e2]
      by_cases hlt : d.compare_cb (d.key delem) (d.key root) < 0
      · rw [if_pos hlt]
        refine ⟨delem, _, .node a delem (.node .leaf root b), rfl, ?_, e9, rfl, e11, e12, rfl,
          Or.inl ⟨rfl, rfl, e8, a.ids, root :: b.ids, hids1.symm, by simp⟩⟩
        refine ⟨?_, ?_, ?_, e11 ▸ h.brk_pos, ?_, ?_, ?_, ?_, ?_⟩
        · simp only [IsTree_node, IsTree_leaf, true_and, setField_same, setField_ne _ _ hdr,
            setField_ne _ _ (Ne.symm hdr)]
          exact ⟨IsTree_setR _ hda (IsTree_setL _ hrn.1 (IsTree_setL _ hda hTa)),
            IsTree_setR _ hdb (IsTree_setL _ hrn.2 (IsTree_setL _ hdb hTb))⟩
        · simp only [Tree.ids_node, Tree.ids_leaf, List.nil_append]
          have : (a.ids ++ ([delem] ++ root :: b.ids)).Nodup := by
            rw [List.nodup_append] at hnd1 ⊢
            refine ⟨hnd1.1, ?_, ?_⟩
            · simp only [List.singleton_append, List.nodup_cons, List.mem_cons, not_or]
              exact ⟨⟨hdr, hdb⟩, List.nodup_cons.1 hnd1.2.1⟩
            · intro x hx hx'
              simp only [List.singleton_append, List.mem_cons] at hx'
              rcases hx' with rfl | hx'
              · exact hda hx
              · exact hnd1.2.2 hx (by simpa using hx')
          simpa using this
        · intro p hp
          simp only [Tree.ids_node, Tree.ids_leaf, List.nil_append, List.mem_append,
            List.mem_cons] at hp
          rw [e11]
          rcases hp with hp | rfl | hp
          · exact ha1 p (by simp [hp])
          · exact ⟨h0, hb⟩
          · exact ha1 p (by simpa using Or.inr hp)
        · simp only [Tree.ids_node, Tree.ids_leaf, List.nil_append]
          unfold SortedIds at hs1 ⊢
          rw [List.pairwise_append] at hs1 ⊢
          refine ⟨hs1.1, ?_, ?_⟩
          · rw [List.pairwise_cons]
            refine ⟨?_, hs1.2.1⟩
            intro y hy
            simp only [List.mem_cons] at hy
            rcases hy with rfl | hy
            · exact hlt
            · exact hord.lt_trans _ _ _ hlt (hsm.2 y hy)
          · intro x hx y hy
            simp only [List.mem_cons] at hy
            rcases hy with rfl | hy
            · exact hrp'.1 hlt x hx
            · exact hs1.2.2 x hx y (by simpa using hy)
        · exact IsDSeg_insert_before hl1 hnd1
            (by simp only [List.mem_append, List.mem_cons, not_or]; exact ⟨hda, hdr, hdb⟩)
        · simp only [e7, Tree.ids_node, Tree.ids_leaf, List.nil_append, List.length_append,
            List.length_cons]
          rw [h.count, ← hlen]
          simp only [List.length_append, List.length_cons]
          omega
        · intro p hp
          simp only [Tree.ids_node, Tree.ids_leaf, List.nil_append, List.mem_append,
            List.mem_cons] at hp
          rw [e8]
          rcases hp with hp | rfl | hp
          · exact hda1 p (by simp [hp])
          · exact hdata
          · exact hda1 p (by simpa using Or.inr hp)
        · intro hdirty
          rw [e9] at hdirty
          cases hdirty
      · rw [if_neg hlt]
        by_cases hgt : d.compare_cb (d.key delem) (d.key root) > 0
        · rw [if_pos hgt]
          refine ⟨delem, _, .node (.node a root .leaf) delem b, rfl, ?_, e9, rfl, e11, e12, rfl,
            Or.inl ⟨rfl, rfl, e8, a.ids ++ [root], b.ids, by rw [← hids1]; simp, by simp⟩⟩
          refine ⟨?_, ?_, ?_, e11 ▸ h.brk_pos, ?_, ?_, ?_, ?_, ?_⟩
          · simp only [IsTree_node, IsTree_leaf, true_and, setField_same, setField_ne _ _ hdr,
              setField_ne _ _ (Ne.symm hdr), and_true]
            exact ⟨IsTree_setR _ hrn.1 (IsTree_setR _ hda (IsTree_setL _ hda hTa)),
              IsTree_setR _ hrn.2 (IsTree_setR _ hdb (IsTree_setL _ hdb hTb))⟩
          · simp only [Tree.ids_node, Tree.ids_leaf, List.append_assoc, List.cons_append,
              List.nil_append]
            have : (a.ids ++ root :: ([delem] ++ b.ids)).Nodup := by
              rw [List.nodup_append] at hnd1 ⊢
              refine ⟨hnd1.1, ?_, ?_⟩
              · simp only [List.singleton_append, List.nodup_cons, List.mem_cons, not_or]
                exact ⟨⟨Ne.symm hdr, hrn.2⟩, hdb, (List.nodup_cons.1 hnd1.2.1).2⟩
              · intro x hx hx'
                simp only [List.singleton_append, List.mem_cons] at hx'
                rcases hx' with rfl | rfl | hx'
                · exact hrn.1 hx
                · exact hda hx
                · exact hnd1.2.2 hx (List.mem_cons_of_mem _ hx')
            simpa using this
          · intro p hp
            simp only [Tree.ids_node, Tree.ids_leaf, List.mem_append, List.mem_cons,
              List.not_mem_nil, or_false] at hp
            rw [e11]
            rcases hp with (hp | rfl) | rfl | hp
            · exact ha1 p (by simp [hp])
            · exact ha1 p (by simp)
            · exact ⟨h0, hb⟩
            · exact ha1 p (by simp [hp])
          · simp only [Tree.ids_node, Tree.ids_leaf, List.append_assoc, List.cons_append,
              List.nil_append]
            have hrd : d.compare_cb (d.key root) (d.key delem) < 0 := hord.lt_of_gt hgt
            unfold SortedIds at hs1 ⊢
            rw [List.pairwise_append, List.pairwise_cons] at hs1 ⊢
            rw [List.pairwise_cons]
            refine ⟨hs1.1, ⟨?_, ?_, hs1.2.1.2⟩, ?_⟩
            · intro y hy
              simp only [List.mem_cons] at hy
              rcases hy with rfl | hy
              · exact hrd
              · exact hsm.2 y hy
            · intro y hy
              exact hrp'.2 hgt y hy
            · intro x hx y hy
              simp only [List.mem_cons] at hy
              rcases hy with rfl | rfl | hy
              · exact hsm.1 x hx
              · exact hord.lt_trans _ _ _ (hsm.1 x hx) hrd
              · exact hs1.2.2 x hx y (List.mem_cons_of_mem _ hy)
          · have hdm : delem ∉ a.ids ++ root :: b.ids := by
              simp only [List.mem_append, List.mem_cons, not_or]; exact ⟨hda, hdr, hdb⟩
            have := IsDSeg_insert_after hl1 hnd1 hdm
            simpa using this
          · simp only [e7, Tree.ids_node, Tree.ids_leaf, List.length_append,
              List.length_cons, List.length_nil]
            rw [h.count, ← hlen]
            simp only [List.length_append, List.length_cons]
            omega
          · intro p hp
            simp only [Tree.ids_node, Tree.ids_leaf, List.mem_append, List.mem_cons,
              List.not_mem_nil, or_false] at hp
            rw [e8]
            rcases hp with (hp | rfl) | rfl | hp
            · exact hda1 p (by simp [hp])
            · exact hda1 p (by simp)
            · exact hdata
            · exact hda1 p (by simp [hp])
          · intro hdirty
            rw [e9] at hdirty
            cases hdirty
        · rw [if_neg hgt]
          have heq : d.compare_cb (d.key delem) (d.key root) = 0 := by omega
          refine ⟨root, _, .node a root b, rfl, ?_, e9, rfl, e11, e12, rfl,
            Or.inr ⟨by rw [← hids1]; simp, heq, hids1, rfl, by rw [e8]⟩⟩
          refine ⟨?_, hnd1, ?_, e11 ▸ h.brk_pos, ?_, hl1, ?_, ?_, ?_⟩
          · simp only [IsTree_node, true_and]
            exact ⟨hTa, hTb⟩
          · rw [e11]; exact ha1
          · exact sorted_replace hord hs1 hnd1 heq
          · simp only [e7, Tree.ids_node]
            rw [h.count, ← hlen]
            simp
          · intro p hp
            by_cases hpr : p = root
            · subst hpr
              simp only [setField_same, e8]
              exact hdata
            · simp only [setField_ne _ _ hpr, e8]
              exact hda1 p hp
          · intro hdirty
            rw [e9] at hdirty
            cases hdirty

/-! ## Unlinking the root -/

theorem Tree.ids_eq_nil {t : Tree} (h : t.ids = []) : t = .leaf := by
  cases t with
  | leaf => rfl
  | node l x r => simp at h

/-- The first element in order is the root exactly when there is no left subtree. -/
theorem first_is_root {l r : Tree} {x : Nat} {rest : List Nat}
    (hnd : (Tree.node l x r).ids.Nodup) (h : (Tree.node l x r).ids = x :: rest) : l = .leaf := by
  cases hl : l.ids with
  | nil => exact Tree.ids_eq_nil hl
  | cons y ys =>
    simp only [Tree.ids_node, hl, List.cons_append, List.cons.injEq] at h hnd
    obtain ⟨rfl, -⟩ := h
    simp at hnd

/-- The walk of `rb_dictionary_unlink_root` down the left spine finds the parent of the
in-order first element `nx` of the subtree rooted at `x`; redirecting the parent's left child
to `nx->right` removes `nx` from the subtree. -/
theorem parentofnext_loop_spec {L R : Nat → Ptr} {nx : Nat} :
    ∀ (fuel x : Nat) (bl br : Tree) (rest : List Nat),
      IsTree L R (some x) (.node bl x br) → (Tree.node bl x br).ids.Nodup →
      (Tree.node bl x br).ids = nx :: rest → nx ≠ x →
      (Tree.node bl x br).ids.length ≤ fuel →
      ∃ par bl', parentofnext_loop L nx fuel x = some par ∧ par ∈ rest ∧
        L nx = none ∧ rest = (Tree.node bl' x br).ids ∧
        IsTree (setField L par (R nx)) R (some x) (.node bl' x br) := by
  intro fuel
  induction fuel with
  | zero =>
    intro x bl br rest _ _ _ _ hf
    simp at hf
  | succ n ih =>
    intro x bl br rest hT hnd hids hne hf
    simp only [IsTree_node, true_and] at hT
    obtain ⟨hbl, hbr⟩ := hT
    have hxn := nodup_mid hnd
    cases bl with
    | leaf =>
      simp only [Tree.ids_node, Tree.ids_leaf, List.nil_append, List.cons.injEq] at hids
      exact absurd hids.1.symm hne
    | node bll y blr =>
      simp only [IsTree_node] at hbl
      obtain ⟨hLx, hbll, hblr⟩ := hbl
      rw [parentofnext_loop, hLx]
      simp only []
      have hndl : (Tree.node bll y blr).ids.Nodup := (List.nodup_append.1 hnd).1
      have hyn := nodup_mid hndl
      by_cases hy : y = nx
      · subst hy
        rw [if_pos rfl]
        cases hl : bll.ids with
        | cons z zs =>
          simp only [Tree.ids_node, hl, List.cons_append, List.cons.injEq] at hids
          rw [hl] at hyn
          exact absurd (hids.1 ▸ List.mem_cons_self _ _) hyn.1
        | nil =>
          have := Tree.ids_eq_nil hl
          subst this
          simp only [Tree.ids_node, Tree.ids_leaf, List.nil_append, List.cons_append,
            List.cons.injEq, true_and] at hids
          simp only [IsTree_leaf] at hbll
          simp only [Tree.ids_node, List.mem_append, List.mem_cons, not_or] at hxn
          refine ⟨x, blr, rfl, by rw [← hids]; simp, hbll, by rw [← hids]; simp, ?_⟩
          simp only [IsTree_node, true_and, setField_same]
          exact ⟨IsTree_setL _ hxn.1.2.2 hblr, IsTree_setL _ hxn.2 hbr⟩
      · rw [if_neg hy]
        cases hl : (Tree.node bll y blr).ids with
        | nil => simp at hl
        | cons z zs =>
          have hz : z = nx := by
            have h1 : (Tree.node (Tree.node bll y blr) x br).ids = (z :: zs) ++ x :: br.ids := by
              rw [← hl]; rfl
            rw [h1] at hids
            simp only [List.cons_append, List.cons.injEq] at hids
            exact hids.1
          subst hz
          have hTl : IsTree L R (some y) (.node bll y blr) := ⟨rfl, hbll, hblr⟩
          obtain ⟨par, bl', e, hpar, hLn, hrest, hT'⟩ :=
            ih y bll blr zs hTl hndl hl (Ne.symm hy)
              (by simp only [Tree.ids_node, List.length_append, List.length_cons] at hf ⊢; omega)
          have hids' : rest = zs ++ x :: br.ids := by
            have h1 : (Tree.node (Tree.node bll y blr) x br).ids = (z :: zs) ++ x :: br.ids := by
              rw [← hl]; rfl
            rw [h1] at hids
            simpa using hids.symm
          have hparl : par ∈ (Tree.node bll y blr).ids := by
            rw [hl]; exact List.mem_cons_of_mem _ hpar
          have hpx : par ≠ x := fun e => hxn.1 (e ▸ hparl)
          have hpbr : par ∉ br.ids := by
            intro hm
            exact (List.nodup_append.1 hnd).2.2 hparl (List.mem_cons_of_mem _ hm)
          refine ⟨par, .node bl' y blr, e, by rw [hids']; simp [hpar], hLn, ?_, ?_⟩
          · rw [hids', hrest]; rfl
          · refine ⟨rfl, ?_, IsTree_setL _ hpbr hbr⟩
            rw [setField_ne _ _ (Ne.symm hpx), hLx]
            exact hT'
/-- The tree half of `rb_dictionary_unlink_root` removes the root from the in-order
sequence and touches only the child maps and the root pointer. -/
theorem unlink_root_tree_spec {d : rb_dictionary K V} {a b : Tree} {delem : Nat}
    (hT : IsTree d.left d.right (some delem) (.node a delem b))
    (hnd : (a.ids ++ delem :: b.ids).Nodup)
    (hlist : IsDSeg d.prev d.next none d.head (a.ids ++ delem :: b.ids) d.tail none)
    (hf : (a.ids ++ delem :: b.ids).length ≤ d.count) :
    ∃ d1 t1, unlink_root_tree d delem = some d1 ∧
      d1 = { d with left := d1.left, right := d1.right, root := d1.root } ∧
      IsTree d1.left d1.right d1.root t1 ∧ t1.ids = a.ids ++ b.ids := by
  simp only [IsTree_node, true_and] at hT
  obtain ⟨ha, hb⟩ := hT
  have hdn := nodup_mid hnd
  unfold unlink_root_tree
  cases a with
  | leaf =>
    simp only [IsTree_leaf] at ha
    rw [ha]
    exact ⟨_, b, rfl, rfl, hb, by simp⟩
  | node al y ar =>
    have ha' := ha
    simp only [IsTree_node] at ha'
    have hay : IsTree d.left d.right (some y) (.node al y ar) := ⟨rfl, ha'.2.1, ha'.2.2⟩
    rw [ha'.1]
    simp only []
    cases b with
    | leaf =>
      simp only [IsTree_leaf] at hb
      rw [hb]
      exact ⟨_, .node al y ar, rfl, rfl, hay, by simp⟩
    | node bl x br =>
      have hb' := hb
      simp only [IsTree_node] at hb'
      obtain ⟨hRd, hbl, hbr⟩ := hb'
      rw [hRd]
      simp only []
      have hndb : (Tree.node bl x br).ids.Nodup :=
        (List.nodup_cons.1 (List.nodup_append.1 hnd).2.1).2
      obtain ⟨m, s, -, hs, -, hB⟩ := IsDSeg_append.1 hlist
      cases hbi : (Tree.node bl x br).ids with
      | nil => simp at hbi
      | cons nx rest =>
        rw [hbi] at hB
        obtain ⟨hnx, -, -⟩ := hB
        rw [hnx]
        simp only []
        rw [hbi] at hdn
        simp only [List.mem_cons, not_or] at hdn
        have hna : nx ∉ (Tree.node al y ar).ids := by
          intro hm
          have := (List.nodup_append.1 hnd).2.2 hm
            (List.mem_cons_of_mem _ (hbi ▸ List.mem_cons_self _ _))
          exact this
        by_cases hnx' : nx = x
        · subst hnx'
          rw [if_pos rfl]
          have := first_is_root hndb hbi
          subst this
          simp only [IsTree_leaf] at hbl
          have hnbr : nx ∉ br.ids := (nodup_mid hndb).2
          have hbr' : br.ids = rest := by
            simpa using hbi
          refine ⟨_, .node (.node al y ar) nx br, rfl, rfl, ?_, by simp [hbr']⟩
          refine ⟨rfl, ?_, IsTree_setL _ hnbr hbr⟩
          simp only [setField_same]
          exact IsTree_setL _ hna hay
        · rw [if_neg hnx']
          obtain ⟨par, bl', e, hpar, hLn, hrest, hT'⟩ :=
            parentofnext_loop_spec (L := d.left) (R := d.right) d.count x bl br rest
              ⟨rfl, hbl, hbr⟩ hndb hbi hnx'
              (by
                simp only [List.length_append, List.length_cons] at hf ⊢
                omega)
          rw [e]
          simp only []
          have hparb : par ∈ (Tree.node bl x br).ids := by
            rw [hbi]; exact List.mem_cons_of_mem _ hpar
          have hpd : par ≠ delem := fun e => hdn.2.2 (e ▸ hpar)
          have hpa : par ∉ (Tree.node al y ar).ids := by
            intro hm
            exact (List.nodup_append.1 hnd).2.2 hm (List.mem_cons_of_mem _ hparb)
          have hnrest : nx ∉ rest := by
            rw [hbi] at hndb
            exact (List.nodup_cons.1 hndb).1
          refine ⟨_, .node (.node al y ar) nx (.node bl' x br), rfl, rfl, ?_, ?_⟩
          · refine ⟨rfl, ?_, ?_⟩
            · simp only [setField_same, setField_ne _ _ (Ne.symm hpd), ha'.1]
              exact IsTree_setR _ hna (IsTree_setL _ hna (IsTree_setL _ hpa hay))
            · simp only [setField_same, hRd]
              exact IsTree_setR _ (hrest ▸ hnrest) (IsTree_setL _ (hrest ▸ hnrest) hT')
          · simp only [Tree.ids_node] at hrest ⊢
            rw [hrest]

/-- `rb_dictionary_unlink_root` on a well-formed dictionary with root `delem`. -/
theorem WF.unlink_root {d : rb_dictionary K V} {a b : Tree} {delem : Nat}
    (h : WF d (.node a delem b)) :
    ∃ d' t', rb_dictionary_unlink_root d = some d' ∧ WF d' t' ∧ t'.ids = a.ids ++ b.ids ∧
      d'.dirty = true ∧ d'.key = d.key ∧ d'.data = d.data ∧
      d'.compare_cb = d.compare_cb ∧ d'.brk = d.brk ∧ d'.id = d.id ∧
      d'.position = d.position := by
  have hT := h.tree
  have hroot : d.root = some delem := hT.1
  rw [hroot] at hT
  have hnd := h.nodup
  have hsub : List.Sublist (a.ids ++ b.ids) (a.ids ++ delem :: b.ids) :=
    (List.sublist_cons_self delem b.ids).append_left a.ids
  simp only [Tree.ids_node] at hnd
  obtain ⟨d1, t1, e, hfr, hT1, hids1⟩ :=
    unlink_root_tree_spec (d := { d with dirty := true }) hT hnd h.list
      (le_of_eq h.count.symm)
  unfold rb_dictionary_unlink_root
  simp only []
  rw [hroot]
  simp only []
  rw [← hroot, e]
  simp only []
  have e1 : d1.compare_cb = d.compare_cb := by rw [hfr]
  have e2 : d1.key = d.key := by rw [hfr]
  have e3 : d1.prev = d.prev := by rw [hfr]
  have e4 : d1.next = d.next := by rw [hfr]
  have e5 : d1.head = d.head := by rw [hfr]
  have e6 : d1.tail = d.tail := by rw [hfr]
  have e7 : d1.count = d.count := by rw [hfr]
  have e8 : d1.data = d.data := by rw [hfr]
  have e9 : d1.dirty = true := by rw [hfr]
  have e10 : d1.position = d.position := by rw [hfr]
  have e11 : d1.brk = d.brk := by rw [hfr]
  have e12 : d1.id = d.id := by rw [hfr]
  refine ⟨_, t1, rfl, ?_, hids1, e9, e2, e8, e1, e11, e12, e10⟩
  refine ⟨hT1, ?_, ?_, ?_, ?_, ?_, ?_, ?_, ?_⟩
  · rw [hids1]; exact hnd.sublist hsub
  · intro p hp
    rw [hids1] at hp
    have := h.alloc p (hsub.subset hp)
    simpa [unlink_root_list, e11] using this
  · simpa [unlink_root_list, e11] using h.brk_pos
  · have hs := h.sorted
    simp only [unlink_root_list, e1, e2, hids1]
    exact List.Pairwise.sublist hsub hs
  · have hl := IsDSeg_remove h.list hnd
    simp only [unlink_root_list, e3, e4, e5, e6, hids1]
    exact hl
  · simp only [unlink_root_list, e7, hids1]
    rw [h.count]
    simp
  · intro p hp
    rw [hids1] at hp
    have := h.data p (hsub.subset hp)
    simpa [unlink_root_list, e8] using this
  · intro hdirty
    simp only [unlink_root_list, e9] at hdirty
    cases hdirty

/-- `rb_dictionary_delete` on a well-formed dictionary: either no key compares equal and only
the tree shape changes, or the matching element leaves the sequence and its data is
returned. -/
theorem WF.delete_spec {d : rb_dictionary K V} {t : Tree} (hord : TotalOrderCmp d.compare_cb)
    (h : WF d t) (key : K) :
    ∃ v d' t', rb_dictionary_delete d key = some (v, d') ∧ WF d' t' ∧
      d'.key = d.key ∧ d'.data = d.data ∧ d'.compare_cb = d.compare_cb ∧ d'.brk = d.brk ∧
      d'.id = d.id ∧ d'.position = d.position ∧
      ((v = none ∧ (∀ y ∈ t.ids, d.compare_cb key (d.key y) ≠ 0) ∧ t'.ids = t.ids ∧
          d' = { d with left := d'.left, right := d'.right, root := d'.root }) ∨
        (∃ A x B, t.ids = A ++ x :: B ∧ d.compare_cb key (d.key x) = 0 ∧ v = d.data x ∧
          t'.ids = A ++ B ∧ d'.dirty = true)) := by
  obtain ⟨r, d1, t1, e, hfr, hwf1, hids1, hsome, hnone⟩ := h.find hord key
  have e1 : d1.compare_cb = d.compare_cb := by rw [hfr]
  have e2 : d1.key = d.key := by rw [hfr]
  have e8 : d1.data = d.data := by rw [hfr]
  have e10 : d1.position = d.position := by rw [hfr]
  have e11 : d1.brk = d.brk := by rw [hfr]
  have e12 : d1.id = d.id := by rw [hfr]
  unfold rb_dictionary_delete
  rw [e]
  cases r with
  | none =>
    exact ⟨none, d1, t1, rfl, hwf1, e2, e8, e1, e11, e12, e10,
      Or.inl ⟨rfl, hnone rfl, hids1, hfr⟩⟩
  | some x =>
    simp only []
    obtain ⟨hroot, hx, hcmp⟩ := hsome x rfl
    have hT := hwf1.tree
    rw [hroot] at hT
    obtain ⟨a, b, rfl, -, -⟩ := IsTree_some hT
    obtain ⟨d2, t2, e', hwf2, hids2, hd, hk, hda, hc, hbrk, hid, hpos⟩ := hwf1.unlink_root
    rw [e']
    refine ⟨_, d2, t2, rfl, hwf2, hk.trans e2, hda.trans e8, hc.trans e1, hbrk.trans e11,
      hid.trans e12, hpos.trans e10, Or.inr ⟨a.ids, x, b.ids, hids1.symm, hcmp, ?_, hids2, hd⟩⟩
    rw [e8]

/-- `rb_dictionary_add` on a well-formed dictionary: with no equal key present the fresh
element enters the sequence at its ordered place; otherwise the element already holding an
equal key takes over the new key and data. -/
theorem WF.add_spec {d : rb_dictionary K V} {t : Tree} (hord : TotalOrderCmp d.compare_cb)
    (h : WF d t) (key : K) (data : Option V) (hdata : data ≠ none) :
    ∃ r d' t', rb_dictionary_add d key data = some (r, d') ∧ WF d' t' ∧ d'.dirty = true ∧
      d'.compare_cb = d.compare_cb ∧ d'.id = d.id ∧ d'.root = some r ∧
      d'.key r = key ∧ d'.data r = data ∧
      (((∀ y ∈ t.ids, d.compare_cb key (d.key y) ≠ 0) ∧ r ∉ t.ids ∧
          (∀ p ∈ t.ids, d'.key p = d.key p ∧ d'.data p = d.data p) ∧
          ∃ A B, t.ids = A ++ B ∧ t'.ids = A ++ r :: B) ∨
        (r ∈ t.ids ∧ d.compare_cb key (d.key r) = 0 ∧ t'.ids = t.ids ∧
          (∀ p ∈ t.ids, p ≠ r → d'.key p = d.key p ∧ d'.data p = d.data p))) := by
  obtain ⟨r0, d1, t1, e, hfr, hwf1, hids1, -, -⟩ := h.find hord key
  have e1 : d1.compare_cb = d.compare_cb := by rw [hfr]
  have e2 : d1.key = d.key := by rw [hfr]
  have e8 : d1.data = d.data := by rw [hfr]
  have e12 : d1.id = d.id := by rw [hfr]
  unfold rb_dictionary_add
  rw [e]
  simp only []
  have hfresh : d1.brk ∉ t1.ids := fun hm => Nat.lt_irrefl _ (hwf1.alloc _ hm).2
  have hne : ∀ p ∈ t1.ids, p ≠ d1.brk := fun p hp e => hfresh (e ▸ hp)
  have hwf2 : WF { d1 with brk := d1.brk + 1
                           key := setField d1.key d1.brk key
                           data := setField d1.data d1.brk data } t1 := by
    refine ⟨hwf1.tree, hwf1.nodup, ?_, Nat.lt_succ_of_lt hwf1.brk_pos, ?_, hwf1.list,
      hwf1.count, ?_, hwf1.pos⟩
    · intro p hp
      have := hwf1.alloc p hp
      exact ⟨this.1, Nat.lt_succ_of_lt this.2⟩
    · refine sorted_congr ?_ hwf1.sorted
      intro p hp
      exact (setField_ne _ _ (hne p hp)).symm
    · intro p hp
      simp only [setField_ne _ _ (hne p hp)]
      exact hwf1.data p hp
  obtain ⟨r, d', t', el, hwf', hdirty, hc, -, hid, hroot, hcase⟩ :=
    hwf2.link (by rw [e1]; exact hord) hfresh hwf1.brk_pos
      (Nat.lt_succ_self _) (by simp only [setField_same]; exact hdata)
  rw [el]
  simp only [setField_same] at hcase
  rcases hcase with ⟨rfl, hk, hda, A, B, hAB, hAB'⟩ | ⟨hr, hcmp, hids', hk, hda⟩
  · refine ⟨_, d', t', rfl, hwf', hdirty, hc.trans e1, hid.trans e12, hroot, ?_, ?_, Or.inl
      ⟨?_, hids1 ▸ hfresh, ?_, A, B, hids1 ▸ hAB, hAB'⟩⟩
    · rw [hk]; simp
    · rw [hda]; simp
    · have hs := hwf'.sorted
      rw [hAB', hc, hk] at hs
      have hm := sorted_mid hs
      simp only [setField_same] at hm
      have hord1 : TotalOrderCmp d1.compare_cb := by rw [e1]; exact hord
      intro y hy
      rw [← hids1, hAB] at hy
      have hy' : y ≠ d1.brk := hne y (hAB ▸ hy)
      rw [← e1, ← e2]
      rcases List.mem_append.1 hy with hy | hy
      · have := hm.1 y hy
        rw [setField_ne _ _ hy'] at this
        have := hord1.gt_of_lt this
        omega
      · have := hm.2 y hy
        rw [setField_ne _ _ hy'] at this
        omega
    · intro p hp
      rw [← hids1] at hp
      rw [hk, hda]
      simp only [setField_ne _ _ (hne p hp), e2, e8, and_self]
  · have hrne : r ≠ d1.brk := hne r hr
    rw [setField_ne _ _ hrne] at hcmp
    refine ⟨r, d', t', rfl, hwf', hdirty, hc.trans e1, hid.trans e12, hroot, ?_, ?_, Or.inr
      ⟨hids1 ▸ hr, by rw [← e1, ← e2]; exact hcmp, hids'.trans hids1, ?_⟩⟩
    · rw [hk]; simp
    · rw [hda]; simp
    · intro p hp hpr
      rw [← hids1] at hp
      rw [hk, hda]
      simp only [setField_ne _ _ hpr, setField_ne _ _ (hne p hp), e2, e8, and_self]

/-- The position loop numbers the list from `i` upwards and touches no other element. -/
theorem position_loop_spec {prev next : Nat → Ptr} :
    ∀ (xs : List Nat) (pred start last : Ptr) (fuel : Nat) (pos : Nat → Int) (i : Int),
      IsDSeg prev next pred start xs last none → xs.Nodup → xs.length ≤ fuel →
      ∃ pos', position_loop next fuel pos start i = some pos' ∧
        (∀ A x B, xs = A ++ x :: B → pos' x = i + (A.length : Int)) ∧
        (∀ p, p ∉ xs → pos' p = pos p) := by
  intro xs
  induction xs with
  | nil =>
    intro pred start last fuel pos i h _ _
    obtain ⟨rfl, -⟩ := h
    refine ⟨pos, by cases fuel <;> rfl, ?_, fun _ _ => rfl⟩
    intro A x B hAB
    simp at hAB
  | cons x xs ih =>
    intro pred start last fuel pos i h hnd hf
    obtain ⟨rfl, -, h3⟩ := h
    cases fuel with
    | zero => simp at hf
    | succ n =>
      obtain ⟨hx, hnd'⟩ := List.nodup_cons.1 hnd
      obtain ⟨pos', e, hin, hout⟩ :=
        ih (some x) (next x) last n (setField pos x i) (i + 1) h3 hnd' (by simpa using hf)
      refine ⟨pos', by simp only [position_loop]; exact e, ?_, ?_⟩
      · intro A y B hAB
        cases A with
        | nil =>
          simp only [List.nil_append, List.cons.injEq] at hAB
          obtain ⟨rfl, -⟩ := hAB
          rw [hout x hx]
          simp
        | cons a A' =>
          simp only [List.cons_append, List.cons.injEq] at hAB
          obtain ⟨rfl, hAB⟩ := hAB
          rw [hin A' y B hAB]
          simp only [List.length_cons, Nat.cast_add, Nat.cast_one]
          ring
      · intro p hp
        simp only [List.mem_cons, not_or] at hp
        rw [hout p hp.2, setField_ne _ _ hp.1]

/-- `rb_dictionary_get_linear_index` on a well-formed dictionary: `-1` and nothing but the tree
shape changed when no key compares equal; otherwise the index of the matching element in the
list, with the dirty flag clear afterwards and the positions rewritten only if it was set. -/
theorem WF.get_linear_index {d : rb_dictionary K V} {t : Tree}
    (hord : TotalOrderCmp d.compare_cb) (h : WF d t) (key : K) :
    ∃ v d' t', rb_dictionary_get_linear_index d key = some (v, d') ∧ WF d' t' ∧
      t'.ids = t.ids ∧
      d' = { d with left := d'.left, right := d'.right, root := d'.root,
                    position := d'.position, dirty := d'.dirty } ∧
      ((v = -1 ∧ (∀ y ∈ t.ids, d.compare_cb key (d.key y) ≠ 0) ∧ d'.dirty = d.dirty ∧
          d'.position = d.position) ∨
        (∃ A x B, t.ids = A ++ x :: B ∧ d.compare_cb key (d.key x) = 0 ∧
          v = (A.length : Int) ∧ d'.dirty = false ∧
          (d.dirty = false → d'.position = d.position))) := by
  obtain ⟨r, d1, t1, e, hfr, hwf1, hids1, hsome, hnone⟩ := h.find hord key
  have e9 : d1.dirty = d.dirty := by rw [hfr]
  have e10 : d1.position = d.position := by rw [hfr]
  have hfr' : d1 =
      { d with
        left := d1.left, right := d1.right, root := d1.root, position := d1.position,
        dirty := d1.dirty } := by
    rw [e9, e10]; exact hfr
  unfold rb_dictionary_get_linear_index
  rw [e]
  cases r with
  | none =>
    exact ⟨-1, d1, t1, rfl, hwf1, hids1, hfr', Or.inl ⟨rfl, hnone rfl, e9, e10⟩⟩
  | some x =>
    simp only []
    obtain ⟨-, hx, hcmp⟩ := hsome x rfl
    obtain ⟨A, B, hAB⟩ := List.append_of_mem hx
    cases hd : d1.dirty with
    | false =>
      simp only [Bool.not_false, if_true]
      have hp := hwf1.pos hd
      rw [hids1] at hp
      exact ⟨_, d1, t1, rfl, hwf1, hids1, hfr', Or.inr
        ⟨A, x, B, hAB, hcmp, hp A x B hAB, hd, fun _ => e10⟩⟩
    | true =>
      simp only [Bool.not_true, Bool.false_eq_true, if_false]
      obtain ⟨pos', ep, hin, -⟩ :=
        position_loop_spec t1.ids none d1.head d1.tail d1.count d1.position 0 hwf1.list
          hwf1.nodup (le_of_eq hwf1.count.symm)
      rw [ep]
      simp only []
      have hpos : PosOK pos' t1.ids := by
        intro A' y B' hy
        rw [hin A' y B' hy]
        simp
      refine ⟨_, _, t1, rfl, ?_, hids1, ?_, Or.inr ⟨A, x, B, hAB, hcmp, ?_, rfl, ?_⟩⟩
      · exact ⟨hwf1.tree, hwf1.nodup, hwf1.alloc, hwf1.brk_pos, hwf1.sorted, hwf1.list,
          hwf1.count, hwf1.data, fun _ => hpos⟩
      · rw [hfr]
      · rw [hids1] at hpos
        exact hpos A x B hAB
      · intro hdf
        rw [e9, hdf] at hd
        cases hd

/-! ## Reachable dictionaries are well-formed -/

theorem WF.create [Inhabited K] (name : String) (cmp : K → K → Int) :
    WF (rb_dictionary_create name cmp : rb_dictionary K V) .leaf := by
  refine ⟨rfl, by simp, by simp, by simp [rb_dictionary_create, stackN], by simp [SortedIds],
    ⟨rfl, rfl⟩, rfl, by simp, ?_⟩
  intro _ A x B h
  simp at h

theorem WF.elements_eq {d : rb_dictionary K V} {t : Tree} (h : WF d t) :
    elements d = some t.ids :=
  IsDSeg_walk h.list (le_of_eq h.count.symm)

theorem WF.keys_eq {d : rb_dictionary K V} {t : Tree} (h : WF d t) :
    keys d = some (t.ids.map d.key) := by
  simp [keys, h.elements_eq]

theorem WF.entries_eq {d : rb_dictionary K V} {t : Tree} (h : WF d t) :
    entries d = some (t.ids.map (fun p => (d.key p, d.data p))) := by
  simp [entries, h.elements_eq]

theorem WF.live_iff {d : rb_dictionary K V} {t : Tree} (h : WF d t) (k : K) :
    Live d k ↔ ∃ x ∈ t.ids, d.compare_cb k (d.key x) = 0 := by
  unfold Live
  rw [h.keys_eq]
  constructor
  · rintro ⟨l, hl, y, hy, hc⟩
    cases hl
    obtain ⟨x, hx, rfl⟩ := List.mem_map.1 hy
    exact ⟨x, hx, hc⟩
  · rintro ⟨x, hx, hc⟩
    exact ⟨_, rfl, d.key x, List.mem_map.2 ⟨x, hx, rfl⟩, hc⟩

/-- Every call of the interface keeps a well-formed dictionary well-formed. -/
theorem WF.apply_op {d : rb_dictionary K V} {t : Tree} (hord : TotalOrderCmp d.compare_cb)
    (h : WF d t) (op : Op K V) :
    ∃ d' t', op.apply d = some d' ∧ WF d' t' ∧ d'.compare_cb = d.compare_cb := by
  cases op with
  | add key data =>
    obtain ⟨r, d', t', e, hwf, -, hc, -⟩ := h.add_spec hord key (some data) (by simp)
    exact ⟨d', t', by simp [Op.apply, e], hwf, hc⟩
  | delete key =>
    obtain ⟨v, d', t', e, hwf, -, -, hc, -⟩ := h.delete_spec hord key
    exact ⟨d', t', by simp [Op.apply, e], hwf, hc⟩
  | find key =>
    obtain ⟨r, d', t', e, hfr, hwf, -⟩ := h.find hord key
    exact ⟨d', t', by simp [Op.apply, e], hwf, by rw [hfr]⟩
  | retrieve key =>
    obtain ⟨r, d', t', e, hfr, hwf, -⟩ := h.find hord key
    refine ⟨d', t', ?_, hwf, by rw [hfr]⟩
    simp only [Op.apply, rb_dictionary_retrieve, e]
    cases r <;> rfl
  | get_linear_index key =>
    obtain ⟨v, d', t', e, hwf, -, hfr, -⟩ := h.get_linear_index hord key
    exact ⟨d', t', by simp [Op.apply, e], hwf, by rw [hfr]⟩

theorem WF.run_ops {d : rb_dictionary K V} {t : Tree} (hord : TotalOrderCmp d.compare_cb)
    (h : WF d t) (ops : List (Op K V)) :
    ∃ d' t', Comet.run ops d = some d' ∧ WF d' t' ∧ d'.compare_cb = d.compare_cb := by
  induction ops generalizing d t with
  | nil => exact ⟨d, t, rfl, h, rfl⟩
  | cons op ops ih =>
    obtain ⟨d1, t1, e, hwf, hc⟩ := h.apply_op hord op
    obtain ⟨d2, t2, e2, hwf2, hc2⟩ := ih (hc ▸ hord) hwf
    exact ⟨d2, t2, by simp [Comet.run, e, e2], hwf2, hc2.trans hc⟩

theorem Reachable.wf [Inhabited K] {cmp : K → K → Int} {d : rb_dictionary K V}
    (hord : TotalOrderCmp cmp) (h : Reachable cmp d) : ∃ t, WF d t ∧ d.compare_cb = cmp := by
  obtain ⟨name, ops, e⟩ := h
  obtain ⟨d', t', e', hwf, hc⟩ := (WF.create (V := V) name cmp).run_ops hord ops
  rw [e] at e'
  cases e'
  exact ⟨t', hwf, hc⟩

/-! ## Facts about the sample dictionary -/

theorem exampleDict_reachable : Reachable intCmp exampleDict :=
  ⟨"example", exampleOps, rfl⟩

theorem exampleDict_live : Live exampleDict 4 :=
  ⟨[1, 3, 4, 5, 8], rfl, 4, by simp, rfl⟩

theorem exampleDict_not_live : ¬ Live exampleDict 7 := by
  rintro ⟨l, hl, x, hx, hc⟩
  have : l = [1, 3, 4, 5, 8] := by
    have h : keys exampleDict = some [1, 3, 4, 5, 8] := rfl
    rw [h] at hl
    exact (Option.some.inj hl).symm
  subst this
  have e : exampleDict.compare_cb = intCmp := rfl
  rw [e] at hc
  simp only [intCmp] at hc
  simp only [List.mem_cons, List.mem_singleton, List.not_mem_nil, or_false] at hx
  omega

/-- In an ascending sequence at most one element compares equal to a given key. -/
theorem sorted_unique {cmp : K → K → Int} {keyOf : Nat → K} (hord : TotalOrderCmp cmp)
    {A B : List Nat} {x : Nat} {k : K} (hs : SortedIds cmp keyOf (A ++ x :: B))
    (hk : cmp k (keyOf x) = 0) : ∀ y ∈ A ++ B, cmp k (keyOf y) ≠ 0 := by
  have hm := sorted_mid hs
  intro y hy h0
  rcases List.mem_append.1 hy with hy | hy
  · have h1 := hm.1 y hy
    have h2 := hord.eq_trans (hord.eq_symm h0) hk
    omega
  · have h1 := hm.2 y hy
    have h2 := hord.eq_trans (hord.eq_symm hk) h0
    omega

/-! ## The claims -/

/-- C1: for every comparator that orders the keys and every finite sequence of calls (adds
and deletes, and also lookups) applied to a freshly created dictionary, the run completes and
walking the linked list from `head` via `next` yields keys in strictly ascending comparator
order: every earlier key is less than every later one, in particular each adjacent pair. -/
theorem C1_list_strictly_ascending [Inhabited K] (cmp : K → K → Int)
    (hord : TotalOrderCmp cmp) (name : String) (ops : List (Op K V)) :
    ∃ d l, run ops (rb_dictionary_create name cmp) = some d ∧ keys d = some l ∧
      l.Pairwise (fun a b => cmp a b < 0) ∧ l.Chain' (fun a b => cmp a b < 0) := by
  obtain ⟨d, t, e, hwf, hc⟩ := (WF.create (V := V) name cmp).run_ops hord ops
  have hs := hwf.sorted
  rw [hc] at hs
  have hp : (t.ids.map d.key).Pairwise (fun a b => cmp a b < 0) := by
    rw [List.pairwise_map]
    exact hs
  exact ⟨d, _, e, hwf.keys_eq, hp, hp.chain'⟩

theorem C1_witness :
    TotalOrderCmp intCmp ∧
    ∃ d l, run exampleOps (rb_dictionary_create "example" intCmp) = some d ∧
      keys d = some l ∧
      l.Pairwise (fun a b => intCmp a b < 0) ∧ l.Chain' (fun a b => intCmp a b < 0) :=
  ⟨intCmp_order, C1_list_strictly_ascending intCmp intCmp_order "example" exampleOps⟩

/-- C4: in every reachable dictionary and for every key `k`, `find(k)` returns no match if and
only if no live key compares equal to `k`, and `retrieve(k)` returns absent in exactly the same
cases; on a freshly created (empty) dictionary `find` returns no match. -/
theorem C4_find_absent_iff_not_live [Inhabited K] (cmp : K → K → Int)
    (hord : TotalOrderCmp cmp) (d : rb_dictionary K V) (hr : Reachable cmp d) (k : K) :
    (∃ r d1 v d2, rb_dictionary_find d k = some (r, d1) ∧
      rb_dictionary_retrieve d k = some (v, d2) ∧
      (r = none ↔ ¬ Live d k) ∧ (v = none ↔ ¬ Live d k)) ∧
    (∀ name : String, ∃ d1,
      rb_dictionary_find (rb_dictionary_create name cmp : rb_dictionary K V) k =
        some (none, d1)) := by
  obtain ⟨t, hwf, hc⟩ := hr.wf hord
  obtain ⟨r, d1, t1, e, hfr, hwf1, hids, hsome, hnone⟩ := hwf.find (hc ▸ hord) k
  have e8 : d1.data = d.data := by rw [hfr]
  refine ⟨?_, fun name => ⟨_, rfl⟩⟩
  cases r with
  | none =>
    have hnl : ¬ Live d k := by
      rw [hwf.live_iff]
      rintro ⟨x, hx, h0⟩
      exact hnone rfl x hx h0
    refine ⟨none, d1, none, d1, e, by simp [rb_dictionary_retrieve, e], ?_, ?_⟩ <;> simp [hnl]
  | some x =>
    obtain ⟨-, hx, h0⟩ := hsome x rfl
    have hl : Live d k := (hwf.live_iff k).2 ⟨x, hx, h0⟩
    have hd : d1.data x ≠ none := by rw [e8]; exact hwf.data x hx
    refine ⟨some x, d1, d1.data x, d1, e, by simp [rb_dictionary_retrieve, e], ?_, ?_⟩
    · simp [hl]
    · simp [hl, hd]

theorem C4_witness :
    TotalOrderCmp intCmp ∧ Reachable intCmp exampleDict ∧
    ((∃ r d1 v d2, rb_dictionary_find exampleDict 7 = some (r, d1) ∧
      rb_dictionary_retrieve exampleDict 7 = some (v, d2) ∧
      (r = none ↔ ¬ Live exampleDict 7) ∧ (v = none ↔ ¬ Live exampleDict 7)) ∧
    (∀ name : String, ∃ d1,
      rb_dictionary_find (rb_dictionary_create name intCmp : rb_dictionary Int Nat) 7 =
        some (none, d1))) :=
  ⟨intCmp_order, exampleDict_reachable,
    C4_find_absent_iff_not_live intCmp intCmp_order exampleDict exampleDict_reachable 7⟩

/-- C5: for every reachable dictionary and every live key `k`, `delete(k)` returns the value
bound to `k` (not `NULL`), decrements the size by one and removes exactly that element: the
ascending `(key, value)` sequence before is `A ++ (k0, v) :: B` with `k0` comparing equal to
`k` and no other entry doing so, and afterwards it is `A ++ B`. -/
theorem C5_delete_live_key [Inhabited K] (cmp : K → K → Int) (hord : TotalOrderCmp cmp)
    (d : rb_dictionary K V) (hr : Reachable cmp d) (k : K) (hl : Live d k) :
    ∃ v d' A B k0, rb_dictionary_delete d k = some (v, d') ∧
      entries d = some (A ++ (k0, v) :: B) ∧ cmp k k0 = 0 ∧ v ≠ none ∧
      (∀ e ∈ A ++ B, cmp k e.1 ≠ 0) ∧
      entries d' = some (A ++ B) ∧
      rb_dictionary_size d' + 1 = rb_dictionary_size d := by
  obtain ⟨t, hwf, hc⟩ := hr.wf hord
  have hord' : TotalOrderCmp d.compare_cb := hc ▸ hord
  obtain ⟨v, d', t', e, hwf', hk, hda, -, -, -, -, hcase⟩ := hwf.delete_spec hord' k
  rcases hcase with ⟨-, habs, -, -⟩ | ⟨A, x, B, hAB, h0, hv, hids', -⟩
  · obtain ⟨x, hx, h0⟩ := (hwf.live_iff k).1 hl
    exact absurd h0 (habs x hx)
  · have hs := hwf.sorted
    rw [hAB] at hs
    have hu := sorted_unique hord' hs h0
    refine ⟨v, d', A.map (fun p => (d.key p, d.data p)), B.map (fun p => (d.key p, d.data p)),
      d.key x, e, ?_, hc ▸ h0, ?_, ?_, ?_, ?_⟩
    · rw [hwf.entries_eq, hAB, hv]; simp
    · rw [hv]; exact hwf.data x (by rw [hAB]; simp)
    · intro en hen
      rw [← List.map_append] at hen
      obtain ⟨y, hy, rfl⟩ := List.mem_map.1 hen
      exact hc ▸ hu y hy
    · rw [hwf'.entries_eq, hids', hk, hda]; simp
    · simp only [rb_dictionary_size, hwf.count, hwf'.count, hAB, hids', List.length_append,
        List.length_cons]
      omega

theorem C5_witness :
    TotalOrderCmp intCmp ∧ Reachable intCmp exampleDict ∧ Live exampleDict 4 ∧
    ∃ v d' A B k0, rb_dictionary_delete exampleDict 4 = some (v, d') ∧
      entries exampleDict = some (A ++ (k0, v) :: B) ∧ intCmp 4 k0 = 0 ∧ v ≠ none ∧
      (∀ e ∈ A ++ B, intCmp 4 e.1 ≠ 0) ∧
      entries d' = some (A ++ B) ∧
      rb_dictionary_size d' + 1 = rb_dictionary_size exampleDict :=
  ⟨intCmp_order, exampleDict_reachable, exampleDict_live,
    C5_delete_live_key intCmp intCmp_order exampleDict exampleDict_reachable 4
      exampleDict_live⟩

/-- C6: for every reachable dictionary and every key `k` that is not live, `delete(k)` returns
absent and leaves the size, the ascending `(key, value)` sequence, `head`, `tail` and the
dirty flag unchanged; only the child maps and the root pointer may differ. -/
theorem C6_delete_absent_key [Inhabited K] (cmp : K → K → Int) (hord : TotalOrderCmp cmp)
    (d : rb_dictionary K V) (hr : Reachable cmp d) (k : K) (hl : ¬ Live d k) :
    ∃ d', rb_dictionary_delete d k = some (none, d') ∧
      rb_dictionary_size d' = rb_dictionary_size d ∧ entries d' = entries d ∧
      d'.head = d.head ∧ d'.tail = d.tail ∧ d'.dirty = d.dirty ∧
      d' = { d with left := d'.left, right := d'.right, root := d'.root } := by
  obtain ⟨t, hwf, hc⟩ := hr.wf hord
  have hord' : TotalOrderCmp d.compare_cb := hc ▸ hord
  obtain ⟨v, d', t', e, hwf', hk, hda, -, -, -, -, hcase⟩ := hwf.delete_spec hord' k
  rcases hcase with ⟨rfl, -, hids, hfr⟩ | ⟨A, x, B, hAB, h0, -, -, -⟩
  · refine ⟨d', e, by rw [hfr]; rfl, ?_, by rw [hfr], by rw [hfr], by rw [hfr], hfr⟩
    rw [hwf.entries_eq, hwf'.entries_eq, hids, hk, hda]
  · exact absurd ((hwf.live_iff k).2 ⟨x, by rw [hAB]; simp, h0⟩) hl

theorem C6_witness :
    TotalOrderCmp intCmp ∧ Reachable intCmp exampleDict ∧ ¬ Live exampleDict 7 ∧
    ∃ d', rb_dictionary_delete exampleDict 7 = some (none, d') ∧
      rb_dictionary_size d' = rb_dictionary_size exampleDict ∧
      entries d' = entries exampleDict ∧
      d'.head = exampleDict.head ∧ d'.tail = exampleDict.tail ∧
      d'.dirty = exampleDict.dirty ∧
      d' = { exampleDict with left := d'.left, right := d'.right, root := d'.root } :=
  ⟨intCmp_order, exampleDict_reachable, exampleDict_not_live,
    C6_delete_absent_key intCmp intCmp_order exampleDict exampleDict_reachable 7
      exampleDict_not_live⟩

/-- C7: for every reachable dictionary and every live key `k`, after `delete(k)` a `find(k)`
returns absent. -/
theorem C7_find_after_delete [Inhabited K] (cmp : K → K → Int) (hord : TotalOrderCmp cmp)
    (d : rb_dictionary K V) (hr : Reachable cmp d) (k : K) (hl : Live d k) :
    ∃ v d1 d2, rb_dictionary_delete d k = some (v, d1) ∧
      rb_dictionary_find d1 k = some (none, d2) := by
  obtain ⟨t, hwf, hc⟩ := hr.wf hord
  have hord' : TotalOrderCmp d.compare_cb := hc ▸ hord
  obtain ⟨v, d', t', e, hwf', hk, hda, hc', -, -, -, hcase⟩ := hwf.delete_spec hord' k
  rcases hcase with ⟨-, habs, -, -⟩ | ⟨A, x, B, hAB, h0, hv, hids', -⟩
  · obtain ⟨x, hx, h0⟩ := (hwf.live_iff k).1 hl
    exact absurd h0 (habs x hx)
  · have hs := hwf.sorted
    rw [hAB] at hs
    have hu := sorted_unique hord' hs h0
    obtain ⟨r, d2, t2, e2, -, -, -, hsome, -⟩ := hwf'.find (hc' ▸ hord') k
    cases r with
    | none => exact ⟨v, d', d2, e, e2⟩
    | some y =>
      obtain ⟨-, hy, h0'⟩ := hsome y rfl
      rw [hids'] at hy
      rw [hc', hk] at h0'
      exact absurd h0' (hu y hy)

theorem C7_witness :
    TotalOrderCmp intCmp ∧ Reachable intCmp exampleDict ∧ Live exampleDict 4 ∧
    ∃ v d1 d2, rb_dictionary_delete exampleDict 4 = some (v, d1) ∧
      rb_dictionary_find d1 4 = some (none, d2) :=
  ⟨intCmp_order, exampleDict_reachable, exampleDict_live,
    C7_find_after_delete intCmp intCmp_order exampleDict exampleDict_reachable 4
      exampleDict_live⟩

/-- In an ascending sequence the rank of a key is the number of elements before the one that
compares equal to it. -/
theorem rank_eq {cmp : K → K → Int} {keyOf : Nat → K} (hord : TotalOrderCmp cmp)
    {A B : List Nat} {x : Nat} {k : K} (hs : SortedIds cmp keyOf (A ++ x :: B))
    (hk : cmp k (keyOf x) = 0) : rankOf cmp ((A ++ x :: B).map keyOf) k = A.length := by
  have hm := sorted_mid hs
  have hxk := hord.eq_symm hk
  unfold rankOf
  rw [List.map_append, List.filter_append, List.map_cons, List.filter_cons]
  have h1 : (A.map keyOf).filter (fun y => decide (cmp y k < 0)) = A.map keyOf := by
    rw [List.filter_eq_self]
    intro y hy
    obtain ⟨a, ha, rfl⟩ := List.mem_map.1 hy
    simpa using hord.lt_eq (hm.1 a ha) hxk
  have h2 : (B.map keyOf).filter (fun y => decide (cmp y k < 0)) = [] := by
    rw [List.filter_eq_nil_iff]
    intro y hy
    obtain ⟨b, hb, rfl⟩ := List.mem_map.1 hy
    have := hord.not_lt_of_lt (hord.eq_lt _ _ _ hk (hm.2 b hb))
    simpa using this
  rw [h1, h2]
  have h3 : ¬ cmp (keyOf x) k < 0 := by omega
  simp [h3]

theorem exampleDictAdded_live : Live exampleDictAdded 7 :=
  ⟨[1, 3, 4, 5, 7, 8], rfl, 7, by simp, rfl⟩

/-- C9 (dirty path): for every reachable dictionary whose last call was an add or a delete of
a live key, the dirty flag is set, and for every live key `k`, `get_linear_index(k)` returns
the number of live keys strictly less than `k` and leaves the dirty flag clear. -/
theorem C9_linear_index_dirty_path [Inhabited K] (cmp : K → K → Int)
    (hord : TotalOrderCmp cmp) (d0 : rb_dictionary K V) (hr : Reachable cmp d0) (op : Op K V)
    (hop : (∃ k0 v0, op = .add k0 v0) ∨ (∃ k0, op = .delete k0 ∧ Live d0 k0))
    (d : rb_dictionary K V) (hd : op.apply d0 = some d) (k : K) (hl : Live d k) :
    ∃ l d', keys d = some l ∧ d.dirty = true ∧
      rb_dictionary_get_linear_index d k = some ((rankOf cmp l k : Int), d') ∧
      d'.dirty = false := by
  obtain ⟨t0, hwf0, hc0⟩ := hr.wf hord
  have hord0 : TotalOrderCmp d0.compare_cb := hc0 ▸ hord
  have hstep : ∃ t, WF d t ∧ d.compare_cb = cmp ∧ d.dirty = true := by
    rcases hop with ⟨k0, v0, rfl⟩ | ⟨k0, rfl, hl0⟩
    · obtain ⟨r, d', t', e, hwf, hdirty, hc, -⟩ := hwf0.add_spec hord0 k0 (some v0) (by simp)
      simp only [Op.apply, e, Option.map_some', Option.some.injEq] at hd
      subst hd
      exact ⟨t', hwf, hc.trans hc0, hdirty⟩
    · obtain ⟨v, d', t', e, hwf, -, -, hc, -, -, -, hcase⟩ := hwf0.delete_spec hord0 k0
      simp only [Op.apply, e, Option.map_some', Option.some.injEq] at hd
      subst hd
      rcases hcase with ⟨-, habs, -, -⟩ | ⟨A, x, B, -, -, -, -, hdirty⟩
      · obtain ⟨x, hx, h0⟩ := (hwf0.live_iff k0).1 hl0
        exact absurd h0 (habs x hx)
      · exact ⟨t', hwf, hc.trans hc0, hdirty⟩
  obtain ⟨t, hwf, hc, hdirty⟩ := hstep
  have hord' : TotalOrderCmp d.compare_cb := hc ▸ hord
  obtain ⟨v, d', t', e, -, -, -, hcase⟩ := hwf.get_linear_index hord' k
  rcases hcase with ⟨-, habs, -, -⟩ | ⟨A, x, B, hAB, h0, hv, hdf, -⟩
  · obtain ⟨x, hx, h0⟩ := (hwf.live_iff k).1 hl
    exact absurd h0 (habs x hx)
  · have hs := hwf.sorted
    rw [hAB] at hs
    have hrk := rank_eq hord' hs h0
    rw [hc] at hrk
    refine ⟨_, d', hwf.keys_eq, hdirty, ?_, hdf⟩
    rw [e, hv, hAB, hrk]

theorem C9_witness :
    TotalOrderCmp intCmp ∧ Reachable intCmp exampleDict ∧
    ((∃ k0 v0, (Op.add 7 70 : Op Int Nat) = .add k0 v0) ∨
      (∃ k0, (Op.add 7 70 : Op Int Nat) = .delete k0 ∧ Live exampleDict k0)) ∧
    (Op.add 7 70).apply exampleDict = some exampleDictAdded ∧ Live exampleDictAdded 7 ∧
    ∃ l d', keys exampleDictAdded = some l ∧ exampleDictAdded.dirty = true ∧
      rb_dictionary_get_linear_index exampleDictAdded 7 = some ((rankOf intCmp l 7 : Int), d') ∧
      d'.dirty = false :=
  ⟨intCmp_order, exampleDict_reachable, Or.inl ⟨7, 70, rfl⟩, rfl, exampleDictAdded_live,
    C9_linear_index_dirty_path intCmp intCmp_order exampleDict exampleDict_reachable
      (.add 7 70) (Or.inl ⟨7, 70, rfl⟩) exampleDictAdded rfl 7 exampleDictAdded_live⟩

/-- A lookup on a well-formed dictionary with a clear dirty flag keeps both, and keeps the
cached positions. -/
theorem WF.apply_query {d : rb_dictionary K V} {t : Tree}
    (hord : TotalOrderCmp d.compare_cb) (h : WF d t) (hd : d.dirty = false) (q : Op K V)
    (hq : q.isQuery = true) :
    ∃ d' t', q.apply d = some d' ∧ WF d' t' ∧ d'.compare_cb = d.compare_cb ∧
      d'.dirty = false ∧ d'.position = d.position := by
  cases q with
  | add key data => simp [Op.isQuery] at hq
  | delete key => simp [Op.isQuery] at hq
  | find key =>
    obtain ⟨r, d', t', e, hfr, hwf, -⟩ := h.find hord key
    exact ⟨d', t', by simp [Op.apply, e], hwf, by rw [hfr], by rw [hfr]; exact hd, by rw [hfr]⟩
  | retrieve key =>
    obtain ⟨r, d', t', e, hfr, hwf, -⟩ := h.find hord key
    refine ⟨d', t', ?_, hwf, by rw [hfr], by rw [hfr]; exact hd, by rw [hfr]⟩
    simp only [Op.apply, rb_dictionary_retrieve, e]
    cases r <;> rfl
  | get_linear_index key =>
    obtain ⟨v, d', t', e, hwf, -, hfr, hcase⟩ := h.get_linear_index hord key
    refine ⟨d', t', by simp [Op.apply, e], hwf, by rw [hfr], ?_, ?_⟩
    · rcases hcase with ⟨-, -, h1, -⟩ | ⟨A, x, B, -, -, -, h1, -⟩
      · rw [h1, hd]
      · exact h1
    · rcases hcase with ⟨-, -, -, h1⟩ | ⟨A, x, B, -, -, -, -, h1⟩
      · exact h1
      · exact h1 hd

theorem WF.run_queries {d : rb_dictionary K V} {t : Tree}
    (hord : TotalOrderCmp d.compare_cb) (h : WF d t) (hd : d.dirty = false)
    (qs : List (Op K V)) (hq : ∀ q ∈ qs, q.isQuery = true) :
    ∃ d' t', Comet.run qs d = some d' ∧ WF d' t' ∧ d'.compare_cb = d.compare_cb ∧
      d'.dirty = false := by
  induction qs generalizing d t with
  | nil => exact ⟨d, t, rfl, h, rfl, hd⟩
  | cons q qs ih =>
    obtain ⟨d1, t1, e, hwf, hc, hd1, -⟩ := h.apply_query hord hd q (hq q (by simp))
    obtain ⟨d2, t2, e2, hwf2, hc2, hd2⟩ :=
      ih (hc ▸ hord) hwf hd1 (fun q' hq' => hq q' (List.mem_cons_of_mem _ hq'))
    exact ⟨d2, t2, by simp [Comet.run, e, e2], hwf2, hc2.trans hc, hd2⟩

theorem exampleDict_index :
    rb_dictionary_get_linear_index exampleDict 4 = some (2, exampleDictIndexed) := rfl

/-- C10 (cached path): once a `get_linear_index` call on a live key has returned, after any
number of subsequent `find`, `retrieve` or `get_linear_index` calls on arbitrary keys the
dirty flag is still clear, and for every live key `k` the call `get_linear_index(k)` returns
the cached position of the element found, which is the number of live keys strictly less than
`k`; the call rewrites no position and leaves the flag clear. -/
theorem C10_linear_index_cached_path [Inhabited K] (cmp : K → K → Int)
    (hord : TotalOrderCmp cmp) (d0 : rb_dictionary K V) (hr : Reachable cmp d0) (k0 : K)
    (hl0 : Live d0 k0) (v0 : Int) (d1 : rb_dictionary K V)
    (h1 : rb_dictionary_get_linear_index d0 k0 = some (v0, d1)) (qs : List (Op K V))
    (hq : ∀ q ∈ qs, q.isQuery = true) :
    ∃ d2 l, run qs d1 = some d2 ∧ keys d2 = some l ∧ d2.dirty = false ∧
      ∀ k, Live d2 k →
        ∃ e d3 d4, rb_dictionary_find d2 k = some (some e, d3) ∧
          rb_dictionary_get_linear_index d2 k = some (d2.position e, d4) ∧
          d2.position e = (rankOf cmp l k : Int) ∧
          d4.position = d2.position ∧ d4.dirty = false := by
  obtain ⟨t0, hwf0, hc0⟩ := hr.wf hord
  have hord0 : TotalOrderCmp d0.compare_cb := hc0 ▸ hord
  obtain ⟨v, d1', t1, e, hwf1, -, hfr1, hcase⟩ := hwf0.get_linear_index hord0 k0
  rw [h1] at e
  simp only [Option.some.injEq, Prod.mk.injEq] at e
  obtain ⟨rfl, rfl⟩ := e
  have hc1 : d1.compare_cb = cmp := by rw [hfr1]; exact hc0
  have hd1 : d1.dirty = false := by
    rcases hcase with ⟨-, habs, -, -⟩ | ⟨A, x, B, -, -, -, hdf, -⟩
    · obtain ⟨x, hx, h0⟩ := (hwf0.live_iff k0).1 hl0
      exact absurd h0 (habs x hx)
    · exact hdf
  obtain ⟨d2, t2, e2, hwf2, hc2, hd2⟩ := hwf1.run_queries (hc1 ▸ hord) hd1 qs hq
  have hc2' : d2.compare_cb = cmp := hc2.trans hc1
  have hord2 : TotalOrderCmp d2.compare_cb := hc2' ▸ hord
  refine ⟨d2, _, e2, hwf2.keys_eq, hd2, ?_⟩
  intro k hl
  obtain ⟨r, d3, t3, e3, hfr3, -, -, hsome, hnone⟩ := hwf2.find hord2 k
  cases r with
  | none =>
    obtain ⟨x, hx, h0⟩ := (hwf2.live_iff k).1 hl
    exact absurd h0 (hnone rfl x hx)
  | some x =>
    obtain ⟨-, hx, h0⟩ := hsome x rfl
    obtain ⟨A, B, hAB⟩ := List.append_of_mem hx
    have hs := hwf2.sorted
    rw [hAB] at hs
    have hrk := rank_eq hord2 hs h0
    rw [hc2'] at hrk
    have hpos := hwf2.pos hd2 A x B hAB
    have hd3 : d3.dirty = false := by rw [hfr3]; exact hd2
    have hp3 : d3.position = d2.position := by rw [hfr3]
    refine ⟨x, d3, d3, e3, ?_, ?_, hp3, hd3⟩
    · simp [rb_dictionary_get_linear_index, e3, hd3, hp3]
    · rw [hpos, hAB, hrk]

theorem C10_witness :
    TotalOrderCmp intCmp ∧ Reachable intCmp exampleDict ∧ Live exampleDict 4 ∧
    rb_dictionary_get_linear_index exampleDict 4 = some (2, exampleDictIndexed) ∧
    (∀ q ∈ exampleQueries, q.isQuery = true) ∧
    ∃ d2 l, run exampleQueries exampleDictIndexed = some d2 ∧ keys d2 = some l ∧
      d2.dirty = false ∧
      ∀ k, Live d2 k →
        ∃ e d3 d4, rb_dictionary_find d2 k = some (some e, d3) ∧
          rb_dictionary_get_linear_index d2 k = some (d2.position e, d4) ∧
          d2.position e = (rankOf intCmp l k : Int) ∧
          d4.position = d2.position ∧ d4.dirty = false :=
  ⟨intCmp_order, exampleDict_reachable, exampleDict_live, exampleDict_index, by decide,
    C10_linear_index_cached_path intCmp intCmp_order exampleDict exampleDict_reachable 4
      exampleDict_live 2 exampleDictIndexed exampleDict_index exampleQueries (by decide)⟩

/-! ## The calls at the level of the `(key, data)` sequence -/

theorem WF.sortedEntries {d : rb_dictionary K V} {t : Tree} (h : WF d t) :
    SortedEntries d.compare_cb (t.ids.map (fun p => (d.key p, d.data p))) := by
  unfold SortedEntries
  rw [List.pairwise_map]
  exact h.sorted

theorem sortedEntries_unique {cmp : K → K → Int} (hord : TotalOrderCmp cmp)
    {A B : List (K × Option V)} {e : K × Option V} {k : K}
    (hs : SortedEntries cmp (A ++ e :: B)) (hk : cmp k e.1 = 0) :
    ∀ y ∈ A ++ B, cmp k y.1 ≠ 0 := by
  unfold SortedEntries at hs
  rw [List.pairwise_append, List.pairwise_cons] at hs
  obtain ⟨-, ⟨hB, -⟩, hAB⟩ := hs
  intro y hy h0
  rcases List.mem_append.1 hy with hy | hy
  · have h1 := hAB y hy e (List.mem_cons_self _ _)
    have h2 := hord.eq_trans (hord.eq_symm h0) hk
    omega
  · have h1 := hB y hy
    have h2 := hord.eq_trans (hord.eq_symm hk) h0
    omega

/-- `rb_dictionary_add` seen on the `(key, data)` sequence: the new entry stands at its
ordered place, either as one more entry or in place of the entry with an equal key. -/
theorem WF.add_entries {d : rb_dictionary K V} {t : Tree} (hord : TotalOrderCmp d.compare_cb)
    (h : WF d t) (k : K) (v : V) :
    ∃ r d' t' A B, rb_dictionary_add d k (some v) = some (r, d') ∧ WF d' t' ∧
      d'.compare_cb = d.compare_cb ∧ d'.dirty = true ∧
      entries d' = some (A ++ (k, some v) :: B) ∧
      SortedEntries d.compare_cb (A ++ (k, some v) :: B) ∧
      ((entries d = some (A ++ B) ∧ d'.count = d.count + 1) ∨
        (∃ k0 v0, entries d = some (A ++ (k0, v0) :: B) ∧ d.compare_cb k k0 = 0 ∧
          d'.count = d.count)) := by
  obtain ⟨r, d', t', e, hwf', hdirty, hc, -, -, hkr, hdr, hcase⟩ :=
    h.add_spec hord k (some v) (by simp)
  have hse := hwf'.sortedEntries
  rw [hc] at hse
  rcases hcase with ⟨-, hr, hsame, A, B, hAB, hAB'⟩ | ⟨hr, h0, hids, hsame⟩
  · have hA : ∀ p ∈ A, (d'.key p, d'.data p) = (d.key p, d.data p) := by
      intro p hp
      have := hsame p (by rw [hAB]; simp [hp])
      rw [this.1, this.2]
    have hB : ∀ p ∈ B, (d'.key p, d'.data p) = (d.key p, d.data p) := by
      intro p hp
      have := hsame p (by rw [hAB]; simp [hp])
      rw [this.1, this.2]
    have e' : t'.ids.map (fun p => (d'.key p, d'.data p)) =
        A.map (fun p => (d.key p, d.data p)) ++ (k, some v) ::
          B.map (fun p => (d.key p, d.data p)) := by
      rw [hAB', List.map_append, List.map_cons, hkr, hdr, List.map_congr_left hA,
        List.map_congr_left hB]
    rw [e'] at hse
    refine ⟨r, d', t', _, _, e, hwf', hc, hdirty, by rw [hwf'.entries_eq, e'], hse, Or.inl
      ⟨by rw [h.entries_eq, hAB, List.map_append], ?_⟩⟩
    rw [hwf'.count, h.count, hAB', hAB]
    simp only [List.length_append, List.length_cons]
    omega
  · obtain ⟨A, B, hAB⟩ := List.append_of_mem hr
    have hnd := h.nodup
    rw [hAB] at hnd
    have hrn := nodup_mid hnd
    have hA : ∀ p ∈ A, (d'.key p, d'.data p) = (d.key p, d.data p) := by
      intro p hp
      have := hsame p (by rw [hAB]; simp [hp]) (fun e => hrn.1 (e ▸ hp))
      rw [this.1, this.2]
    have hB : ∀ p ∈ B, (d'.key p, d'.data p) = (d.key p, d.data p) := by
      intro p hp
      have := hsame p (by rw [hAB]; simp [hp]) (fun e => hrn.2 (e ▸ hp))
      rw [this.1, this.2]
    have e' : t'.ids.map (fun p => (d'.key p, d'.data p)) =
        A.map (fun p => (d.key p, d.data p)) ++ (k, some v) ::
          B.map (fun p => (d.key p, d.data p)) := by
      rw [hids, hAB, List.map_append, List.map_cons, hkr, hdr, List.map_congr_left hA,
        List.map_congr_left hB]
    rw [e'] at hse
    refine ⟨r, d', t', _, _, e, hwf', hc, hdirty, by rw [hwf'.entries_eq, e'], hse, Or.inr
      ⟨d.key r, d.data r, by rw [h.entries_eq, hAB, List.map_append, List.map_cons], h0, ?_⟩⟩
    rw [hwf'.count, h.count, hids]

/-- `rb_dictionary_delete` seen on the `(key, data)` sequence. -/
theorem WF.delete_entries {d : rb_dictionary K V} {t : Tree}
    (hord : TotalOrderCmp d.compare_cb) (h : WF d t) (k : K) :
    ∃ v d' t' es, rb_dictionary_delete d k = some (v, d') ∧ WF d' t' ∧
      d'.compare_cb = d.compare_cb ∧ entries d = some es ∧
      SortedEntries d.compare_cb es ∧
      ((v = none ∧ entries d' = some es ∧ (∀ e ∈ es, d.compare_cb k e.1 ≠ 0) ∧
          d'.count = d.count) ∨
        (∃ A B k0, es = A ++ (k0, v) :: B ∧ d.compare_cb k k0 = 0 ∧ v ≠ none ∧
          entries d' = some (A ++ B) ∧ d'.count + 1 = d.count)) := by
  obtain ⟨v, d', t', e, hwf', hk, hda, hc, -, -, -, hcase⟩ := h.delete_spec hord k
  refine ⟨v, d', t', _, e, hwf', hc, h.entries_eq, h.sortedEntries, ?_⟩
  rcases hcase with ⟨rfl, habs, hids, hfr⟩ | ⟨A, x, B, hAB, h0, hv, hids', -⟩
  · refine Or.inl ⟨rfl, by rw [hwf'.entries_eq, hids, hk, hda], ?_, ?_⟩
    · intro en hen
      obtain ⟨y, hy, rfl⟩ := List.mem_map.1 hen
      exact habs y hy
    · rw [hfr]
  · refine Or.inr ⟨A.map (fun p => (d.key p, d.data p)), B.map (fun p => (d.key p, d.data p)),
      d.key x, by rw [hAB, hv]; simp, h0, ?_, by rw [hwf'.entries_eq, hids', hk, hda]; simp, ?_⟩
    · rw [hv]; exact h.data x (by rw [hAB]; simp)
    · rw [hwf'.count, h.count, hAB, hids']
      simp only [List.length_append, List.length_cons]
      omega

/-- Lookups leave the `(key, data)` sequence and the count alone. -/
theorem WF.query_entries {d : rb_dictionary K V} {t : Tree}
    (hord : TotalOrderCmp d.compare_cb) (h : WF d t) (q : Op K V) (hq : q.isQuery = true) :
    ∃ d' t', q.apply d = some d' ∧ WF d' t' ∧ d'.compare_cb = d.compare_cb ∧
      entries d' = entries d ∧ d'.count = d.count := by
  have key : ∀ (d' : rb_dictionary K V) (t' : Tree), WF d' t' → t'.ids = t.ids →
      d'.key = d.key → d'.data = d.data → entries d' = entries d := by
    intro d' t' hwf' hids hk hda
    rw [hwf'.entries_eq, h.entries_eq, hids, hk, hda]
  cases q with
  | add key data => simp [Op.isQuery] at hq
  | delete key => simp [Op.isQuery] at hq
  | find k =>
    obtain ⟨r, d', t', e, hfr, hwf, hids, -⟩ := h.find hord k
    exact ⟨d', t', by simp [Op.apply, e], hwf, by rw [hfr],
      key d' t' hwf hids (by rw [hfr]) (by rw [hfr]), by rw [hfr]⟩
  | retrieve k =>
    obtain ⟨r, d', t', e, hfr, hwf, hids, -⟩ := h.find hord k
    refine ⟨d', t', ?_, hwf, by rw [hfr],
      key d' t' hwf hids (by rw [hfr]) (by rw [hfr]), by rw [hfr]⟩
    simp only [Op.apply, rb_dictionary_retrieve, e]
    cases r <;> rfl
  | get_linear_index k =>
    obtain ⟨v, d', t', e, hwf, hids, hfr, -⟩ := h.get_linear_index hord k
    exact ⟨d', t', by simp [Op.apply, e], hwf, by rw [hfr],
      key d' t' hwf hids (by rw [hfr]) (by rw [hfr]), by rw [hfr]⟩

theorem WF.entries_data {d : rb_dictionary K V} {t : Tree} (h : WF d t)
    {es : List (K × Option V)} (he : entries d = some es) : ∀ e ∈ es, e.2 ≠ none := by
  rw [h.entries_eq] at he
  cases he
  intro e hen
  obtain ⟨y, hy, rfl⟩ := List.mem_map.1 hen
  exact h.data y hy

/-! ## Histories and dictionaries -/

theorem Bound.add_op {cmp : K → K → Int} (hord : TotalOrderCmp cmp) {done : List (Op K V)}
    {es A B : List (K × Option V)} {k : K} {v : V} (hb : Bound cmp done es)
    (hu : ∀ e ∈ A ++ B, cmp k e.1 ≠ 0)
    (hsame : ∀ e, cmp k e.1 ≠ 0 → (e ∈ es ↔ e ∈ A ++ B)) :
    Bound cmp (.add k v :: done) (A ++ (k, some v) :: B) := by
  intro k' v'
  simp only [lastAddedRev]
  by_cases hk : cmp k' k = 0
  · rw [if_pos hk]
    constructor
    · intro h
      cases h
      exact ⟨(k, some v), by simp, hk, rfl⟩
    · rintro ⟨e, he, h0, hv⟩
      simp only [List.mem_append, List.mem_cons] at he
      have hke : cmp k e.1 = 0 := hord.eq_trans (hord.eq_symm hk) h0
      rcases he with he | rfl | he
      · exact absurd hke (hu e (List.mem_append_left _ he))
      · simpa using hv
      · exact absurd hke (hu e (List.mem_append_right _ he))
  · rw [if_neg hk, hb k' v']
    have hne : ∀ e : K × Option V, cmp k' e.1 = 0 → cmp k e.1 ≠ 0 := by
      intro e h0 hke
      exact hk (hord.eq_trans h0 (hord.eq_symm hke))
    constructor
    · rintro ⟨e, he, h0, hv⟩
      have := (hsame e (hne e h0)).1 he
      refine ⟨e, ?_, h0, hv⟩
      simp only [List.mem_append, List.mem_cons] at this ⊢
      tauto
    · rintro ⟨e, he, h0, hv⟩
      refine ⟨e, (hsame e (hne e h0)).2 ?_, h0, hv⟩
      simp only [List.mem_append, List.mem_cons] at he ⊢
      rcases he with he | rfl | he
      · exact Or.inl he
      · exact absurd (hord.eq_symm h0) (fun h => hk (hord.eq_symm h))
      · exact Or.inr he

theorem Bound.delete_op {cmp : K → K → Int} (hord : TotalOrderCmp cmp) {done : List (Op K V)}
    {es es' : List (K × Option V)} {k : K} (hb : Bound cmp done es)
    (hu : ∀ e ∈ es', cmp k e.1 ≠ 0)
    (hsame : ∀ e, cmp k e.1 ≠ 0 → (e ∈ es ↔ e ∈ es')) :
    Bound cmp (.delete k :: done) es' := by
  intro k' v'
  simp only [lastAddedRev]
  by_cases hk : cmp k' k = 0
  · rw [if_pos hk]
    constructor
    · intro h
      cases h
    · rintro ⟨e, he, h0, -⟩
      exact absurd (hord.eq_trans (hord.eq_symm hk) h0) (hu e he)
  · rw [if_neg hk, hb k' v']
    have hne : ∀ e : K × Option V, cmp k' e.1 = 0 → cmp k e.1 ≠ 0 := by
      intro e h0 hke
      exact hk (hord.eq_trans h0 (hord.eq_symm hke))
    constructor
    · rintro ⟨e, he, h0, hv⟩
      exact ⟨e, (hsame e (hne e h0)).1 he, h0, hv⟩
    · rintro ⟨e, he, h0, hv⟩
      exact ⟨e, (hsame e (hne e h0)).2 he, h0, hv⟩

theorem Bound.query {cmp : K → K → Int} {done : List (Op K V)} {es : List (K × Option V)}
    (hb : Bound cmp done es) (q : Op K V) (hq : q.isQuery = true) :
    Bound cmp (q :: done) es := by
  intro k' v'
  cases q with
  | add key data => simp [Op.isQuery] at hq
  | delete key => simp [Op.isQuery] at hq
  | find k => simpa [lastAddedRev] using hb k' v'
  | retrieve k => simpa [lastAddedRev] using hb k' v'
  | get_linear_index k => simpa [lastAddedRev] using hb k' v'

/-- One call keeps history and dictionary in agreement; a fresh add raises the count by one,
a delete of a live key lowers it by one, a lookup keeps it. -/
theorem Bound.step {cmp : K → K → Int} (hord : TotalOrderCmp cmp) {done : List (Op K V)}
    {d : rb_dictionary K V} {t : Tree} {es : List (K × Option V)} (hwf : WF d t)
    (hc : d.compare_cb = cmp) (he : entries d = some es) (hb : Bound cmp done es)
    (op : Op K V) :
    ∃ d' t' es', op.apply d = some d' ∧ WF d' t' ∧ d'.compare_cb = cmp ∧
      entries d' = some es' ∧ Bound cmp (op :: done) es' ∧
      (∀ k v, op = .add k v → lastAddedRev cmp k done = none → d'.count = d.count + 1) ∧
      (∀ k, op = .delete k → lastAddedRev cmp k done ≠ none → d'.count + 1 = d.count) ∧
      (op.isQuery = true → d'.count = d.count) := by
  have hord' : TotalOrderCmp d.compare_cb := hc ▸ hord
  by_cases hq : op.isQuery = true
  · obtain ⟨d', t', e, hwf', hc', he', hcnt⟩ := hwf.query_entries hord' op hq
    refine ⟨d', t', es, e, hwf', hc'.trans hc, he'.trans he, hb.query op hq, ?_, ?_,
      fun _ => hcnt⟩
    · rintro k v rfl; simp [Op.isQuery] at hq
    · rintro k rfl; simp [Op.isQuery] at hq
  · cases op with
    | find k => simp [Op.isQuery] at hq
    | retrieve k => simp [Op.isQuery] at hq
    | get_linear_index k => simp [Op.isQuery] at hq
    | add k v =>
      obtain ⟨r, d', t', A, B, e, hwf', hc', -, he', hs, hcase⟩ := hwf.add_entries hord' k v
      rw [hc] at hs hcase
      have hu := sortedEntries_unique hord hs (hord.self_eq k)
      refine ⟨d', t', _, by simp [Op.apply, e], hwf', hc'.trans hc, he', ?_, ?_, ?_, ?_⟩
      · rcases hcase with ⟨he0, -⟩ | ⟨k0, v0, he0, h0, -⟩
        · rw [he] at he0
          cases he0
          exact hb.add_op hord hu (fun _ _ => Iff.rfl)
        · rw [he] at he0
          cases he0
          refine hb.add_op hord hu ?_
          intro en hen
          simp only [List.mem_append, List.mem_cons]
          constructor
          · rintro (h | rfl | h)
            · exact Or.inl h
            · exact absurd h0 hen
            · exact Or.inr h
          · rintro (h | h)
            · exact Or.inl h
            · exact Or.inr (Or.inr h)
      · intro k' v' hop hnone
        cases hop
        rcases hcase with ⟨-, hcnt⟩ | ⟨k0, v0, he0, h0, -⟩
        · exact hcnt
        · rw [he] at he0
          cases he0
          have hv0 := hwf.entries_data he (k0, v0) (by simp)
          obtain ⟨w, hw⟩ := Option.ne_none_iff_exists'.1 hv0
          have := (hb k w).2 ⟨(k0, v0), by simp, h0, hw⟩
          rw [hnone] at this
          cases this
      · intro k' hop
        cases hop
      · intro h
        exact absurd h hq
    | delete k =>
      obtain ⟨v, d', t', es0, e, hwf', hc', he0, hs, hcase⟩ := hwf.delete_entries hord' k
      rw [he] at he0
      cases he0
      rw [hc] at hs hcase
      rcases hcase with ⟨-, he', habs, hcnt⟩ | ⟨A, B, k0, rfl, h0, hv, he', hcnt⟩
      · refine ⟨d', t', es, by simp [Op.apply, e], hwf', hc'.trans hc, he',
          hb.delete_op hord habs (fun _ _ => Iff.rfl), ?_, ?_, fun h => absurd h hq⟩
        · intro k' v' hop
          cases hop
        · intro k' hop hlive
          cases hop
          obtain ⟨w, hw⟩ := Option.ne_none_iff_exists'.1 hlive
          obtain ⟨en, hen, hen0, -⟩ := (hb k w).1 hw
          exact absurd hen0 (habs en hen)
      · have hu := sortedEntries_unique hord hs h0
        refine ⟨d', t', A ++ B, by simp [Op.apply, e], hwf', hc'.trans hc, he',
          hb.delete_op hord hu ?_, ?_, fun _ _ _ => hcnt, fun h => absurd h hq⟩
        · intro en hen
          simp only [List.mem_append, List.mem_cons]
          constructor
          · rintro (h | rfl | h)
            · exact Or.inl h
            · exact absurd h0 hen
            · exact Or.inr h
          · rintro (h | h)
            · exact Or.inl h
            · exact Or.inr (Or.inr h)
        · intro k' v' hop
          cases hop

/-- A run keeps history and dictionary in agreement, and when every add is fresh and every
delete hits a live key the count moves by adds minus deletes. -/
theorem Bound.run_all {cmp : K → K → Int} (hord : TotalOrderCmp cmp) :
    ∀ (ops done : List (Op K V)) (d : rb_dictionary K V) (t : Tree)
      (es : List (K × Option V)), WF d t → d.compare_cb = cmp → entries d = some es →
      Bound cmp done es →
      ∃ d' t' es', run ops d = some d' ∧ WF d' t' ∧ d'.compare_cb = cmp ∧
        entries d' = some es' ∧ Bound cmp (ops.reverse ++ done) es' ∧
        (addsFresh cmp done ops = true → deletesLive cmp done ops = true →
          d'.count + numDeletes ops = d.count + numAdds ops) := by
  intro ops
  induction ops with
  | nil =>
    intro done d t es hwf hc he hb
    exact ⟨d, t, es, rfl, hwf, hc, he, by simpa using hb, fun _ _ => rfl⟩
  | cons op ops ih =>
    intro done d t es hwf hc he hb
    obtain ⟨d1, t1, es1, e1, hwf1, hc1, he1, hb1, hadd, hdel, hqry⟩ :=
      Bound.step hord hwf hc he hb op
    obtain ⟨d2, t2, es2, e2, hwf2, hc2, he2, hb2, hcnt⟩ :=
      ih (op :: done) d1 t1 es1 hwf1 hc1 he1 hb1
    refine ⟨d2, t2, es2, by simp [run, e1, e2], hwf2, hc2, he2, by simpa using hb2, ?_⟩
    intro hf hl
    cases op with
    | add k v =>
      simp only [addsFresh, Bool.and_eq_true, Option.isNone_iff_eq_none] at hf
      simp only [deletesLive] at hl
      have h1 := hadd k v rfl hf.1
      have h2 := hcnt hf.2 hl
      simp only [numAdds, numDeletes]
      omega
    | delete k =>
      simp only [addsFresh] at hf
      simp only [deletesLive, Bool.and_eq_true, Option.isSome_iff_ne_none] at hl
      have h1 := hdel k rfl hl.1
      have h2 := hcnt hf hl.2
      simp only [numAdds, numDeletes]
      omega
    | find k =>
      simp only [addsFresh] at hf
      simp only [deletesLive] at hl
      have h1 := hqry rfl
      have h2 := hcnt hf hl
      simp only [numAdds, numDeletes]
      omega
    | retrieve k =>
      simp only [addsFresh] at hf
      simp only [deletesLive] at hl
      have h1 := hqry rfl
      have h2 := hcnt hf hl
      simp only [numAdds, numDeletes]
      omega
    | get_linear_index k =>
      simp only [addsFresh] at hf
      simp only [deletesLive] at hl
      have h1 := hqry rfl
      have h2 := hcnt hf hl
      simp only [numAdds, numDeletes]
      omega

theorem Bound.nil (cmp : K → K → Int) : Bound cmp ([] : List (Op K V)) [] := by
  intro k v
  simp [lastAddedRev]

theorem entries_create [Inhabited K] (name : String) (cmp : K → K → Int) :
    entries (rb_dictionary_create name cmp : rb_dictionary K V) = some [] := rfl

/-- C2: after any sequence of adds (each of a key not live at that moment) and deletes on a
fresh dictionary, the run completes, a key is live in the dictionary exactly when the history
says so, and for every live key `k`, `find(k)` returns an element whose key compares equal to
`k` and whose data is the value most recently added under `k`, and `retrieve(k)` returns that
same value. -/
theorem C2_find_returns_latest_value [Inhabited K] (cmp : K → K → Int)
    (hord : TotalOrderCmp cmp) (name : String) (ops : List (Op K V))
    (_hops : onlyAddDelete ops = true) (_hfresh : addsFresh cmp [] ops = true) :
    ∃ d, run ops (rb_dictionary_create name cmp) = some d ∧
      (∀ k, Live d k ↔ (lastAdded cmp ops k).isSome = true) ∧
      ∀ k v, lastAdded cmp ops k = some v →
        ∃ e d1 d2, rb_dictionary_find d k = some (some e, d1) ∧
          cmp k (d1.key e) = 0 ∧ d1.data e = some v ∧
          rb_dictionary_retrieve d k = some (some v, d2) := by
  obtain ⟨d, t, es, e, hwf, hc, he, hb, -⟩ :=
    Bound.run_all hord ops [] _ _ _ (WF.create (V := V) name cmp) rfl
      (entries_create name cmp) (Bound.nil cmp)
  simp only [List.append_nil] at hb
  have hord' : TotalOrderCmp d.compare_cb := hc ▸ hord
  rw [hwf.entries_eq] at he
  cases he
  refine ⟨d, e, ?_, ?_⟩
  · intro k
    rw [hwf.live_iff, hc]
    constructor
    · rintro ⟨x, hx, h0⟩
      obtain ⟨w, hw⟩ := Option.ne_none_iff_exists'.1 (hwf.data x hx)
      have := (hb k w).2 ⟨_, List.mem_map.2 ⟨x, hx, rfl⟩, h0, hw⟩
      unfold lastAdded
      rw [this]
      rfl
    · intro h
      obtain ⟨w, hw⟩ := Option.isSome_iff_exists.1 h
      obtain ⟨en, hen, h0, -⟩ := (hb k w).1 hw
      obtain ⟨x, hx, rfl⟩ := List.mem_map.1 hen
      exact ⟨x, hx, h0⟩
  · intro k v hv
    obtain ⟨en, hen, h0, hdv⟩ := (hb k v).1 hv
    obtain ⟨x, hx, rfl⟩ := List.mem_map.1 hen
    simp only at h0 hdv
    obtain ⟨r, d1, t1, ef, hfr, -, -, hsome, hnone⟩ := hwf.find hord' k
    have ek : d1.key = d.key := by rw [hfr]
    have ed : d1.data = d.data := by rw [hfr]
    cases r with
    | none => exact absurd (hc ▸ h0) (hnone rfl x hx)
    | some y =>
      obtain ⟨-, hy, hy0⟩ := hsome y rfl
      obtain ⟨A, B, hAB⟩ := List.append_of_mem hy
      have hs := hwf.sorted
      rw [hAB] at hs
      have hu := sorted_unique hord' hs hy0
      have hxy : x = y := by
        rw [hAB] at hx
        simp only [List.mem_append, List.mem_cons] at hx
        rcases hx with hx | rfl | hx
        · exact absurd (hc ▸ h0) (hu x (List.mem_append_left _ hx))
        · rfl
        · exact absurd (hc ▸ h0) (hu x (List.mem_append_right _ hx))
      subst hxy
      refine ⟨x, d1, d1, ef, by rw [ek]; exact h0, by rw [ed]; exact hdv, ?_⟩
      simp [rb_dictionary_retrieve, ef, ed, hdv]

theorem C2_witness :
    TotalOrderCmp intCmp ∧ onlyAddDelete exampleHistory = true ∧
    addsFresh intCmp [] exampleHistory = true ∧
    ∃ d, run exampleHistory (rb_dictionary_create "example" intCmp) = some d ∧
      (∀ k, Live d k ↔ (lastAdded intCmp exampleHistory k).isSome = true) ∧
      ∀ k v, lastAdded intCmp exampleHistory k = some v →
        ∃ e d1 d2, rb_dictionary_find d k = some (some e, d1) ∧
          intCmp k (d1.key e) = 0 ∧ d1.data e = some v ∧
          rb_dictionary_retrieve d k = some (some v, d2) :=
  ⟨intCmp_order, by decide, by decide,
    C2_find_returns_latest_value intCmp intCmp_order "example" exampleHistory (by decide)
      (by decide)⟩

/-- C3: for every sequence of calls on a fresh dictionary in which every insert is of a key
not live at that moment (as when all inserted keys are distinct) and every delete is of a live
key, the run completes and `size` returns the number of inserts minus the number of
deletes. -/
theorem C3_size_is_adds_minus_deletes [Inhabited K] (cmp : K → K → Int)
    (hord : TotalOrderCmp cmp) (name : String) (ops : List (Op K V))
    (hfresh : addsFresh cmp [] ops = true) (hlive : deletesLive cmp [] ops = true) :
    ∃ d, run ops (rb_dictionary_create name cmp) = some d ∧
      rb_dictionary_size d + numDeletes ops = numAdds ops ∧
      rb_dictionary_size d = numAdds ops - numDeletes ops := by
  obtain ⟨d, t, es, e, -, -, -, -, hcnt⟩ :=
    Bound.run_all hord ops [] _ _ _ (WF.create (V := V) name cmp) rfl
      (entries_create name cmp) (Bound.nil cmp)
  have h := hcnt hfresh hlive
  have h0 : (rb_dictionary_create name cmp : rb_dictionary K V).count = 0 := rfl
  rw [h0] at h
  refine ⟨d, e, ?_, ?_⟩ <;> simp only [rb_dictionary_size] <;> omega

theorem C3_witness :
    TotalOrderCmp intCmp ∧ addsFresh intCmp [] exampleHistory = true ∧
    deletesLive intCmp [] exampleHistory = true ∧
    ∃ d, run exampleHistory (rb_dictionary_create "example" intCmp) = some d ∧
      rb_dictionary_size d + numDeletes exampleHistory = numAdds exampleHistory ∧
      rb_dictionary_size d = numAdds exampleHistory - numDeletes exampleHistory :=
  ⟨intCmp_order, by decide, by decide,
    C3_size_is_adds_minus_deletes intCmp intCmp_order "example" exampleHistory (by decide)
      (by decide)⟩

/-! ## Observations are determined by the `(key, data)` sequence -/

theorem WF.count_entries {d : rb_dictionary K V} {t : Tree} (h : WF d t)
    {es : List (K × Option V)} (he : entries d = some es) : d.count = es.length := by
  rw [h.entries_eq] at he
  cases he
  rw [h.count, List.length_map]

theorem specFind_split {cmp : K → K → Int} (hord : TotalOrderCmp cmp)
    {A B : List (K × Option V)} {e : K × Option V} {k : K}
    (hs : SortedEntries cmp (A ++ e :: B)) (hk : cmp k e.1 = 0) :
    specFind cmp (A ++ e :: B) k = some e := by
  have hu := sortedEntries_unique hord hs hk
  unfold specFind
  rw [List.find?_append]
  have h1 : A.find? (fun e => decide (cmp k e.1 = 0)) = none := by
    rw [List.find?_eq_none]
    intro y hy
    simpa using hu y (List.mem_append_left _ hy)
  rw [h1]
  simp [hk]

theorem specFind_none {cmp : K → K → Int} {es : List (K × Option V)} {k : K}
    (h : ∀ e ∈ es, cmp k e.1 ≠ 0) : specFind cmp es k = none := by
  unfold specFind
  rw [List.find?_eq_none]
  intro y hy
  simpa using h y hy

/-- What `find`, `retrieve` and `get_linear_index` return on a well-formed dictionary is read
off its `(key, data)` sequence. -/
theorem WF.observe {d : rb_dictionary K V} {t : Tree} (hord : TotalOrderCmp d.compare_cb)
    (h : WF d t) {es : List (K × Option V)} (he : entries d = some es) (k : K) :
    findObs d k = some (specFind d.compare_cb es k) ∧
    retrieveObs d k = some (specRetrieve d.compare_cb es k) ∧
    indexObs d k = some (specIndex d.compare_cb es k) := by
  have hse := h.sortedEntries
  rw [h.entries_eq] at he
  cases he
  obtain ⟨r, d1, t1, ef, hfr, -, -, hsome, hnone⟩ := h.find hord k
  have ek : d1.key = d.key := by rw [hfr]
  have ed : d1.data = d.data := by rw [hfr]
  obtain ⟨v, d2, t2, ei, -, -, -, hcase⟩ := h.get_linear_index hord k
  cases r with
  | none =>
    have habs : ∀ e ∈ t.ids.map (fun p => (d.key p, d.data p)), d.compare_cb k e.1 ≠ 0 := by
      intro en hen
      obtain ⟨y, hy, rfl⟩ := List.mem_map.1 hen
      exact hnone rfl y hy
    have hsf := specFind_none habs
    refine ⟨by simp [findObs, ef, hsf], by simp [retrieveObs, rb_dictionary_retrieve, ef,
      specRetrieve, hsf], ?_⟩
    rcases hcase with ⟨rfl, -, -, -⟩ | ⟨A, x, B, hAB, h0, -, -, -⟩
    · simp [indexObs, ei, specIndex, hsf]
    · exact absurd h0 (hnone rfl x (by rw [hAB]; simp))
  | some x =>
    obtain ⟨-, hx, h0⟩ := hsome x rfl
    obtain ⟨A, B, hAB⟩ := List.append_of_mem hx
    have hsf : specFind d.compare_cb (t.ids.map (fun p => (d.key p, d.data p))) k =
        some (d.key x, d.data x) := by
      rw [hAB, List.map_append, List.map_cons] at hse ⊢
      exact specFind_split hord hse h0
    refine ⟨by simp [findObs, ef, hsf, ek, ed], by simp [retrieveObs, rb_dictionary_retrieve,
      ef, specRetrieve, hsf, ed], ?_⟩
    rcases hcase with ⟨-, habs, -, -⟩ | ⟨A', x', B', hAB', h0', hv, -, -⟩
    · exact absurd h0 (habs x hx)
    · have hs := h.sorted
      rw [hAB'] at hs
      have hrk := rank_eq hord hs h0'
      have hm : (t.ids.map (fun p => (d.key p, d.data p))).map Prod.fst = t.ids.map d.key := by
        rw [List.map_map]; rfl
      simp only [indexObs, ei, specIndex, hsf, hm, Option.map_some', hv]
      rw [hAB', hrk]

/-- Dropping the entries that compare equal to `k` from an ascending sequence drops just the
one entry that does. -/
theorem filter_ne_split {cmp : K → K → Int} (hord : TotalOrderCmp cmp)
    {A B : List (K × Option V)} {e : K × Option V} {k : K}
    (hs : SortedEntries cmp (A ++ e :: B)) (hk : cmp k e.1 = 0) :
    (A ++ e :: B).filter (fun e => decide (cmp k e.1 ≠ 0)) = A ++ B := by
  have hu := sortedEntries_unique hord hs hk
  rw [List.filter_append, List.filter_cons]
  have h1 : A.filter (fun e => decide (cmp k e.1 ≠ 0)) = A := by
    rw [List.filter_eq_self]
    intro y hy
    simpa using hu y (List.mem_append_left _ hy)
  have h2 : B.filter (fun e => decide (cmp k e.1 ≠ 0)) = B := by
    rw [List.filter_eq_self]
    intro y hy
    simpa using hu y (List.mem_append_right _ hy)
  rw [h1, h2]
  simp [hk]

/-- In an ascending sequence the entries before `e` are those with a smaller key. -/
theorem sorted_split_filter {cmp : K → K → Int} (hord : TotalOrderCmp cmp)
    {A B : List (K × Option V)} {e : K × Option V}
    (hs : SortedEntries cmp (A ++ e :: B)) :
    A = (A ++ B).filter (fun y => decide (cmp y.1 e.1 < 0)) ∧
    B = (A ++ B).filter (fun y => decide (¬ cmp y.1 e.1 < 0)) := by
  unfold SortedEntries at hs
  rw [List.pairwise_append, List.pairwise_cons] at hs
  obtain ⟨-, ⟨hB, -⟩, hAB⟩ := hs
  have hA' : ∀ y ∈ A, cmp y.1 e.1 < 0 := fun y hy => hAB y hy e (List.mem_cons_self _ _)
  have hB' : ∀ y ∈ B, ¬ cmp y.1 e.1 < 0 := fun y hy => hord.not_lt_of_lt (hB y hy)
  have a1 : A.filter (fun y => decide (cmp y.1 e.1 < 0)) = A := by
    rw [List.filter_eq_self]; intro y hy; simpa using hA' y hy
  have a2 : B.filter (fun y => decide (cmp y.1 e.1 < 0)) = [] := by
    rw [List.filter_eq_nil_iff]; intro y hy; simpa using hB' y hy
  have b1 : A.filter (fun y => decide (¬ cmp y.1 e.1 < 0)) = [] := by
    rw [List.filter_eq_nil_iff]; intro y hy; simpa using hA' y hy
  have b2 : B.filter (fun y => decide (¬ cmp y.1 e.1 < 0)) = B := by
    rw [List.filter_eq_self]; intro y hy; simpa using hB' y hy
  rw [List.filter_append, List.filter_append, a1, a2, b1, b2]
  simp

/-- There is one way to put an entry into an ascending sequence. -/
theorem sorted_insert_unique {cmp : K → K → Int} (hord : TotalOrderCmp cmp)
    {A1 B1 A2 B2 : List (K × Option V)} {e : K × Option V}
    (h1 : SortedEntries cmp (A1 ++ e :: B1)) (h2 : SortedEntries cmp (A2 ++ e :: B2))
    (he : A1 ++ B1 = A2 ++ B2) : A1 ++ e :: B1 = A2 ++ e :: B2 := by
  obtain ⟨a1, b1⟩ := sorted_split_filter hord h1
  obtain ⟨a2, b2⟩ := sorted_split_filter hord h2
  rw [he] at a1 b1
  rw [a1, b1, ← a2, ← b2]

theorem exampleDictWithout4_reachable : Reachable intCmp exampleDictWithout4 :=
  ⟨"example", exampleOpsWithout4, rfl⟩

/-- C8: re-inserting a deleted key is indistinguishable from a fresh insert. For reachable
dictionaries `d1`, holding the live key `k`, and `d2`, holding the same entries except the one
for `k`, the calls `delete(k)` then `add(k, v)` on `d1` and `add(k, v)` on `d2` all return, and
afterwards the two dictionaries have the same size and the same ascending `(key, value)`
sequence, and for every key `find` (key and data of the element found), `retrieve` and
`get_linear_index` give the same results on both. -/
theorem C8_reinsert_like_fresh_insert [Inhabited K] (cmp : K → K → Int)
    (hord : TotalOrderCmp cmp) (d1 d2 : rb_dictionary K V) (hr1 : Reachable cmp d1)
    (hr2 : Reachable cmp d2) (k : K) (v : V) (hl : Live d1 k)
    (hsame : entries d2 =
      (entries d1).map (fun es => es.filter (fun e => decide (cmp k e.1 ≠ 0)))) :
    ∃ w a1 p1 b1 p2 b2, rb_dictionary_delete d1 k = some (w, a1) ∧
      rb_dictionary_add a1 k (some v) = some (p1, b1) ∧
      rb_dictionary_add d2 k (some v) = some (p2, b2) ∧
      rb_dictionary_size b1 = rb_dictionary_size b2 ∧
      (∃ es, entries b1 = some es ∧ entries b2 = some es) ∧
      ∀ k', (∃ f, findObs b1 k' = some f ∧ findObs b2 k' = some f) ∧
        (∃ r, retrieveObs b1 k' = some r ∧ retrieveObs b2 k' = some r) ∧
        (∃ i, indexObs b1 k' = some i ∧ indexObs b2 k' = some i) := by
  obtain ⟨t1, hwf1, hc1⟩ := hr1.wf hord
  obtain ⟨t2, hwf2, hc2⟩ := hr2.wf hord
  have hord1 : TotalOrderCmp d1.compare_cb := hc1 ▸ hord
  have hord2 : TotalOrderCmp d2.compare_cb := hc2 ▸ hord
  obtain ⟨w, a1, ta, es1, ed, hwfa, hca, he1, hs1, hcase⟩ := hwf1.delete_entries hord1 k
  rw [hc1] at hs1 hcase
  have hca' : a1.compare_cb = cmp := hca.trans hc1
  rcases hcase with ⟨-, -, habs, -⟩ | ⟨A, B, k0, rfl, h0, -, hea, -⟩
  · obtain ⟨x, hx, hx0⟩ := (hwf1.live_iff k).1 hl
    have hmem : (d1.key x, d1.data x) ∈ es1 := by
      rw [hwf1.entries_eq] at he1
      cases he1
      exact List.mem_map.2 ⟨x, hx, rfl⟩
    exact absurd (hc1 ▸ hx0) (habs _ hmem)
  · have hu := sortedEntries_unique hord hs1 h0
    rw [he1, Option.map_some', filter_ne_split hord hs1 h0] at hsame
    obtain ⟨p1, b1, tb1, A1, B1, eadd1, hwfb1, hcb1, -, heb1, hsb1, hcase1⟩ :=
      hwfa.add_entries (hca' ▸ hord) k v
    obtain ⟨p2, b2, tb2, A2, B2, eadd2, hwfb2, hcb2, -, heb2, hsb2, hcase2⟩ :=
      hwf2.add_entries hord2 k v
    rw [hca'] at hsb1 hcase1
    rw [hc2] at hsb2 hcase2
    have hcb1' : b1.compare_cb = cmp := hcb1.trans hca'
    have hcb2' : b2.compare_cb = cmp := hcb2.trans hc2
    have hAB1 : A1 ++ B1 = A ++ B := by
      rcases hcase1 with ⟨he, -⟩ | ⟨k0', v0', he, h0', -⟩
      · rw [hea] at he
        exact (Option.some.inj he).symm
      · rw [hea] at he
        have hmem : (k0', v0') ∈ A ++ B := by
          rw [Option.some.inj he]; simp
        exact absurd h0' (hu _ hmem)
    have hAB2 : A2 ++ B2 = A ++ B := by
      rcases hcase2 with ⟨he, -⟩ | ⟨k0', v0', he, h0', -⟩
      · rw [hsame] at he
        exact (Option.some.inj he).symm
      · rw [hsame] at he
        have hmem : (k0', v0') ∈ A ++ B := by
          rw [Option.some.inj he]; simp
        exact absurd h0' (hu _ hmem)
    have heq : A1 ++ (k, some v) :: B1 = A2 ++ (k, some v) :: B2 :=
      sorted_insert_unique hord hsb1 hsb2 (hAB1.trans hAB2.symm)
    rw [← heq] at heb2
    refine ⟨w, a1, p1, b1, p2, b2, ed, eadd1, eadd2, ?_, ⟨_, heb1, heb2⟩, ?_⟩
    · simp only [rb_dictionary_size, hwfb1.count_entries heb1, hwfb2.count_entries heb2]
    · intro k'
      obtain ⟨f1, r1, i1⟩ := hwfb1.observe (hcb1' ▸ hord) heb1 k'
      obtain ⟨f2, r2, i2⟩ := hwfb2.observe (hcb2' ▸ hord) heb2 k'
      rw [hcb1'] at f1 r1 i1
      rw [hcb2'] at f2 r2 i2
      exact ⟨⟨_, f1, f2⟩, ⟨_, r1, r2⟩, ⟨_, i1, i2⟩⟩

theorem C8_witness :
    TotalOrderCmp intCmp ∧ Reachable intCmp exampleDict ∧
    Reachable intCmp exampleDictWithout4 ∧ Live exampleDict 4 ∧
    entries exampleDictWithout4 =
      (entries exampleDict).map (fun es => es.filter (fun e => decide (intCmp 4 e.1 ≠ 0))) ∧
    ∃ w a1 p1 b1 p2 b2, rb_dictionary_delete exampleDict 4 = some (w, a1) ∧
      rb_dictionary_add a1 4 (some 44) = some (p1, b1) ∧
      rb_dictionary_add exampleDictWithout4 4 (some 44) = some (p2, b2) ∧
      rb_dictionary_size b1 = rb_dictionary_size b2 ∧
      (∃ es, entries b1 = some es ∧ entries b2 = some es) ∧
      ∀ k', (∃ f, findObs b1 k' = some f ∧ findObs b2 k' = some f) ∧
        (∃ r, retrieveObs b1 k' = some r ∧ retrieveObs b2 k' = some r) ∧
        (∃ i, indexObs b1 k' = some i ∧ indexObs b2 k' = some i) :=
  ⟨intCmp_order, exampleDict_reachable, exampleDictWithout4_reachable, exampleDict_live, by rfl,
    C8_reinsert_like_fresh_insert intCmp intCmp_order exampleDict exampleDictWithout4
      exampleDict_reachable exampleDictWithout4_reachable 4 44 exampleDict_live (by rfl)⟩

/-! ## The list as the traversals see it -/

theorem IsDSeg_head {prev next : Nat → Ptr} {xs : List Nat} {pred start last : Ptr}
    (h : IsDSeg prev next pred start xs last none) : start = xs.head? := by
  cases xs with
  | nil => exact h.1
  | cons x xs => exact h.1

theorem WF.head_eq {d : rb_dictionary K V} {t : Tree} (h : WF d t) : d.head = t.ids.head? :=
  IsDSeg_head h.list

theorem WF.next_eq {d : rb_dictionary K V} {t : Tree} (h : WF d t) {A B : List Nat} {x : Nat}
    (hs : t.ids = A ++ x :: B) : d.next x = B.head? := by
  have hl := h.list
  rw [hs] at hl
  obtain ⟨m, s, -, -, -, hB⟩ := IsDSeg_append.1 hl
  exact IsDSeg_head hB

/-- The snapshot taken by the loop macro: the element after the first of what is left. -/
theorem WF.dlink_next_head {d : rb_dictionary K V} {t : Tree} (h : WF d t) {A B : List Nat}
    (hs : t.ids = A ++ B) : dlink_next d B.head? = B.tail.head? := by
  cases B with
  | nil => rfl
  | cons x B' => exact h.next_eq hs

/-! ## Traversals with a callback that leaves the dictionary alone -/

/-- The loop of `rb_dictionary_foreach` over what is left of the list, `B`: the callback is
invoked on the elements of `B` in turn. -/
theorem foreach_loop_nonmutating {σ : Type} {d : rb_dictionary K V} {t : Tree} (h : WF d t)
    {f : Callback K V σ Int} (hf : NonMutating f) :
    ∀ (B A : List Nat) (fuel : Nat) (log : List (Nat × Int)) (s : σ),
      t.ids = A ++ B → B.length ≤ fuel →
      ∃ log' s', foreach_loop (some (traced f)) fuel B.head? B.tail.head? (log, s) d =
          some ((log ++ log', s'), d) ∧ log'.map Prod.fst = B ∧
        foreach_loop (some f) fuel B.head? B.tail.head? s d = some (s', d) := by
  intro B
  induction B with
  | nil =>
    intro A fuel log s _ _
    exact ⟨[], s, by cases fuel <;> simp [foreach_loop], rfl, by cases fuel <;> simp [foreach_loop]⟩
  | cons x B ih =>
    intro A fuel log s hs hfuel
    cases fuel with
    | zero => simp at hfuel
    | succ n =>
      obtain ⟨r, s1, e⟩ := hf x s d
      have hs' : t.ids = (A ++ [x]) ++ B := by rw [hs]; simp
      have hnx := h.dlink_next_head hs'
      obtain ⟨log', s', e1, hl, e2⟩ :=
        ih (A ++ [x]) n (log ++ [(x, r)]) s1 hs' (by simpa using hfuel)
      refine ⟨(x, r) :: log', s', ?_, by simp [hl], ?_⟩
      · simp only [List.head?_cons, List.tail_cons, foreach_loop, traced, e, Option.map_some',
          hnx]
        rw [e1]
        simp
      · simp only [List.head?_cons, List.tail_cons, foreach_loop, e, hnx]
        exact e2

/-- The loop of `rb_dictionary_foreach` does not look at what the callback returns. -/
theorem foreach_loop_withoutResult {σ : Type} (f : Callback K V σ Int) :
    ∀ (fuel : Nat) (n tn : Ptr) (s : σ) (d : rb_dictionary K V),
      foreach_loop (some (withoutResult f)) fuel n tn s d = foreach_loop (some f) fuel n tn s d := by
  intro fuel
  induction fuel with
  | zero =>
    intro n tn s d
    cases n <;> simp [foreach_loop]
  | succ k ih =>
    intro n tn s d
    cases n with
    | none => simp [foreach_loop]
    | some x =>
      simp only [foreach_loop, withoutResult]
      cases e : f x s d with
      | none => simp
      | some r =>
        obtain ⟨r1, s1, d1⟩ := r
        simp only [Option.map_some']
        exact ih _ _ _ _

/-- Without a callback the loop of `rb_dictionary_foreach` walks the list and does nothing. -/
theorem foreach_loop_none {σ : Type} {d : rb_dictionary K V} {t : Tree} (h : WF d t) :
    ∀ (B A : List Nat) (fuel : Nat) (s : σ), t.ids = A ++ B → B.length ≤ fuel →
      foreach_loop (none : Option (Callback K V σ Int)) fuel B.head? B.tail.head? s d =
        some (s, d) := by
  intro B
  induction B with
  | nil =>
    intro A fuel s _ _
    cases fuel <;> simp [foreach_loop]
  | cons x B ih =>
    intro A fuel s hs hfuel
    cases fuel with
    | zero => simp at hfuel
    | succ n =>
      have hs' : t.ids = (A ++ [x]) ++ B := by rw [hs]; simp
      have hnx := h.dlink_next_head hs'
      simp only [List.head?_cons, List.tail_cons, foreach_loop, hnx]
      exact ih (A ++ [x]) n s hs' (by simpa using hfuel)

theorem WF.start_eq {d : rb_dictionary K V} {t : Tree} (h : WF d t) :
    d.head = t.ids.head? ∧ dlink_next d d.head = t.ids.tail.head? := by
  have h1 := h.head_eq
  refine ⟨h1, ?_⟩
  rw [h1]
  exact h.dlink_next_head (A := []) rfl

/-- C13: for every reachable dictionary and every callback that leaves the dictionary as it
is, `foreach` returns with the dictionary unchanged, having invoked the callback exactly once
per element in the order of the linked list from `head` (the journal of invocations is the
list of elements, whose keys ascend); the outcome is the same when the value the callback
returns is replaced by `0`; and with no callback `foreach` does nothing. -/
theorem C13_foreach_visits_each_once [Inhabited K] {σ : Type} (cmp : K → K → Int)
    (hord : TotalOrderCmp cmp) (d : rb_dictionary K V) (hr : Reachable cmp d)
    (f : Callback K V σ Int) (hf : NonMutating f) (s0 : σ) :
    ∃ ids log s', elements d = some ids ∧
      (ids.map d.key).Pairwise (fun a b => cmp a b < 0) ∧
      rb_dictionary_foreach d (some (traced f)) ([], s0) = some ((log, s'), d) ∧
      log.map Prod.fst = ids ∧
      rb_dictionary_foreach d (some f) s0 = some (s', d) ∧
      rb_dictionary_foreach d (some (withoutResult f)) s0 = some (s', d) ∧
      rb_dictionary_foreach d (none : Option (Callback K V σ Int)) s0 = some (s0, d) := by
  obtain ⟨t, hwf, hc⟩ := hr.wf hord
  obtain ⟨h1, h2⟩ := hwf.start_eq
  obtain ⟨log, s', e1, hl, e2⟩ :=
    foreach_loop_nonmutating hwf hf t.ids [] d.count [] s0 rfl (le_of_eq hwf.count.symm)
  have hs := hwf.sorted
  rw [hc] at hs
  refine ⟨t.ids, log, s', hwf.elements_eq, by rw [List.pairwise_map]; exact hs, ?_, hl, ?_, ?_,
    ?_⟩
  · rw [rb_dictionary_foreach, h2, h1]
    rw [List.nil_append] at e1
    exact e1
  · rw [rb_dictionary_foreach, h2, h1]
    exact e2
  · rw [rb_dictionary_foreach, h2, h1, foreach_loop_withoutResult]
    exact e2
  · rw [rb_dictionary_foreach, h2, h1]
    exact foreach_loop_none hwf t.ids [] d.count s0 rfl (le_of_eq hwf.count.symm)

theorem collect_keys_nonmutating : NonMutating (collect_keys : Callback Int Nat (List Int) Int) :=
  fun n s d => ⟨0, s ++ [d.key n], rfl⟩

theorem C13_witness :
    TotalOrderCmp intCmp ∧ Reachable intCmp exampleDict ∧
    NonMutating (collect_keys : Callback Int Nat (List Int) Int) ∧
    ∃ ids log s', elements exampleDict = some ids ∧
      (ids.map exampleDict.key).Pairwise (fun a b => intCmp a b < 0) ∧
      rb_dictionary_foreach exampleDict (some (traced collect_keys)) ([], []) =
        some ((log, s'), exampleDict) ∧
      log.map Prod.fst = ids ∧
      rb_dictionary_foreach exampleDict (some collect_keys) [] = some (s', exampleDict) ∧
      rb_dictionary_foreach exampleDict (some (withoutResult collect_keys)) [] =
        some (s', exampleDict) ∧
      rb_dictionary_foreach exampleDict (none : Option (Callback Int Nat (List Int) Int)) [] =
        some ([], exampleDict) :=
  ⟨intCmp_order, exampleDict_reachable, collect_keys_nonmutating,
    C13_foreach_visits_each_once intCmp intCmp_order exampleDict exampleDict_reachable
      collect_keys collect_keys_nonmutating []⟩

/-! ## Lookups of the position of a key that is not there, and a concrete round trip -/

/-- C11: for every reachable dictionary and every key `k` that is not live,
`get_linear_index(k)` returns `-1`, and the dictionary it leaves has the dirty flag and every
cached position as they were before the call. -/
theorem C11_linear_index_absent_key [Inhabited K] (cmp : K → K → Int)
    (hord : TotalOrderCmp cmp) (d : rb_dictionary K V) (hr : Reachable cmp d) (k : K)
    (hl : ¬ Live d k) :
    ∃ d', rb_dictionary_get_linear_index d k = some (-1, d') ∧
      d'.dirty = d.dirty ∧ d'.position = d.position := by
  obtain ⟨t, hwf, hc⟩ := hr.wf hord
  have hord' : TotalOrderCmp d.compare_cb := hc ▸ hord
  obtain ⟨v, d', t', e, -, -, -, hcase⟩ := hwf.get_linear_index hord' k
  rcases hcase with ⟨rfl, -, hd, hp⟩ | ⟨A, x, B, hAB, h0, -⟩
  · exact ⟨d', e, hd, hp⟩
  · exact absurd ((hwf.live_iff k).2 ⟨x, by rw [hAB]; simp, h0⟩) hl

theorem C11_witness :
    TotalOrderCmp intCmp ∧ Reachable intCmp exampleDict ∧ ¬ Live exampleDict 7 ∧
    ∃ d', rb_dictionary_get_linear_index exampleDict 7 = some (-1, d') ∧
      d'.dirty = exampleDict.dirty ∧ d'.position = exampleDict.position :=
  ⟨intCmp_order, exampleDict_reachable, exampleDict_not_live,
    C11_linear_index_absent_key intCmp intCmp_order exampleDict exampleDict_reachable 7
      exampleDict_not_live⟩

/-- C12: with the usual order of the integers, adding the keys 5, 3, 8, 1, 4 in that order to
a fresh dictionary (whatever the values) and iterating with `foreach` yields the keys
1, 3, 4, 5, 8; deleting 3 then returns the value added under 3, and iterating yields
1, 4, 5, 8; and `get_linear_index(8)` on the dictionary so obtained returns 3. -/
theorem C12_round_trip (name : String) (v5 v3 v8 v1 v4 : V) :
    ∃ d1 d2 d3 : rb_dictionary Int V,
      run [.add 5 v5, .add 3 v3, .add 8 v8, .add 1 v1, .add 4 v4]
        (rb_dictionary_create name intCmp) = some d1 ∧
      rb_dictionary_foreach d1 (some collect_keys) [] = some ([1, 3, 4, 5, 8], d1) ∧
      rb_dictionary_delete d1 3 = some (some v3, d2) ∧
      rb_dictionary_foreach d2 (some collect_keys) [] = some ([1, 4, 5, 8], d2) ∧
      rb_dictionary_get_linear_index d2 8 = some (3, d3) :=
  ⟨_, _, _, rfl, rfl, rfl, rfl, rfl⟩

/-! ## Search -/

/-- The loop of `rb_dictionary_search` over what is left of the list, `B`: the callback is
invoked on the elements of `B` in turn until it returns a result. -/
theorem search_loop_nonmutating {σ ρ : Type} {d : rb_dictionary K V} {t : Tree} (h : WF d t)
    {f : Callback K V σ (Option ρ)} (hf : NonMutating f) :
    ∀ (B A : List Nat) (fuel : Nat) (log : List (Nat × Option ρ)) (s : σ),
      t.ids = A ++ B → B.length ≤ fuel →
      ∃ ret log' s',
        search_loop (some (traced f)) fuel B.head? B.tail.head? none (log, s) d =
          some (ret, (log ++ log', s'), d) ∧
        search_loop (some f) fuel B.head? B.tail.head? none s d = some (ret, s', d) ∧
        ((ret = none ∧ log' = B.map (fun x => (x, none))) ∨
          ∃ B1 x B2 r, B = B1 ++ x :: B2 ∧ ret = some r ∧
            log' = B1.map (fun y => (y, none)) ++ [(x, some r)]) := by
  intro B
  induction B with
  | nil =>
    intro A fuel log s _ _
    exact ⟨none, [], s, by cases fuel <;> simp [search_loop],
      by cases fuel <;> simp [search_loop], Or.inl ⟨rfl, rfl⟩⟩
  | cons x B ih =>
    intro A fuel log s hs hfuel
    cases fuel with
    | zero => simp at hfuel
    | succ n =>
      obtain ⟨r, s1, e⟩ := hf x s d
      have hs' : t.ids = (A ++ [x]) ++ B := by rw [hs]; simp
      have hnx := h.dlink_next_head hs'
      cases r with
      | some r =>
        refine ⟨some r, [(x, some r)], s1, ?_, ?_, Or.inr ⟨[], x, B, r, rfl, rfl, rfl⟩⟩
        · simp [search_loop, traced, e]
        · simp [search_loop, e]
      | none =>
        obtain ⟨ret, log', s', e1, e2, hcase⟩ :=
          ih (A ++ [x]) n (log ++ [(x, none)]) s1 hs' (by simpa using hfuel)
        refine ⟨ret, (x, none) :: log', s', ?_, ?_, ?_⟩
        · simp only [List.head?_cons, List.tail_cons, search_loop, traced, e, Option.map_some',
            hnx, Option.isSome_none, Bool.false_eq_true, if_false]
          rw [e1]
          simp
        · simp only [List.head?_cons, List.tail_cons, search_loop, e, hnx, Option.isSome_none,
            Bool.false_eq_true, if_false]
          exact e2
        · rcases hcase with ⟨h1, h2⟩ | ⟨B1, y, B2, r, h1, h2, h3⟩
          · exact Or.inl ⟨h1, by simp [h2]⟩
          · exact Or.inr ⟨x :: B1, y, B2, r, by simp [h1], h2, by simp [h3]⟩

/-- Without a callback the loop of `rb_dictionary_search` walks the list and returns what it
was given. -/
theorem search_loop_none {σ ρ : Type} {d : rb_dictionary K V} {t : Tree} (h : WF d t) :
    ∀ (B A : List Nat) (fuel : Nat) (s : σ), t.ids = A ++ B → B.length ≤ fuel →
      search_loop (none : Option (Callback K V σ (Option ρ))) fuel B.head? B.tail.head? none s d =
        some (none, s, d) := by
  intro B
  induction B with
  | nil =>
    intro A fuel s _ _
    cases fuel <;> simp [search_loop]
  | cons x B ih =>
    intro A fuel s hs hfuel
    cases fuel with
    | zero => simp at hfuel
    | succ n =>
      have hs' : t.ids = (A ++ [x]) ++ B := by rw [hs]; simp
      have hnx := h.dlink_next_head hs'
      simp only [List.head?_cons, List.tail_cons, search_loop, hnx, Option.isSome_none,
        Bool.false_eq_true, if_false]
      exact ih (A ++ [x]) n s hs' (by simpa using hfuel)

/-- C15: for every reachable dictionary and every predicate callback that leaves the
dictionary as it is, `search` returns with the dictionary unchanged, and either it returns
null, the callback having been invoked on every element in ascending order and having
returned null each time, or it returns the non-null result `r` of the callback on an element
`x`, the callback having been invoked before that exactly on the elements that precede `x`,
with a null result each time, and on no element after `x`.  In particular it returns null on
an empty dictionary; and with no callback it returns null. -/
theorem C15_search_first_non_null [Inhabited K] {σ ρ : Type} (cmp : K → K → Int)
    (hord : TotalOrderCmp cmp) (d : rb_dictionary K V) (hr : Reachable cmp d)
    (f : Callback K V σ (Option ρ)) (hf : NonMutating f) (s0 : σ) :
    ∃ ids ret log s', elements d = some ids ∧
      (ids.map d.key).Pairwise (fun a b => cmp a b < 0) ∧
      rb_dictionary_search d (some (traced f)) ([], s0) = some (ret, (log, s'), d) ∧
      rb_dictionary_search d (some f) s0 = some (ret, s', d) ∧
      ((ret = none ∧ log = ids.map (fun x => (x, none))) ∨
        ∃ A x B r, ids = A ++ x :: B ∧ ret = some r ∧
          log = A.map (fun y => (y, none)) ++ [(x, some r)]) ∧
      (ids = [] → ret = none) ∧
      rb_dictionary_search d (none : Option (Callback K V σ (Option ρ))) s0 =
        some (none, s0, d) := by
  obtain ⟨t, hwf, hc⟩ := hr.wf hord
  obtain ⟨h1, h2⟩ := hwf.start_eq
  obtain ⟨ret, log, s', e1, e2, hcase⟩ :=
    search_loop_nonmutating hwf hf t.ids [] d.count [] s0 rfl (le_of_eq hwf.count.symm)
  have hs := hwf.sorted
  rw [hc] at hs
  refine ⟨t.ids, ret, log, s', hwf.elements_eq, by rw [List.pairwise_map]; exact hs, ?_, ?_,
    hcase, ?_, ?_⟩
  · rw [rb_dictionary_search, h2, h1]
    rw [List.nil_append] at e1
    exact e1
  · rw [rb_dictionary_search, h2, h1]
    exact e2
  · intro hnil
    rcases hcase with ⟨h3, -⟩ | ⟨A, x, B, r, h3, -, -⟩
    · exact h3
    · rw [hnil] at h3
      simp at h3
  · rw [rb_dictionary_search, h2, h1]
    exact search_loop_none hwf t.ids [] d.count s0 rfl (le_of_eq hwf.count.symm)

theorem key_above_nonmutating :
    NonMutating (key_above : Callback Int Nat Int (Option Int)) :=
  fun _ s _ => ⟨_, s, rfl⟩

theorem C15_witness :
    TotalOrderCmp intCmp ∧ Reachable intCmp exampleDict ∧
    NonMutating (key_above : Callback Int Nat Int (Option Int)) ∧
    ∃ ids ret log s', elements exampleDict = some ids ∧
      (ids.map exampleDict.key).Pairwise (fun a b => intCmp a b < 0) ∧
      rb_dictionary_search exampleDict (some (traced key_above)) ([], 3) =
        some (ret, (log, s'), exampleDict) ∧
      rb_dictionary_search exampleDict (some key_above) 3 = some (ret, s', exampleDict) ∧
      ((ret = none ∧ log = ids.map (fun x => (x, none))) ∨
        ∃ A x B r, ids = A ++ x :: B ∧ ret = some r ∧
          log = A.map (fun y => (y, none)) ++ [(x, some r)]) ∧
      (ids = [] → ret = none) ∧
      rb_dictionary_search exampleDict (none : Option (Callback Int Nat Int (Option Int))) 3 =
        some (none, 3, exampleDict) :=
  ⟨intCmp_order, exampleDict_reachable, key_above_nonmutating,
    C15_search_first_non_null intCmp intCmp_order exampleDict exampleDict_reachable
      key_above key_above_nonmutating 3⟩

/-! ## Destruction -/

theorem dlink_next_congr {d1 d2 : rb_dictionary K V} (h : d1.next = d2.next) (p : Ptr) :
    dlink_next d1 p = dlink_next d2 p := by
  cases p with
  | none => rfl
  | some x => simp [dlink_next, h]

/-- The loop of `rb_dictionary_destroy` over what is left of the list, `B`, run with a release
callback that keeps a journal of its own invocations: each element is handed to the callback,
which enters it in the journal, and is then freed. The run with the bare callback does the
same and leaves the same private data. -/
theorem destroy_loop_releasing {σ : Type} {d0 : rb_dictionary K V} {t : Tree} (h : WF d0 t)
    {f : Callback K V σ Unit} (hf : ReleasesOnly f) :
    ∀ (B A : List Nat) (fuel : Nat) (s : σ) (d : rb_dictionary K V)
      (tr : List destroy_event) (log : List (Nat × Unit)),
      d.next = d0.next → t.ids = A ++ B → B.length ≤ fuel →
      ∃ s', destroy_loop (some (traced f)) fuel B.head? B.tail.head? (log, s) d tr =
          some (tr ++ B.flatMap (fun n => [.callback n, .free_element n]),
            (log ++ B.map (fun n => (n, ())), s')) ∧
        destroy_loop (some f) fuel B.head? B.tail.head? s d tr =
          some (tr ++ B.flatMap (fun n => [.callback n, .free_element n]), s') := by
  intro B
  induction B with
  | nil =>
    intro A fuel s d tr log _ _ _
    exact ⟨s, by cases fuel <;> simp [destroy_loop], by cases fuel <;> simp [destroy_loop]⟩
  | cons x B ih =>
    intro A fuel s d tr log hd hs hfuel
    cases fuel with
    | zero => simp at hfuel
    | succ n =>
      obtain ⟨s1, data1, e⟩ := hf x s d
      have et : traced f x (log, s) d =
          some ((), (log ++ [(x, ())], s1), { d with data := data1 }) := by
        simp only [traced, e, Option.map_some']
      have hs' : t.ids = (A ++ [x]) ++ B := by rw [hs]; simp
      have hnx := h.dlink_next_head hs'
      have hd1 : ({ d with data := data1 } : rb_dictionary K V).next = d0.next := hd
      obtain ⟨s', e1, e2⟩ := ih (A ++ [x]) n s1 { d with data := data1 }
        (tr ++ [.callback x, .free_element x]) (log ++ [(x, ())]) hd1 hs'
        (by simpa using hfuel)
      refine ⟨s', ?_, ?_⟩
      · simp only [List.head?_cons, List.tail_cons, destroy_loop, et]
        rw [dlink_next_congr hd1, hnx, e1]
        simp
      · simp only [List.head?_cons, List.tail_cons, destroy_loop, e]
        rw [dlink_next_congr hd1, hnx, e2]
        simp

/-- Without a callback the loop of `rb_dictionary_destroy` frees each element in turn. -/
theorem destroy_loop_none {σ : Type} {d : rb_dictionary K V} {t : Tree} (h : WF d t) :
    ∀ (B A : List Nat) (fuel : Nat) (s : σ) (tr : List destroy_event),
      t.ids = A ++ B → B.length ≤ fuel →
      destroy_loop (none : Option (Callback K V σ Unit)) fuel B.head? B.tail.head? s d tr =
        some (tr ++ B.map (fun n => .free_element n), s) := by
  intro B
  induction B with
  | nil =>
    intro A fuel s tr _ _
    cases fuel <;> simp [destroy_loop]
  | cons x B ih =>
    intro A fuel s tr hs hfuel
    cases fuel with
    | zero => simp at hfuel
    | succ n =>
      have hs' : t.ids = (A ++ [x]) ++ B := by rw [hs]; simp
      have hnx := h.dlink_next_head hs'
      simp only [List.head?_cons, List.tail_cons, destroy_loop, hnx]
      rw [ih (A ++ [x]) n s _ hs' (by simpa using hfuel)]
      simp

/-- C19: for every reachable dictionary and every release callback `f`, `destroy` run with
`f` keeping a journal of its own invocations returns, and the journal, written by the callback
and nobody else, lists every element exactly once, in ascending key order. What `destroy` did
is, for each element in that order, the invocation of the callback on the element followed by
the freeing of that element, and after all of these the removal of the dictionary from the
registry, the freeing of its name and the freeing of the dictionary. The run with the bare
callback does the same and leaves the same private data. `destroy` without a callback invokes
nothing: it frees the elements in order, then the dictionary, and leaves the private data as
it was. -/
theorem C19_destroy_releases_each_once [Inhabited K] {σ : Type} (cmp : K → K → Int)
    (hord : TotalOrderCmp cmp) (d : rb_dictionary K V) (hr : Reachable cmp d)
    (f : Callback K V σ Unit) (hf : ReleasesOnly f) (s0 : σ) :
    ∃ ids s', elements d = some ids ∧
      (ids.map d.key).Pairwise (fun a b => cmp a b < 0) ∧
      rb_dictionary_destroy d (some (traced f)) ([], s0) =
        some (ids.flatMap (fun n => [.callback n, .free_element n]) ++
          [.dlink_delete, .free_id, .free_dtree], (ids.map (fun n => (n, ())), s')) ∧
      rb_dictionary_destroy d (some f) s0 =
        some (ids.flatMap (fun n => [.callback n, .free_element n]) ++
          [.dlink_delete, .free_id, .free_dtree], s') ∧
      rb_dictionary_destroy d (none : Option (Callback K V σ Unit)) s0 =
        some (ids.map (fun n => .free_element n) ++
          [.dlink_delete, .free_id, .free_dtree], s0) := by
  obtain ⟨t, hwf, hc⟩ := hr.wf hord
  obtain ⟨h1, h2⟩ := hwf.start_eq
  obtain ⟨s', e1, e2⟩ :=
    destroy_loop_releasing hwf hf t.ids [] d.count s0 d [] [] rfl rfl
      (le_of_eq hwf.count.symm)
  have hs := hwf.sorted
  rw [hc] at hs
  refine ⟨t.ids, s', hwf.elements_eq, by rw [List.pairwise_map]; exact hs, ?_, ?_, ?_⟩
  · rw [rb_dictionary_destroy, h2, h1, e1]
    simp
  · rw [rb_dictionary_destroy, h2, h1, e2]
    simp
  · rw [rb_dictionary_destroy, h2, h1,
      destroy_loop_none hwf t.ids [] d.count s0 [] rfl (le_of_eq hwf.count.symm)]
    simp

theorem release_value_releasesOnly :
    ReleasesOnly (release_value : Callback Int Nat Nat Unit) :=
  fun n s d => ⟨s + 1, setField d.data n none, rfl⟩

theorem C19_witness :
    TotalOrderCmp intCmp ∧ Reachable intCmp exampleDict ∧
    ReleasesOnly (release_value : Callback Int Nat Nat Unit) ∧
    ∃ ids s', elements exampleDict = some ids ∧
      (ids.map exampleDict.key).Pairwise (fun a b => intCmp a b < 0) ∧
      rb_dictionary_destroy exampleDict (some (traced release_value)) ([], 0) =
        some (ids.flatMap (fun n => [.callback n, .free_element n]) ++
          [.dlink_delete, .free_id, .free_dtree], (ids.map (fun n => (n, ())), s')) ∧
      rb_dictionary_destroy exampleDict (some release_value) 0 =
        some (ids.flatMap (fun n => [.callback n, .free_element n]) ++
          [.dlink_delete, .free_id, .free_dtree], s') ∧
      rb_dictionary_destroy exampleDict (none : Option (Callback Int Nat Nat Unit)) 0 =
        some (ids.map (fun n => .free_element n) ++
          [.dlink_delete, .free_id, .free_dtree], 0) :=
  ⟨intCmp_order, exampleDict_reachable, release_value_releasesOnly,
    C19_destroy_releases_each_once intCmp intCmp_order exampleDict exampleDict_reachable
      release_value release_value_releasesOnly 0⟩

/-! ## The stateful cursor -/

/-- The cursor after `i` calls of `foreach_next`, when `i` elements lie behind it: `cur` is
the first of the remaining elements and `next` the second. -/
theorem WF.iter_after_split {d : rb_dictionary K V} {t : Tree} (h : WF d t) :
    ∀ (i : Nat) (A B : List Nat), t.ids = A ++ B → A.length = i →
      iter_after d i = ⟨B.head?, B.tail.head?⟩ := by
  intro i
  induction i with
  | zero =>
    intro A B hs hA
    have hA' : A = [] := List.length_eq_zero.1 hA
    subst hA'
    simp only [List.nil_append] at hs
    simp only [iter_after, rb_dictionary_foreach_start, h.head_eq, hs]
    cases B with
    | nil => rfl
    | cons x B' =>
      have hn : d.next x = B'.head? := h.next_eq (A := []) hs
      simp [rb_dictionary_foreach_next, hn]
  | succ i ih =>
    intro A B hs hA
    rcases list_nil_or_snoc A with rfl | ⟨A', a, rfl⟩
    · simp at hA
    · have hs' : t.ids = A' ++ a :: B := by rw [hs]; simp
      have e := ih A' (a :: B) hs' (by simpa using hA)
      simp only [iter_after, e, List.head?_cons, List.tail_cons]
      cases B with
      | nil => rfl
      | cons x B' =>
        have hn : d.next x = B'.head? := h.next_eq hs
        simp [rb_dictionary_foreach_next, hn]

/-- Once every element lies behind the cursor, both of its pointers are null and stay so. -/
theorem WF.iter_after_end {d : rb_dictionary K V} {t : Tree} (h : WF d t) (j : Nat) :
    iter_after d (t.ids.length + j) = ⟨none, none⟩ := by
  induction j with
  | zero => exact h.iter_after_split t.ids.length t.ids [] (by simp) rfl
  | succ j ih =>
    show (rb_dictionary_foreach_next d (iter_after d (t.ids.length + j))).1 = _
    rw [ih]
    rfl

/-- C16: for every reachable dictionary with `n` elements, traversed with the cursor and not
changed meanwhile, `foreach_start` logs nothing, and for every `i < n` the value read by
`foreach_cur` after `i` calls of `foreach_next` is the (non-null) value of the element at
place `i` of the ascending sequence, the next call of `foreach_next` logging nothing; after
`n` calls of `foreach_next` (none for an empty dictionary) `foreach_cur` returns null. -/
theorem C16_cursor_reads_in_order [Inhabited K] (cmp : K → K → Int)
    (hord : TotalOrderCmp cmp) (d : rb_dictionary K V) (hr : Reachable cmp d) :
    ∃ es, entries d = some es ∧ es.length = rb_dictionary_size d ∧
      es.Pairwise (fun a b => cmp a.1 b.1 < 0) ∧
      (rb_dictionary_foreach_start d).2 = [] ∧
      (∀ (i : Nat) (hi : i < es.length),
        rb_dictionary_foreach_cur d (iter_after d i) = (es.get ⟨i, hi⟩).2 ∧
        (es.get ⟨i, hi⟩).2 ≠ none ∧
        (rb_dictionary_foreach_next d (iter_after d i)).2 = []) ∧
      rb_dictionary_foreach_cur d (iter_after d es.length) = none := by
  obtain ⟨t, hwf, hc⟩ := hr.wf hord
  have hs := hwf.sorted
  rw [hc] at hs
  refine ⟨_, hwf.entries_eq, ?_, ?_, ?_, ?_, ?_⟩
  · simp [rb_dictionary_size, hwf.count]
  · rw [List.pairwise_map]
    exact hs
  · simp only [rb_dictionary_foreach_start, hwf.head_eq]
    cases t.ids with
    | nil => rfl
    | cons x l => cases hx : d.next x <;> simp [rb_dictionary_foreach_next]
  · intro i hi
    have hi' : i < t.ids.length := by simpa using hi
    have hsplit : t.ids = t.ids.take i ++ t.ids[i] :: t.ids.drop (i + 1) := by
      rw [← List.drop_eq_getElem_cons hi', List.take_append_drop]
    have e := hwf.iter_after_split i _ _ hsplit (by simp; omega)
    have hmem : t.ids[i] ∈ t.ids := List.getElem_mem hi'
    refine ⟨?_, ?_, ?_⟩
    · rw [e]
      simp only [rb_dictionary_foreach_cur, List.head?_cons, List.get_eq_getElem,
        List.getElem_map]
    · simpa using hwf.data _ hmem
    · rw [e]
      simp only [List.head?_cons, List.tail_cons, rb_dictionary_foreach_next]
      cases (List.drop (i + 1) t.ids).head? <;> rfl
  · have e := hwf.iter_after_end 0
    simp only [Nat.add_zero] at e
    simp only [List.length_map, e]
    rfl

theorem C16_witness :
    TotalOrderCmp intCmp ∧ Reachable intCmp exampleDict ∧
    ∃ es, entries exampleDict = some es ∧ es.length = rb_dictionary_size exampleDict ∧
      es.Pairwise (fun a b => intCmp a.1 b.1 < 0) ∧
      (rb_dictionary_foreach_start exampleDict).2 = [] ∧
      (∀ (i : Nat) (hi : i < es.length),
        rb_dictionary_foreach_cur exampleDict (iter_after exampleDict i) =
          (es.get ⟨i, hi⟩).2 ∧
        (es.get ⟨i, hi⟩).2 ≠ none ∧
        (rb_dictionary_foreach_next exampleDict (iter_after exampleDict i)).2 = []) ∧
      rb_dictionary_foreach_cur exampleDict (iter_after exampleDict es.length) = none :=
  ⟨intCmp_order, exampleDict_reachable,
    C16_cursor_reads_in_order intCmp intCmp_order exampleDict exampleDict_reachable⟩

/-- C17: for every cursor whose current element is absent, `foreach_next` emits the
diagnostic log entry and returns the cursor as it was, so that `foreach_cur` returns null
before and after the call; and on a reachable dictionary the cursor obtained from
`foreach_start` by as many calls of `foreach_next` as there are elements (none on an empty
dictionary), or by more, is such a cursor, whose next element is absent as well. -/
theorem C17_exhausted_cursor [Inhabited K] (d : rb_dictionary K V) (st : rb_dictionary_iter)
    (hcur : st.cur = none) :
    rb_dictionary_foreach_next d st = (st, [foreach_next_diagnostic]) ∧
      rb_dictionary_foreach_cur d st = none ∧
      rb_dictionary_foreach_cur d (rb_dictionary_foreach_next d st).1 = none ∧
      ∀ cmp, TotalOrderCmp cmp → Reachable cmp d → ∀ j,
        (iter_after d (rb_dictionary_size d + j)).cur = none ∧
        (iter_after d (rb_dictionary_size d + j)).next = none := by
  have e : rb_dictionary_foreach_next d st = (st, [foreach_next_diagnostic]) := by
    simp [rb_dictionary_foreach_next, hcur]
  refine ⟨e, by simp [rb_dictionary_foreach_cur, hcur], ?_, ?_⟩
  · rw [e]
    simp [rb_dictionary_foreach_cur, hcur]
  · intro cmp hord hr j
    obtain ⟨t, hwf, -⟩ := hr.wf hord
    have e2 := hwf.iter_after_end j
    rw [← hwf.count] at e2
    simp only [rb_dictionary_size]
    rw [e2]
    exact ⟨rfl, rfl⟩

theorem C17_witness :
    (iter_after exampleDict 5).cur = none ∧
    (rb_dictionary_foreach_next exampleDict (iter_after exampleDict 5) =
        (iter_after exampleDict 5, [foreach_next_diagnostic]) ∧
      rb_dictionary_foreach_cur exampleDict (iter_after exampleDict 5) = none ∧
      rb_dictionary_foreach_cur exampleDict
        (rb_dictionary_foreach_next exampleDict (iter_after exampleDict 5)).1 = none ∧
      ∀ cmp, TotalOrderCmp cmp → Reachable cmp exampleDict → ∀ j,
        (iter_after exampleDict (rb_dictionary_size exampleDict + j)).cur = none ∧
        (iter_after exampleDict (rb_dictionary_size exampleDict + j)).next = none) :=
  ⟨rfl, C17_exhausted_cursor exampleDict (iter_after exampleDict 5) rfl⟩

/-! ## Statistics -/

/-- A well-formed dictionary of one element is a root without children. -/
theorem WF.single {d : rb_dictionary K V} {t : Tree} (h : WF d t) (hc : d.count = 1) :
    ∃ x, d.root = some x ∧ d.left x = none ∧ d.right x = none := by
  have hlen : t.ids.length = 1 := by rw [← h.count, hc]
  cases t with
  | leaf => simp at hlen
  | node l x r =>
    simp only [Tree.ids_node, List.length_append, List.length_cons] at hlen
    have hl : l = .leaf := Tree.ids_eq_nil (List.length_eq_zero.1 (by omega))
    have hr : r = .leaf := Tree.ids_eq_nil (List.length_eq_zero.1 (by omega))
    subst hl hr
    obtain ⟨h1, h2, h3⟩ := h.tree
    exact ⟨x, h1, h2, h3⟩

/-- C20: `stats` on an empty dictionary hands the callback, once, the line that reports count
0, depth-sum 0, average 0 and max depth 0; `stats` on a reachable dictionary holding exactly
one element hands the callback, once, the line that reports count 1, depth-sum 0, average 0
and max depth 0. -/
theorem C20_stats_empty_and_single [Inhabited K] {σ : Type} (cmp : K → K → Int)
    (hord : TotalOrderCmp cmp) (d : rb_dictionary K V) (hr : Reachable cmp d)
    (cb : String → σ → σ) (s : σ) :
    (rb_dictionary_size d = 0 →
      rb_dictionary_stats d cb s = some (cb (stats_line d.id "0" "0" "0" "0") s)) ∧
    (rb_dictionary_size d = 1 →
      rb_dictionary_stats d cb s = some (cb (stats_line d.id "1" "0" "0" "0") s)) := by
  constructor
  · intro h0
    simp only [rb_dictionary_size] at h0
    simp [rb_dictionary_stats, h0]
  · intro h1
    simp only [rb_dictionary_size] at h1
    obtain ⟨t, hwf, -⟩ := hr.wf hord
    obtain ⟨x, hroot, hl, hrr⟩ := hwf.single h1
    have e : stats_recurse d.left d.right 1 (some x) 0 0 = some (0, 0) := by
      simp [stats_recurse, hl, hrr]
    have e0 : toString (int32 (uint32 0 / ((1 : Nat) : Int))) = "0" := by decide
    have e1 : toString (1 : Nat) = "1" := by decide
    have e2 : toString (0 : Int) = "0" := by decide
    simp only [rb_dictionary_stats, h1, hroot, e, e0, e1, e2]
    simp

theorem exampleDictSingle_reachable : Reachable intCmp exampleDictSingle :=
  ⟨"single", [.add 5 50], rfl⟩

theorem C20_witness :
    TotalOrderCmp intCmp ∧ Reachable intCmp exampleDictSingle ∧
    rb_dictionary_size exampleDictSingle = 1 ∧
    stats_line exampleDictSingle.id "1" "0" "0" "0" =
      "single                         DICT            1          0          0          0         " ∧
    ((rb_dictionary_size exampleDictSingle = 0 →
      rb_dictionary_stats exampleDictSingle log_line [] =
        some (log_line (stats_line exampleDictSingle.id "0" "0" "0" "0") [])) ∧
    (rb_dictionary_size exampleDictSingle = 1 →
      rb_dictionary_stats exampleDictSingle log_line [] =
        some (log_line (stats_line exampleDictSingle.id "1" "0" "0" "0") []))) :=
  ⟨intCmp_order, exampleDictSingle_reachable, rfl, by decide,
    C20_stats_empty_and_single intCmp intCmp_order exampleDictSingle
      exampleDictSingle_reachable log_line []⟩

/-! ## Deleting the element under the traversal -/

/-- Deleting the key of an element of the list takes exactly that element out. -/
theorem WF.delete_element {d : rb_dictionary K V} {t : Tree}
    (hord : TotalOrderCmp d.compare_cb) (h : WF d t) {A B : List Nat} {x : Nat}
    (hs : t.ids = A ++ x :: B) :
    ∃ d' t', rb_dictionary_delete d (d.key x) = some (d.data x, d') ∧ WF d' t' ∧
      t'.ids = A ++ B ∧ d'.key = d.key ∧ d'.data = d.data ∧
      d'.compare_cb = d.compare_cb := by
  obtain ⟨v, d', t', e, hwf', hk, hda, hc, -, -, -, hcase⟩ := h.delete_spec hord (d.key x)
  rcases hcase with ⟨-, habs, -, -⟩ | ⟨A', x', B', hAB, h0, hv, hids', -⟩
  · exact absurd (hord.self_eq (d.key x)) (habs x (by rw [hs]; simp))
  · have hsorted := h.sorted
    rw [hs] at hsorted
    have hu := sorted_unique hord hsorted (hord.self_eq (d.key x))
    have hx' : x' ∈ A ++ x :: B := by rw [← hs, hAB]; simp
    have hxx : x' = x := by
      rcases List.mem_append.1 hx' with hm | hm
      · exact absurd h0 (hu x' (List.mem_append_left _ hm))
      · rcases List.mem_cons.1 hm with hm | hm
        · exact hm
        · exact absurd h0 (hu x' (List.mem_append_right _ hm))
    subst hxx
    have hnd := h.nodup
    rw [hs] at hnd
    have hn := nodup_mid hnd
    have heq : A ++ x' :: B = A' ++ x' :: B' := by rw [← hs, hAB]
    obtain ⟨hA, -, hB⟩ := (List.append_cons_inj_of_not_mem hn.1 hn.2).1 heq
    subst hA hB
    refine ⟨d', t', ?_, hwf', hids', hk, hda, hc⟩
    rw [e, hv]

/-- The loop of `rb_dictionary_foreach` over what is left of the list, `rest`, when the
callback may delete the element it is visiting: every element of `rest` is visited in turn,
and the list ends up as the elements kept so far followed by the elements of `rest` that were
not deleted. -/
theorem foreach_loop_mayDelete {σ : Type}
    (g : Nat → σ → rb_dictionary K V → Int × σ × Bool) :
    ∀ (rest kept : List Nat) (fuel : Nat) (log : List (Nat × Bool)) (s : σ)
      (d : rb_dictionary K V) (t : Tree),
      TotalOrderCmp d.compare_cb → WF d t → t.ids = kept ++ rest → rest.length ≤ fuel →
      ∃ log' s' d' t',
        foreach_loop (some (visitMayDelete g)) fuel rest.head? rest.tail.head? (log, s) d =
          some ((log ++ log', s'), d') ∧
        WF d' t' ∧ log'.map Prod.fst = rest ∧
        t'.ids = kept ++ (log'.filter (fun e => !e.2)).map Prod.fst ∧
        d'.key = d.key ∧ d'.data = d.data ∧ d'.compare_cb = d.compare_cb := by
  intro rest
  induction rest with
  | nil =>
    intro kept fuel log s d t _ hwf hs _
    exact ⟨[], s, d, t, by cases fuel <;> simp [foreach_loop], hwf, rfl, by simpa using hs,
      rfl, rfl, rfl⟩
  | cons x rest ih =>
    intro kept fuel log s d t hord hwf hs hfuel
    cases fuel with
    | zero => simp at hfuel
    | succ n =>
      have hfuel' : rest.length ≤ n := by simpa using hfuel
      rcases hg : g x s d with ⟨r, s1, b⟩
      cases b with
      | true =>
        obtain ⟨d1, t1, e, hwf1, hids1, hk1, hda1, hc1⟩ := hwf.delete_element hord hs
        have hnx := hwf1.dlink_next_head hids1
        obtain ⟨log', s', d', t', e1, hwf', hl, hids', hk', hda', hc'⟩ :=
          ih kept n (log ++ [(x, true)]) s1 d1 t1 (hc1 ▸ hord) hwf1 hids1 hfuel'
        refine ⟨(x, true) :: log', s', d', t', ?_, hwf', by simp [hl], by simpa using hids',
          hk'.trans hk1, hda'.trans hda1, hc'.trans hc1⟩
        simp only [List.head?_cons, List.tail_cons, foreach_loop, visitMayDelete, hg, e,
          Option.map_some', hnx]
        rw [e1]
        simp
      | false =>
        have hs' : t.ids = (kept ++ [x]) ++ rest := by rw [hs]; simp
        have hnx := hwf.dlink_next_head hs'
        obtain ⟨log', s', d', t', e1, hwf', hl, hids', hk', hda', hc'⟩ :=
          ih (kept ++ [x]) n (log ++ [(x, false)]) s1 d t hord hwf hs' hfuel'
        refine ⟨(x, false) :: log', s', d', t', ?_, hwf', by simp [hl], by simpa using hids',
          hk', hda', hc'⟩
        simp only [List.head?_cons, List.tail_cons, foreach_loop, visitMayDelete, hg, hnx]
        rw [e1]
        simp

/-- C14: for every reachable dictionary and every visit callback that may delete, by
`delete` of its key, the element it is visiting and no other, `foreach` returns, having
invoked the callback exactly once on each element that was on the list at the start, in
ascending order (the journal of the visits is the list of those elements), and the
dictionary it leaves holds exactly the elements whose visit did not delete them, in the same
order, with their keys and values. -/
theorem C14_foreach_callback_deletes_current [Inhabited K] {σ : Type} (cmp : K → K → Int)
    (hord : TotalOrderCmp cmp) (d : rb_dictionary K V) (hr : Reachable cmp d)
    (g : Nat → σ → rb_dictionary K V → Int × σ × Bool) (s0 : σ) :
    ∃ ids log s' d', elements d = some ids ∧
      (ids.map d.key).Pairwise (fun a b => cmp a b < 0) ∧
      rb_dictionary_foreach d (some (visitMayDelete g)) ([], s0) = some ((log, s'), d') ∧
      log.map Prod.fst = ids ∧
      elements d' = some ((log.filter (fun e => !e.2)).map Prod.fst) ∧
      rb_dictionary_size d' = (log.filter (fun e => !e.2)).length ∧
      entries d' = some (((log.filter (fun e => !e.2)).map Prod.fst).map
        (fun p => (d.key p, d.data p))) := by
  obtain ⟨t, hwf, hc⟩ := hr.wf hord
  have hord' : TotalOrderCmp d.compare_cb := hc ▸ hord
  obtain ⟨h1, h2⟩ := hwf.start_eq
  obtain ⟨log, s', d', t', e1, hwf', hl, hids', hk', hda', -⟩ :=
    foreach_loop_mayDelete g t.ids [] d.count [] s0 d t hord' hwf rfl
      (le_of_eq hwf.count.symm)
  have hs := hwf.sorted
  rw [hc] at hs
  rw [List.nil_append] at hids'
  refine ⟨t.ids, log, s', d', hwf.elements_eq, by rw [List.pairwise_map]; exact hs, ?_, hl,
    ?_, ?_, ?_⟩
  · rw [rb_dictionary_foreach, h2, h1]
    rw [List.nil_append] at e1
    exact e1
  · rw [hwf'.elements_eq, hids']
  · simp [rb_dictionary_size, hwf'.count, hids']
  · rw [hwf'.entries_eq, hids', hk', hda']

theorem C14_witness :
    TotalOrderCmp intCmp ∧ Reachable intCmp exampleDict ∧
    ∃ ids log s' d', elements exampleDict = some ids ∧
      (ids.map exampleDict.key).Pairwise (fun a b => intCmp a b < 0) ∧
      rb_dictionary_foreach exampleDict (some (visitMayDelete delete_odd)) ([], ()) =
        some ((log, s'), d') ∧
      log.map Prod.fst = ids ∧
      elements d' = some ((log.filter (fun e => !e.2)).map Prod.fst) ∧
      rb_dictionary_size d' = (log.filter (fun e => !e.2)).length ∧
      entries d' = some (((log.filter (fun e => !e.2)).map Prod.fst).map
        (fun p => (exampleDict.key p, exampleDict.data p))) :=
  ⟨intCmp_order, exampleDict_reachable,
    C14_foreach_callback_deletes_current intCmp intCmp_order exampleDict
      exampleDict_reachable delete_odd ()⟩

/-- The cursor walk over what is left of the list, `rest`, when the caller may delete the
element under the cursor before advancing: every element of `rest` is yielded in turn, and
the cursor ends exhausted. -/
theorem cursor_walk_spec (del : Nat → Nat → Bool) :
    ∀ (rest kept : List Nat) (fuel i : Nat) (d : rb_dictionary K V) (t : Tree),
      TotalOrderCmp d.compare_cb → WF d t → t.ids = kept ++ rest → rest.length ≤ fuel →
      ∃ d' t',
        cursor_walk del fuel i d ⟨rest.head?, rest.tail.head?⟩ =
          some (rest.map (fun n => (n, d.data n)), d', ⟨none, none⟩) ∧
        WF d' t' ∧ t'.ids = kept ++ kept_by del i rest ∧
        d'.key = d.key ∧ d'.data = d.data ∧ d'.compare_cb = d.compare_cb := by
  intro rest
  induction rest with
  | nil =>
    intro kept fuel i d t _ hwf hs _
    exact ⟨d, t, by cases fuel <;> simp [cursor_walk], hwf, by simpa [kept_by] using hs,
      rfl, rfl, rfl⟩
  | cons x rest ih =>
    intro kept fuel i d t hord hwf hs hfuel
    cases fuel with
    | zero => simp at hfuel
    | succ n =>
      have hfuel' : rest.length ≤ n := by simpa using hfuel
      have hstep : ∀ (d1 : rb_dictionary K V) (t1 : Tree) (kept1 : List Nat), WF d1 t1 →
          t1.ids = kept1 ++ rest →
          (rb_dictionary_foreach_next d1 ⟨some x, rest.head?⟩).1 =
            ⟨rest.head?, rest.tail.head?⟩ := by
        intro d1 t1 kept1 hwf1 hs1
        cases rest with
        | nil => rfl
        | cons y rest' =>
          have hn : d1.next y = rest'.head? := hwf1.next_eq hs1
          simp [rb_dictionary_foreach_next, hn]
      cases hb : del i x with
      | true =>
        obtain ⟨d1, t1, e, hwf1, hids1, hk1, hda1, hc1⟩ := hwf.delete_element hord hs
        obtain ⟨d', t', e1, hwf', hids', hk', hda', hc'⟩ :=
          ih kept n (i + 1) d1 t1 (hc1 ▸ hord) hwf1 hids1 hfuel'
        refine ⟨d', t', ?_, hwf', ?_, hk'.trans hk1, hda'.trans hda1, hc'.trans hc1⟩
        · simp only [List.head?_cons, List.tail_cons, cursor_walk, hb, if_true, e,
            Option.map_some', hstep d1 t1 kept hwf1 hids1, e1, hda1,
            rb_dictionary_foreach_cur, List.map_cons]
        · rw [hids']
          simp [kept_by, List.enumFrom_cons, hb]
      | false =>
        have hs' : t.ids = (kept ++ [x]) ++ rest := by rw [hs]; simp
        obtain ⟨d', t', e1, hwf', hids', hk', hda', hc'⟩ :=
          ih (kept ++ [x]) n (i + 1) d t hord hwf hs' hfuel'
        refine ⟨d', t', ?_, hwf', ?_, hk', hda', hc'⟩
        · simp only [List.head?_cons, List.tail_cons, cursor_walk, hb, Bool.false_eq_true,
            if_false, hstep d t (kept ++ [x]) hwf hs', e1, Option.map_some',
            rb_dictionary_foreach_cur, List.map_cons]
        · rw [hids']
          simp [kept_by, List.enumFrom_cons, hb]

/-- C18: for every reachable dictionary, when the caller of the cursor at each step reads
the current element and then, as it chooses, deletes the key of that element (and no other
key) before calling `foreach_next`, the cursor yields every element that was on the list at
`foreach_start` exactly once, in ascending order, with the value it carries, and then is
exhausted: its current and next elements are absent and `foreach_cur` returns null; the
dictionary is left holding exactly the elements that were not deleted. -/
theorem C18_cursor_survives_unlink_of_current [Inhabited K] (cmp : K → K → Int)
    (hord : TotalOrderCmp cmp) (d : rb_dictionary K V) (hr : Reachable cmp d)
    (del : Nat → Nat → Bool) :
    ∃ ids d' st', elements d = some ids ∧
      (ids.map d.key).Pairwise (fun a b => cmp a b < 0) ∧
      cursor_walk del (rb_dictionary_size d) 0 d (rb_dictionary_foreach_start d).1 =
        some (ids.map (fun n => (n, d.data n)), d', st') ∧
      st'.cur = none ∧ st'.next = none ∧ rb_dictionary_foreach_cur d' st' = none ∧
      elements d' = some (kept_by del 0 ids) ∧
      entries d' = some ((kept_by del 0 ids).map (fun p => (d.key p, d.data p))) := by
  obtain ⟨t, hwf, hc⟩ := hr.wf hord
  have hord' : TotalOrderCmp d.compare_cb := hc ▸ hord
  obtain ⟨d', t', e1, hwf', hids', hk', hda', -⟩ :=
    cursor_walk_spec del t.ids [] d.count 0 d t hord' hwf rfl (le_of_eq hwf.count.symm)
  have hs := hwf.sorted
  rw [hc] at hs
  rw [List.nil_append] at hids'
  have hst : (rb_dictionary_foreach_start d).1 = ⟨t.ids.head?, t.ids.tail.head?⟩ :=
    hwf.iter_after_split 0 [] t.ids rfl rfl
  refine ⟨t.ids, d', ⟨none, none⟩, hwf.elements_eq, by rw [List.pairwise_map]; exact hs, ?_,
    rfl, rfl, rfl, ?_, ?_⟩
  · rw [hst]
    exact e1
  · rw [hwf'.elements_eq, hids']
  · rw [hwf'.entries_eq, hids', hk', hda']

theorem C18_witness :
    TotalOrderCmp intCmp ∧ Reachable intCmp exampleDict ∧
    ∃ ids d' st', elements exampleDict = some ids ∧
      (ids.map exampleDict.key).Pairwise (fun a b => intCmp a b < 0) ∧
      cursor_walk delete_alternate (rb_dictionary_size exampleDict) 0 exampleDict
          (rb_dictionary_foreach_start exampleDict).1 =
        some (ids.map (fun n => (n, exampleDict.data n)), d', st') ∧
      st'.cur = none ∧ st'.next = none ∧ rb_dictionary_foreach_cur d' st' = none ∧
      elements d' = some (kept_by delete_alternate 0 ids) ∧
      entries d' = some ((kept_by delete_alternate 0 ids).map
        (fun p => (exampleDict.key p, exampleDict.data p))) :=
  ⟨intCmp_order, exampleDict_reachable,
    C18_cursor_survives_unlink_of_current intCmp intCmp_order exampleDict
      exampleDict_reachable delete_alternate⟩

/-! ## The search-tree property -/

/-- A tree shape has the search-tree property exactly when its in-order sequence ascends. -/
theorem Tree.isBST_iff_sorted {cmp : K → K → Int} (hord : TotalOrderCmp cmp) (keyOf : Nat → K) :
    ∀ t : Tree, t.IsBST cmp keyOf ↔ SortedIds cmp keyOf t.ids
  | .leaf => by simp [Tree.IsBST, SortedIds]
  | .node l x r => by
    have hl := Tree.isBST_iff_sorted hord keyOf l
    have hr := Tree.isBST_iff_sorted hord keyOf r
    simp only [Tree.IsBST, hl, hr, Tree.ids_node]
    unfold SortedIds
    rw [List.pairwise_append, List.pairwise_cons]
    constructor
    · rintro ⟨h1, h2, h3, h4⟩
      refine ⟨h1, ⟨h4, h2⟩, ?_⟩
      intro a ha b hb
      rcases List.mem_cons.1 hb with rfl | hb
      · exact h3 a ha
      · exact hord.lt_trans _ _ _ (h3 a ha) (h4 b hb)
    · rintro ⟨h1, ⟨h4, h2⟩, h5⟩
      exact ⟨h1, h2, fun y hy => h5 y hy x (List.mem_cons_self _ _), h4⟩

/-- An ascending sequence of elements has no element twice. -/
theorem sorted_nodup {cmp : K → K → Int} (hord : TotalOrderCmp cmp) {keyOf : Nat → K}
    {ids : List Nat} (hs : SortedIds cmp keyOf ids) : ids.Nodup := by
  unfold SortedIds at hs
  refine hs.imp ?_
  intro a b hab heq
  subst heq
  have := hord.self_eq (keyOf a)
  omega

/-- C23: in every reachable dictionary (after any sequence of `add`, `delete`, `find`,
`retrieve` and `get_linear_index`) the child pointers from `root` form a tree with the
binary-search-tree property for the comparator, and the in-order sequence of that tree is
the linked list from `head` along `next`: the same elements in the same order, each once. -/
theorem C23_tree_is_bst_and_matches_list [Inhabited K] (cmp : K → K → Int)
    (hord : TotalOrderCmp cmp) (d : rb_dictionary K V) (hr : Reachable cmp d) :
    ∃ t ids, IsTree d.left d.right d.root t ∧ t.IsBST cmp d.key ∧
      elements d = some ids ∧ t.ids = ids ∧ ids.Nodup ∧
      IsDSeg d.prev d.next none d.head ids d.tail none := by
  obtain ⟨t, hwf, hc⟩ := hr.wf hord
  have hs := hwf.sorted
  rw [hc] at hs
  exact ⟨t, t.ids, hwf.tree, (Tree.isBST_iff_sorted hord d.key t).2 hs, hwf.elements_eq, rfl,
    hwf.nodup, hwf.list⟩

theorem C23_witness :
    TotalOrderCmp intCmp ∧ Reachable intCmp exampleDict ∧
    ∃ t ids, IsTree exampleDict.left exampleDict.right exampleDict.root t ∧
      t.IsBST intCmp exampleDict.key ∧
      elements exampleDict = some ids ∧ t.ids = ids ∧ ids.Nodup ∧
      IsDSeg exampleDict.prev exampleDict.next none exampleDict.head ids exampleDict.tail
        none :=
  ⟨intCmp_order, exampleDict_reachable,
    C23_tree_is_bst_and_matches_list intCmp intCmp_order exampleDict exampleDict_reachable⟩

/-! ## Adding: the element returned -/

/-- Looking up the key of an element of the list finds that element. -/
theorem WF.find_element {d : rb_dictionary K V} {t : Tree}
    (hord : TotalOrderCmp d.compare_cb) (h : WF d t) {x : Nat} (hx : x ∈ t.ids) {k : K}
    (hk : d.compare_cb k (d.key x) = 0) :
    ∃ d' t', rb_dictionary_find d k = some (some x, d') ∧ WF d' t' ∧ t'.ids = t.ids ∧
      d' = { d with left := d'.left, right := d'.right, root := d'.root } := by
  obtain ⟨r, d', t', e, hfr, hwf', hids, hsome, hnone⟩ := h.find hord k
  cases r with
  | none => exact absurd hk (hnone rfl x hx)
  | some y =>
    obtain ⟨-, hy, hy0⟩ := hsome y rfl
    obtain ⟨A, B, hAB⟩ := List.append_of_mem hx
    have hs := h.sorted
    rw [hAB] at hs
    have hu := sorted_unique hord hs hk
    have hyx : y = x := by
      rw [hAB] at hy
      rcases List.mem_append.1 hy with hm | hm
      · exact absurd hy0 (hu y (List.mem_append_left _ hm))
      · rcases List.mem_cons.1 hm with hm | hm
        · exact hm
        · exact absurd hy0 (hu y (List.mem_append_right _ hm))
    subst hyx
    exact ⟨d', t', e, hwf', hids, hfr⟩

/-- C22: for every reachable dictionary, every key `k` that is not live and every non-null
value `v`, `add(k, v)` returns: it hands back an element whose key is `k` and whose data is
`v`, and a `find(k)` on the dictionary it leaves returns that same element. -/
theorem C22_add_returns_the_new_element [Inhabited K] (cmp : K → K → Int)
    (hord : TotalOrderCmp cmp) (d : rb_dictionary K V) (hr : Reachable cmp d) (k : K)
    (hl : ¬ Live d k) (v : V) :
    ∃ x d' d'', rb_dictionary_add d k (some v) = some (x, d') ∧
      d'.key x = k ∧ d'.data x = some v ∧
      rb_dictionary_find d' k = some (some x, d'') ∧
      d''.key x = k ∧ d''.data x = some v := by
  obtain ⟨t, hwf, hc⟩ := hr.wf hord
  have hord' : TotalOrderCmp d.compare_cb := hc ▸ hord
  obtain ⟨x, d', t', e, hwf', -, hc', -, -, hk, hv, hcase⟩ :=
    hwf.add_spec hord' k (some v) (by simp)
  have hord'' : TotalOrderCmp d'.compare_cb := hc' ▸ hord'
  have hx : x ∈ t'.ids := by
    rcases hcase with ⟨-, -, -, A, B, -, h2⟩ | ⟨hin, h0, -, -⟩
    · rw [h2]; simp
    · exact absurd ((hwf.live_iff k).2 ⟨x, hin, h0⟩) hl
  obtain ⟨d'', t'', e2, -, -, hfr⟩ :=
    hwf'.find_element hord'' hx (by rw [hk]; exact hord''.self_eq k)
  have e3 : d''.key = d'.key := by rw [hfr]
  have e4 : d''.data = d'.data := by rw [hfr]
  exact ⟨x, d', d'', e, hk, hv, e2, by rw [e3, hk], by rw [e4, hv]⟩

theorem C22_witness :
    TotalOrderCmp intCmp ∧ Reachable intCmp exampleDict ∧ ¬ Live exampleDict 7 ∧
    ∃ x d' d'', rb_dictionary_add exampleDict 7 (some 70) = some (x, d') ∧
      d'.key x = 7 ∧ d'.data x = some 70 ∧
      rb_dictionary_find d' 7 = some (some x, d'') ∧
      d''.key x = 7 ∧ d''.data x = some 70 :=
  ⟨intCmp_order, exampleDict_reachable, exampleDict_not_live,
    C22_add_returns_the_new_element intCmp intCmp_order exampleDict exampleDict_reachable 7
      exampleDict_not_live 70⟩

/-! ## The count -/

/-- C24: in every reachable dictionary `count` is the length of the linked list from `head`,
which is the number of nodes of the tree; and this is so again, with the count as it was,
after an `add` that hit the duplicate-key path and after a `delete` of a key that is not
there. -/
theorem C24_count_is_list_length [Inhabited K] (cmp : K → K → Int)
    (hord : TotalOrderCmp cmp) (d : rb_dictionary K V) (hr : Reachable cmp d) (k : K)
    (v : V) :
    (∃ t ids, elements d = some ids ∧ IsTree d.left d.right d.root t ∧ t.ids = ids ∧
      rb_dictionary_size d = ids.length) ∧
    (Live d k → ∃ x d' ids', rb_dictionary_add d k (some v) = some (x, d') ∧
      elements d' = some ids' ∧ rb_dictionary_size d' = ids'.length ∧
      rb_dictionary_size d' = rb_dictionary_size d) ∧
    (¬ Live d k → ∃ d' ids', rb_dictionary_delete d k = some (none, d') ∧
      elements d' = some ids' ∧ rb_dictionary_size d' = ids'.length ∧
      rb_dictionary_size d' = rb_dictionary_size d) := by
  obtain ⟨t, hwf, hc⟩ := hr.wf hord
  have hord' : TotalOrderCmp d.compare_cb := hc ▸ hord
  refine ⟨⟨t, t.ids, hwf.elements_eq, hwf.tree, rfl, hwf.count⟩, ?_, ?_⟩
  · intro hl
    obtain ⟨x, d', t', e, hwf', -, -, -, -, -, -, hcase⟩ :=
      hwf.add_spec hord' k (some v) (by simp)
    rcases hcase with ⟨habs, -⟩ | ⟨-, -, hids, -⟩
    · obtain ⟨y, hy, h0⟩ := (hwf.live_iff k).1 hl
      exact absurd h0 (habs y hy)
    · exact ⟨x, d', t'.ids, e, hwf'.elements_eq, hwf'.count, by
        simp only [rb_dictionary_size]
        rw [hwf'.count, hwf.count, hids]⟩
  · intro hl
    obtain ⟨v', d', t', e, hwf', -, -, -, -, -, -, hcase⟩ := hwf.delete_spec hord' k
    rcases hcase with ⟨rfl, -, hids, -⟩ | ⟨A, x, B, hAB, h0, -⟩
    · exact ⟨d', t'.ids, e, hwf'.elements_eq, hwf'.count, by
        simp only [rb_dictionary_size]
        rw [hwf'.count, hwf.count, hids]⟩
    · exact absurd ((hwf.live_iff k).2 ⟨x, by rw [hAB]; simp, h0⟩) hl

theorem C24_witness :
    TotalOrderCmp intCmp ∧ Reachable intCmp exampleDict ∧ Live exampleDict 4 ∧
    ((∃ t ids, elements exampleDict = some ids ∧
      IsTree exampleDict.left exampleDict.right exampleDict.root t ∧ t.ids = ids ∧
      rb_dictionary_size exampleDict = ids.length) ∧
    (Live exampleDict 4 → ∃ x d' ids', rb_dictionary_add exampleDict 4 (some 41) = some (x, d') ∧
      elements d' = some ids' ∧ rb_dictionary_size d' = ids'.length ∧
      rb_dictionary_size d' = rb_dictionary_size exampleDict) ∧
    (¬ Live exampleDict 4 → ∃ d' ids', rb_dictionary_delete exampleDict 4 = some (none, d') ∧
      elements d' = some ids' ∧ rb_dictionary_size d' = ids'.length ∧
      rb_dictionary_size d' = rb_dictionary_size exampleDict)) :=
  ⟨intCmp_order, exampleDict_reachable, exampleDict_live,
    C24_count_is_list_length intCmp intCmp_order exampleDict exampleDict_reachable 4 41⟩

/-! ## Adding a key that is already there -/

/-- C25: when `add(k, v)` is called on a reachable dictionary in which an element `x` already
has a key that compares equal to `k` (the assertion not aborting), the element returned is
`x`, which is now the root and carries the key `k` and the value `v`; the node allocated for
the call is not linked in; every other element keeps its key and value; the size and the
sequence of elements on the linked list are as before; and a `retrieve(k)` that follows
returns `v`. -/
theorem C25_duplicate_add_merges_in_place [Inhabited K] (cmp : K → K → Int)
    (hord : TotalOrderCmp cmp) (d : rb_dictionary K V) (hr : Reachable cmp d) (k : K)
    (hl : Live d k) (v : V) :
    ∃ x d' ids d'', elements d = some ids ∧ x ∈ ids ∧ cmp k (d.key x) = 0 ∧
      rb_dictionary_add d k (some v) = some (x, d') ∧ d'.root = some x ∧
      d'.key x = k ∧ d'.data x = some v ∧ d.brk ∉ ids ∧
      (∀ p ∈ ids, p ≠ x → d'.key p = d.key p ∧ d'.data p = d.data p) ∧
      elements d' = some ids ∧ rb_dictionary_size d' = rb_dictionary_size d ∧
      rb_dictionary_retrieve d' k = some (some v, d'') := by
  obtain ⟨t, hwf, hc⟩ := hr.wf hord
  have hord' : TotalOrderCmp d.compare_cb := hc ▸ hord
  obtain ⟨x, d', t', e, hwf', -, hc', -, hroot, hk, hv, hcase⟩ :=
    hwf.add_spec hord' k (some v) (by simp)
  have hord'' : TotalOrderCmp d'.compare_cb := hc' ▸ hord'
  rcases hcase with ⟨habs, -⟩ | ⟨hin, h0, hids, hrest⟩
  · obtain ⟨y, hy, hy0⟩ := (hwf.live_iff k).1 hl
    exact absurd hy0 (habs y hy)
  · obtain ⟨d'', t'', e2, -, -, hfr⟩ :=
      hwf'.find_element hord'' (hids ▸ hin) (by rw [hk]; exact hord''.self_eq k)
    have e4 : d''.data = d'.data := by rw [hfr]
    refine ⟨x, d', t.ids, d'', hwf.elements_eq, hin, hc ▸ h0, e, hroot, hk, hv, ?_, hrest, ?_,
      ?_, ?_⟩
    · intro hm
      exact Nat.lt_irrefl _ (hwf.alloc _ hm).2
    · rw [hwf'.elements_eq, hids]
    · simp only [rb_dictionary_size]
      rw [hwf'.count, hwf.count, hids]
    · simp only [rb_dictionary_retrieve, e2]
      rw [e4, hv]

theorem C25_witness :
    TotalOrderCmp intCmp ∧ Reachable intCmp exampleDict ∧ Live exampleDict 4 ∧
    ∃ x d' ids d'', elements exampleDict = some ids ∧ x ∈ ids ∧
      intCmp 4 (exampleDict.key x) = 0 ∧
      rb_dictionary_add exampleDict 4 (some 41) = some (x, d') ∧ d'.root = some x ∧
      d'.key x = 4 ∧ d'.data x = some 41 ∧ exampleDict.brk ∉ ids ∧
      (∀ p ∈ ids, p ≠ x → d'.key p = exampleDict.key p ∧ d'.data p = exampleDict.data p) ∧
      elements d' = some ids ∧ rb_dictionary_size d' = rb_dictionary_size exampleDict ∧
      rb_dictionary_retrieve d' 4 = some (some 41, d'') :=
  ⟨intCmp_order, exampleDict_reachable, exampleDict_live,
    C25_duplicate_add_merges_in_place intCmp intCmp_order exampleDict exampleDict_reachable 4
      exampleDict_live 41⟩

/-! ## Retune on its own -/

/-- `rb_dictionary_retune` on a search tree: the outcome, with what lies on either side of
the new root. -/
theorem retune_bst_spec {d : rb_dictionary K V} (hord : TotalOrderCmp d.compare_cb) {t : Tree}
    (hT : IsTree d.left d.right d.root t) (hbst : t.IsBST d.compare_cb d.key)
    (h0 : stackN ∉ t.ids) (hf : t.ids.length ≤ d.count) (key : K) :
    ∃ d' t', rb_dictionary_retune d key = some d' ∧
      d' = { d with left := d'.left, right := d'.right, root := d'.root } ∧
      IsTree d'.left d'.right d'.root t' ∧ t'.ids = t.ids ∧
      SortedIds d.compare_cb d.key t'.ids ∧
      (∀ l x r, t' = .node l x r →
        (d.compare_cb key (d.key x) < 0 → ∀ y ∈ l.ids, d.compare_cb (d.key y) key < 0) ∧
        (0 < d.compare_cb key (d.key x) → ∀ y ∈ r.ids, d.compare_cb key (d.key y) < 0)) := by
  have hs := (Tree.isBST_iff_sorted hord d.key t).1 hbst
  have hnd : (stackN :: t.ids).Nodup := List.nodup_cons.2 ⟨h0, sorted_nodup hord hs⟩
  obtain ⟨d', t', e, hfr, hT', hids, hroot⟩ := rb_dictionary_retune_spec hord key hT hnd hs hf
  exact ⟨d', t', e, hfr, hT', hids, hids ▸ hs, hroot⟩

/-- C28: for every non-empty tree with the binary-search-tree property under a comparator
that orders the keys (its nodes being elements, its count no less than their number) and
every target key `k`, `retune(k)` returns with some node `r` of the tree as root, such that:
every node whose key compares equal to `k` is `r`; and when no key compares equal to `k`,
either the key of `r` is greater than `k` and every other node has a key less than `k` or
greater than that of `r`, or the key of `r` is less than `k` and every other node has a key
less than that of `r` or greater than `k`. -/
theorem C28_retune_root_is_closest (d : rb_dictionary K V)
    (hord : TotalOrderCmp d.compare_cb) (t : Tree) (hT : IsTree d.left d.right d.root t)
    (hne : t ≠ .leaf) (hbst : t.IsBST d.compare_cb d.key) (h0 : stackN ∉ t.ids)
    (hf : t.ids.length ≤ d.count) (k : K) :
    ∃ d' r, rb_dictionary_retune d k = some d' ∧ d'.root = some r ∧ r ∈ t.ids ∧
      d'.key = d.key ∧
      (∀ y ∈ t.ids, d.compare_cb k (d.key y) = 0 → y = r) ∧
      ((∀ y ∈ t.ids, d.compare_cb k (d.key y) ≠ 0) →
        (d.compare_cb k (d.key r) < 0 ∧ ∀ y ∈ t.ids, y ≠ r →
          d.compare_cb (d.key y) k < 0 ∨ d.compare_cb (d.key r) (d.key y) < 0) ∨
        (d.compare_cb (d.key r) k < 0 ∧ ∀ y ∈ t.ids, y ≠ r →
          d.compare_cb (d.key y) (d.key r) < 0 ∨ d.compare_cb k (d.key y) < 0)) := by
  obtain ⟨d', t', e, hfr, hT', hids, hs, hroot⟩ := retune_bst_spec hord hT hbst h0 hf k
  have hkey : d'.key = d.key := by rw [hfr]
  cases t' with
  | leaf =>
    exfalso
    apply hne
    exact Tree.ids_eq_nil (by rw [← hids]; rfl)
  | node l x r =>
    obtain ⟨hl, hr⟩ := hroot l x r rfl
    have hx : d'.root = some x := hT'.1
    rw [Tree.ids_node] at hs hids
    have hm := sorted_mid hs
    have hmem : ∀ y ∈ t.ids, y ≠ x → y ∈ l.ids ∨ y ∈ r.ids := by
      intro y hy hyx
      rw [← hids] at hy
      rcases List.mem_append.1 hy with h | h
      · exact Or.inl h
      · rcases List.mem_cons.1 h with h | h
        · exact absurd h hyx
        · exact Or.inr h
    refine ⟨d', x, e, hx, by rw [← hids]; simp, hkey, ?_, ?_⟩
    · intro y hy hy0
      by_contra hyx
      by_cases hx0 : d.compare_cb k (d.key x) = 0
      · have hu := sorted_unique hord hs hx0
        rcases hmem y hy hyx with h | h
        · exact hu y (List.mem_append_left _ h) hy0
        · exact hu y (List.mem_append_right _ h) hy0
      · have := absent_of_root hord hs hx0 hl hr y (by rw [hids]; exact hy)
        exact this hy0
    · intro habs
      have hx0 : d.compare_cb k (d.key x) ≠ 0 := habs x (by rw [← hids]; simp)
      rcases lt_or_gt_of_ne hx0 with hlt | hgt
      · refine Or.inl ⟨hlt, ?_⟩
        intro y hy hyx
        rcases hmem y hy hyx with h | h
        · exact Or.inl (hl hlt y h)
        · exact Or.inr (hm.2 y h)
      · refine Or.inr ⟨(hord.swap _ _).2 hgt, ?_⟩
        intro y hy hyx
        rcases hmem y hy hyx with h | h
        · exact Or.inl (hm.1 y h)
        · exact Or.inr (hr hgt y h)

theorem exampleTree_isTree :
    IsTree exampleDict.left exampleDict.right exampleDict.root exampleTree :=
  ⟨rfl, ⟨rfl, ⟨rfl, rfl, rfl⟩, rfl⟩, rfl, rfl, rfl, rfl, rfl⟩

theorem exampleTree_isBST : exampleTree.IsBST exampleDict.compare_cb exampleDict.key := by
  have e : exampleDict.compare_cb = intCmp := rfl
  have k1 : exampleDict.key 1 = 5 := rfl
  have k2 : exampleDict.key 2 = 3 := rfl
  have k3 : exampleDict.key 3 = 8 := rfl
  have k4 : exampleDict.key 4 = 1 := rfl
  have k5 : exampleDict.key 5 = 4 := rfl
  simp [exampleTree, Tree.IsBST, e, intCmp, k1, k2, k3, k4, k5]

theorem exampleDict_order : TotalOrderCmp exampleDict.compare_cb := intCmp_order

theorem C28_witness :
    TotalOrderCmp exampleDict.compare_cb ∧
    IsTree exampleDict.left exampleDict.right exampleDict.root exampleTree ∧
    exampleTree ≠ .leaf ∧ exampleTree.IsBST exampleDict.compare_cb exampleDict.key ∧
    stackN ∉ exampleTree.ids ∧ exampleTree.ids.length ≤ exampleDict.count ∧
    ∃ d' r, rb_dictionary_retune exampleDict 7 = some d' ∧ d'.root = some r ∧
      r ∈ exampleTree.ids ∧ d'.key = exampleDict.key ∧
      (∀ y ∈ exampleTree.ids, exampleDict.compare_cb 7 (exampleDict.key y) = 0 → y = r) ∧
      ((∀ y ∈ exampleTree.ids, exampleDict.compare_cb 7 (exampleDict.key y) ≠ 0) →
        (exampleDict.compare_cb 7 (exampleDict.key r) < 0 ∧ ∀ y ∈ exampleTree.ids, y ≠ r →
          exampleDict.compare_cb (exampleDict.key y) 7 < 0 ∨
            exampleDict.compare_cb (exampleDict.key r) (exampleDict.key y) < 0) ∨
        (exampleDict.compare_cb (exampleDict.key r) 7 < 0 ∧ ∀ y ∈ exampleTree.ids, y ≠ r →
          exampleDict.compare_cb (exampleDict.key y) (exampleDict.key r) < 0 ∨
            exampleDict.compare_cb 7 (exampleDict.key y) < 0)) :=
  ⟨exampleDict_order, exampleTree_isTree, by simp [exampleTree], exampleTree_isBST,
    by decide, by decide,
    C28_retune_root_is_closest exampleDict exampleDict_order exampleTree exampleTree_isTree
      (by simp [exampleTree]) exampleTree_isBST (by decide) (by decide) 7⟩

/-- C29: `retune` only reshapes the tree: for every tree with the binary-search-tree
property (its nodes being elements, the count no less than their number) and every target
key, `retune` returns with a tree that again has the binary-search-tree property and the same
in-order sequence of nodes, while `head`, `tail`, the `prev` and `next` links, the count, the
dirty flag, the keys and the values are as before; on an empty tree it changes nothing. -/
theorem C29_retune_only_reshapes (d : rb_dictionary K V)
    (hord : TotalOrderCmp d.compare_cb) (t : Tree) (hT : IsTree d.left d.right d.root t)
    (hbst : t.IsBST d.compare_cb d.key) (h0 : stackN ∉ t.ids)
    (hf : t.ids.length ≤ d.count) (k : K) :
    ∃ d' t', rb_dictionary_retune d k = some d' ∧
      IsTree d'.left d'.right d'.root t' ∧ t'.IsBST d'.compare_cb d'.key ∧
      t'.ids = t.ids ∧
      d'.head = d.head ∧ d'.tail = d.tail ∧ d'.prev = d.prev ∧ d'.next = d.next ∧
      d'.count = d.count ∧ d'.dirty = d.dirty ∧ d'.key = d.key ∧ d'.data = d.data ∧
      d' = { d with left := d'.left, right := d'.right, root := d'.root } ∧
      (t = .leaf → d' = d) := by
  obtain ⟨d', t', e, hfr, hT', hids, hs, -⟩ := retune_bst_spec hord hT hbst h0 hf k
  have hkey : d'.key = d.key := by rw [hfr]
  have hcmp : d'.compare_cb = d.compare_cb := by rw [hfr]
  refine ⟨d', t', e, hT', ?_, hids, by rw [hfr], by rw [hfr], by rw [hfr], by rw [hfr],
    by rw [hfr], by rw [hfr], hkey, by rw [hfr], hfr, ?_⟩
  · rw [hcmp, hkey]
    exact (Tree.isBST_iff_sorted hord d.key t').2 hs
  · intro hleaf
    subst hleaf
    have hroot : d.root = none := hT
    simp only [rb_dictionary_retune, hroot] at e
    exact (Option.some.inj e).symm

theorem C29_witness :
    TotalOrderCmp exampleDict.compare_cb ∧
    IsTree exampleDict.left exampleDict.right exampleDict.root exampleTree ∧
    exampleTree.IsBST exampleDict.compare_cb exampleDict.key ∧
    stackN ∉ exampleTree.ids ∧ exampleTree.ids.length ≤ exampleDict.count ∧
    ∃ d' t', rb_dictionary_retune exampleDict 7 = some d' ∧
      IsTree d'.left d'.right d'.root t' ∧ t'.IsBST d'.compare_cb d'.key ∧
      t'.ids = exampleTree.ids ∧
      d'.head = exampleDict.head ∧ d'.tail = exampleDict.tail ∧
      d'.prev = exampleDict.prev ∧ d'.next = exampleDict.next ∧
      d'.count = exampleDict.count ∧ d'.dirty = exampleDict.dirty ∧
      d'.key = exampleDict.key ∧ d'.data = exampleDict.data ∧
      d' = { exampleDict with left := d'.left, right := d'.right, root := d'.root } ∧
      (exampleTree = .leaf → d' = exampleDict) :=
  ⟨exampleDict_order, exampleTree_isTree, exampleTree_isBST, by decide, by decide,
    C29_retune_only_reshapes exampleDict exampleDict_order exampleTree exampleTree_isTree
      exampleTree_isBST (by decide) (by decide) 7⟩

/-! ## Where `link` puts the new element -/

/-- The neighbours of an element of the linked list are elements of the list, and the ends of
the list have none. -/
theorem IsDSeg_neighbours {prev next : Nat → Ptr} {A B : List Nat} {r : Nat}
    {head tail : Ptr} (h : IsDSeg prev next none head (A ++ r :: B) tail none)
    (hnd : (A ++ r :: B).Nodup) :
    (∀ p, prev r = some p → p ∈ A) ∧ (∀ p, next r = some p → p ∈ B) ∧
      (A = [] → head = some r ∧ prev r = none) ∧ (B = [] → tail = some r ∧ next r = none) ∧
      (A ≠ [] → ∃ p, prev r = some p) ∧ (B ≠ [] → ∃ p, next r = some p) ∧
      (head = some r → prev r = none) ∧ (tail = some r → next r = none) := by
  have hrn := nodup_mid hnd
  have h' := h
  obtain ⟨m, s, hA, hB⟩ := IsDSeg_append.1 h
  obtain ⟨hs, hp, hB'⟩ := hB
  refine ⟨?_, ?_, ?_, ?_, ?_, ?_, ?_, ?_⟩
  · intro p hpp
    rw [hp] at hpp
    have hne : A ≠ [] := by
      rintro rfl
      obtain ⟨-, hm⟩ := hA
      rw [hm] at hpp
      cases hpp
    exact IsDSeg_last_mem hA hne hpp
  · intro p hpp
    have hne : B ≠ [] := by
      rintro rfl
      obtain ⟨hn, -⟩ := hB'
      rw [hn] at hpp
      cases hpp
    exact IsDSeg_start_mem hB' hne hpp
  · rintro rfl
    obtain ⟨h1, h2⟩ := hA
    exact ⟨h1.trans hs, hp.trans h2⟩
  · rintro rfl
    obtain ⟨h1, h2⟩ := hB'
    exact ⟨h2, h1⟩
  · intro hne
    rcases list_nil_or_snoc A with rfl | ⟨A', q, rfl⟩
    · exact absurd rfl hne
    · obtain ⟨m', -, -, -, hl⟩ := IsDSeg_snoc.1 hA
      exact ⟨q, hp.trans hl⟩
  · intro hne
    cases B with
    | nil => exact absurd rfl hne
    | cons b B' => exact ⟨b, hB'.1⟩
  · intro hh
    cases A with
    | nil =>
      obtain ⟨-, h2⟩ := hA
      exact hp.trans h2
    | cons x xs =>
      have h1 := h'.1
      rw [hh] at h1
      have hx : r = x := Option.some.inj h1
      exact absurd (by rw [hx]; simp) hrn.1
  · intro hh
    cases B with
    | nil => exact hB'.1
    | cons b B' => exact absurd (IsDSeg_last_mem hB' (by simp) hh) hrn.2

/-- `rb_dictionary_link` of an element whose key is not in a non-empty dictionary: the tree
is retuned on the key, and the element goes in above the root `r` that this leaves, next to
it in the list. -/
theorem WF.link_shape {d : rb_dictionary K V} {t : Tree} (hord : TotalOrderCmp d.compare_cb)
    (h : WF d t) {delem : Nat} (hd : delem ∉ t.ids)
    (habs : ∀ y ∈ t.ids, d.compare_cb (d.key delem) (d.key y) ≠ 0) (hroot : d.root ≠ none) :
    ∃ d1 r d',
      rb_dictionary_retune { d with dirty := true, count := d.count + 1 } (d.key delem) =
        some d1 ∧
      d1.root = some r ∧ r ∈ t.ids ∧ r ≠ delem ∧
      d1.prev = d.prev ∧ d1.next = d.next ∧ d1.head = d.head ∧ d1.tail = d.tail ∧
      rb_dictionary_link d delem = some (delem, d') ∧ d'.root = some delem ∧
      ((d.compare_cb (d.key delem) (d.key r) < 0 ∧
          d'.left delem = d1.left r ∧ d'.right delem = some r ∧ d'.left r = none ∧
          d'.right r = d1.right r ∧
          d'.prev delem = d1.prev r ∧ d'.next delem = some r ∧ d'.prev r = some delem ∧
          d'.next r = d1.next r ∧ d'.tail = d1.tail ∧
          (d1.head = some r → d'.head = some delem) ∧
          (∀ p, d1.prev r = some p → d'.next p = some delem ∧ d'.head = d1.head)) ∨
        (d.compare_cb (d.key r) (d.key delem) < 0 ∧
          d'.right delem = d1.right r ∧ d'.left delem = some r ∧ d'.right r = none ∧
          d'.left r = d1.left r ∧
          d'.next delem = d1.next r ∧ d'.prev delem = some r ∧ d'.next r = some delem ∧
          d'.prev r = d1.prev r ∧ d'.head = d1.head ∧
          (d1.tail = some r → d'.tail = some delem) ∧
          (∀ p, d1.next r = some p → d'.prev p = some delem ∧ d'.tail = d1.tail))) := by
  unfold rb_dictionary_link
  simp only []
  cases hroot' : d.root with
  | none => exact absurd hroot' hroot
  | some r0 =>
    simp only []
    have hT0 := h.tree
    have hne : t.ids ≠ [] := by
      rw [hroot'] at hT0
      obtain ⟨l, r, rfl, -, -⟩ := IsTree_some hT0
      simp
    obtain ⟨d1, t1, e, hfr, hT1, hids1, -⟩ :=
      rb_dictionary_retune_spec (d := { d with dirty := true, count := d.count + 1 }) hord
        (d.key delem) h.tree h.nodup0 h.sorted (by simp [h.count])
    rw [← hroot', e]
    simp only []
    have e1 : d1.compare_cb = d.compare_cb := by rw [hfr]
    have e2 : d1.key = d.key := by rw [hfr]
    have e3 : d1.prev = d.prev := by rw [hfr]
    have e4 : d1.next = d.next := by rw [hfr]
    have e5 : d1.head = d.head := by rw [hfr]
    have e6 : d1.tail = d.tail := by rw [hfr]
    cases hr1 : d1.root with
    | none =>
      rw [hr1] at hT1
      have := IsTree_none hT1
      subst this
      exact absurd hids1.symm hne
    | some root =>
      rw [hr1] at hT1
      obtain ⟨a, b, rfl, -, -⟩ := IsTree_some hT1
      have hrin : root ∈ t.ids := by rw [← hids1]; simp
      have hrd : root ≠ delem := fun e => hd (e ▸ hrin)
      have hdr : delem ≠ root := Ne.symm hrd
      have hl1 : IsDSeg d1.prev d1.next none d1.head (a.ids ++ root :: b.ids) d1.tail none := by
        rw [e3, e4, e5, e6, ← Tree.ids_node, hids1]; exact h.list
      have hnd1 : (a.ids ++ root :: b.ids).Nodup := by
        rw [← Tree.ids_node, hids1]; exact h.nodup
      obtain ⟨hpA, hnB, -, -, -, -, hH, hTl⟩ := IsDSeg_neighbours hl1 hnd1
      have hdA : delem ∉ a.ids := fun hm => hd (by rw [← hids1]; simp [hm])
      have hdB : delem ∉ b.ids := fun hm => hd (by rw [← hids1]; simp [hm])
      have hrn := nodup_mid hnd1
      have hne0 := habs root hrin
      simp only [e1, e2]
      by_cases hlt : d.compare_cb (d.key delem) (d.key root) < 0
      · rw [if_pos hlt]
        refine ⟨d1, root, _, rfl, hr1, hrin, hrd, e3, e4, e5, e6, rfl, rfl, Or.inl ⟨hlt, ?_⟩⟩
        refine ⟨?_, ?_, ?_, ?_, ?_, ?_, ?_, ?_, rfl, ?_, ?_⟩
        · simp only [setField_same, setField_ne _ _ hdr]
        · simp only [setField_same]
        · simp only [setField_same]
        · simp only [setField_ne _ _ hrd]
        · simp only [setField_same, setField_ne _ _ hdr]
        · simp only [setField_same]
        · simp only [setField_same]
        · have hpr : ∀ p, d1.prev root = some p → root ≠ p := by
            intro p hp e
            exact hrn.1 (e ▸ hpA p hp)
          simp only [setField_ne _ _ hrd]
          cases hp : d1.prev root with
          | none => rfl
          | some p => simp only [setField_ne _ _ (hpr p hp)]
        · intro hh
          simp only [hH hh]
        · intro p hp
          have hpd : p ≠ delem := fun e => hdA (e ▸ hpA p hp)
          simp only [hp, setField_ne _ _ hpd, setField_same, and_self]
      · rw [if_neg hlt]
        have hgt : d.compare_cb (d.key delem) (d.key root) > 0 := by omega
        rw [if_pos hgt]
        refine ⟨d1, root, _, rfl, hr1, hrin, hrd, e3, e4, e5, e6, rfl, rfl,
          Or.inr ⟨(hord.swap _ _).2 hgt, ?_⟩⟩
        refine ⟨?_, ?_, ?_, ?_, ?_, ?_, ?_, ?_, rfl, ?_, ?_⟩
        · simp only [setField_same, setField_ne _ _ hdr]
        · simp only [setField_same]
        · simp only [setField_same]
        · simp only [setField_ne _ _ hrd]
        · simp only [setField_same, setField_ne _ _ hdr]
        · simp only [setField_same, setField_ne _ _ hdr]
        · simp only [setField_same]
        · have hpr : ∀ p, d1.next root = some p → root ≠ p := by
            intro p hp e
            exact hrn.2 (e ▸ hnB p hp)
          simp only [setField_ne _ _ hrd]
          cases hp : d1.next root with
          | none => rfl
          | some p => simp only [setField_ne _ _ (hpr p hp)]
        · intro hh
          simp only [hTl hh]
        · intro p hp
          have hpd : p ≠ delem := fun e => hdB (e ▸ hnB p hp)
          simp only [hp, setField_ne _ _ hpd, setField_same, and_self]

/-- C30: for every reachable dictionary and every key `k` that is not live, `add(k, v)`
returns the new element `x` as the root of the tree. On an empty dictionary `x` is also
`head` and `tail`, without children and without neighbours. Otherwise let `r` be the root
that the retune on `k` inside `link` leaves: if `k` is less than the key of `r`, the left
child of `x` is the former left child of `r`, its right child is `r`, whose left child is now
empty, and `x` sits immediately before `r` in the list, between the former predecessor of `r`
and `r` (as new `head` when `r` was `head`); symmetrically, if `k` is greater than the key of
`r`, `x` takes the former right child of `r`, has `r` as left child, and sits immediately
after `r` (as new `tail` when `r` was `tail`). -/
theorem C30_added_element_becomes_root [Inhabited K] (cmp : K → K → Int)
    (hord : TotalOrderCmp cmp) (d : rb_dictionary K V) (hr : Reachable cmp d) (k : K)
    (hl : ¬ Live d k) (v : V) :
    ∃ df x d', rb_dictionary_find d k = some (none, df) ∧
      rb_dictionary_add d k (some v) = some (x, d') ∧ d'.root = some x ∧
      d'.key x = k ∧ d'.data x = some v ∧
      (d.root = none →
        d'.head = some x ∧ d'.tail = some x ∧ d'.left x = none ∧ d'.right x = none ∧
        d'.prev x = none ∧ d'.next x = none) ∧
      (d.root ≠ none → ∃ d1 r,
        rb_dictionary_retune
          { df with
            brk := df.brk + 1
            key := setField df.key df.brk k
            data := setField df.data df.brk (some v)
            dirty := true
            count := df.count + 1 } k = some d1 ∧
        d1.root = some r ∧ r ≠ x ∧
        ((cmp k (d.key r) < 0 ∧
            d'.left x = d1.left r ∧ d'.right x = some r ∧ d'.left r = none ∧
            d'.right r = d1.right r ∧
            d'.prev x = d1.prev r ∧ d'.next x = some r ∧ d'.prev r = some x ∧
            d'.next r = d1.next r ∧ d'.tail = d1.tail ∧
            (d1.head = some r → d'.head = some x) ∧
            (∀ p, d1.prev r = some p → d'.next p = some x ∧ d'.head = d1.head)) ∨
          (cmp (d.key r) k < 0 ∧
            d'.right x = d1.right r ∧ d'.left x = some r ∧ d'.right r = none ∧
            d'.left r = d1.left r ∧
            d'.next x = d1.next r ∧ d'.prev x = some r ∧ d'.next r = some x ∧
            d'.prev r = d1.prev r ∧ d'.head = d1.head ∧
            (d1.tail = some r → d'.tail = some x) ∧
            (∀ p, d1.next r = some p → d'.prev p = some x ∧ d'.tail = d1.tail)))) := by
  obtain ⟨t, hwf, hc⟩ := hr.wf hord
  have hord' : TotalOrderCmp d.compare_cb := hc ▸ hord
  obtain ⟨x, d', t', eadd, -, -, -, -, hroot, hk, hv, -⟩ :=
    hwf.add_spec hord' k (some v) (by simp)
  obtain ⟨r0, df, t1, e, hfr, hwf1, hids1, hsome, hnone⟩ := hwf.find hord' k
  have e1 : df.compare_cb = d.compare_cb := by rw [hfr]
  have e2 : df.key = d.key := by rw [hfr]
  have hr0 : r0 = none := by
    cases r0 with
    | none => rfl
    | some y =>
      obtain ⟨-, hy, hy0⟩ := hsome y rfl
      exact absurd ((hwf.live_iff k).2 ⟨y, hy, hy0⟩) hl
  subst hr0
  have habs := hnone rfl
  have hfresh : df.brk ∉ t1.ids := fun hm => Nat.lt_irrefl _ (hwf1.alloc _ hm).2
  have hne : ∀ p ∈ t1.ids, p ≠ df.brk := fun p hp e => hfresh (e ▸ hp)
  have hwf2 : WF { df with brk := df.brk + 1
                           key := setField df.key df.brk k
                           data := setField df.data df.brk (some v) } t1 := by
    refine ⟨hwf1.tree, hwf1.nodup, ?_, Nat.lt_succ_of_lt hwf1.brk_pos, ?_, hwf1.list,
      hwf1.count, ?_, hwf1.pos⟩
    · intro p hp
      have := hwf1.alloc p hp
      exact ⟨this.1, Nat.lt_succ_of_lt this.2⟩
    · refine sorted_congr ?_ hwf1.sorted
      intro p hp
      exact (setField_ne _ _ (hne p hp)).symm
    · intro p hp
      simp only [setField_ne _ _ (hne p hp)]
      exact hwf1.data p hp
  have hadd : rb_dictionary_add d k (some v) =
      rb_dictionary_link { df with brk := df.brk + 1
                                   key := setField df.key df.brk k
                                   data := setField df.data df.brk (some v) } df.brk := by
    unfold rb_dictionary_add
    rw [e]
  refine ⟨df, x, d', e, eadd, hroot, hk, hv, ?_, ?_⟩
  · intro hnil
    have ht : t = .leaf := IsTree_none (hnil ▸ hwf.tree)
    have ht1 : t1 = .leaf := Tree.ids_eq_nil (by rw [hids1, ht]; rfl)
    have hroot1 : df.root = none := by
      have := hwf1.tree
      rw [ht1] at this
      exact this
    have hlink := eadd
    rw [hadd] at hlink
    unfold rb_dictionary_link at hlink
    simp only [hroot1] at hlink
    obtain ⟨rfl, rfl⟩ := Prod.mk.inj (Option.some.inj hlink)
    simp only [setField_same, and_self]
  · intro hsome'
    have hroot1 : df.root ≠ none := by
      intro hnil
      have ht1 : t1 = .leaf := IsTree_none (hnil ▸ hwf1.tree)
      have ht : t = .leaf := Tree.ids_eq_nil (by rw [← hids1, ht1]; rfl)
      have := hwf.tree
      rw [ht] at this
      exact hsome' this
    have habs2 : ∀ y ∈ t1.ids, df.compare_cb (setField df.key df.brk k df.brk)
        (setField df.key df.brk k y) ≠ 0 := by
      intro y hy
      rw [setField_same, setField_ne _ _ (hne y hy), e1, e2]
      exact habs y (hids1 ▸ hy)
    obtain ⟨d1, r, d'', eret, hr1, hrin, hrx, -, -, -, -, el, -, hcase⟩ :=
      hwf2.link_shape (by rw [e1]; exact hord') hfresh habs2 hroot1
    have hx : rb_dictionary_add d k (some v) = some (df.brk, d'') := hadd.trans el
    rw [eadd] at hx
    obtain ⟨rfl, rfl⟩ := Prod.mk.inj (Option.some.inj hx)
    have hkk : setField df.key df.brk k df.brk = k := setField_same _ _ _
    have hkr : setField df.key df.brk k r = d.key r := by
      rw [setField_ne _ _ hrx, e2]
    simp only [hkk] at eret
    simp only [hkk, hkr, e1, hc] at hcase
    exact ⟨d1, r, eret, hr1, hrx, hcase⟩

theorem C30_witness :
    TotalOrderCmp intCmp ∧ Reachable intCmp exampleDict ∧ ¬ Live exampleDict 7 ∧
    ∃ df x d', rb_dictionary_find exampleDict 7 = some (none, df) ∧
      rb_dictionary_add exampleDict 7 (some 70) = some (x, d') ∧ d'.root = some x ∧
      d'.key x = 7 ∧ d'.data x = some 70 ∧
      (exampleDict.root = none →
        d'.head = some x ∧ d'.tail = some x ∧ d'.left x = none ∧ d'.right x = none ∧
        d'.prev x = none ∧ d'.next x = none) ∧
      (exampleDict.root ≠ none → ∃ d1 r,
        rb_dictionary_retune
          { df with
            brk := df.brk + 1
            key := setField df.key df.brk 7
            data := setField df.data df.brk (some 70)
            dirty := true
            count := df.count + 1 } 7 = some d1 ∧
        d1.root = some r ∧ r ≠ x ∧
        ((intCmp 7 (exampleDict.key r) < 0 ∧
            d'.left x = d1.left r ∧ d'.right x = some r ∧ d'.left r = none ∧
            d'.right r = d1.right r ∧
            d'.prev x = d1.prev r ∧ d'.next x = some r ∧ d'.prev r = some x ∧
            d'.next r = d1.next r ∧ d'.tail = d1.tail ∧
            (d1.head = some r → d'.head = some x) ∧
            (∀ p, d1.prev r = some p → d'.next p = some x ∧ d'.head = d1.head)) ∨
          (intCmp (exampleDict.key r) 7 < 0 ∧
            d'.right x = d1.right r ∧ d'.left x = some r ∧ d'.right r = none ∧
            d'.left r = d1.left r ∧
            d'.next x = d1.next r ∧ d'.prev x = some r ∧ d'.next r = some x ∧
            d'.prev r = d1.prev r ∧ d'.head = d1.head ∧
            (d1.tail = some r → d'.tail = some x) ∧
            (∀ p, d1.next r = some p → d'.prev p = some x ∧ d'.tail = d1.tail)))) :=
  ⟨intCmp_order, exampleDict_reachable, exampleDict_not_live,
    C30_added_element_becomes_root intCmp intCmp_order exampleDict exampleDict_reachable 7
      exampleDict_not_live 70⟩

/-! ## The comparator stays -/

theorem retune_compare_cb {d d' : rb_dictionary K V} {key : K}
    (h : rb_dictionary_retune d key = some d') : d'.compare_cb = d.compare_cb := by
  unfold rb_dictionary_retune at h
  split at h
  · cases h; rfl
  · simp only [] at h
    split at h
    · cases h
    · cases h; rfl

theorem find_compare_cb {d d' : rb_dictionary K V} {key : K} {r : Ptr}
    (h : rb_dictionary_find d key = some (r, d')) : d'.compare_cb = d.compare_cb := by
  unfold rb_dictionary_find at h
  split at h
  · cases h
  · rename_i d1 e
    have e1 := retune_compare_cb e
    split at h
    · cases h; exact e1
    · split at h <;> (cases h; exact e1)

theorem link_compare_cb {d d' : rb_dictionary K V} {delem r : Nat}
    (h : rb_dictionary_link d delem = some (r, d')) : d'.compare_cb = d.compare_cb := by
  unfold rb_dictionary_link at h
  simp only [] at h
  split at h
  · cases h; rfl
  · split at h
    · cases h
    · rename_i d1 e
      have e1 := retune_compare_cb e
      split at h
      · cases h
      · split at h
        · cases h; exact e1
        · split at h <;> (cases h; exact e1)

theorem add_compare_cb {d d' : rb_dictionary K V} {key : K} {data : Option V} {r : Nat}
    (h : rb_dictionary_add d key data = some (r, d')) : d'.compare_cb = d.compare_cb := by
  unfold rb_dictionary_add at h
  split at h
  · cases h
  · rename_i r0 d1 e
    have e1 : d1.compare_cb = d.compare_cb := find_compare_cb e
    exact (link_compare_cb h).trans e1

theorem unlink_root_tree_compare_cb {d d' : rb_dictionary K V} {delem : Nat}
    (h : unlink_root_tree d delem = some d') : d'.compare_cb = d.compare_cb := by
  unfold unlink_root_tree at h
  split at h
  · cases h; rfl
  · split at h
    · cases h; rfl
    · split at h
      · cases h
      · split at h
        · cases h; rfl
        · split at h
          · cases h
          · cases h; rfl

theorem unlink_root_compare_cb {d d' : rb_dictionary K V}
    (h : rb_dictionary_unlink_root d = some d') : d'.compare_cb = d.compare_cb := by
  unfold rb_dictionary_unlink_root at h
  simp only [] at h
  split at h
  · cases h; rfl
  · split at h
    · cases h
    · rename_i d1 e
      cases h
      have e1 := unlink_root_tree_compare_cb e
      exact e1

theorem delete_compare_cb {d d' : rb_dictionary K V} {key : K} {v : Option V}
    (h : rb_dictionary_delete d key = some (v, d')) : d'.compare_cb = d.compare_cb := by
  unfold rb_dictionary_delete at h
  split at h
  · cases h
  · rename_i d1 e
    cases h
    exact find_compare_cb e
  · rename_i delem d1 e
    split at h
    · cases h
    · rename_i d2 e2
      cases h
      exact (unlink_root_compare_cb e2).trans (find_compare_cb e)

theorem retrieve_compare_cb {d d' : rb_dictionary K V} {key : K} {v : Option V}
    (h : rb_dictionary_retrieve d key = some (v, d')) : d'.compare_cb = d.compare_cb := by
  unfold rb_dictionary_retrieve at h
  split at h
  · cases h
  · rename_i d1 e
    cases h
    exact find_compare_cb e
  · rename_i delem d1 e
    cases h
    exact find_compare_cb e

theorem get_linear_index_compare_cb {d d' : rb_dictionary K V} {key : K} {v : Int}
    (h : rb_dictionary_get_linear_index d key = some (v, d')) :
    d'.compare_cb = d.compare_cb := by
  unfold rb_dictionary_get_linear_index at h
  split at h
  · cases h
  · rename_i d1 e
    cases h
    exact find_compare_cb e
  · rename_i elem d1 e
    split at h
    · cases h
      exact find_compare_cb e
    · split at h
      · cases h
      · cases h
        have e1 : d1.compare_cb = d.compare_cb := find_compare_cb e
        exact e1

/-- No call of `Op` changes the comparator. -/
theorem Op.apply_compare_cb {o : Op K V} {d d' : rb_dictionary K V} (h : o.apply d = some d') :
    d'.compare_cb = d.compare_cb := by
  cases o with
  | add key data =>
    simp only [Op.apply, Option.map_eq_some'] at h
    obtain ⟨⟨r, d1⟩, e, rfl⟩ := h
    exact add_compare_cb e
  | delete key =>
    simp only [Op.apply, Option.map_eq_some'] at h
    obtain ⟨⟨r, d1⟩, e, rfl⟩ := h
    exact delete_compare_cb e
  | find key =>
    simp only [Op.apply, Option.map_eq_some'] at h
    obtain ⟨⟨r, d1⟩, e, rfl⟩ := h
    exact find_compare_cb e
  | retrieve key =>
    simp only [Op.apply, Option.map_eq_some'] at h
    obtain ⟨⟨r, d1⟩, e, rfl⟩ := h
    exact retrieve_compare_cb e
  | get_linear_index key =>
    simp only [Op.apply, Option.map_eq_some'] at h
    obtain ⟨⟨r, d1⟩, e, rfl⟩ := h
    exact get_linear_index_compare_cb e

/-- After a sequence of calls the comparator is the one set last. -/
theorem runCalls_compare_cb :
    ∀ (calls : List (Call K V)) (d d' : rb_dictionary K V), runCalls calls d = some d' →
      d'.compare_cb = lastComparator d.compare_cb calls
  | [], d, d', h => by
    cases h
    rfl
  | .op o :: cs, d, d', h => by
    simp only [runCalls, Call.apply] at h
    split at h
    · cases h
    · rename_i d1 e
      rw [runCalls_compare_cb cs d1 d' h, Op.apply_compare_cb e]
      rfl
  | .set_comparator c :: cs, d, d', h => by
    simp only [runCalls, Call.apply] at h
    rw [runCalls_compare_cb cs _ d' h]
    rfl

theorem lastComparator_ops (cmp0 : K → K → Int) :
    ∀ calls : List (Call K V), (∀ c ∈ calls, c.isOp = true) → lastComparator cmp0 calls = cmp0
  | [], _ => rfl
  | .op o :: cs, h => by
    simp only [lastComparator]
    exact lastComparator_ops cmp0 cs (fun c hc => h c (List.mem_cons_of_mem _ hc))
  | .set_comparator c :: cs, h => by
    have := h (.set_comparator c) (List.mem_cons_self _ _)
    simp [Call.isOp] at this

/-- C26: after any sequence of calls on a dictionary made by `create`, `get_comparator`
returns the comparator most recently passed to `set_comparator`, and the comparator supplied
to `create` as long as `set_comparator` has not been called; `set_comparator` makes
`get_comparator` return its argument and changes no other part of the dictionary: root, head,
tail, count, dirty flag and the elements with all their members stay as they are. -/
theorem C26_comparator_get_and_set [Inhabited K] (name : String) (cmp0 : K → K → Int)
    (calls : List (Call K V)) (d : rb_dictionary K V)
    (hrun : runCalls calls (rb_dictionary_create name cmp0) = some d)
    (compare_cb : K → K → Int) :
    rb_dictionary_get_comparator_func d = lastComparator cmp0 calls ∧
      ((∀ c ∈ calls, c.isOp = true) → rb_dictionary_get_comparator_func d = cmp0) ∧
      rb_dictionary_get_comparator_func (rb_dictionary_set_comparator_func d compare_cb) =
        compare_cb ∧
      rb_dictionary_set_comparator_func d compare_cb = { d with compare_cb := compare_cb } ∧
      (rb_dictionary_set_comparator_func d compare_cb).root = d.root ∧
      (rb_dictionary_set_comparator_func d compare_cb).head = d.head ∧
      (rb_dictionary_set_comparator_func d compare_cb).tail = d.tail ∧
      (rb_dictionary_set_comparator_func d compare_cb).count = d.count ∧
      (rb_dictionary_set_comparator_func d compare_cb).dirty = d.dirty ∧
      elements (rb_dictionary_set_comparator_func d compare_cb) = elements d ∧
      entries (rb_dictionary_set_comparator_func d compare_cb) = entries d := by
  have h1 := runCalls_compare_cb calls _ d hrun
  refine ⟨h1, ?_, rfl, rfl, rfl, rfl, rfl, rfl, rfl, rfl, rfl⟩
  intro hops
  exact h1.trans (lastComparator_ops cmp0 calls hops)

theorem C26_witness :
    runCalls exampleCalls (rb_dictionary_create "swapped" intCmp) = some exampleDictSwapped ∧
    (rb_dictionary_get_comparator_func exampleDictSwapped = lastComparator intCmp exampleCalls ∧
      ((∀ c ∈ exampleCalls, c.isOp = true) →
        rb_dictionary_get_comparator_func exampleDictSwapped = intCmp) ∧
      rb_dictionary_get_comparator_func
        (rb_dictionary_set_comparator_func exampleDictSwapped intCmp) = intCmp ∧
      rb_dictionary_set_comparator_func exampleDictSwapped intCmp =
        { exampleDictSwapped with compare_cb := intCmp } ∧
      (rb_dictionary_set_comparator_func exampleDictSwapped intCmp).root =
        exampleDictSwapped.root ∧
      (rb_dictionary_set_comparator_func exampleDictSwapped intCmp).head =
        exampleDictSwapped.head ∧
      (rb_dictionary_set_comparator_func exampleDictSwapped intCmp).tail =
        exampleDictSwapped.tail ∧
      (rb_dictionary_set_comparator_func exampleDictSwapped intCmp).count =
        exampleDictSwapped.count ∧
      (rb_dictionary_set_comparator_func exampleDictSwapped intCmp).dirty =
        exampleDictSwapped.dirty ∧
      elements (rb_dictionary_set_comparator_func exampleDictSwapped intCmp) =
        elements exampleDictSwapped ∧
      entries (rb_dictionary_set_comparator_func exampleDictSwapped intCmp) =
        entries exampleDictSwapped) :=
  ⟨rfl, C26_comparator_get_and_set "swapped" intCmp exampleCalls exampleDictSwapped rfl
    intCmp⟩

/-! ## Statistics of a tree -/

theorem int32_of_small {x : Int} (h0 : 0 ≤ x) (h1 : x < 2147483648) : int32 x = x := by
  unfold int32
  rw [Int.emod_eq_of_lt (by linarith) (by linarith)]
  ring

theorem int32_add_int32_right (a b : Int) : int32 (a + int32 b) = int32 (a + b) := by
  unfold int32
  have e : a + ((b + 2147483648) % 4294967296 - 2147483648) + 2147483648 =
      a + (b + 2147483648) % 4294967296 := by ring
  rw [e, Int.add_emod_emod, ← add_assoc]

theorem int32_add_int32_left (a b : Int) : int32 (int32 a + b) = int32 (a + b) := by
  rw [add_comm, int32_add_int32_right, add_comm]

theorem Tree.height_le_length : ∀ t : Tree, t.height ≤ t.ids.length
  | .leaf => by simp [Tree.height]
  | .node l x r => by
    have h1 := Tree.height_le_length l
    have h2 := Tree.height_le_length r
    simp only [Tree.height, Tree.ids_node, List.length_append, List.length_cons]
    omega

theorem Tree.height_pos {l r : Tree} {x : Nat} : 0 < (Tree.node l x r).height := by
  simp [Tree.height]

/-- What `stats_recurse` makes of the largest depth so far at a node of depth `n` whose
subtrees are `hl` and `hr` levels high. -/
theorem maxdepth_step (n hl hr : Nat) (md : Int) :
    max (max (if (n : Int) > md then (n : Int) else md) ((n + hl : Nat) : Int))
        ((n + hr : Nat) : Int) =
      max md ((n + (max hl hr + 1) - 1 : Nat) : Int) := by
  have e : n + (max hl hr + 1) - 1 = n + max hl hr := by omega
  rw [e]
  rcases le_total hl hr with h | h
  · rw [max_eq_right h]
    simp only [max_def]
    push_cast
    split_ifs <;> omega
  · rw [max_eq_left h]
    simp only [max_def]
    push_cast
    split_ifs <;> omega

/-- `stats_recurse` on a tree: the 32-bit sum of the depths of its nodes, and the largest
depth met, as long as the depths themselves fit in an `int`. -/
theorem stats_recurse_spec {L R : Nat → Ptr} :
    ∀ (t : Tree) (x : Nat) (fuel n : Nat) (md : Int),
      IsTree L R (some x) t → t.height ≤ fuel → n + t.height ≤ 2147483648 →
      stats_recurse L R fuel (some x) (n : Int) md =
        some (int32 (t.depthSum n : Int), max md ((n + t.height - 1 : Nat) : Int))
  | .leaf, x, _, _, _, h, _, _ => by simp at h
  | .node l y r, x, fuel, n, md, h, hf, hn => by
    obtain ⟨hx, hl, hr⟩ := h
    cases hx
    cases fuel with
    | zero => simp [Tree.height] at hf
    | succ fuel =>
      simp only [Tree.height] at hf hn
      have hfl : l.height ≤ fuel := by omega
      have hfr : r.height ≤ fuel := by omega
      have hn1 : ∀ h : Nat, 0 < h → n + (h + 1) ≤ 2147483648 →
          int32 ((n : Int) + 1) = ((n + 1 : Nat) : Int) := by
        intro h h0 hle
        rw [int32_of_small (by omega) (by omega)]
        push_cast
        rfl
      unfold stats_recurse
      cases hL : L y with
      | none =>
        rw [hL] at hl
        have hl' := IsTree_none hl
        subst hl'
        cases hR : R y with
        | none =>
          rw [hR] at hr
          have hr' := IsTree_none hr
          subst hr'
          simp only [hL, hR, Tree.depthSum, Tree.height, Option.some.injEq, Prod.mk.injEq]
          constructor
          · rw [int32_of_small (by omega) (by omega)]
            simp
          · simp only [max_def]
            push_cast
            split_ifs <;> omega
        | some rr =>
          rw [hR] at hr
          have hnr : n + 1 + r.height ≤ 2147483648 := by omega
          obtain ⟨a, c, rfl, -, -⟩ := IsTree_some hr
          have := @Tree.height_pos a c rr
          simp only [hL, hR, hn1 _ this (by omega)]
          rw [stats_recurse_spec _ rr fuel (n + 1) _ hr hfr hnr]
          simp only [Tree.depthSum, Option.map_some', Option.some.injEq, Prod.mk.injEq,
            int32_add_int32_right]
          constructor
          · congr 1
          · have hout : (Tree.node .leaf y (Tree.node a rr c)).height =
                (Tree.node a rr c).height + 1 := by simp [Tree.height]
            rw [hout]
            generalize (Tree.node a rr c).height = hr' at *
            simp only [max_def]
            split_ifs <;> omega
      | some ll =>
        rw [hL] at hl
        have hnl : n + 1 + l.height ≤ 2147483648 := by omega
        obtain ⟨a, c, rfl, -, -⟩ := IsTree_some hl
        have hpl := @Tree.height_pos a c ll
        cases hR : R y with
        | none =>
          rw [hR] at hr
          have hr' := IsTree_none hr
          subst hr'
          simp only [hL, hR, hn1 _ hpl (by omega)]
          rw [stats_recurse_spec _ ll fuel (n + 1) _ hl hfl hnl]
          simp only [Tree.depthSum, Option.map_some', Option.some.injEq, Prod.mk.injEq,
            int32_add_int32_right]
          constructor
          · congr 1
          · have hout : (Tree.node (Tree.node a ll c) y .leaf).height =
                (Tree.node a ll c).height + 1 := by simp [Tree.height]
            rw [hout]
            generalize (Tree.node a ll c).height = hl' at *
            simp only [max_def]
            split_ifs <;> omega
        | some rr =>
          rw [hR] at hr
          have hnr : n + 1 + r.height ≤ 2147483648 := by omega
          obtain ⟨a', c', rfl, -, -⟩ := IsTree_some hr
          have hpr := @Tree.height_pos a' c' rr
          simp only [hL, hR, hn1 _ hpl (by omega)]
          rw [stats_recurse_spec _ ll fuel (n + 1) _ hl hfl hnl]
          simp only [Option.map_some']
          rw [stats_recurse_spec _ rr fuel (n + 1) _ hr hfr hnr]
          simp only [Tree.depthSum, Option.map_some', Option.some.injEq, Prod.mk.injEq,
            int32_add_int32_right, int32_add_int32_left]
          constructor
          · congr 1
          · have hout : (Tree.node (Tree.node a ll c) y (Tree.node a' rr c')).height =
                max (Tree.node a ll c).height (Tree.node a' rr c').height + 1 := rfl
            rw [hout]
            generalize (Tree.node a ll c).height = hl' at *
            generalize (Tree.node a' rr c').height = hr' at *
            simp only [max_def]
            split_ifs <;> omega

/-- The deepest node of a tree contributes its depth to the sum of the depths. -/
theorem Tree.depth_le_depthSum : ∀ (t : Tree) (n : Nat), t ≠ .leaf →
    n + t.height ≤ t.depthSum n + 1
  | .leaf, _, h => absurd rfl h
  | .node l x r, n, _ => by
    simp only [Tree.height, Tree.depthSum]
    have hl : l = .leaf ∨ l ≠ .leaf := by cases l <;> simp
    have hr : r = .leaf ∨ r ≠ .leaf := by cases r <;> simp
    rcases hl with rfl | hl <;> rcases hr with rfl | hr
    · simp [Tree.height, Tree.depthSum]
    · have := Tree.depth_le_depthSum r (n + 1) hr
      simp only [Tree.height, Tree.depthSum]
      omega
    · have := Tree.depth_le_depthSum l (n + 1) hl
      simp only [Tree.height, Tree.depthSum]
      omega
    · have h1 := Tree.depth_le_depthSum l (n + 1) hl
      have h2 := Tree.depth_le_depthSum r (n + 1) hr
      omega

/-- `stats_recurse` returns on every tree when its step budget is no less than the height. -/
theorem stats_recurse_returns {L R : Nat → Ptr} :
    ∀ (t : Tree) (x : Nat) (fuel : Nat) (depth md : Int),
      IsTree L R (some x) t → t.height ≤ fuel →
      ∃ r, stats_recurse L R fuel (some x) depth md = some r
  | .leaf, x, _, _, _, h, _ => by simp at h
  | .node l y r, x, fuel, depth, md, h, hf => by
    obtain ⟨hx, hl, hr⟩ := h
    cases hx
    cases fuel with
    | zero => simp [Tree.height] at hf
    | succ fuel =>
      simp only [Tree.height] at hf
      have hfl : l.height ≤ fuel := by omega
      have hfr : r.height ≤ fuel := by omega
      unfold stats_recurse
      cases hL : L y with
      | none =>
        cases hR : R y with
        | none => simp [hL, hR]
        | some rr =>
          rw [hR] at hr
          obtain ⟨q, e⟩ := stats_recurse_returns r rr fuel (int32 (depth + 1))
            (if depth > md then depth else md) hr hfr
          simp [hL, hR, e]
      | some ll =>
        rw [hL] at hl
        obtain ⟨q, e⟩ := stats_recurse_returns l ll fuel (int32 (depth + 1))
          (if depth > md then depth else md) hl hfl
        cases hR : R y with
        | none => simp [hL, hR, e]
        | some rr =>
          rw [hR] at hr
          obtain ⟨q', e'⟩ := stats_recurse_returns r rr fuel (int32 (depth + 1)) q.2 hr hfr
          simp [hL, hR, e, e']

/-- `rb_dictionary_stats` on a well-formed dictionary hands one line to the callback. -/
theorem WF.stats_returns {d : rb_dictionary K V} {t : Tree} (h : WF d t) :
    ∃ line : String, ∀ (σ : Type) (cb : String → σ → σ) (s : σ),
      rb_dictionary_stats d cb s = some (cb line s) := by
  by_cases hc : d.count = 0
  · exact ⟨stats_line d.id "0" "0" "0" "0", fun σ cb s => by simp [rb_dictionary_stats, hc]⟩
  · cases t with
    | leaf => exact absurd h.count hc
    | node l x r =>
      have hroot : d.root = some x := h.tree.1
      have hT := h.tree
      rw [hroot] at hT
      obtain ⟨q, e⟩ := stats_recurse_returns _ x d.count 0 0 hT
        (by rw [h.count]; exact Tree.height_le_length _)
      exact ⟨stats_line d.id (toString d.count) (toString q.1)
        (toString (int32 (uint32 q.1 / (d.count : Int)))) (toString q.2),
        fun σ cb s => by simp only [rb_dictionary_stats, hroot, e, if_pos hc]⟩

/-- `rb_dictionary_stats` on a well-formed non-empty dictionary whose tree is no more than
2^31 levels high: the line reports the count, the 32-bit sum of the depths, the quotient the
C expression `sum / dict->count` yields, and the largest depth. -/
theorem WF.stats_spec {d : rb_dictionary K V} {t : Tree} (h : WF d t) (hc : d.count ≠ 0)
    (hh : t.height ≤ 2147483648) {σ : Type} (cb : String → σ → σ) (s : σ) :
    rb_dictionary_stats d cb s =
      some (cb (stats_line d.id (toString d.count)
        (toString (int32 (t.depthSum 0 : Int)))
        (toString (int32 (uint32 (int32 (t.depthSum 0 : Int)) / (d.count : Int))))
        (toString ((t.maxDepth : Nat) : Int))) s) := by
  cases t with
  | leaf => exact absurd h.count hc
  | node l x r =>
    have hroot : d.root = some x := h.tree.1
    have hT := h.tree
    rw [hroot] at hT
    have e := stats_recurse_spec _ x d.count 0 0 hT
      (by rw [h.count]; exact Tree.height_le_length _) (by omega)
    have hmax : max (0 : Int) ((0 + (Tree.node l x r).height - 1 : Nat) : Int) =
        (((Tree.node l x r).maxDepth : Nat) : Int) := by
      simp only [Tree.maxDepth]
      omega
    simp only [Nat.cast_zero] at e
    rw [hmax] at e
    simp only [rb_dictionary_stats, hroot, e, if_pos hc]

/-! ## The registry -/

theorem RegistryOK.init : RegistryOK (process.init : process K V) :=
  ⟨List.nodup_nil, by simp [process.init], by simp [process.init], fun _ _ => rfl⟩

theorem RegistryOK.after_create [Inhabited K] {p : process K V} (h : RegistryOK p) (name : String)
    {compare_cb : K → K → Int} (hord : TotalOrderCmp compare_cb) :
    RegistryOK (process_create name compare_cb p).2 := by
  obtain ⟨hnd, hb, hl, hd⟩ := h
  have hfresh : p.brk ∉ p.dictionary_list := fun hm => Nat.lt_irrefl _ (hb _ hm)
  refine ⟨List.nodup_cons.2 ⟨hfresh, hnd⟩, ?_, ?_, ?_⟩
  · intro x hx
    rcases List.mem_cons.1 hx with rfl | hx
    · exact Nat.lt_succ_self _
    · exact Nat.lt_succ_of_lt (hb x hx)
  · intro x hx
    rcases List.mem_cons.1 hx with rfl | hx
    · exact ⟨rb_dictionary_create name compare_cb, .leaf, setField_same _ _ _,
        WF.create name compare_cb, hord⟩
    · have hne : x ≠ p.brk := fun e => hfresh (e ▸ hx)
      obtain ⟨d, t, e, hwf, ho⟩ := hl x hx
      exact ⟨d, t, (setField_ne _ _ hne).trans e, hwf, ho⟩
  · intro x hx
    have hx' : x ≠ p.brk ∧ x ∉ p.dictionary_list := by
      simpa [process_create, rb_dlinkAdd] using hx
    exact (setField_ne _ _ hx'.1).trans (hd x hx'.2)

theorem RegistryOK.after_destroy {p p1 : process K V} (h : RegistryOK p) {dtree : Nat}
    (e : (process_destroy dtree (none : Option (Callback K V Unit Unit)) () p).map Prod.snd =
      some p1) :
    RegistryOK p1 ∧ dtree ∈ p.dictionary_list ∧ p1.brk = p.brk ∧
      p1.dictionary_list = p.dictionary_list.erase dtree := by
  obtain ⟨hnd, hb, hl, hd⟩ := h
  unfold process_destroy at e
  cases hh : p.heap dtree with
  | none => simp [hh] at e
  | some d =>
    have hin : dtree ∈ p.dictionary_list := by
      by_contra hn
      rw [hd dtree hn] at hh
      cases hh
    simp only [hh] at e
    cases hdes : rb_dictionary_destroy d (none : Option (Callback K V Unit Unit)) () with
    | none => simp [hdes] at e
    | some r =>
      simp only [hdes, Option.map_some', Option.some.injEq] at e
      subst e
      refine ⟨⟨hnd.erase _, ?_, ?_, ?_⟩, hin, rfl, rfl⟩
      · intro x hx
        exact hb x (List.mem_of_mem_erase hx)
      · intro x hx
        have hx' := (List.Nodup.mem_erase_iff hnd).1 hx
        obtain ⟨d', t, e', hwf, ho⟩ := hl x hx'.2
        exact ⟨d', t, (setField_ne _ _ hx'.1).trans e', hwf, ho⟩
      · intro x hx
        by_cases hxe : x = dtree
        · subst hxe
          exact setField_same _ _ _
        · have : x ∉ p.dictionary_list := fun hm =>
            hx ((List.Nodup.mem_erase_iff hnd).2 ⟨hxe, hm⟩)
          exact (setField_ne _ _ hxe).trans (hd x this)

theorem RegistryOK.after_call {p p1 : process K V} (h : RegistryOK p) {dtree : Nat} {o : Op K V}
    {d d1 : rb_dictionary K V} (hh : p.heap dtree = some d) (ho : o.apply d = some d1)
    (e : p1 = { p with heap := setField p.heap dtree (some d1) }) :
    RegistryOK p1 := by
  obtain ⟨hnd, hb, hl, hd⟩ := h
  subst e
  have hin : dtree ∈ p.dictionary_list := by
    by_contra hn
    rw [hd dtree hn] at hh
    cases hh
  refine ⟨hnd, hb, ?_, ?_⟩
  · intro x hx
    by_cases hxe : x = dtree
    · subst hxe
      obtain ⟨d', t, e', hwf, hord⟩ := hl x hx
      rw [hh] at e'
      cases e'
      obtain ⟨d2, t2, e2, hwf2, hc2⟩ := hwf.apply_op hord o
      rw [ho] at e2
      cases e2
      exact ⟨d1, t2, setField_same _ _ _, hwf2, hc2 ▸ hord⟩
    · obtain ⟨d', t, e', hwf, hord⟩ := hl x hx
      exact ⟨d', t, (setField_ne _ _ hxe).trans e', hwf, hord⟩
  · intro x hx
    have hxe : x ≠ dtree := fun e => hx (e ▸ hin)
    exact (setField_ne _ _ hxe).trans (hd x hx)

/-- What a history of calls makes of the registry. -/
theorem run_registry_spec [Inhabited K] :
    ∀ (calls : List (registry_call K V)) (p0 p : process K V), RegistryOK p0 →
      (∀ c ∈ createdComparators calls, TotalOrderCmp c) →
      run_registry calls p0 = some p →
      RegistryOK p ∧ p.brk = p0.brk + numCreates calls ∧
        ∀ h, h ∈ p.dictionary_list ↔
          (h ∈ p0.dictionary_list ∨ (p0.brk ≤ h ∧ h < p0.brk + numCreates calls)) ∧
            h ∉ destroyedHandles calls
  | [], p0, p, hok, _, hrun => by
    cases hrun
    refine ⟨hok, rfl, fun h => ?_⟩
    simp only [numCreates, destroyedHandles, List.not_mem_nil, not_false_eq_true, and_true,
      Nat.add_zero]
    constructor
    · exact Or.inl
    · rintro (h1 | ⟨h1, h2⟩)
      · exact h1
      · omega
  | .create name compare_cb :: cs, p0, p, hok, hcmp, hrun => by
    simp only [run_registry, registry_call.apply] at hrun
    have hord : TotalOrderCmp compare_cb := hcmp _ (by simp [createdComparators])
    have hok1 := hok.after_create name hord
    obtain ⟨hokp, hbrk, hmem⟩ := run_registry_spec cs _ p hok1
      (fun c hc => hcmp c (by simp [createdComparators, hc])) hrun
    have hb := hok.2.1
    refine ⟨hokp, ?_, fun h => ?_⟩
    · rw [hbrk]
      simp only [process_create, numCreates]
      omega
    · rw [hmem h]
      simp only [process_create, rb_dlinkAdd, List.mem_cons, numCreates, destroyedHandles]
      constructor
      · rintro ⟨(rfl | h1) | ⟨h1, h2⟩, h3⟩
        · exact ⟨Or.inr ⟨le_refl _, by omega⟩, h3⟩
        · exact ⟨Or.inl h1, h3⟩
        · exact ⟨Or.inr ⟨by omega, by omega⟩, h3⟩
      · rintro ⟨h1 | ⟨h1, h2⟩, h3⟩
        · exact ⟨Or.inl (Or.inr h1), h3⟩
        · by_cases he : h = p0.brk
          · exact ⟨Or.inl (Or.inl he), h3⟩
          · exact ⟨Or.inr ⟨by omega, by omega⟩, h3⟩
  | .destroy dtree :: cs, p0, p, hok, hcmp, hrun => by
    simp only [run_registry, registry_call.apply] at hrun
    split at hrun
    · cases hrun
    · rename_i p1 e
      obtain ⟨hok1, hin, hbrk1, hlist1⟩ := hok.after_destroy e
      obtain ⟨hokp, hbrk, hmem⟩ := run_registry_spec cs p1 p hok1
        (fun c hc => hcmp c (by simpa [createdComparators] using hc)) hrun
      have hb := hok.2.1
      have hnd := hok.1
      refine ⟨hokp, ?_, fun h => ?_⟩
      · rw [hbrk, hbrk1]
        rfl
      · rw [hmem h, hbrk1, hlist1, List.Nodup.mem_erase_iff hnd]
        simp only [numCreates, destroyedHandles, List.mem_cons, not_or]
        constructor
        · rintro ⟨⟨h1, h2⟩ | ⟨h1, h2⟩, h3⟩
          · exact ⟨Or.inl h2, h1, h3⟩
          · refine ⟨Or.inr ⟨h1, h2⟩, ?_, h3⟩
            intro he
            have := hb dtree hin
            omega
        · rintro ⟨h1 | ⟨h1, h2⟩, h3, h4⟩
          · exact ⟨Or.inl ⟨h3, h1⟩, h4⟩
          · exact ⟨Or.inr ⟨h1, h2⟩, h4⟩
  | .call dtree o :: cs, p0, p, hok, hcmp, hrun => by
    simp only [run_registry, registry_call.apply] at hrun
    cases hh : p0.heap dtree with
    | none => simp [hh] at hrun
    | some d =>
      simp only [hh] at hrun
      cases ho : o.apply d with
      | none => simp [ho] at hrun
      | some d1 =>
        simp only [ho] at hrun
        have hok1 := hok.after_call hh ho rfl
        obtain ⟨hokp, hbrk, hmem⟩ := run_registry_spec cs _ p hok1
          (fun c hc => hcmp c (by simpa [createdComparators] using hc)) hrun
        exact ⟨hokp, hbrk, hmem⟩

/-- The loop of `rb_dictionary_stats_walk` hands the callback one line for each dictionary
on the list, in the order of the list. -/
theorem stats_walk_loop_spec {heap : Nat → Option (rb_dictionary K V)} :
    ∀ (list : List Nat),
      (∀ h ∈ list, ∃ d t, heap h = some d ∧ WF d t ∧ TotalOrderCmp d.compare_cb) →
      ∃ lines : List String,
        List.Forall₂ (fun h line => ∃ d, heap h = some d ∧
          ∀ (σ : Type) (cb : String → σ → σ) (s : σ),
            rb_dictionary_stats d cb s = some (cb line s)) list lines ∧
        ∀ (σ : Type) (cb : String → σ → σ) (s : σ),
          stats_walk_loop heap cb list s = some (lines.foldl (fun acc line => cb line acc) s)
  | [], _ => ⟨[], List.Forall₂.nil, fun _ _ _ => rfl⟩
  | h :: rest, hl => by
    obtain ⟨d, t, e, hwf, -⟩ := hl h (List.mem_cons_self _ _)
    obtain ⟨line, hline⟩ := hwf.stats_returns
    obtain ⟨lines, hall, hwalk⟩ :=
      stats_walk_loop_spec rest (fun x hx => hl x (List.mem_cons_of_mem _ hx))
    refine ⟨line :: lines, List.Forall₂.cons ⟨d, e, hline⟩ hall, fun σ cb s => ?_⟩
    simp only [stats_walk_loop, e, hline σ cb s, hwalk σ cb, List.foldl_cons]

/-- C27: after any sequence of `create` and `destroy` calls (and of calls on the
dictionaries in between), made from the start of the process with comparators that order the
keys, the registry holds each address at most once, and an address is on it exactly when a
`create` returned it (the `create` calls return the addresses 0, 1, 2, .. in turn) and no
`destroy` was called on it; the dictionaries at these addresses are the only ones there are;
and `stats_walk` returns, having handed the emit callback one line for each address on the
registry, the line that `stats` emits for the dictionary at that address, and nothing
else. -/
theorem C27_registry_holds_the_live_dictionaries [Inhabited K]
    (calls : List (registry_call K V))
    (hcmp : ∀ c ∈ createdComparators calls, TotalOrderCmp c) (p : process K V)
    (hrun : run_registry calls process.init = some p) :
    p.dictionary_list.Nodup ∧ p.brk = numCreates calls ∧
      (∀ h, h ∈ p.dictionary_list ↔ h < numCreates calls ∧ h ∉ destroyedHandles calls) ∧
      (∀ h, (p.heap h).isSome ↔ h ∈ p.dictionary_list) ∧
      ∃ lines : List String,
        List.Forall₂ (fun h line => ∃ d, p.heap h = some d ∧
          ∀ (σ : Type) (cb : String → σ → σ) (s : σ),
            rb_dictionary_stats d cb s = some (cb line s)) p.dictionary_list lines ∧
        ∀ (σ : Type) (cb : String → σ → σ) (s : σ),
          rb_dictionary_stats_walk cb s p =
            some (lines.foldl (fun acc line => cb line acc) s) := by
  obtain ⟨hok, hbrk, hmem⟩ := run_registry_spec calls _ p RegistryOK.init hcmp hrun
  obtain ⟨hnd, hb, hl, hd⟩ := hok
  refine ⟨hnd, by simpa [process.init] using hbrk, ?_, ?_, stats_walk_loop_spec _ hl⟩
  · intro h
    rw [hmem h]
    simp [process.init]
  · intro h
    constructor
    · intro hs
      by_contra hn
      rw [hd h hn] at hs
      cases hs
    · intro hin
      obtain ⟨d, t, e, -, -⟩ := hl h hin
      rw [e]
      rfl

theorem exampleRegistryCalls_order :
    ∀ c ∈ createdComparators exampleRegistryCalls, TotalOrderCmp c := by
  intro c hc
  simp only [createdComparators, exampleRegistryCalls, List.mem_cons, List.mem_singleton,
    List.not_mem_nil, or_false, or_self] at hc
  subst hc
  exact intCmp_order

theorem C27_witness :
    (∀ c ∈ createdComparators exampleRegistryCalls, TotalOrderCmp c) ∧
    run_registry exampleRegistryCalls process.init = some exampleProcess ∧
    exampleProcess.dictionary_list = [2, 1] ∧
    (exampleProcess.dictionary_list.Nodup ∧
      exampleProcess.brk = numCreates exampleRegistryCalls ∧
      (∀ h, h ∈ exampleProcess.dictionary_list ↔
        h < numCreates exampleRegistryCalls ∧ h ∉ destroyedHandles exampleRegistryCalls) ∧
      (∀ h, (exampleProcess.heap h).isSome ↔ h ∈ exampleProcess.dictionary_list) ∧
      ∃ lines : List String,
        List.Forall₂ (fun h line => ∃ d, exampleProcess.heap h = some d ∧
          ∀ (σ : Type) (cb : String → σ → σ) (s : σ),
            rb_dictionary_stats d cb s = some (cb line s))
          exampleProcess.dictionary_list lines ∧
        ∀ (σ : Type) (cb : String → σ → σ) (s : σ),
          rb_dictionary_stats_walk cb s exampleProcess =
            some (lines.foldl (fun acc line => cb line acc) s)) :=
  ⟨exampleRegistryCalls_order, rfl, rfl,
    C27_registry_holds_the_live_dictionaries exampleRegistryCalls exampleRegistryCalls_order
      exampleProcess rfl⟩

/-! ## Ascending insertions -/

/-- `retune` for a key greater than that of a root without right child leaves the tree as it
is. -/
theorem retune_at_max {d : rb_dictionary K V} (key : K) {r : Nat} (hroot : d.root = some r)
    (hr0 : r ≠ stackN) (hright : d.right r = none) (hgt : 0 < d.compare_cb key (d.key r))
    (hc : d.count ≠ 0) :
    ∃ d', rb_dictionary_retune d key = some d' ∧ d'.root = some r ∧
      d' = { d with left := d'.left, right := d'.right } ∧
      ∀ y, y ≠ stackN → d'.left y = d.left y ∧ d'.right y = d.right y := by
  obtain ⟨c, hc'⟩ := Nat.exists_eq_succ_of_ne_zero hc
  have h1 : ¬ d.compare_cb key (d.key r) = 0 := by omega
  have h2 : ¬ d.compare_cb key (d.key r) < 0 := by omega
  have h3 : setField d.right stackN none r = none := by rw [setField_ne _ _ hr0, hright]
  refine ⟨{ d with
      left := setField (setField (setField d.left stackN none) stackN
        (setField (setField d.right stackN none) stackN
          (setField d.left stackN none r) r)) r
        (setField (setField d.right stackN none) stackN (setField d.left stackN none r)
          stackN)
      right := setField (setField (setField d.right stackN none) stackN
          (setField d.left stackN none r)) r
        (setField (setField (setField d.left stackN none) stackN
          (setField (setField d.right stackN none) stackN
            (setField d.left stackN none r) r)) r
          (setField (setField d.right stackN none) stackN (setField d.left stackN none r)
            stackN) stackN)
      root := some r }, ?_, rfl, ?_, ?_⟩
  · simp only [rb_dictionary_retune, hroot, hc', retune_loop, h1, h2, if_false, h3]
  · simp only [hroot]
  · intro y hy
    have h0r : stackN ≠ r := Ne.symm hr0
    by_cases hyr : y = r
    · subst hyr
      simp only [setField_same, setField_ne _ _ hy, setField_ne _ _ h0r, hright, and_self]
    · simp only [setField_ne _ _ hyr, setField_ne _ _ hy, and_self]

/-- `add` of a key greater than that of a root without right child: the new element becomes
the root, with the old root as its left child and no right child, and nothing else moves. -/
theorem add_above_max {d : rb_dictionary K V} {key : K} (data : Option V) {r : Nat}
    (hroot : d.root = some r) (hr0 : r ≠ stackN) (hrb : r ≠ d.brk)
    (hright : d.right r = none) (hgt : 0 < d.compare_cb key (d.key r)) (hc : d.count ≠ 0) :
    ∃ d', rb_dictionary_add d key data = some (d.brk, d') ∧ d'.root = some d.brk ∧
      d'.count = d.count + 1 ∧ d'.brk = d.brk + 1 ∧ d'.compare_cb = d.compare_cb ∧
      d'.id = d.id ∧ d'.key = setField d.key d.brk key ∧
      d'.left d.brk = some r ∧ d'.right d.brk = none ∧
      ∀ y, y ≠ stackN → y ≠ d.brk → d'.left y = d.left y ∧ d'.right y = d.right y := by
  obtain ⟨d1, e1, hroot1, hfr1, hlr1⟩ := retune_at_max key hroot hr0 hright hgt hc
  have c1 : d1.compare_cb = d.compare_cb := by rw [hfr1]
  have k1 : d1.key = d.key := by rw [hfr1]
  have b1 : d1.brk = d.brk := by rw [hfr1]
  have n1 : d1.count = d.count := by rw [hfr1]
  have i1 : d1.id = d.id := by rw [hfr1]
  have hne0 : ¬ d.compare_cb key (d.key r) = 0 := by omega
  have hnlt : ¬ d.compare_cb key (d.key r) < 0 := by omega
  have hfind : rb_dictionary_find d key = some (none, d1) := by
    simp only [rb_dictionary_find, e1, hroot1, c1, k1, if_neg hne0]
  have hrb1 : r ≠ d1.brk := by rw [b1]; exact hrb
  obtain ⟨d2, e2, hroot2, hfr2, hlr2⟩ :=
    retune_at_max (d := { d1 with
        brk := d1.brk + 1
        key := setField d1.key d1.brk key
        data := setField d1.data d1.brk data
        dirty := true
        count := d1.count + 1 }) key hroot1 hr0
      ((hlr1 r hr0).2.trans hright)
      (by simp only [c1, k1, setField_ne _ _ hrb1]; exact hgt) (by simp)
  have c2 : d2.compare_cb = d.compare_cb := by rw [hfr2]; exact c1
  have k2 : d2.key = setField d.key d.brk key := by rw [hfr2, ← k1, ← b1]
  have b2 : d2.brk = d.brk + 1 := by rw [hfr2, ← b1]
  have n2 : d2.count = d.count + 1 := by rw [hfr2, ← n1]
  have i2 : d2.id = d.id := by rw [hfr2]; exact i1
  have hadd : rb_dictionary_add d key data =
      some (d1.brk, { d2 with
        left := setField d2.left d1.brk (some r)
        right := setField (setField d2.right d1.brk (d2.right r)) r none
        next := setField (setField d2.next d1.brk (d2.next r)) r (some d1.brk)
        prev := setField (match d2.next r with
          | some p => setField d2.prev p (some d1.brk)
          | none => d2.prev) d1.brk (some r)
        tail := match d2.next r with
          | some _ => d2.tail
          | none => some d1.brk
        root := some d1.brk }) := by
    unfold rb_dictionary_add
    rw [hfind]
    simp only []
    unfold rb_dictionary_link
    simp only [hroot1, setField_same]
    have e2' := e2
    simp only [hroot1] at e2'
    rw [e2']
    simp only [hroot2, c2, k2, b1, setField_same, setField_ne _ _ hrb, if_neg hnlt, hgt,
      gt_iff_lt, if_true]
    try rfl
  rw [b1] at hadd
  refine ⟨_, hadd, rfl, n2, b2, c2, i2, k2, ?_, ?_, ?_⟩
  · simp only [setField_same]
  · simp only [setField_ne _ _ (Ne.symm hrb), setField_same]
    exact ((hlr2 r hr0).2.trans ((hlr1 r hr0).2.trans hright))
  · intro y hy hyb
    have h2 := hlr2 y hy
    have h1 := hlr1 y hy
    refine ⟨?_, ?_⟩
    · simp only [setField_ne _ _ hyb]
      exact h2.1.trans h1.1
    · by_cases hyr : y = r
      · subst hyr
        simp only [setField_same]
        exact hright.symm
      · simp only [setField_ne _ _ hyr, setField_ne _ _ hyb]
        exact h2.2.trans h1.2

theorem run_append (xs ys : List (Op K V)) (d : rb_dictionary K V) :
    run (xs ++ ys) d = (run xs d).bind (run ys) := by
  induction xs generalizing d with
  | nil => rfl
  | cons x xs ih =>
    simp only [List.cons_append, run]
    cases x.apply d with
    | none => rfl
    | some d1 => exact ih d1

theorem ascendingAdds_succ (n : Nat) :
    ascendingAdds (n + 1) = ascendingAdds n ++ [Op.add ((n : Int) + 1) (n + 1)] := by
  simp [ascendingAdds, List.range_succ]

/-- One more ascending insertion keeps the chain. -/
theorem ChainOK.add_next {name : String} {d : rb_dictionary Int Nat} {n : Nat}
    (h : ChainOK name d n) (hn : 1 ≤ n) :
    ∃ d', (Op.add ((n : Int) + 1) (n + 1)).apply d = some d' ∧ ChainOK name d' (n + 1) := by
  obtain ⟨hcmp, hid, hcount, hbrk, hroot, hkey, hlr⟩ := h
  have hgt : 0 < d.compare_cb ((n : Int) + 1) (d.key n) := by
    rw [hcmp, hkey n hn (le_refl _)]
    simp [intCmp]
  obtain ⟨d', e, hroot', hcount', hbrk', hcmp', hid', hkey', hl', hr', hrest⟩ :=
    add_above_max (some (n + 1)) hroot (by simp only [stackN]; omega) (by omega)
      (hlr n hn (le_refl _)).2 hgt (by omega)
  refine ⟨d', by simp [Op.apply, e], hcmp'.trans hcmp, hid'.trans hid, by omega, by omega,
    by rw [hroot', hbrk], ?_, ?_⟩
  · intro i h1 h2
    rw [hkey', hbrk]
    by_cases hi : i = n + 1
    · subst hi
      rw [setField_same]
      push_cast
      rfl
    · rw [setField_ne _ _ hi]
      exact hkey i h1 (by omega)
  · intro i h1 h2
    by_cases hi : i = n + 1
    · subst hi
      rw [hbrk] at hl' hr'
      rw [hl', hr', if_neg (by omega)]
      simp
    · have := hrest i (by simp only [stackN]; omega) (by rw [hbrk]; exact hi)
      rw [this.1, this.2]
      exact hlr i h1 (by omega)

/-- Ascending insertions into a fresh dictionary return and leave the chain. -/
theorem ascendingAdds_chain (name : String) :
    ∀ n, ∃ d, run (ascendingAdds (n + 1)) (rb_dictionary_create name intCmp) = some d ∧
      ChainOK name d (n + 1)
  | 0 => by
    refine ⟨_, rfl, rfl, rfl, rfl, rfl, rfl, ?_, ?_⟩
    · intro i h1 h2
      have : i = 1 := by omega
      subst this
      rfl
    · intro i h1 h2
      have : i = 1 := by omega
      subst this
      exact ⟨rfl, rfl⟩
  | n + 1 => by
    obtain ⟨d, e, hd⟩ := ascendingAdds_chain name n
    obtain ⟨d', e', hd'⟩ := hd.add_next (by omega)
    refine ⟨d', ?_, hd'⟩
    rw [ascendingAdds_succ, run_append, e]
    simp only [Option.bind, run, e']

/-- The tree of a chain dictionary has the shape `chainTree`. -/
theorem ChainOK.isTree {name : String} {d : rb_dictionary Int Nat} {n : Nat}
    (h : ChainOK name d n) :
    ∀ m, m + 1 ≤ n → IsTree d.left d.right (some (m + 1)) (chainTree (m + 1))
  | 0, hm => by
    obtain ⟨h1, h2⟩ := h.2.2.2.2.2.2 1 (le_refl _) hm
    exact ⟨rfl, by rw [h1]; rfl, by rw [h2]; rfl⟩
  | m + 1, hm => by
    obtain ⟨h1, h2⟩ := h.2.2.2.2.2.2 (m + 2) (by omega) hm
    refine ⟨rfl, ?_, by rw [h2]; rfl⟩
    rw [h1, if_neg (by omega)]
    exact ChainOK.isTree h m (by omega)

theorem chainTree_height : ∀ n, (chainTree n).height = n
  | 0 => rfl
  | n + 1 => by
    simp only [chainTree, Tree.height, chainTree_height n]
    omega

theorem chainTree_depthSum : ∀ n k, 2 * (chainTree n).depthSum k + n = 2 * n * k + n * n
  | 0, k => by simp [chainTree, Tree.depthSum]
  | n + 1, k => by
    have ih := chainTree_depthSum n (k + 1)
    simp only [chainTree, Tree.depthSum]
    nlinarith [ih]

/-- `rb_dictionary_stats` on a dictionary whose tree has shape `t`, no more than 2^31 levels
high and within the step budget. -/
theorem stats_of_tree {d : rb_dictionary K V} {t : Tree} (hT : IsTree d.left d.right d.root t)
    (hne : t ≠ .leaf) (hf : t.height ≤ d.count) (hh : t.height ≤ 2147483648) {σ : Type}
    (cb : String → σ → σ) (s : σ) :
    rb_dictionary_stats d cb s =
      some (cb (stats_line d.id (toString d.count)
        (toString (int32 (t.depthSum 0 : Int)))
        (toString (int32 (uint32 (int32 (t.depthSum 0 : Int)) / (d.count : Int))))
        (toString ((t.maxDepth : Nat) : Int))) s) := by
  cases t with
  | leaf => exact absurd rfl hne
  | node l x r =>
    have hroot : d.root = some x := hT.1
    rw [hroot] at hT
    have hc : d.count ≠ 0 := by
      have := @Tree.height_pos l r x
      omega
    have e := stats_recurse_spec _ x d.count 0 0 hT hf (by omega)
    have hmax : max (0 : Int) ((0 + (Tree.node l x r).height - 1 : Nat) : Int) =
        (((Tree.node l x r).maxDepth : Nat) : Int) := by
      simp only [Tree.maxDepth]
      omega
    simp only [Nat.cast_zero] at e
    rw [hmax] at e
    simp only [rb_dictionary_stats, hroot, e, if_pos hc]

/-! ## What `stats` reports -/

/-- On a reachable non-empty dictionary whose depth sum is below 2^31, `stats` hands the
callback, once, the line that reports the number of nodes, the sum of the depths of the nodes
of the tree (root at depth 0), the quotient of the two truncated to an integer, and the
largest depth. -/
theorem stats_reports_depths [Inhabited K] {σ : Type} (cmp : K → K → Int)
    (hord : TotalOrderCmp cmp) (d : rb_dictionary K V) (hr : Reachable cmp d)
    (hc : rb_dictionary_size d ≠ 0) (cb : String → σ → σ) (s : σ) :
    ∃ t, IsTree d.left d.right d.root t ∧ t.ids.length = rb_dictionary_size d ∧
      (t.depthSum 0 < 2147483648 →
        rb_dictionary_stats d cb s =
          some (cb (stats_line d.id (toString d.count)
            (toString ((t.depthSum 0 : Nat) : Int))
            (toString ((t.depthSum 0 / d.count : Nat) : Int))
            (toString ((t.maxDepth : Nat) : Int))) s)) := by
  obtain ⟨t, hwf, -⟩ := hr.wf hord
  refine ⟨t, hwf.tree, hwf.count.symm, fun hsum => ?_⟩
  have hne : t ≠ .leaf := by
    rintro rfl
    exact hc hwf.count
  have hh := Tree.depth_le_depthSum t 0 hne
  have hf : t.height ≤ d.count := by rw [hwf.count]; exact Tree.height_le_length t
  rw [stats_of_tree hwf.tree hne hf (by omega) cb s]
  have e1 : int32 ((t.depthSum 0 : Nat) : Int) = ((t.depthSum 0 : Nat) : Int) :=
    int32_of_small (by omega) (by omega)
  have e2 : uint32 ((t.depthSum 0 : Nat) : Int) = ((t.depthSum 0 : Nat) : Int) := by
    unfold uint32
    exact Int.emod_eq_of_lt (by omega) (by omega)
  have e3 : ((t.depthSum 0 : Nat) : Int) / (d.count : Int) =
      ((t.depthSum 0 / d.count : Nat) : Int) := by
    push_cast
    rfl
  have hle : t.depthSum 0 / d.count ≤ t.depthSum 0 := Nat.div_le_self _ _
  have hlt : t.depthSum 0 / d.count < 2147483648 := lt_of_le_of_lt hle hsum
  have e4 : int32 ((t.depthSum 0 / d.count : Nat) : Int) =
      ((t.depthSum 0 / d.count : Nat) : Int) :=
    int32_of_small (Int.natCast_nonneg _) (by exact_mod_cast hlt)
  rw [e1, e2, e3, e4]

theorem exampleDict_stats :
    rb_dictionary_size exampleDict ≠ 0 ∧ exampleTree.depthSum 0 = 6 ∧
      exampleTree.maxDepth = 2 ∧
      rb_dictionary_stats exampleDict log_line [] = some [stats_line "example" "5" "6" "1" "2"] :=
  ⟨by decide, rfl, rfl, by decide⟩

/-- Ascending insertions leave a tree that is as high as it has nodes. -/
theorem ascendingAdds_tree (name : String) (n : Nat) :
    ∃ d t, run (ascendingAdds (n + 1)) (rb_dictionary_create name intCmp) = some d ∧
      IsTree d.left d.right d.root t ∧ d.count = n + 1 ∧ d.id = name ∧ t ≠ .leaf ∧
      t.height = n + 1 ∧ 2 * t.depthSum 0 + (n + 1) = (n + 1) * (n + 1) := by
  obtain ⟨d, e, hd⟩ := ascendingAdds_chain name n
  have hT := hd.isTree n (le_refl _)
  obtain ⟨-, hid, hcount, -, hroot, -, -⟩ := hd
  refine ⟨d, chainTree (n + 1), e, by rw [hroot]; exact hT, hcount, hid, by simp [chainTree],
    chainTree_height _, ?_⟩
  have := chainTree_depthSum (n + 1) 0
  simpa using this

/-- C21: the depth sum that `stats` reports is not always the sum of the depths of the
nodes. After `add(1)`, `add(2)`, .., `add(65537)` on a fresh dictionary with the usual order
of the integers the tree is a chain of 65537 nodes, whose depths sum to 2147516416 and whose
largest depth is 65536; `stats` reports the count 65537, the average 32768 and the largest
depth 65536, but as depth sum -2147450880, the sum having left the range of the 32-bit `int`
in which `stats_recurse` adds it up. -/
theorem C21_stats_depth_sum_leaves_int_range :
    ∃ d t, run (ascendingAdds 65537) (rb_dictionary_create "chain" intCmp) = some d ∧
      IsTree d.left d.right d.root t ∧ rb_dictionary_size d = 65537 ∧
      t.depthSum 0 = 2147516416 ∧ t.maxDepth = 65536 ∧
      rb_dictionary_stats d log_line [] =
        some [stats_line "chain" "65537" "-2147450880" "32768" "65536"] := by
  obtain ⟨d, t, e, hT, hcount, hid, hne, hh, hs⟩ := ascendingAdds_tree "chain" 65536
  have hsum : t.depthSum 0 = 2147516416 := by omega
  have hmax : t.maxDepth = 65536 := by
    unfold Tree.maxDepth
    rw [hh]
  have e1 : toString (65536 + 1 : Nat) = "65537" := by decide
  have e2 : toString (int32 ((2147516416 : Nat) : Int)) = "-2147450880" := by decide
  have e3 : toString (int32 (uint32 (int32 ((2147516416 : Nat) : Int)) /
      ((65536 + 1 : Nat) : Int))) = "32768" := by decide
  have e4 : toString ((65536 : Nat) : Int) = "65536" := by decide
  refine ⟨d, t, e, hT, hcount, hsum, hmax, ?_⟩
  rw [stats_of_tree hT hne (by rw [hh, hcount]) (by rw [hh]; decide) log_line [], hid,
    hcount, hsum, hmax, e1, e2, e3, e4]
  rfl

/-! ## Lookups leave the contents alone -/

/-- `rb_dictionary_retrieve` is `rb_dictionary_find` followed by a read of `data`. -/
theorem retrieve_eq_find (d : rb_dictionary K V) (key : K) :
    rb_dictionary_retrieve d key =
      (rb_dictionary_find d key).map (fun p => (p.1.bind p.2.data, p.2)) := by
  unfold rb_dictionary_retrieve
  cases rb_dictionary_find d key with
  | none => rfl
  | some p =>
    obtain ⟨r, d'⟩ := p
    cases r <;> rfl

/-- C35: `find`, `retrieve` and `size` never change the observable contents: on every
reachable dictionary and for every key, `find` and `retrieve` return, and afterwards the size,
the ascending `(key, value)` sequence of the linked list, `head`, `tail`, the `next` and `prev`
links, the dirty flag and every cached position are as before, every field other than the
child pointers and the root being untouched; `size` only reads `count`. -/
theorem C35_lookups_keep_the_contents [Inhabited K] (cmp : K → K → Int)
    (hord : TotalOrderCmp cmp) (d : rb_dictionary K V) (hr : Reachable cmp d) (k : K) :
    (∃ r d', rb_dictionary_find d k = some (r, d') ∧
      rb_dictionary_size d' = rb_dictionary_size d ∧
      (∃ es, entries d = some es ∧ entries d' = some es) ∧
      d'.head = d.head ∧ d'.tail = d.tail ∧ d'.next = d.next ∧ d'.prev = d.prev ∧
      d'.dirty = d.dirty ∧ d'.position = d.position ∧
      d' = { d with left := d'.left, right := d'.right, root := d'.root }) ∧
    (∃ v d', rb_dictionary_retrieve d k = some (v, d') ∧
      rb_dictionary_size d' = rb_dictionary_size d ∧
      (∃ es, entries d = some es ∧ entries d' = some es) ∧
      d'.head = d.head ∧ d'.tail = d.tail ∧ d'.next = d.next ∧ d'.prev = d.prev ∧
      d'.dirty = d.dirty ∧ d'.position = d.position ∧
      d' = { d with left := d'.left, right := d'.right, root := d'.root }) ∧
    rb_dictionary_size d = d.count ∧
    (∃ es, entries d = some es ∧ rb_dictionary_size d = es.length) := by
  obtain ⟨t, hwf, hc⟩ := hr.wf hord
  have hord' : TotalOrderCmp d.compare_cb := hc ▸ hord
  obtain ⟨r, d', t', e, hfr, hwf', hids, -, -⟩ := hwf.find hord' k
  have hkey : d'.key = d.key := by rw [hfr]
  have hdata : d'.data = d.data := by rw [hfr]
  have hent : ∃ es, entries d = some es ∧ entries d' = some es :=
    ⟨_, hwf.entries_eq, by rw [hwf'.entries_eq, hids, hkey, hdata]⟩
  have hsz : rb_dictionary_size d' = rb_dictionary_size d := by
    simp only [rb_dictionary_size]
    rw [hfr]
  refine ⟨⟨r, d', e, hsz, hent, by rw [hfr], by rw [hfr], by rw [hfr], by rw [hfr],
    by rw [hfr], by rw [hfr], hfr⟩,
    ⟨r.bind d'.data, d', by rw [retrieve_eq_find, e]; rfl, hsz, hent, by rw [hfr],
      by rw [hfr], by rw [hfr], by rw [hfr], by rw [hfr], by rw [hfr], hfr⟩, rfl,
    ⟨_, hwf.entries_eq, ?_⟩⟩
  simp only [rb_dictionary_size, List.length_map]
  exact hwf.count

theorem C35_witness :
    TotalOrderCmp intCmp ∧ Reachable intCmp exampleDict ∧
    ((∃ r d', rb_dictionary_find exampleDict 4 = some (r, d') ∧
      rb_dictionary_size d' = rb_dictionary_size exampleDict ∧
      (∃ es, entries exampleDict = some es ∧ entries d' = some es) ∧
      d'.head = exampleDict.head ∧ d'.tail = exampleDict.tail ∧
      d'.next = exampleDict.next ∧ d'.prev = exampleDict.prev ∧
      d'.dirty = exampleDict.dirty ∧ d'.position = exampleDict.position ∧
      d' = { exampleDict with left := d'.left, right := d'.right, root := d'.root }) ∧
    (∃ v d', rb_dictionary_retrieve exampleDict 4 = some (v, d') ∧
      rb_dictionary_size d' = rb_dictionary_size exampleDict ∧
      (∃ es, entries exampleDict = some es ∧ entries d' = some es) ∧
      d'.head = exampleDict.head ∧ d'.tail = exampleDict.tail ∧
      d'.next = exampleDict.next ∧ d'.prev = exampleDict.prev ∧
      d'.dirty = exampleDict.dirty ∧ d'.position = exampleDict.position ∧
      d' = { exampleDict with left := d'.left, right := d'.right, root := d'.root }) ∧
    rb_dictionary_size exampleDict = exampleDict.count ∧
    (∃ es, entries exampleDict = some es ∧ rb_dictionary_size exampleDict = es.length)) :=
  ⟨intCmp_order, exampleDict_reachable,
    C35_lookups_keep_the_contents intCmp intCmp_order exampleDict exampleDict_reachable 4⟩

/-! ## The dirty flag and the cached positions -/

/-- C33: in every reachable dictionary a clear dirty flag means that every element's cached
position is its zero-based index in the linked list. Every `add` (whether or not the key is
already there) returns with the flag set, and so does every `delete` of a live key; `find`,
`retrieve`, a `delete` of a key that is not live and a `get_linear_index` of a key that is not
live leave the flag and the positions as they were; `get_linear_index` of a live key returns
with the flag clear and every position equal to the index. -/
theorem C33_clean_flag_means_positions_are_indices [Inhabited K] (cmp : K → K → Int)
    (hord : TotalOrderCmp cmp) (d : rb_dictionary K V) (hr : Reachable cmp d) (k : K)
    (v : V) :
    (d.dirty = false → ∃ ids, elements d = some ids ∧
      ∀ A x B, ids = A ++ x :: B → d.position x = (A.length : Int)) ∧
    (∃ x d', rb_dictionary_add d k (some v) = some (x, d') ∧ d'.dirty = true) ∧
    (∃ r d', rb_dictionary_delete d k = some (r, d') ∧
      (Live d k → d'.dirty = true) ∧
      (¬ Live d k → d'.dirty = d.dirty ∧ d'.position = d.position)) ∧
    (∃ r d', rb_dictionary_find d k = some (r, d') ∧
      d'.dirty = d.dirty ∧ d'.position = d.position) ∧
    (∃ r d', rb_dictionary_retrieve d k = some (r, d') ∧
      d'.dirty = d.dirty ∧ d'.position = d.position) ∧
    (∃ i d', rb_dictionary_get_linear_index d k = some (i, d') ∧
      (¬ Live d k → d'.dirty = d.dirty ∧ d'.position = d.position) ∧
      (Live d k → d'.dirty = false ∧ ∃ ids, elements d' = some ids ∧
        ∀ A x B, ids = A ++ x :: B → d'.position x = (A.length : Int))) := by
  obtain ⟨t, hwf, hc⟩ := hr.wf hord
  have hord' : TotalOrderCmp d.compare_cb := hc ▸ hord
  refine ⟨?_, ?_, ?_, ?_, ?_, ?_⟩
  · intro hd
    exact ⟨t.ids, hwf.elements_eq, hwf.pos hd⟩
  · obtain ⟨x, d', t', e, -, hd, -⟩ := hwf.add_spec hord' k (some v) (by simp)
    exact ⟨x, d', e, hd⟩
  · obtain ⟨r, d', t', e, hwf', -, -, -, -, -, hpos, hcase⟩ := hwf.delete_spec hord' k
    refine ⟨r, d', e, ?_, ?_⟩
    · intro hl
      rcases hcase with ⟨-, habs, -, -⟩ | ⟨A, x, B, -, -, -, -, hd⟩
      · obtain ⟨y, hy, h0⟩ := (hwf.live_iff k).1 hl
        exact absurd h0 (habs y hy)
      · exact hd
    · intro hl
      rcases hcase with ⟨-, -, -, hfr⟩ | ⟨A, x, B, hAB, h0, -⟩
      · exact ⟨by rw [hfr], hpos⟩
      · exact absurd ((hwf.live_iff k).2 ⟨x, by rw [hAB]; simp, h0⟩) hl
  · obtain ⟨r, d', t', e, hfr, -⟩ := hwf.find hord' k
    exact ⟨r, d', e, by rw [hfr], by rw [hfr]⟩
  · obtain ⟨r, d', t', e, hfr, -⟩ := hwf.find hord' k
    exact ⟨r.bind d'.data, d', by rw [retrieve_eq_find, e]; rfl, by rw [hfr], by rw [hfr]⟩
  · obtain ⟨i, d', t', e, hwf', hids, -, hcase⟩ := hwf.get_linear_index hord' k
    refine ⟨i, d', e, ?_, ?_⟩
    · intro hl
      rcases hcase with ⟨-, -, hd, hp⟩ | ⟨A, x, B, hAB, h0, -⟩
      · exact ⟨hd, hp⟩
      · exact absurd ((hwf.live_iff k).2 ⟨x, by rw [hAB]; simp, h0⟩) hl
    · intro hl
      rcases hcase with ⟨-, habs, -, -⟩ | ⟨A, x, B, -, -, -, hd, -⟩
      · obtain ⟨y, hy, h0⟩ := (hwf.live_iff k).1 hl
        exact absurd h0 (habs y hy)
      · exact ⟨hd, t'.ids, hwf'.elements_eq, hwf'.pos hd⟩

theorem exampleDictIndexed_reachable : Reachable intCmp exampleDictIndexed :=
  ⟨"example", exampleOps ++ [Op.get_linear_index 4], by
    have h : run exampleOps (rb_dictionary_create "example" intCmp) = some exampleDict := rfl
    rw [run_append, h]
    simp only [Option.bind, run, Op.apply, exampleDict_index, Option.map]⟩

theorem C33_witness :
    TotalOrderCmp intCmp ∧ Reachable intCmp exampleDictIndexed ∧
    exampleDictIndexed.dirty = false ∧ Live exampleDictIndexed 4 ∧
    ((exampleDictIndexed.dirty = false → ∃ ids, elements exampleDictIndexed = some ids ∧
      ∀ A x B, ids = A ++ x :: B → exampleDictIndexed.position x = (A.length : Int)) ∧
    (∃ x d', rb_dictionary_add exampleDictIndexed 4 (some 41) = some (x, d') ∧
      d'.dirty = true) ∧
    (∃ r d', rb_dictionary_delete exampleDictIndexed 4 = some (r, d') ∧
      (Live exampleDictIndexed 4 → d'.dirty = true) ∧
      (¬ Live exampleDictIndexed 4 → d'.dirty = exampleDictIndexed.dirty ∧
        d'.position = exampleDictIndexed.position)) ∧
    (∃ r d', rb_dictionary_find exampleDictIndexed 4 = some (r, d') ∧
      d'.dirty = exampleDictIndexed.dirty ∧ d'.position = exampleDictIndexed.position) ∧
    (∃ r d', rb_dictionary_retrieve exampleDictIndexed 4 = some (r, d') ∧
      d'.dirty = exampleDictIndexed.dirty ∧ d'.position = exampleDictIndexed.position) ∧
    (∃ i d', rb_dictionary_get_linear_index exampleDictIndexed 4 = some (i, d') ∧
      (¬ Live exampleDictIndexed 4 → d'.dirty = exampleDictIndexed.dirty ∧
        d'.position = exampleDictIndexed.position) ∧
      (Live exampleDictIndexed 4 → d'.dirty = false ∧ ∃ ids, elements d' = some ids ∧
        ∀ A x B, ids = A ++ x :: B → d'.position x = (A.length : Int)))) :=
  ⟨intCmp_order, exampleDictIndexed_reachable, rfl,
    ⟨[1, 3, 4, 5, 8], rfl, 4, by simp, rfl⟩,
    C33_clean_flag_means_positions_are_indices intCmp intCmp_order exampleDictIndexed
      exampleDictIndexed_reachable 4 41⟩

/-! ## The linked list read in both directions -/

/-- A segment that starts after `NULL` is, reversed, what the walk from its last element along
`prev` returns. -/
theorem IsDSeg_walk_back {prev next : Nat → Ptr} :
    ∀ (n : Nat) {xs : List Nat} {start last stop : Ptr} {fuel : Nat}, xs.length = n →
      IsDSeg prev next none start xs last stop → xs.length ≤ fuel →
      walk_next prev fuel last = some xs.reverse := by
  intro n
  induction n with
  | zero =>
    intro xs start last stop fuel hn h _
    have hx : xs = [] := List.length_eq_zero.1 hn
    subst hx
    obtain ⟨-, rfl⟩ := h
    cases fuel <;> rfl
  | succ n ih =>
    intro xs start last stop fuel hn h hf
    rcases list_nil_or_snoc xs with rfl | ⟨A, p, rfl⟩
    · simp at hn
    · obtain ⟨m, hA, hp, -, rfl⟩ := IsDSeg_snoc.1 h
      simp only [List.length_append, List.length_singleton] at hn hf
      cases fuel with
      | zero => omega
      | succ f =>
        simp only [walk_next]
        rw [hp, ih (by omega) hA (by omega)]
        simp

theorem WF.elements_backwards_eq {d : rb_dictionary K V} {t : Tree} (h : WF d t) :
    elements_backwards d = some t.ids.reverse :=
  IsDSeg_walk_back t.ids.length rfl h.list (le_of_eq h.count.symm)

/-- C37: in every reachable dictionary the linked list is a consistent doubly linked list:
`head` has no `prev` and `tail` has no `next`; an element `n` of the list whose `next` is `m`
is the `prev` of `m`, which is on the list too; the walk along `prev` from `tail` returns the
reverse of the walk along `next` from `head`; `head` and `tail` are both `NULL` exactly when
the dictionary is empty, and each of them is `NULL` exactly when the other is; and in a
dictionary that is not empty the key of `head` is less than the key of every other element
and the key of `tail` is greater than the key of every other element. -/
theorem C37_list_is_doubly_linked [Inhabited K] (cmp : K → K → Int)
    (hord : TotalOrderCmp cmp) (d : rb_dictionary K V) (hr : Reachable cmp d) :
    ∃ ids, elements d = some ids ∧ elements_backwards d = some ids.reverse ∧
      (∀ h, d.head = some h → d.prev h = none) ∧
      (∀ t, d.tail = some t → d.next t = none) ∧
      (∀ n ∈ ids, ∀ m, d.next n = some m → m ∈ ids ∧ d.prev m = some n) ∧
      ((d.head = none ∧ d.tail = none) ↔ rb_dictionary_size d = 0) ∧
      (d.head = none ↔ d.tail = none) ∧
      (rb_dictionary_size d = 0 ↔ ids = []) ∧
      (rb_dictionary_size d ≠ 0 → ∃ h t, d.head = some h ∧ d.tail = some t ∧
        h ∈ ids ∧ t ∈ ids ∧
        (∀ x ∈ ids, x ≠ h → d.compare_cb (d.key h) (d.key x) < 0) ∧
        (∀ x ∈ ids, x ≠ t → d.compare_cb (d.key x) (d.key t) < 0)) := by
  obtain ⟨t, hwf, hc⟩ := hr.wf hord
  have hl := hwf.list
  have hnd := hwf.nodup
  have hs := hwf.sorted
  have hcnt := hwf.count
  refine ⟨t.ids, hwf.elements_eq, hwf.elements_backwards_eq, ?_⟩
  generalize t.ids = ids at hl hnd hs hcnt
  have hhead : ∀ h, d.head = some h → ∃ B, ids = h :: B := by
    intro h hh
    cases ids with
    | nil =>
      obtain ⟨h1, -⟩ := hl
      rw [hh] at h1
      cases h1
    | cons x xs =>
      obtain ⟨h1, -, -⟩ := hl
      rw [hh] at h1
      cases h1
      exact ⟨xs, rfl⟩
  have htail : ∀ t, d.tail = some t → ∃ A, ids = A ++ [t] := by
    intro t ht
    rcases list_nil_or_snoc ids with rfl | ⟨A, p, rfl⟩
    · obtain ⟨-, h1⟩ := hl
      rw [ht] at h1
      cases h1
    · obtain ⟨m, -, -, -, h5⟩ := IsDSeg_snoc.1 hl
      rw [ht] at h5
      cases h5
      exact ⟨A, rfl⟩
  have hsz : rb_dictionary_size d = 0 ↔ ids = [] := by
    simp only [rb_dictionary_size, hcnt]
    exact List.length_eq_zero
  have hh0 : d.head = none ↔ ids = [] := by
    cases ids with
    | nil =>
      obtain ⟨h1, -⟩ := hl
      simp [h1]
    | cons x xs =>
      obtain ⟨h1, -, -⟩ := hl
      simp [h1]
  have ht0 : d.tail = none ↔ ids = [] := by
    rcases list_nil_or_snoc ids with rfl | ⟨A, p, rfl⟩
    · obtain ⟨-, h1⟩ := hl
      simp [h1]
    · obtain ⟨m, -, -, -, h5⟩ := IsDSeg_snoc.1 hl
      simp [h5]
  refine ⟨?_, ?_, ?_, ?_, ?_, hsz, ?_⟩
  · intro h hh
    obtain ⟨B, rfl⟩ := hhead h hh
    exact hl.2.1
  · intro t ht
    obtain ⟨A, rfl⟩ := htail t ht
    obtain ⟨m, -, -, h4, -⟩ := IsDSeg_snoc.1 hl
    exact h4
  · intro n hn m hm
    obtain ⟨A, B, rfl⟩ := List.append_of_mem hn
    obtain ⟨p, s, -, hB⟩ := IsDSeg_append.1 hl
    obtain ⟨-, -, hB'⟩ := hB
    cases B with
    | nil =>
      obtain ⟨h1, -⟩ := hB'
      rw [hm] at h1
      cases h1
    | cons b B' =>
      obtain ⟨h1, h2, -⟩ := hB'
      rw [hm] at h1
      cases h1
      exact ⟨by simp, h2⟩
  · rw [hsz, hh0, ht0, and_self]
  · rw [hh0, ht0]
  · intro hne
    have hne' : ids ≠ [] := fun e => hne (hsz.2 e)
    cases hd : d.head with
    | none => exact absurd (hh0.1 hd) hne'
    | some h =>
      cases htl : d.tail with
      | none => exact absurd (ht0.1 htl) hne'
      | some t =>
        obtain ⟨B, hB⟩ := hhead h hd
        obtain ⟨A, hA⟩ := htail t htl
        refine ⟨h, t, rfl, rfl, by rw [hB]; simp, by rw [hA]; simp, ?_, ?_⟩
        · intro x hx hxh
          rw [hB] at hx hs
          rcases List.mem_cons.1 hx with e | hx'
          · exact absurd e hxh
          · exact (List.pairwise_cons.1 hs).1 x hx'
        · intro x hx hxt
          rw [hA] at hx hs
          rcases List.mem_append.1 hx with hx' | hx'
          · exact (List.pairwise_append.1 hs).2.2 x hx' t (by simp)
          · exact absurd (List.mem_singleton.1 hx') hxt

theorem C37_witness :
    TotalOrderCmp intCmp ∧ Reachable intCmp exampleDict ∧
    ∃ ids, elements exampleDict = some ids ∧
      elements_backwards exampleDict = some ids.reverse ∧
      (∀ h, exampleDict.head = some h → exampleDict.prev h = none) ∧
      (∀ t, exampleDict.tail = some t → exampleDict.next t = none) ∧
      (∀ n ∈ ids, ∀ m, exampleDict.next n = some m → m ∈ ids ∧ exampleDict.prev m = some n) ∧
      ((exampleDict.head = none ∧ exampleDict.tail = none) ↔
        rb_dictionary_size exampleDict = 0) ∧
      (exampleDict.head = none ↔ exampleDict.tail = none) ∧
      (rb_dictionary_size exampleDict = 0 ↔ ids = []) ∧
      (rb_dictionary_size exampleDict ≠ 0 → ∃ h t, exampleDict.head = some h ∧
        exampleDict.tail = some t ∧ h ∈ ids ∧ t ∈ ids ∧
        (∀ x ∈ ids, x ≠ h →
          exampleDict.compare_cb (exampleDict.key h) (exampleDict.key x) < 0) ∧
        (∀ x ∈ ids, x ≠ t →
          exampleDict.compare_cb (exampleDict.key x) (exampleDict.key t) < 0)) :=
  ⟨intCmp_order, exampleDict_reachable,
    C37_list_is_doubly_linked intCmp intCmp_order exampleDict exampleDict_reachable⟩

/-! ## The successor of a root with two children -/

theorem Tree.leftmost_eq_head : ∀ t : Tree, t.leftmost = t.ids.head?
  | .leaf => rfl
  | .node .leaf x r => by simp [Tree.leftmost]
  | .node (.node l y r) x r' => by
    have ih := Tree.leftmost_eq_head (.node l y r)
    simp only [Tree.leftmost, ih, Tree.ids_node, List.append_assoc, List.cons_append]
    cases l.ids <;> rfl

/-- The leftmost node of a tree has no left child. -/
theorem leftmost_left_none {L R : Nat → Ptr} {nx : Nat} :
    ∀ {t : Tree} {p : Ptr}, IsTree L R p t → t.leftmost = some nx → L nx = none
  | .leaf, _, _, h => by simp [Tree.leftmost] at h
  | .node .leaf x r, p, hT, h => by
    simp only [Tree.leftmost, Option.some.injEq] at h
    subst h
    exact hT.2.1
  | .node (.node l y r) x r', p, hT, h => by
    simp only [Tree.leftmost] at h
    exact leftmost_left_none hT.2.1 h

/-- The walk down the left spine returns on every tree that is no higher than the step
budget. -/
theorem parentofnext_loop_returns {L R : Nat → Ptr} (nx : Nat) :
    ∀ (fuel x : Nat) (t : Tree), IsTree L R (some x) t → t.height ≤ fuel →
      ∃ par, parentofnext_loop L nx fuel x = some par := by
  intro fuel
  induction fuel with
  | zero =>
    intro x t hT hf
    obtain ⟨l, r, rfl, -, -⟩ := IsTree_some hT
    simp [Tree.height] at hf
  | succ n ih =>
    intro x t hT hf
    obtain ⟨l, r, rfl, hl, hr⟩ := IsTree_some hT
    rw [parentofnext_loop]
    cases hL : L x with
    | none => exact ⟨x, rfl⟩
    | some c =>
      simp only []
      by_cases hc : c = nx
      · rw [if_pos hc]
        exact ⟨x, rfl⟩
      · rw [if_neg hc]
        rw [hL] at hl
        refine ih c l hl ?_
        simp only [Tree.height] at hf
        omega

/-- The walk down the left spine from the root `x` of a tree whose leftmost node is some other
node `nx` stops at the node whose left child is `nx`. -/
theorem parentofnext_loop_parent {L R : Nat → Ptr} {nx : Nat} :
    ∀ (fuel x : Nat) (t : Tree), IsTree L R (some x) t → t.leftmost = some nx → nx ≠ x →
      t.height ≤ fuel →
      ∃ par, parentofnext_loop L nx fuel x = some par ∧ L par = some nx ∧ par ∈ t.ids := by
  intro fuel
  induction fuel with
  | zero =>
    intro x t hT _ _ hf
    obtain ⟨l, r, rfl, -, -⟩ := IsTree_some hT
    simp [Tree.height] at hf
  | succ n ih =>
    intro x t hT hlm hne hf
    obtain ⟨l, r, rfl, hl, hr⟩ := IsTree_some hT
    cases l with
    | leaf =>
      simp only [Tree.leftmost, Option.some.injEq] at hlm
      exact absurd hlm.symm hne
    | node ll y lr =>
      simp only [Tree.leftmost] at hlm
      have hLx : L x = some y := hl.1
      rw [parentofnext_loop, hLx]
      simp only []
      by_cases hy : y = nx
      · rw [if_pos hy]
        exact ⟨x, rfl, hy ▸ hLx, by simp⟩
      · rw [if_neg hy]
        rw [hLx] at hl
        obtain ⟨par, e, hp, hm⟩ := ih y (.node ll y lr) hl hlm (Ne.symm hy) (by
          simp only [Tree.height] at hf ⊢
          omega)
        exact ⟨par, e, hp, by
          simp only [Tree.ids_node, List.mem_append, List.mem_cons] at hm ⊢
          exact Or.inl hm⟩

/-- C31: in every reachable dictionary whose root `x` has a right child `r` (with or without
a left child beside it), the linked-list successor `nx` of the root exists, is the leftmost
node of the subtree rooted at `r`, and has no left child (so the assertion
`nextnode->left == NULL` of `rb_dictionary_unlink_root` holds); and when `nx` is not `r`
itself, the walk of `rb_dictionary_unlink_root` down the left spine from `r` returns a node
of that subtree whose left child is `nx` (so the assertion `parentofnext->left == nextnode`
holds). -/
theorem C31_successor_is_leftmost_of_right_subtree [Inhabited K] (cmp : K → K → Int)
    (hord : TotalOrderCmp cmp) (d : rb_dictionary K V) (hr : Reachable cmp d) (x r : Nat)
    (hroot : d.root = some x) (hright : d.right x = some r) :
    ∃ nx tr, d.next x = some nx ∧ IsTree d.left d.right (some r) tr ∧ nx ∈ tr.ids ∧
      tr.leftmost = some nx ∧ d.left nx = none ∧
      (nx = r ∨ (nx ≠ r ∧ ∃ par, parentofnext_loop d.left nx d.count r = some par ∧
        par ∈ tr.ids ∧ d.left par = some nx)) := by
  obtain ⟨t, hwf, hc⟩ := hr.wf hord
  have hT := hwf.tree
  rw [hroot] at hT
  obtain ⟨a, b, rfl, ha, hb⟩ := IsTree_some hT
  rw [hright] at hb
  obtain ⟨bl, br, rfl, hbl, hbr⟩ := IsTree_some hb
  have hnext := hwf.next_eq (A := a.ids) (B := (Tree.node bl r br).ids) (x := x) rfl
  rw [← Tree.leftmost_eq_head] at hnext
  cases hlm : (Tree.node bl r br).leftmost with
  | none =>
    rw [Tree.leftmost_eq_head] at hlm
    cases hb' : bl.ids <;> simp [hb'] at hlm
  | some nx =>
    rw [hlm] at hnext
    have hmem : nx ∈ (Tree.node bl r br).ids := by
      have h1 := hlm
      rw [Tree.leftmost_eq_head] at h1
      exact List.mem_of_mem_head? h1
    refine ⟨nx, .node bl r br, hnext, hb, hmem, hlm, leftmost_left_none hb hlm, ?_⟩
    by_cases hnr : nx = r
    · exact Or.inl hnr
    · refine Or.inr ⟨hnr, ?_⟩
      have hcount : (Tree.node bl r br).height ≤ d.count := by
        have h1 := Tree.height_le_length (Tree.node bl r br)
        have h2 := hwf.count
        simp only [Tree.ids_node, List.length_append, List.length_cons] at h1 h2 ⊢
        omega
      obtain ⟨par, e, hp, hm⟩ :=
        parentofnext_loop_parent (L := d.left) (R := d.right) d.count r _ hb hlm hnr hcount
      exact ⟨par, e, hm, hp⟩

theorem exampleDictDeep_reachable : Reachable intCmp exampleDictDeep :=
  ⟨"example", exampleOps ++ [Op.find 8, Op.find 3], by
    have h : run exampleOps (rb_dictionary_create "example" intCmp) = some exampleDict := rfl
    rw [run_append, h]
    rfl⟩

theorem C31_witness :
    TotalOrderCmp intCmp ∧ Reachable intCmp exampleDictDeep ∧
    exampleDictDeep.root = some 2 ∧ exampleDictDeep.left 2 = some 4 ∧
    exampleDictDeep.right 2 = some 1 ∧
    ∃ nx tr, exampleDictDeep.next 2 = some nx ∧
      IsTree exampleDictDeep.left exampleDictDeep.right (some 1) tr ∧ nx ∈ tr.ids ∧
      tr.leftmost = some nx ∧ exampleDictDeep.left nx = none ∧
      (nx = 1 ∨ (nx ≠ 1 ∧ ∃ par,
        parentofnext_loop exampleDictDeep.left nx exampleDictDeep.count 1 = some par ∧
        par ∈ tr.ids ∧ exampleDictDeep.left par = some nx)) :=
  ⟨intCmp_order, exampleDictDeep_reachable, rfl, rfl, rfl,
    C31_successor_is_leftmost_of_right_subtree intCmp intCmp_order exampleDictDeep
      exampleDictDeep_reachable 2 1 rfl rfl⟩

/-! ## What `delete` makes the new root -/

theorem Tree.ids_dropLeftmost {nx : Nat} :
    ∀ {t : Tree}, t.leftmost = some nx → t.ids = nx :: t.dropLeftmost.ids
  | .leaf, h => by simp [Tree.leftmost] at h
  | .node .leaf x r, h => by
    simp only [Tree.leftmost, Option.some.injEq] at h
    subst h
    simp [Tree.dropLeftmost]
  | .node (.node l y r) x r', h => by
    simp only [Tree.leftmost] at h
    have ih := Tree.ids_dropLeftmost (t := .node l y r) h
    simp only [Tree.dropLeftmost]
    rw [Tree.ids_node, ih, Tree.ids_node]
    rfl

/-- The walk of `rb_dictionary_unlink_root` down the left spine from the root `x` of a tree
whose leftmost node is some other node `nx` stops at the parent of `nx`; redirecting the
parent's left child to `nx->right` leaves the tree without `nx`. -/
theorem parentofnext_loop_drop {L R : Nat → Ptr} {nx : Nat} :
    ∀ (fuel x : Nat) (t : Tree), IsTree L R (some x) t → t.ids.Nodup →
      t.leftmost = some nx → nx ≠ x → t.height ≤ fuel →
      ∃ par, parentofnext_loop L nx fuel x = some par ∧ L par = some nx ∧ par ∈ t.ids ∧
        par ≠ nx ∧ IsTree (setField L par (R nx)) R (some x) t.dropLeftmost := by
  intro fuel
  induction fuel with
  | zero =>
    intro x t hT _ _ _ hf
    obtain ⟨l, r, rfl, -, -⟩ := IsTree_some hT
    simp [Tree.height] at hf
  | succ n ih =>
    intro x t hT hnd hlm hne hf
    obtain ⟨l, r, rfl, hl, hr⟩ := IsTree_some hT
    have hxn := nodup_mid hnd
    cases l with
    | leaf =>
      simp only [Tree.leftmost, Option.some.injEq] at hlm
      exact absurd hlm.symm hne
    | node ll y lr =>
      simp only [Tree.leftmost] at hlm
      have hLx : L x = some y := hl.1
      have hndl : (Tree.node ll y lr).ids.Nodup := (List.nodup_append.1 hnd).1
      have hyn := nodup_mid hndl
      rw [hLx] at hl
      rw [parentofnext_loop, hLx]
      simp only []
      by_cases hy : y = nx
      · subst hy
        rw [if_pos rfl]
        have hll : ll = .leaf := by
          cases ll with
          | leaf => rfl
          | node a z c =>
            exfalso
            have h1 : (Tree.node a z c).leftmost = some y := hlm
            have h2 := Tree.ids_dropLeftmost h1
            rw [h2] at hyn
            exact hyn.1 (List.mem_cons_self _ _)
        subst hll
        refine ⟨x, rfl, hLx, by simp, Ne.symm hne, ?_⟩
        simp only [Tree.dropLeftmost]
        refine ⟨rfl, ?_, IsTree_setL _ hxn.2 hr⟩
        rw [setField_same]
        refine IsTree_setL _ ?_ hl.2.2
        intro hm
        exact hxn.1 (by simp [hm])
      · rw [if_neg hy]
        obtain ⟨par, e, hp, hm, hpn, hT'⟩ :=
          ih y (.node ll y lr) hl hndl hlm (Ne.symm hy) (by
            simp only [Tree.height] at hf ⊢
            omega)
        have hpx : par ≠ x := fun e => hxn.1 (e ▸ hm)
        have hpr : par ∉ r.ids := fun hm' =>
          (List.nodup_append.1 hnd).2.2 hm (List.mem_cons_of_mem _ hm')
        refine ⟨par, e, hp, ?_, hpn, ?_⟩
        · simp only [Tree.ids_node, List.mem_append, List.mem_cons] at hm ⊢
          exact Or.inl hm
        · simp only [Tree.dropLeftmost]
          refine ⟨rfl, ?_, IsTree_setL _ hpr hr⟩
          rw [setField_ne _ _ (Ne.symm hpx), hLx]
          exact hT'

/-- The tree half of `rb_dictionary_unlink_root`, case by case: with no left child the right
child becomes the root, with no right child the left child does, and with both the successor
`nx` of `delem` becomes the root over the left subtree of `delem` and over the right subtree
of `delem` without `nx`. -/
theorem unlink_root_tree_shape {d : rb_dictionary K V} {a b : Tree} {delem : Nat}
    (hT : IsTree d.left d.right (some delem) (.node a delem b))
    (hnd : (a.ids ++ delem :: b.ids).Nodup)
    (hnext : d.next delem = b.ids.head?)
    (hf : (a.ids ++ delem :: b.ids).length ≤ d.count) :
    ∃ d1, unlink_root_tree d delem = some d1 ∧
      d1 = { d with left := d1.left, right := d1.right, root := d1.root } ∧
      (d.left delem = none → d1.root = d.right delem ∧ d1.left = d.left ∧
        d1.right = d.right) ∧
      (d.right delem = none → d1.root = d.left delem ∧ d1.left = d.left ∧
        d1.right = d.right) ∧
      (∀ l r, d.left delem = some l → d.right delem = some r →
        ∃ nx, b.leftmost = some nx ∧ d.next delem = some nx ∧ d1.root = some nx ∧
          IsTree d1.left d1.right (some nx) (.node a nx b.dropLeftmost) ∧
          d1.left nx = some l ∧
          (nx = r → d1.right nx = d.right nx) ∧
          (nx ≠ r → d1.right nx = some r ∧ ∃ par, par ∈ b.ids ∧ par ≠ nx ∧
            d.left par = some nx ∧ d1.left par = d.right nx)) := by
  simp only [IsTree_node, true_and] at hT
  obtain ⟨ha, hb⟩ := hT
  have hdn := nodup_mid hnd
  unfold unlink_root_tree
  cases hL : d.left delem with
  | none =>
    simp only []
    refine ⟨_, rfl, rfl, fun _ => ⟨rfl, rfl, rfl⟩, ?_, ?_⟩
    · intro hR
      exact ⟨by rw [hR], rfl, rfl⟩
    · intro l r h
      cases h
  | some l =>
    simp only []
    cases hR : d.right delem with
    | none =>
      simp only []
      refine ⟨_, rfl, rfl, ?_, fun _ => ⟨rfl, rfl, rfl⟩, ?_⟩
      · intro h
        cases h
      · intro l r _ h
        cases h
    | some r =>
      simp only []
      rw [hR] at hb
      rw [hL] at ha
      obtain ⟨bl, br, rfl, hbl, hbr⟩ := IsTree_some hb
      have hndb : (Tree.node bl r br).ids.Nodup :=
        (List.nodup_cons.1 (List.nodup_append.1 hnd).2.1).2
      rw [← Tree.leftmost_eq_head] at hnext
      cases hlm : (Tree.node bl r br).leftmost with
      | none =>
        rw [Tree.leftmost_eq_head] at hlm
        cases hb' : bl.ids <;> simp [hb'] at hlm
      | some nx =>
        rw [hlm] at hnext
        rw [hnext]
        simp only []
        have hids := Tree.ids_dropLeftmost hlm
        have hnxb : nx ∈ (Tree.node bl r br).ids := by rw [hids]; simp
        have hnxd : nx ∉ (Tree.node bl r br).dropLeftmost.ids := by
          rw [hids] at hndb
          exact (List.nodup_cons.1 hndb).1
        have hna : nx ∉ a.ids := fun hm =>
          (List.nodup_append.1 hnd).2.2 hm (List.mem_cons_of_mem _ hnxb)
        have hnd' : nx ≠ delem := fun e => hdn.2 (e ▸ hnxb)
        by_cases hnr : nx = r
        · subst hnr
          rw [if_pos rfl]
          refine ⟨_, rfl, rfl, ?_, ?_, ?_⟩
          · intro h
            cases h
          · intro h
            cases h
          · intro l' r' hl' hr'
            cases hl'
            cases hr'
            have hbl' : bl = .leaf := by
              cases bl with
              | leaf => rfl
              | node p q s =>
                exfalso
                have h1 : (Tree.node p q s).leftmost = some nx := hlm
                have h2 := Tree.ids_dropLeftmost h1
                have h3 := (nodup_mid hndb).1
                rw [h2] at h3
                exact h3 (List.mem_cons_self _ _)
            subst hbl'
            have hdrop : (Tree.node .leaf nx br).dropLeftmost = br := rfl
            rw [hdrop] at hnxd
            rw [hdrop]
            refine ⟨nx, hlm, rfl, rfl, ?_, by simp, fun _ => rfl, fun h => absurd rfl h⟩
            refine ⟨rfl, ?_, IsTree_setL _ hnxd hbr⟩
            simp only [setField_same]
            exact IsTree_setL _ hna ha
        · rw [if_neg hnr]
          have hcount : (Tree.node bl r br).height ≤ d.count := by
            have h1 := Tree.height_le_length (Tree.node bl r br)
            simp only [List.length_append, List.length_cons] at hf
            omega
          obtain ⟨par, e, hp, hm, hpn, hT'⟩ :=
            parentofnext_loop_drop (L := d.left) (R := d.right) d.count r _ hb hndb hlm hnr
              hcount
          rw [e]
          simp only []
          have hpd : par ≠ delem := fun e => hdn.2 (e ▸ hm)
          have hpa : par ∉ a.ids := fun hm' =>
            (List.nodup_append.1 hnd).2.2 hm' (List.mem_cons_of_mem _ hm)
          refine ⟨_, rfl, rfl, ?_, ?_, ?_⟩
          · intro h
            cases h
          · intro h
            cases h
          · intro l' r' hl' hr'
            cases hl'
            cases hr'
            refine ⟨nx, rfl, rfl, rfl, ?_, ?_, fun h => absurd h hnr,
              fun _ => ⟨?_, par, hm, hpn, hp, ?_⟩⟩
            · refine ⟨rfl, ?_, ?_⟩
              · simp only [setField_same, setField_ne _ _ (Ne.symm hpd), hL]
                exact IsTree_setR _ hna (IsTree_setL _ hna (IsTree_setL _ hpa ha))
              · simp only [setField_same]
                exact IsTree_setR _ hnxd (IsTree_setL _ hnxd hT')
            · simp only [setField_same, setField_ne _ _ (Ne.symm hpd), hL]
            · simp only [setField_same]
            · simp only [setField_same, setField_ne _ _ hpn]

/-- C32: for every reachable dictionary and live key `k`, `find(k)` returns the node `n` for
`k`, which the retune has made the root of the state `df`, and `delete(k)` returns with a new
root that is the right child of `n` when `n` had no left child, the left child of `n` when
`n` had no right child, and otherwise the successor `nx` of `n`: the element with the least
key greater than `k`, the leftmost node of the right subtree `b` of `n`. The left subtree of
`nx` is then the former left subtree `a` of `n`, and its right subtree is `b` without `nx`,
in which the former right subtree of `nx` has moved up into the place of `nx`: when `nx` was
the right child of `n` it keeps its right subtree, and otherwise its former parent `par` gets
the former right child of `nx` as left child, and `nx` gets the right child of `n`. -/
theorem C32_delete_promotes_child_or_successor [Inhabited K] (cmp : K → K → Int)
    (hord : TotalOrderCmp cmp) (d : rb_dictionary K V) (hr : Reachable cmp d) (k : K)
    (hlive : Live d k) :
    ∃ n df v d' a b ids, rb_dictionary_find d k = some (some n, df) ∧ df.root = some n ∧
      elements d = some ids ∧ n ∈ ids ∧ d.compare_cb k (d.key n) = 0 ∧
      IsTree df.left df.right (some n) (.node a n b) ∧
      rb_dictionary_delete d k = some (v, d') ∧
      (df.left n = none → d'.root = df.right n ∧ IsTree d'.left d'.right d'.root b) ∧
      (df.right n = none → d'.root = df.left n ∧ IsTree d'.left d'.right d'.root a) ∧
      (∀ l r, df.left n = some l → df.right n = some r →
        ∃ nx, d'.root = some nx ∧ nx ∈ ids ∧ df.next n = some nx ∧
          d.compare_cb k (d.key nx) < 0 ∧
          (∀ y ∈ ids, d.compare_cb k (d.key y) < 0 →
            y = nx ∨ d.compare_cb (d.key nx) (d.key y) < 0) ∧
          b.leftmost = some nx ∧
          IsTree d'.left d'.right (some nx) (.node a nx b.dropLeftmost) ∧
          d'.left nx = some l ∧
          (nx = r → d'.right nx = df.right nx) ∧
          (nx ≠ r → d'.right nx = some r ∧ ∃ par, par ∈ ids ∧ par ≠ nx ∧
            df.left par = some nx ∧ d'.left par = df.right nx)) := by
  obtain ⟨t, hwf, hc⟩ := hr.wf hord
  have hord' : TotalOrderCmp d.compare_cb := hc ▸ hord
  obtain ⟨r, df, t', e, hfr, hwf', hids, hsome, hnone⟩ := hwf.find hord' k
  have ecmp : df.compare_cb = d.compare_cb := by rw [hfr]
  have ekey : df.key = d.key := by rw [hfr]
  cases r with
  | none =>
    obtain ⟨y, hy, h0⟩ := (hwf.live_iff k).1 hlive
    exact absurd h0 (hnone rfl y hy)
  | some n =>
    obtain ⟨hroot, hx, hcmp⟩ := hsome n rfl
    have hT := hwf'.tree
    rw [hroot] at hT
    obtain ⟨a, b, rfl, -, -⟩ := IsTree_some hT
    have hnd := hwf'.nodup
    have hs := hwf'.sorted
    rw [ecmp, ekey] at hs
    simp only [Tree.ids_node] at hnd hs hids
    have hnext := hwf'.next_eq (A := a.ids) (B := b.ids) (x := n) rfl
    obtain ⟨d1, e1, hfr1, h1, h2, h3⟩ :=
      unlink_root_tree_shape (d := { df with dirty := true }) hT hnd hnext
        (le_of_eq hwf'.count.symm)
    have hdel : rb_dictionary_delete d k = some (df.data n, unlink_root_list d1 n) := by
      unfold rb_dictionary_delete
      rw [e]
      simp only []
      unfold rb_dictionary_unlink_root
      simp only []
      rw [hroot]
      simp only []
      rw [← hroot, e1]
    refine ⟨n, df, df.data n, unlink_root_list d1 n, a, b, t.ids, e, hroot, hwf.elements_eq,
      hx, hcmp, hT, hdel, ?_, ?_, ?_⟩
    · intro hl
      obtain ⟨g1, g2, g3⟩ := h1 hl
      have hb : IsTree df.left df.right (df.right n) b := hT.2.2
      refine ⟨g1, ?_⟩
      show IsTree d1.left d1.right d1.root b
      rw [g1, g2, g3]
      exact hb
    · intro hr'
      obtain ⟨g1, g2, g3⟩ := h2 hr'
      have ha : IsTree df.left df.right (df.left n) a := hT.2.1
      refine ⟨g1, ?_⟩
      show IsTree d1.left d1.right d1.root a
      rw [g1, g2, g3]
      exact ha
    · intro l r hl hr'
      obtain ⟨nx, g1, g2, g3, g4, g5, g6, g7⟩ := h3 l r hl hr'
      have hids' := Tree.ids_dropLeftmost g1
      have hnxb : nx ∈ b.ids := by rw [hids']; simp
      have hm := sorted_mid hs
      have hsb : SortedIds d.compare_cb d.key b.ids :=
        (List.pairwise_cons.1 (List.pairwise_append.1 hs).2.1).2
      refine ⟨nx, g3, ?_, g2, ?_, ?_, g1, g4, g5, g6, ?_⟩
      · rw [← hids]; simp [hnxb]
      · exact hord'.eq_lt _ _ _ hcmp (hm.2 nx hnxb)
      · intro y hy hky
        rw [← hids] at hy
        rcases List.mem_append.1 hy with hy' | hy'
        · have h4 := hord'.lt_trans _ _ _ hky (hm.1 y hy')
          omega
        · rcases List.mem_cons.1 hy' with rfl | hy''
          · omega
          · rw [hids'] at hy'' hsb
            rcases List.mem_cons.1 hy'' with rfl | hy3
            · exact Or.inl rfl
            · exact Or.inr ((List.pairwise_cons.1 hsb).1 y hy3)
      · intro hne
        obtain ⟨q1, par, q2, q3, q4, q5⟩ := g7 hne
        exact ⟨q1, par, by rw [← hids]; simp [q2], q3, q4, q5⟩

theorem exampleDictDeep_live : Live exampleDictDeep 3 :=
  ⟨[1, 3, 4, 5, 8], rfl, 3, by simp, rfl⟩

theorem C32_witness :
    TotalOrderCmp intCmp ∧ Reachable intCmp exampleDictDeep ∧ Live exampleDictDeep 3 ∧
    ∃ n df v d' a b ids, rb_dictionary_find exampleDictDeep 3 = some (some n, df) ∧
      df.root = some n ∧ elements exampleDictDeep = some ids ∧ n ∈ ids ∧
      exampleDictDeep.compare_cb 3 (exampleDictDeep.key n) = 0 ∧
      IsTree df.left df.right (some n) (.node a n b) ∧
      rb_dictionary_delete exampleDictDeep 3 = some (v, d') ∧
      (df.left n = none → d'.root = df.right n ∧ IsTree d'.left d'.right d'.root b) ∧
      (df.right n = none → d'.root = df.left n ∧ IsTree d'.left d'.right d'.root a) ∧
      (∀ l r, df.left n = some l → df.right n = some r →
        ∃ nx, d'.root = some nx ∧ nx ∈ ids ∧ df.next n = some nx ∧
          exampleDictDeep.compare_cb 3 (exampleDictDeep.key nx) < 0 ∧
          (∀ y ∈ ids, exampleDictDeep.compare_cb 3 (exampleDictDeep.key y) < 0 →
            y = nx ∨
              exampleDictDeep.compare_cb (exampleDictDeep.key nx) (exampleDictDeep.key y) < 0) ∧
          b.leftmost = some nx ∧
          IsTree d'.left d'.right (some nx) (.node a nx b.dropLeftmost) ∧
          d'.left nx = some l ∧
          (nx = r → d'.right nx = df.right nx) ∧
          (nx ≠ r → d'.right nx = some r ∧ ∃ par, par ∈ ids ∧ par ≠ nx ∧
            df.left par = some nx ∧ d'.left par = df.right nx)) :=
  ⟨intCmp_order, exampleDictDeep_reachable, exampleDictDeep_live,
    C32_delete_promotes_child_or_successor intCmp intCmp_order exampleDictDeep
      exampleDictDeep_reachable 3 exampleDictDeep_live⟩

/-! ## Termination -/

/-- The loop of `rb_dictionary_retune` returns on every tree that is no higher than the step
budget, whatever the comparator and the keys: an iteration that does not stop goes on with a
proper subtree. -/
theorem retune_loop_returns (cmp : K → K → Int) (keyOf : Nat → K) (key : K) :
    ∀ (fuel : Nat) (L R : Nat → Ptr) (lp rp node : Nat) (t : Tree),
      IsTree L R (some node) t → t.ids.Nodup → lp ∉ t.ids → rp ∉ t.ids → t.height ≤ fuel →
      ∃ s, retune_loop cmp keyOf key fuel L R lp rp node = some s := by
  intro fuel
  induction fuel with
  | zero =>
    intro L R lp rp node t hT _ _ _ hf
    obtain ⟨l, r, rfl, -, -⟩ := IsTree_some hT
    simp [Tree.height] at hf
  | succ n ih =>
    intro L R lp rp node t hT hnd hlp hrp hf
    obtain ⟨l, r, rfl, hl, hr⟩ := IsTree_some hT
    have hxn := nodup_mid hnd
    have hndl : l.ids.Nodup := (List.nodup_append.1 hnd).1
    have hndr : r.ids.Nodup := (List.nodup_cons.1 (List.nodup_append.1 hnd).2.1).2
    simp only [Tree.ids_node, List.mem_append, List.mem_cons, not_or] at hlp hrp
    simp only [Tree.height] at hf
    rw [retune_loop]
    by_cases c0 : cmp key (keyOf node) = 0
    · rw [if_pos c0]
      exact ⟨_, rfl⟩
    rw [if_neg c0]
    by_cases c1 : cmp key (keyOf node) < 0
    · rw [if_pos c1]
      cases l with
      | leaf =>
        simp only [IsTree_leaf] at hl
        rw [hl]
        exact ⟨_, rfl⟩
      | node ll y lr =>
        obtain ⟨hLx, hll, hlr⟩ := hl
        rw [hLx]
        simp only []
        have hyn := nodup_mid hndl
        have hndll : ll.ids.Nodup := (List.nodup_append.1 hndl).1
        simp only [Tree.ids_node, List.mem_append, List.mem_cons, not_or] at hlp hrp hxn
        have hyx : y ≠ node := fun e => hxn.1.2.1 e.symm
        by_cases c2 : cmp key (keyOf y) < 0
        · rw [if_pos c2]
          rw [setField_ne _ _ hyx]
          cases ll with
          | leaf =>
            simp only [IsTree_leaf] at hll
            rw [hll]
            exact ⟨_, rfl⟩
          | node a z c =>
            have hLy : L y = some z := hll.1
            rw [hLy]
            simp only []
            rw [setField_ne _ _ (fun e => hrp.1.2.1 e.symm), setField_ne _ _ hyx, hLy]
            simp only []
            refine ih _ _ lp y z (.node a z c) ?_ hndll hlp.1.1 hyn.1 ?_
            · exact IsTree_setR _ hyn.1 (IsTree_setL _ hrp.1.1 (IsTree_setL _ hxn.1.1 ⟨rfl, hll.2.1, hll.2.2⟩))
            · simp only [Tree.height] at hf ⊢
              omega
        · rw [if_neg c2]
          rw [setField_ne _ _ (fun e => hrp.2.1 e.symm), hLx]
          simp only []
          have hrpl : rp ∉ (Tree.node ll y lr).ids := by
            simp only [Tree.ids_node, List.mem_append, List.mem_cons, not_or]
            exact hrp.1
          have hlpl : lp ∉ (Tree.node ll y lr).ids := by
            simp only [Tree.ids_node, List.mem_append, List.mem_cons, not_or]
            exact hlp.1
          have hxl : node ∉ (Tree.node ll y lr).ids := by
            simp only [Tree.ids_node, List.mem_append, List.mem_cons, not_or]
            exact hxn.1
          refine ih _ _ lp node y (.node ll y lr) ?_ hndl hlpl hxl ?_
          · exact IsTree_setL _ hrpl ⟨rfl, hll, hlr⟩
          · omega
    · rw [if_neg c1]
      cases r with
      | leaf =>
        simp only [IsTree_leaf] at hr
        rw [hr]
        exact ⟨_, rfl⟩
      | node rl y rr =>
        obtain ⟨hRx, hrl, hrr⟩ := hr
        rw [hRx]
        simp only []
        have hyn := nodup_mid hndr
        have hndrr : rr.ids.Nodup := (List.nodup_cons.1 (List.nodup_append.1 hndr).2.1).2
        simp only [Tree.ids_node, List.mem_append, List.mem_cons, not_or] at hlp hrp hxn
        have hyx : y ≠ node := fun e => hxn.2.2.1 e.symm
        by_cases c2 : cmp key (keyOf y) > 0
        · rw [if_pos c2]
          rw [setField_ne _ _ hyx]
          cases rr with
          | leaf =>
            simp only [IsTree_leaf] at hrr
            rw [hrr]
            exact ⟨_, rfl⟩
          | node a z c =>
            have hRy : R y = some z := hrr.1
            rw [hRy]
            simp only []
            rw [setField_ne _ _ (fun e => hlp.2.2.2.1 e.symm), setField_ne _ _ hyx, hRy]
            simp only []
            refine ih _ _ y rp z (.node a z c) ?_ hndrr hyn.2 hrp.2.2.2.2 ?_
            · exact IsTree_setR _ hlp.2.2.2.2 (IsTree_setR _ hxn.2.2.2 (IsTree_setL _ hyn.2 ⟨rfl, hrr.2.1, hrr.2.2⟩))
            · simp only [Tree.height] at hf ⊢
              omega
        · rw [if_neg c2]
          rw [setField_ne _ _ (fun e => hlp.2.1 e.symm), hRx]
          simp only []
          have hrpl : rp ∉ (Tree.node rl y rr).ids := by
            simp only [Tree.ids_node, List.mem_append, List.mem_cons, not_or]
            exact hrp.2.2
          have hlpl : lp ∉ (Tree.node rl y rr).ids := by
            simp only [Tree.ids_node, List.mem_append, List.mem_cons, not_or]
            exact hlp.2.2
          have hxl : node ∉ (Tree.node rl y rr).ids := by
            simp only [Tree.ids_node, List.mem_append, List.mem_cons, not_or]
            exact hxn.2
          refine ih _ _ node rp y (.node rl y rr) ?_ hndr hxl hrpl ?_
          · exact IsTree_setR _ hlpl ⟨rfl, hrl, hrr⟩
          · omega

/-- `rb_dictionary_retune` returns on every tree that is no higher than `count`. -/
theorem rb_dictionary_retune_returns (d : rb_dictionary K V) (t : Tree) (key : K)
    (hT : IsTree d.left d.right d.root t) (hnd : t.ids.Nodup) (h0 : stackN ∉ t.ids)
    (hf : t.height ≤ d.count) : ∃ d', rb_dictionary_retune d key = some d' := by
  unfold rb_dictionary_retune
  cases hroot : d.root with
  | none => exact ⟨d, rfl⟩
  | some root =>
    simp only []
    rw [hroot] at hT
    obtain ⟨s, e⟩ := retune_loop_returns d.compare_cb d.key key d.count
      (setField d.left stackN none) (setField d.right stackN none) stackN stackN root t
      (IsTree_setR _ h0 (IsTree_setL _ h0 hT)) hnd h0 h0 hf
    rw [e]
    exact ⟨_, rfl⟩

/-- C36: termination. The loop of `rb_dictionary_retune` returns for every tree (distinct
nodes linked by the child pointers, the two accumulator ends outside it), every comparator
and every target key within as many iterations as the tree is high, since an iteration that
does not stop goes on with a proper subtree; so `rb_dictionary_retune` returns whenever
`count` is no less than the height. The walk of `rb_dictionary_unlink_root` that looks for
the parent of the successor returns within as many steps as the tree it walks is high.
Consequently `find`, `add`, `delete`, `retrieve` and `get_linear_index` return on every
reachable dictionary. -/
theorem C36_operations_terminate [Inhabited K] :
    (∀ (c : K → K → Int) (keyOf : Nat → K) (key : K) (L R : Nat → Ptr) (lp rp node : Nat)
        (t : Tree) (fuel : Nat),
      IsTree L R (some node) t → t.ids.Nodup → lp ∉ t.ids → rp ∉ t.ids → t.height ≤ fuel →
      ∃ s, retune_loop c keyOf key fuel L R lp rp node = some s) ∧
    (∀ (d : rb_dictionary K V) (t : Tree) (key : K),
      IsTree d.left d.right d.root t → t.ids.Nodup → stackN ∉ t.ids → t.height ≤ d.count →
      ∃ d', rb_dictionary_retune d key = some d') ∧
    (∀ (L R : Nat → Ptr) (x nx : Nat) (t : Tree) (fuel : Nat),
      IsTree L R (some x) t → t.height ≤ fuel →
      ∃ par, parentofnext_loop L nx fuel x = some par) ∧
    (∀ (cmp : K → K → Int), TotalOrderCmp cmp → ∀ (d : rb_dictionary K V),
      Reachable cmp d → ∀ (k : K) (v : V),
        (∃ r, rb_dictionary_find d k = some r) ∧
        (∃ r, rb_dictionary_add d k (some v) = some r) ∧
        (∃ r, rb_dictionary_delete d k = some r) ∧
        (∃ r, rb_dictionary_retrieve d k = some r) ∧
        (∃ r, rb_dictionary_get_linear_index d k = some r)) := by
  refine ⟨?_, ?_, ?_, ?_⟩
  · intro c keyOf key L R lp rp node t fuel hT hnd hlp hrp hf
    exact retune_loop_returns c keyOf key fuel L R lp rp node t hT hnd hlp hrp hf
  · intro d t key hT hnd h0 hf
    exact rb_dictionary_retune_returns d t key hT hnd h0 hf
  · intro L R x nx t fuel hT hf
    exact parentofnext_loop_returns (R := R) nx fuel x t hT hf
  · intro cmp hord d hr k v
    obtain ⟨t, hwf, hc⟩ := hr.wf hord
    have hord' : TotalOrderCmp d.compare_cb := hc ▸ hord
    obtain ⟨r1, d1, t1, e1, -⟩ := hwf.find hord' k
    obtain ⟨r2, d2, t2, e2, -⟩ := hwf.add_spec hord' k (some v) (by simp)
    obtain ⟨r3, d3, t3, e3, -⟩ := hwf.delete_spec hord' k
    obtain ⟨r5, d5, t5, e5, -⟩ := hwf.get_linear_index hord' k
    exact ⟨⟨_, e1⟩, ⟨_, e2⟩, ⟨_, e3⟩, ⟨_, by rw [retrieve_eq_find, e1]; rfl⟩, ⟨_, e5⟩⟩

theorem C36_witness :
    (∃ s, retune_loop intCmp exampleDict.key 7 exampleTree.height
      (setField exampleDict.left stackN none) (setField exampleDict.right stackN none)
      stackN stackN 5 = some s) ∧
    (∃ d', rb_dictionary_retune exampleDict 7 = some d') ∧
    (∃ par, parentofnext_loop exampleDict.left 3 exampleTree.height 5 = some par) ∧
    ((∃ r, rb_dictionary_find exampleDict 4 = some r) ∧
      (∃ r, rb_dictionary_add exampleDict 4 (some 41) = some r) ∧
      (∃ r, rb_dictionary_delete exampleDict 4 = some r) ∧
      (∃ r, rb_dictionary_retrieve exampleDict 4 = some r) ∧
      (∃ r, rb_dictionary_get_linear_index exampleDict 4 = some r)) :=
  ⟨(C36_operations_terminate (K := Int) (V := Nat)).1 intCmp exampleDict.key 7
      (setField exampleDict.left stackN none) (setField exampleDict.right stackN none)
      stackN stackN 5 exampleTree exampleTree.height
      (IsTree_setR _ (by decide) (IsTree_setL _ (by decide) exampleTree_isTree))
      (by decide) (by decide) (by decide) (le_refl _),
    (C36_operations_terminate (K := Int) (V := Nat)).2.1 exampleDict exampleTree 7
      exampleTree_isTree (by decide) (by decide) (by decide),
    (C36_operations_terminate (K := Int) (V := Nat)).2.2.1 exampleDict.left
      exampleDict.right 5 3 exampleTree exampleTree.height exampleTree_isTree (le_refl _),
    (C36_operations_terminate (K := Int) (V := Nat)).2.2.2 intCmp intCmp_order exampleDict
      exampleDict_reachable 4 41⟩

/-! ## Lookups retune -/

/-- C34 (counterexample): in the sample dictionary, whose root is the element 5 (key 4) with
left child 2 (key 3), `find(3)` and `retrieve(3)` leave the element 2 at the root and the
element 5 without a left child. -/
theorem C34_lookup_moves_the_root :
    TotalOrderCmp intCmp ∧ Reachable intCmp exampleDict ∧
    rb_dictionary_find exampleDict 3 = some (some 2, exampleDictFound3) ∧
    rb_dictionary_retrieve exampleDict 3 = some (some 30, exampleDictFound3) ∧
    exampleDict.root = some 5 ∧ exampleDictFound3.root = some 2 ∧
    exampleDict.left 5 = some 2 ∧ exampleDictFound3.left 5 = none ∧
    exampleDict.right 2 = none ∧ exampleDictFound3.right 2 = some 5 ∧
    exampleDictFound3 ≠ exampleDict :=
  ⟨intCmp_order, exampleDict_reachable, rfl, rfl, rfl, rfl, rfl, rfl, rfl, rfl,
    fun h => absurd (congrArg (fun d => d.root) h) (by decide)⟩

/-- C34 (amended): `find` and `retrieve` have no side effect other than the retune. On every
reachable dictionary and for every key they return, both leaving the same state, which
differs from the state before at most in the root pointer and the left and right child
pointers; the tree it holds is again a binary search tree over the same elements in the same
in-order sequence, that of the linked list; an element found is the root; and on an empty
dictionary the state is the one before. -/
theorem C34_lookups_only_reshape_the_tree [Inhabited K] (cmp : K → K → Int)
    (hord : TotalOrderCmp cmp) (d : rb_dictionary K V) (hr : Reachable cmp d) (k : K) :
    ∃ r v df t t', rb_dictionary_find d k = some (r, df) ∧
      rb_dictionary_retrieve d k = some (v, df) ∧
      df = { d with left := df.left, right := df.right, root := df.root } ∧
      IsTree d.left d.right d.root t ∧ IsTree df.left df.right df.root t' ∧
      t'.ids = t.ids ∧ elements d = some t.ids ∧ elements df = some t.ids ∧
      t'.IsBST df.compare_cb df.key ∧
      (∀ x, r = some x → df.root = some x) ∧
      (d.root = none → df = d) := by
  obtain ⟨t, hwf, hc⟩ := hr.wf hord
  have hord' : TotalOrderCmp d.compare_cb := hc ▸ hord
  obtain ⟨r, df, t', e, hfr, hwf', hids, hsome, -⟩ := hwf.find hord' k
  have ecmp : df.compare_cb = d.compare_cb := by rw [hfr]
  refine ⟨r, r.bind df.data, df, t, t', e, by rw [retrieve_eq_find, e]; rfl, hfr, hwf.tree,
    hwf'.tree, hids, hwf.elements_eq, hids ▸ hwf'.elements_eq, ?_, fun x hx => (hsome x hx).1,
    ?_⟩
  · exact (Tree.isBST_iff_sorted (ecmp ▸ hord') df.key t').2 hwf'.sorted
  · intro hroot
    simp only [rb_dictionary_find, rb_dictionary_retune, hroot] at e
    exact ((Prod.mk.inj (Option.some.inj e)).2).symm

theorem C34_witness :
    TotalOrderCmp intCmp ∧ Reachable intCmp exampleDict ∧
    ∃ r v df t t', rb_dictionary_find exampleDict 3 = some (r, df) ∧
      rb_dictionary_retrieve exampleDict 3 = some (v, df) ∧
      df = { exampleDict with left := df.left, right := df.right, root := df.root } ∧
      IsTree exampleDict.left exampleDict.right exampleDict.root t ∧
      IsTree df.left df.right df.root t' ∧
      t'.ids = t.ids ∧ elements exampleDict = some t.ids ∧ elements df = some t.ids ∧
      t'.IsBST df.compare_cb df.key ∧
      (∀ x, r = some x → df.root = some x) ∧
      (exampleDict.root = none → df = exampleDict) :=
  ⟨intCmp_order, exampleDict_reachable,
    C34_lookups_only_reshape_the_tree intCmp intCmp_order exampleDict exampleDict_reachable 3⟩

/-! ## The substitution -/

/-- Plain characters are stored one by one for as long as `bptr` is below `BUFSIZE` when the
character is read. -/
theorem parse_loop_plain (BUFSIZE : Nat) (casecmp : List Char → List Char → Int)
    (varlist : List substitution_variable) :
    ∀ (n fuel : Nat) (st : parse_output), n < fuel → st.bptr + n ≤ BUFSIZE →
      parse_loop BUFSIZE casecmp varlist fuel (List.replicate n 'a') st =
        some { buf := st.buf ++ List.replicate n 'a', bptr := st.bptr + n } := by
  intro n
  induction n with
  | zero =>
    intro fuel st hf _
    cases fuel with
    | zero => omega
    | succ f => simp [parse_loop]
  | succ n ih =>
    intro fuel st hf hb
    cases fuel with
    | zero => omega
    | succ f =>
      have h1 : st.bptr < BUFSIZE := by omega
      have h2 : ('a' : Char) ≠ '$' := by decide
      simp only [List.replicate_succ, parse_loop, h1, not_true_eq_false, if_false, h2, ne_eq,
        not_false_eq_true, if_true]
      rw [ih f _ (by omega) (by simp only []; omega)]
      simp only [List.append_assoc, List.singleton_append, Option.some.injEq,
        parse_output.mk.injEq, true_and]
      omega

/-- C38: `substitution_parse` stores the terminator outside the buffer. For every `BUFSIZE`,
comparison and variable list, on the format string of `BUFSIZE` letters `a` the loop returns
with all `BUFSIZE` characters stored, so the string returned has `BUFSIZE` characters, not at
most `BUFSIZE - 1`, and the final `*bptr = 0` stores the terminator at the index `BUFSIZE`,
which is not below `BUFSIZE`. -/
theorem C38_terminator_stored_past_the_buffer (BUFSIZE : Nat)
    (casecmp : List Char → List Char → Int) (varlist : List substitution_variable) :
    ∃ st, substitution_parse BUFSIZE casecmp (List.replicate BUFSIZE 'a') varlist = some st ∧
      st.text = List.replicate BUFSIZE 'a' ∧ st.text.length = BUFSIZE ∧
      st.bptr = BUFSIZE ∧ ¬ st.bptr < BUFSIZE := by
  refine ⟨{ buf := List.replicate BUFSIZE 'a', bptr := BUFSIZE }, ?_, ?_, ?_, rfl,
    Nat.lt_irrefl _⟩
  · unfold substitution_parse
    rw [parse_loop_plain BUFSIZE casecmp varlist BUFSIZE _ _ (by simp) (by simp)]
    simp
  · simp [parse_output.text]
  · simp [parse_output.text]

/-! ## What `substitution_parse` returns when the buffer is large enough -/

/-- The loop over the variables stores the value looked up, when there is room for it. -/
theorem lookup_loop_spec (BUFSIZE : Nat) (casecmp : List Char → List Char → Int)
    (varname : List Char) :
    ∀ (varlist : List substitution_variable) (st : parse_output),
      st.bptr = st.buf.length →
      st.buf.length + (lookupValue casecmp varname varlist).length < BUFSIZE →
      lookup_loop BUFSIZE casecmp varname varlist st =
        { buf := st.buf ++ lookupValue casecmp varname varlist
          bptr := st.buf.length + (lookupValue casecmp varname varlist).length } := by
  intro varlist
  induction varlist with
  | nil =>
    intro st hb _
    obtain ⟨buf, bptr⟩ := st
    simp only [] at hb
    simp [lookup_loop, lookupValue, hb]
  | cons val vals ih =>
    intro st hb hlen
    by_cases hc : casecmp varname val.name = 0
    · simp only [lookupValue, hc, if_true] at hlen ⊢
      simp only [lookup_loop, hc, if_true, rb_strlcpy, hb]
      have h1 : ¬ st.buf.length + val.value.length ≥ BUFSIZE := by omega
      rw [if_neg h1, List.take_of_length_le (by omega)]
    · simp only [lookupValue, hc, if_false] at hlen ⊢
      simp only [lookup_loop, hc, if_false]
      exact ih st hb hlen

/-- The loop that breaks out a name agrees with the reading of a name in the expansion: the
name is looked up by its first `BUFSIZE - 1` characters, and the text goes on after the
closing brace, or at the `$` that ended the name. -/
theorem varname_loop_spec (BUFSIZE : Nat) (casecmp : List Char → List Char → Int)
    (varlist : List substitution_variable) :
    ∀ (rest : List Char) (prev : Char) (acc nm : List Char), acc = nm.take (BUFSIZE - 1) →
      expandFrom (List.take (BUFSIZE - 1)) casecmp varlist (.name nm) rest =
        lookupValue casecmp (varname_loop BUFSIZE prev rest acc).1 varlist ++
          (match (varname_loop BUFSIZE prev rest acc).2 with
            | [] => []
            | _ :: rest2 => expandFrom (List.take (BUFSIZE - 1)) casecmp varlist .text rest2) ∧
      (varname_loop BUFSIZE prev rest acc).2.length ≤ rest.length + 1 := by
  intro rest
  induction rest with
  | nil =>
    intro prev acc nm hacc
    simp [varname_loop, expandFrom, hacc]
  | cons c rest ih =>
    intro prev acc nm hacc
    by_cases h1 : c = '$'
    · subst h1
      have h2 : ('$' : Char) ≠ '}' := by decide
      simp [varname_loop, expandFrom, h2, hacc]
    · by_cases h2 : c = '}'
      · subst h2
        simp [varname_loop, expandFrom, hacc]
      · by_cases h3 : acc.length < BUFSIZE - 1
        · have hnm : nm.length < BUFSIZE - 1 := by
            rw [hacc, List.length_take] at h3
            omega
          have hacc' : acc ++ [c] = (nm ++ [c]).take (BUFSIZE - 1) := by
            rw [hacc, List.take_of_length_le (le_of_lt hnm),
              List.take_of_length_le (by simp; omega)]
          obtain ⟨e1, e2⟩ := ih c (acc ++ [c]) (nm ++ [c]) hacc'
          simp only [varname_loop, expandFrom, h1, h2, h3, if_false, if_true]
          exact ⟨e1, by simp only [List.length_cons]; omega⟩
        · have hnm : BUFSIZE - 1 ≤ nm.length := by
            rw [hacc, List.length_take] at h3
            omega
          have hacc' : acc = (nm ++ [c]).take (BUFSIZE - 1) := by
            rw [hacc, List.take_append_of_le_length hnm]
          obtain ⟨e1, e2⟩ := ih c acc (nm ++ [c]) hacc'
          simp only [varname_loop, expandFrom, h1, h2, h3, if_false]
          exact ⟨e1, by simp only [List.length_cons]; omega⟩

/-- The outer loop stores the expansion of the text it reads, when there is room for it. -/
theorem parse_loop_spec (BUFSIZE : Nat) (casecmp : List Char → List Char → Int)
    (varlist : List substitution_variable) :
    ∀ (fuel : Nat) (ptr : List Char) (st : parse_output), ptr.length < fuel →
      st.bptr = st.buf.length →
      st.buf.length +
        (expandFrom (List.take (BUFSIZE - 1)) casecmp varlist .text ptr).length < BUFSIZE →
      parse_loop BUFSIZE casecmp varlist fuel ptr st =
        some { buf := st.buf ++ expandFrom (List.take (BUFSIZE - 1)) casecmp varlist .text ptr
               bptr := st.buf.length +
                 (expandFrom (List.take (BUFSIZE - 1)) casecmp varlist .text ptr).length } := by
  intro fuel
  induction fuel with
  | zero =>
    intro ptr st hf
    omega
  | succ f ih =>
    intro ptr st hf hb hlen
    cases ptr with
    | nil =>
      obtain ⟨buf, bptr⟩ := st
      simp only [] at hb
      simp [parse_loop, expandFrom, hb]
    | cons c rest =>
      have hlt : st.bptr < BUFSIZE := by omega
      simp only [List.length_cons] at hf
      by_cases h1 : c = '$'
      · subst h1
        cases rest with
        | nil =>
          cases f with
          | zero => omega
          | succ f' =>
            obtain ⟨buf, bptr⟩ := st
            simp only [] at hb
            simp [parse_loop, expandFrom, hlt, hb]
        | cons c1 rest1 =>
          simp only [List.length_cons] at hf
          by_cases h2 : c1 = '{'
          · subst h2
            obtain ⟨e1, e2⟩ := varname_loop_spec BUFSIZE casecmp varlist rest1 '{' [] [] (by simp)
            have hexp : expandFrom (List.take (BUFSIZE - 1)) casecmp varlist .text
                ('$' :: '{' :: rest1) =
                expandFrom (List.take (BUFSIZE - 1)) casecmp varlist (.name []) rest1 := by
              simp [expandFrom]
            rw [hexp] at hlen ⊢
            rw [e1] at hlen ⊢
            simp only [List.length_append] at hlen
            have hst1 := lookup_loop_spec BUFSIZE casecmp
              (varname_loop BUFSIZE '{' rest1 []).1 varlist st hb (by omega)
            simp only [parse_loop, hlt, not_true_eq_false, if_false, ne_eq, if_true]
            rw [hst1]
            cases hr2 : (varname_loop BUFSIZE '{' rest1 []).2 with
            | nil => simp
            | cons c2 rest2 =>
              rw [hr2] at hlen e2
              simp only [List.length_cons] at e2
              simp only [] at hlen ⊢
              have hroom : (st.buf ++ lookupValue casecmp
                  (varname_loop BUFSIZE '{' rest1 []).1 varlist).length +
                  (expandFrom (List.take (BUFSIZE - 1)) casecmp varlist .text rest2).length <
                    BUFSIZE := by
                simp only [List.length_append]
                omega
              rw [ih rest2 _ (by omega) (by simp) hroom]
              refine congrArg some (congr (congrArg parse_output.mk ?_) ?_)
              · simp
              · simp only [List.length_append]
                omega
          · have hexp : expandFrom (List.take (BUFSIZE - 1)) casecmp varlist .text
                ('$' :: c1 :: rest1) =
                expandFrom (List.take (BUFSIZE - 1)) casecmp varlist .text (c1 :: rest1) := by
              simp [expandFrom, h2]
            rw [hexp] at hlen ⊢
            simp only [parse_loop, hlt, not_true_eq_false, if_false, ne_eq, if_true, h2]
            exact ih (c1 :: rest1) st (by simp only [List.length_cons]; omega) hb hlen
      · have hexp : expandFrom (List.take (BUFSIZE - 1)) casecmp varlist .text (c :: rest) =
            c :: expandFrom (List.take (BUFSIZE - 1)) casecmp varlist .text rest := by
          simp [expandFrom, h1]
        rw [hexp] at hlen ⊢
        simp only [List.length_cons] at hlen
        simp only [parse_loop, hlt, not_true_eq_false, if_false, ne_eq, h1, not_false_eq_true,
          if_true]
        have hroom : (st.buf ++ [c]).length +
            (expandFrom (List.take (BUFSIZE - 1)) casecmp varlist .text rest).length <
              BUFSIZE := by
          simp only [List.length_append, List.length_singleton]
          omega
        rw [ih rest _ (by omega) (by simp [hb]) hroom]
        refine congrArg some (congr (congrArg parse_output.mk ?_) ?_)
        · simp
        · simp only [List.length_append, List.length_cons, List.length_nil]
          omega

/-- A format string without `$` is its own expansion. -/
theorem expandFrom_plain (cut : List Char → List Char) (casecmp : List Char → List Char → Int)
    (varlist : List substitution_variable) :
    ∀ fmt : List Char, '$' ∉ fmt → expandFrom cut casecmp varlist .text fmt = fmt := by
  intro fmt
  induction fmt with
  | nil => intro _; rfl
  | cons c rest ih =>
    intro h
    simp only [List.mem_cons, not_or] at h
    have h1 : c ≠ '$' := fun e => h.1 e.symm
    simp [expandFrom, h1, ih h.2]

/-- Names shorter than `BUFSIZE` are looked up as they are written. -/
theorem expandFrom_short (BUFSIZE : Nat) (casecmp : List Char → List Char → Int)
    (varlist : List substitution_variable) :
    ∀ (rest : List Char),
      (rest.length ≤ BUFSIZE + 1 →
        expandFrom (List.take (BUFSIZE - 1)) casecmp varlist .text rest =
          expandFrom id casecmp varlist .text rest) ∧
      (rest.length ≤ BUFSIZE →
        expandFrom (List.take (BUFSIZE - 1)) casecmp varlist .dollar rest =
          expandFrom id casecmp varlist .dollar rest) ∧
      (∀ nm : List Char, nm.length + rest.length ≤ BUFSIZE - 1 →
        expandFrom (List.take (BUFSIZE - 1)) casecmp varlist (.name nm) rest =
          expandFrom id casecmp varlist (.name nm) rest) := by
  intro rest
  induction rest with
  | nil =>
    refine ⟨fun _ => rfl, fun _ => rfl, ?_⟩
    intro nm h
    simp only [expandFrom, id]
    rw [List.take_of_length_le (by simpa using h)]
  | cons c rest ih =>
    obtain ⟨ih1, ih2, ih3⟩ := ih
    refine ⟨?_, ?_, ?_⟩
    · intro h
      simp only [List.length_cons] at h
      simp only [expandFrom]
      rw [ih1 (by omega), ih2 (by omega)]
    · intro h
      simp only [List.length_cons] at h
      simp only [expandFrom]
      rw [ih1 (by omega), ih2 (by omega), ih3 [] (by simp only [List.length_nil]; omega)]
    · intro nm h
      simp only [List.length_cons] at h
      simp only [expandFrom, id]
      rw [ih1 (by omega), ih2 (by omega),
        ih3 (nm ++ [c]) (by simp only [List.length_append, List.length_singleton]; omega),
        List.take_of_length_le (by omega)]

/-- A `${name}` whose name holds neither `$` nor a closing brace is replaced by the value
looked up for the name read so far followed by `name`. -/
theorem expandFrom_name (cut : List Char → List Char) (casecmp : List Char → List Char → Int)
    (varlist : List substitution_variable) :
    ∀ (name nm rest : List Char), '$' ∉ name → '}' ∉ name →
      expandFrom cut casecmp varlist (.name nm) (name ++ '}' :: rest) =
        lookupValue casecmp (cut (nm ++ name)) varlist ++
          expandFrom cut casecmp varlist .text rest := by
  intro name
  induction name with
  | nil =>
    intro nm rest _ _
    simp [expandFrom]
  | cons c name ih =>
    intro nm rest h1 h2
    simp only [List.mem_cons, not_or] at h1 h2
    have c1 : c ≠ '$' := fun e => h1.1 e.symm
    have c2 : c ≠ '}' := fun e => h2.1 e.symm
    simp only [List.cons_append, expandFrom, c1, c2, if_false]
    have e := ih (nm ++ [c]) rest h1.2 h2.2
    simp only [List.append_assoc, List.singleton_append] at e
    exact e

set_option maxRecDepth 1000000 in
/-- C39 (counterexample): with `BUFSIZE = 512`, the format string `${aa..a}` whose name is
512 letters long, and the single variable named by 511 letters `a` with value `x`: the name
written in the format string is the name of no variable, so the expansion with names looked
up as they are written is empty (and shorter than `BUFSIZE`), but `substitution_parse`
returns `x`. -/
theorem C39_long_name_matches_its_prefix :
    expansion rb_strcasecmp (longNameVars 511) (longNameFormat 512) = [] ∧
    (expansion rb_strcasecmp (longNameVars 511) (longNameFormat 512)).length < 512 ∧
    rb_strcasecmp (List.replicate 512 'a') (List.replicate 511 'a') ≠ 0 ∧
    (substitution_parse 512 rb_strcasecmp (longNameFormat 512) (longNameVars 511)).map
      parse_output.text = some ['x'] :=
  ⟨rfl, by decide, by decide, rfl⟩

/-- C39 (amended): for every format string and variable list whose expansion, with each name
looked up by its first `BUFSIZE - 1` characters, is shorter than `BUFSIZE`,
`substitution_parse` returns that expansion, with the terminator stored right after it,
below `BUFSIZE`. In the expansion a character other than `$` is copied; a `${name}` (the name
ending at the closing brace) is replaced by the value of the first variable in the list whose
name compares equal to the first `BUFSIZE - 1` characters of `name`, and by nothing when
there is none; a `$` that is not followed by an opening brace is dropped. In particular a
format string without `$` is returned as it is, and for a format string of at most
`BUFSIZE + 1` characters the names are looked up as they are written. -/
theorem C39_parse_returns_the_expansion (BUFSIZE : Nat)
    (casecmp : List Char → List Char → Int) (fmt : List Char)
    (varlist : List substitution_variable)
    (h : (expansion_cut BUFSIZE casecmp varlist fmt).length < BUFSIZE) :
    (∃ st, substitution_parse BUFSIZE casecmp fmt varlist = some st ∧
      st.text = expansion_cut BUFSIZE casecmp varlist fmt ∧
      st.bptr = st.text.length ∧ st.bptr < BUFSIZE ∧
      ('$' ∉ fmt → st.text = fmt) ∧
      (fmt.length ≤ BUFSIZE + 1 → st.text = expansion casecmp varlist fmt)) ∧
    (∀ (c : Char) (rest : List Char), c ≠ '$' →
      expansion_cut BUFSIZE casecmp varlist (c :: rest) =
        c :: expansion_cut BUFSIZE casecmp varlist rest) ∧
    (∀ (name rest : List Char), '$' ∉ name → '}' ∉ name →
      expansion_cut BUFSIZE casecmp varlist ('$' :: '{' :: (name ++ '}' :: rest)) =
        lookupValue casecmp (name.take (BUFSIZE - 1)) varlist ++
          expansion_cut BUFSIZE casecmp varlist rest) ∧
    (∀ (c : Char) (rest : List Char), c ≠ '{' →
      expansion_cut BUFSIZE casecmp varlist ('$' :: c :: rest) =
        expansion_cut BUFSIZE casecmp varlist (c :: rest)) ∧
    expansion_cut BUFSIZE casecmp varlist ['$'] = [] := by
  refine ⟨?_, ?_, ?_, ?_, ?_⟩
  · have hp := parse_loop_spec BUFSIZE casecmp varlist (fmt.length + 1) fmt
      { buf := [], bptr := 0 } (Nat.lt_succ_self _) rfl (by simpa [expansion_cut] using h)
    refine ⟨_, hp, ?_, ?_, ?_, ?_, ?_⟩
    · simp [parse_output.text, expansion_cut]
    · simp [parse_output.text]
    · simpa [expansion_cut] using h
    · intro hd
      simp [parse_output.text, expandFrom_plain _ casecmp varlist fmt hd]
    · intro hl
      simp [parse_output.text, expansion,
        (expandFrom_short BUFSIZE casecmp varlist fmt).1 hl]
  · intro c rest hc
    simp [expansion_cut, expandFrom, hc]
  · intro name rest h1 h2
    simp only [expansion_cut, expandFrom, if_true]
    have := expandFrom_name (List.take (BUFSIZE - 1)) casecmp varlist name [] rest h1 h2
    simpa using this
  · intro c rest hc
    simp [expansion_cut, expandFrom, hc]
  · simp [expansion_cut, expandFrom]

theorem C39_witness :
    (expansion_cut 512 rb_strcasecmp exampleVars exampleFormat).length < 512 ∧
    ((∃ st, substitution_parse 512 rb_strcasecmp exampleFormat exampleVars = some st ∧
      st.text = expansion_cut 512 rb_strcasecmp exampleVars exampleFormat ∧
      st.bptr = st.text.length ∧ st.bptr < 512 ∧
      ('$' ∉ exampleFormat → st.text = exampleFormat) ∧
      (exampleFormat.length ≤ 512 + 1 →
        st.text = expansion rb_strcasecmp exampleVars exampleFormat)) ∧
    (∀ (c : Char) (rest : List Char), c ≠ '$' →
      expansion_cut 512 rb_strcasecmp exampleVars (c :: rest) =
        c :: expansion_cut 512 rb_strcasecmp exampleVars rest) ∧
    (∀ (name rest : List Char), '$' ∉ name → '}' ∉ name →
      expansion_cut 512 rb_strcasecmp exampleVars ('$' :: '{' :: (name ++ '}' :: rest)) =
        lookupValue rb_strcasecmp (name.take (512 - 1)) exampleVars ++
          expansion_cut 512 rb_strcasecmp exampleVars rest) ∧
    (∀ (c : Char) (rest : List Char), c ≠ '{' →
      expansion_cut 512 rb_strcasecmp exampleVars ('$' :: c :: rest) =
        expansion_cut 512 rb_strcasecmp exampleVars (c :: rest)) ∧
    expansion_cut 512 rb_strcasecmp exampleVars ['$'] = []) :=
  ⟨by decide, C39_parse_returns_the_expansion 512 rb_strcasecmp exampleFormat exampleVars
    (by decide)⟩

/-- The sample expansion, spelled out. -/
theorem exampleFormat_expansion :
    expansion_cut 512 rb_strcasecmp exampleVars exampleFormat =
      "Hi  Bob, example.org".toList := by
  decide

end Comet
